import Mathlib

/-!
# iris: unique sampling, graph generation, population dispensing and the agent step

A shallow embedding of the C++ sources of `iris-cpp` (`Utils.hpp`, `Agent.cpp`, `Model.cpp`,
`gen/GraphGenerator.cpp`, `gen/PopulationDispenser.cpp`, `gen/AttributeGenerator.cpp`) and the
properties proved about it.

Conventions of the embedding.

* `types::uint32` / `AgentID` values are natural numbers; every place where the C++ arithmetic
  is performed on 32 bits (or on `size_t`, 64 bits) carries an explicit `% UINT32`
  (or `% SIZE_T`).
* `types::fnumeric` (`double`) values are rational numbers: comparisons, sums and `floor` are
  exact. Where the floor of a product of `double`s decides a count
  (`PopulationDispenser::initialize`, `createPopulationDispensers`, `generatePowerfulAgents`),
  the rounding of the product is a parameter `fl : ℚ → ℚ` of the function: `roundToDouble`,
  the rounding of IEEE 754 binary64, in the program, and the identity in exact arithmetic.
* A `throw` is an `Except.error`; a loop driven by a wrapping machine counter is given fuel and
  reports `Error.loopBound` (or `none`) when the fuel does not suffice; an access past the end
  of a `std::vector` is reported as `Error.outOfBounds`.
* `Agent* const agents` is a total map from identifiers to agents.
* `types::mersenne_twister&` is a tape of raw numbers together with a read position; a
  distribution consumes one raw number per call. `std::shuffle` is the exchange loop driven by
  such draws.
* `std::exp` is a parameter `exp : ℚ → ℚ` of the functions that call it.
* A member function that goes through `Agent* const agents` takes the position `self` of the
  agent it is called on; `this` is `agents self`.
-/

namespace iris

/-- Number of values of `types::uint32` (and of `AgentID`, a typedef of it). -/
abbrev UINT32 : Nat := 4294967296

/-- Number of values of `std::size_t` (`std::vector::size_type`). -/
abbrev SIZE_T : Nat := 18446744073709551616

/-- Number of values of `types::uint64`. -/
abbrev UINT64 : Nat := 18446744073709551616

/-- The `std::runtime_error`s thrown by the sources, and the two outcomes that the embedding
adds: `loopBound` for a loop that was cut by its fuel, `outOfBounds` for an access past the end
of a `std::vector` (undefined behaviour in C++). -/
inductive Error where
  /-- "There is no sample space left to use!" (`util::ensureRandom`). -/
  | noSampleSpace
  /-- "The probability for the CDF is out of range!" (`gen::chooseFamilySize`). -/
  | cdfOutOfRange
  /-- "Computed population is greater than required!" (`checkPopulationRemainder`). -/
  | overAllocation
  /-- "The dispenser is empty!" (`PopulationDispenser::nextGroup`). -/
  | dispenserEmpty
  /-- "No behavior at time: ..." (`Agent::getBehaviorAt`). -/
  | staleState
  /-- "Base size is smaller than target!" (`gen::createSubAttributeList`). -/
  | baseTooSmall
  /-- An element access past the end of a vector. -/
  | outOfBounds
  /-- A loop of the embedding ran out of fuel. -/
  | loopBound
  deriving DecidableEq, Repr

/-! ## `iris/Utils.hpp` -/

namespace util

/-- `std::lower_bound(begin, end, val)` as an index: the position of the first element that is
not less than `val`, or `network.length`. This is what the binary search yields on a vector
that is partitioned with respect to `val`, the precondition of `std::lower_bound`. -/
def lowerBound (network : List Nat) (val : Nat) : Nat :=
  network.findIdx (fun x => decide (¬ x < val))

/-- `util::binarySearch`, as an index (`network.length` stands for the end iterator). -/
def binarySearch (network : List Nat) (val : Nat) : Nat :=
  let found := lowerBound network val
  if found ≠ network.length ∧ ¬ (val < network.getD found 0) then found else network.length

/-- The loop of `util::exploreLowerSphere` for `T = uint32`: `r` and the index `i` are
decremented modulo `2^32`; the loop condition `i >= 0` is always true and does not appear. -/
def exploreLowerSphereLoop (network : List Nat) : Nat → Nat → Nat → Option Nat
  | 0, _, _ => none
  | fuel + 1, r, i =>
    if i ≥ network.length then some r
    else if r = network.getD i 0 then
      exploreLowerSphereLoop network fuel ((r + UINT32 - 1) % UINT32) ((i + UINT32 - 1) % UINT32)
    else if r > network.getD i 0 then some r
    else exploreLowerSphereLoop network fuel r ((i + UINT32 - 1) % UINT32)

/-- `util::exploreLowerSphere<uint32>`; `none` when the loop has not left after
`startIndex + 2` rounds. -/
def exploreLowerSphere (r startIndex : Nat) (network : List Nat) : Option Nat :=
  exploreLowerSphereLoop network (startIndex + 2) r startIndex

/-- The loop of `util::exploreUpperSphere` for `T = uint32`: `r` and the index `i` are
incremented modulo `2^32`. -/
def exploreUpperSphereLoop (network : List Nat) : Nat → Nat → Nat → Option Nat
  | 0, _, _ => none
  | fuel + 1, r, i =>
    if i < network.length then
      if r = network.getD i 0 then
        exploreUpperSphereLoop network fuel ((r + 1) % UINT32) ((i + 1) % UINT32)
      else if r < network.getD i 0 then some r
      else exploreUpperSphereLoop network fuel r ((i + 1) % UINT32)
    else some r

/-- `util::exploreUpperSphere<uint32>`; `none` when the loop has not left after
`network.size() + 1` rounds. -/
def exploreUpperSphere (r startIndex : Nat) (network : List Nat) : Option Nat :=
  exploreUpperSphereLoop network (network.length + 1) r startIndex

/-- `util::ensureRandom<uint32>`. -/
def ensureRandom (r : Nat) (network : List Nat) (lowerLimit upperLimit : Nat) :
    Except Error Nat :=
  let startIndex := binarySearch network r
  if startIndex ≥ network.length then Except.ok r
  else
    match exploreUpperSphere r (startIndex % UINT32) network with
    | none => Except.error Error.loopBound
    | some rValue =>
      if rValue < network.getD (network.length - 1) 0 ∨
          (rValue > network.getD (network.length - 1) 0 ∧ rValue < upperLimit) then
        Except.ok rValue
      else
        match exploreLowerSphere r (startIndex % UINT32) network with
        | none => Except.error Error.loopBound
        | some rValue =>
          if (rValue > network.getD 0 0 ∧ rValue < network.getD (network.length - 1) 0) ∨
              (rValue < network.getD 0 0 ∧ rValue ≥ lowerLimit) then
            Except.ok rValue
          else Except.error Error.noSampleSpace

/-- `util::sortedInsert`: insertion at `std::lower_bound`. -/
def sortedInsert (container : List Nat) (val : Nat) : List Nat :=
  container.take (lowerBound container val) ++ val :: container.drop (lowerBound container val)

end util


/-! ## `std::mt19937` and the distributions drawn from it -/

/-- `types::mersenne_twister`: the raw numbers the generator will produce, and how many of them
have been consumed. -/
structure MersenneTwister where
  /-- The raw output sequence of the generator. -/
  tape : Nat → Nat
  /-- The number of raw outputs consumed so far. -/
  pos : Nat

namespace MersenneTwister

/-- `std::uniform_real_distribution<fnumeric>(0.0, 1.0)`: one raw number is consumed and mapped
to a rational of `[0, 1)` with 53 fractional bits. -/
def uniformReal (random : MersenneTwister) : ℚ × MersenneTwister :=
  (((random.tape random.pos % 9007199254740992 : Nat) : ℚ) / 9007199254740992,
    { random with pos := random.pos + 1 })

/-- `std::uniform_int_distribution<uint32>(a, b)`: one raw number is consumed and mapped into
`[a, b]`. -/
def uniformInt (a b : Nat) (random : MersenneTwister) : Nat × MersenneTwister :=
  (a + random.tape random.pos % (b - a + 1), { random with pos := random.pos + 1 })

end MersenneTwister

/-! ## `iris/Agent.cpp`: the members of an agent -/

/-- One behaviour snapshot (`iris::State`, the members copied by `State::operator =`): the
behaviour tuple and the time step (`types::uint64`) at which it became valid. -/
structure State where
  /-- The behaviour tuple of the snapshot. -/
  m_behavior : List Nat := []
  /-- The time step of the snapshot. -/
  m_time : Nat := 0
  deriving DecidableEq, Repr

/-- Modelled from the spec: `Agent::Interaction` is declared in `Agent.hpp`, which is not among
the sources. The spec names the entry of the interaction ledger "a triple of counters
(communicated, censored, reinforced)"; these are the three members `Agent.cpp` increments,
taken as 32-bit unsigned counters like `m_privilege`, zero by value-initialisation. -/
structure Interaction where
  /-- The number of contacts. -/
  m_communicated : Nat := 0
  /-- The number of censoring contacts. -/
  m_censored : Nat := 0
  /-- The number of reinforcing contacts. -/
  m_reinforced : Nat := 0
  deriving DecidableEq, Repr

/-- The members of `iris::Agent` used by `Agent.cpp`; the defaults are those of the constructor
`Agent::Agent()`. `m_state` holds `m_state[0]` and `m_state[1]`; `m_interactions`
(`Agent::InteractionMap`, a map from identifiers to `Interaction`) is a partial function. -/
structure Agent where
  /-- The recorded size of the family unit of the agent. -/
  m_familySize : Nat := 0
  /-- Whether the agent is powerful. -/
  m_powerful : Bool := false
  /-- The privilege counter (`types::unumeric`, 32 bits). -/
  m_privilege : Nat := 0
  /-- The identifier of the agent. -/
  m_uid : Nat := 0
  /-- The neighbours of the agent. -/
  m_network : List Nat := []
  /-- The value tuple of the agent. -/
  m_values : List Nat := []
  /-- The two behaviour snapshots `m_state[0]` and `m_state[1]`. -/
  m_state : State × State := ({}, {})
  /-- The interaction ledger. -/
  m_interactions : Nat → Option Interaction := fun _ => none

namespace Agent

/-- `Agent::addConnection`. -/
def addConnection (agent : Agent) (target : Nat) : Agent :=
  { agent with m_network := util.sortedInsert agent.m_network target }

/-- `Agent::getFamilyConnections`: `m_familySize - 1` on 32 bits. -/
def getFamilyConnections (agent : Agent) : Nat :=
  (agent.m_familySize + UINT32 - 1) % UINT32

/-- `Agent::getFamilySize`. -/
def getFamilySize (agent : Agent) : Nat := agent.m_familySize

/-- `Agent::getNetwork`. -/
def getNetwork (agent : Agent) : List Nat := agent.m_network

/-- `Agent::getUId`. -/
def getUId (agent : Agent) : Nat := agent.m_uid

/-- `Agent::isConnectedTo`. -/
def isConnectedTo (agent : Agent) (target : Nat) : Bool :=
  decide (target ∈ agent.m_network)

/-- The bound computed alike by `Agent::isNetworkFull` and `gen::wireOutGroup`:
`((outConnections + familySize) > (totalAgents - 1)) ? (totalAgents - 1) :
(outConnections + familySize)`, on 32 bits. -/
def connectionBound (outConnections familySize totalAgents : Nat) : Nat :=
  if (outConnections + familySize) % UINT32 > (totalAgents + UINT32 - 1) % UINT32 then
    (totalAgents + UINT32 - 1) % UINT32
  else (outConnections + familySize) % UINT32

/-- `Agent::isNetworkFull`: the difference `upperBound - m_network.size()` is taken on
`size_t`. -/
def isNetworkFull (agent : Agent) (outConnections totalAgents : Nat) : Bool :=
  let familySize := agent.getFamilyConnections
  let upperBound := connectionBound outConnections familySize totalAgents
  let remainder := (upperBound + SIZE_T - agent.m_network.length % SIZE_T) % SIZE_T
  decide (remainder = 0 ∨ remainder ≥ upperBound)

/-- `Agent::setFamilySize`. -/
def setFamilySize (agent : Agent) (familySize : Nat) : Agent :=
  { agent with m_familySize := familySize }

end Agent

/-! ## `iris/gen/GraphGenerator.cpp` -/

namespace gen

/-- `gen::CDF`. -/
abbrev CDF := List ℚ

/-- `gen::FamilyUnit`: the half-open interval `[first, second)`. -/
abbrev FamilyUnit := Nat × Nat

/-- The loop of `gen::chooseFamilySize`; the index is returned as a `uint32`. -/
def chooseFamilySizeLoop (p : ℚ) : List ℚ → Nat → Except Error Nat
  | [], _ => Except.error Error.cdfOutOfRange
  | c :: rest, i => if p ≤ c then Except.ok (i % UINT32) else chooseFamilySizeLoop p rest (i + 1)

/-- `gen::chooseFamilySize`. -/
def chooseFamilySize (p : ℚ) (cdf : CDF) : Except Error Nat :=
  chooseFamilySizeLoop p cdf 0

/-- `gen::createCDF`: running sums, then the last entry is overwritten with `1.0`. For an empty
census the overwritten entry does not exist. -/
def createCDF (census : List ℚ) : Except Error CDF :=
  match census with
  | [] => Except.error Error.outOfBounds
  | c :: rest =>
    let cdf := List.scanl (fun prev x => prev + x) c rest
    Except.ok (cdf.set (cdf.length - 1) 1)

/-- `gen::wireFamilyUnit`. -/
def wireFamilyUnit (agent : Agent) (unit : FamilyUnit) : Agent :=
  let id := agent.getUId
  (List.range' unit.1 (unit.2 - unit.1)).foldl
    (fun a i => if i = id then a else a.addConnection i) agent

/-- The `for` loop of `gen::wireOutGroup`, with `n` rounds left. `catchNonUnique` tells whether
the build defines `IRIS_WARN_ON_NONUNIQUE_RANDOM`, in which case the exception of
`ensureRandom` is caught and the round is skipped. -/
def wireOutGroupLoop (catchNonUnique : Bool) (id totalAgents outConnections : Nat)
    (connectionProb recipProb : ℚ) :
    Nat → (Nat → Agent) → List Nat → MersenneTwister →
      Except Error ((Nat → Agent) × MersenneTwister)
  | 0, agents, _, random => Except.ok (agents, random)
  | n + 1, agents, network, random =>
    let shouldConnect := random.uniformReal
    if shouldConnect.1 > connectionProb then
      wireOutGroupLoop catchNonUnique id totalAgents outConnections connectionProb recipProb
        n agents network shouldConnect.2
    else
      let drawn := shouldConnect.2.uniformInt 0 ((totalAgents + UINT32 - 1) % UINT32)
      match util.ensureRandom drawn.1 network 0 totalAgents with
      | Except.error Error.noSampleSpace =>
        if catchNonUnique then
          wireOutGroupLoop catchNonUnique id totalAgents outConnections connectionProb
            recipProb n agents network drawn.2
        else Except.error Error.noSampleSpace
      | Except.error e => Except.error e
      | Except.ok newIndex =>
        let network1 := util.sortedInsert network newIndex
        let agents1 := Function.update agents id ((agents id).addConnection newIndex)
        let shouldRecip := drawn.2.uniformReal
        let makeRecip := decide (shouldRecip.1 ≤ recipProb)
        let isFull := (agents1 newIndex).isNetworkFull outConnections totalAgents
        let isConnected := (agents1 newIndex).isConnectedTo id
        let agents2 :=
          if makeRecip && !isFull && !isConnected then
            Function.update agents1 newIndex ((agents1 newIndex).addConnection id)
          else agents1
        wireOutGroupLoop catchNonUnique id totalAgents outConnections connectionProb recipProb
          n agents2 network1 shouldRecip.2

/-- `gen::wireOutGroup`. -/
def wireOutGroup (catchNonUnique : Bool) (id : Nat) (agents : Nat → Agent)
    (totalAgents outConnections : Nat) (connectionProb recipProb : ℚ)
    (random : MersenneTwister) : Except Error ((Nat → Agent) × MersenneTwister) :=
  if outConnections = 0 then Except.ok (agents, random)
  else
    let network := (agents id).getNetwork
    let familySize := (agents id).getFamilyConnections
    let upperBound := Agent.connectionBound outConnections familySize totalAgents
    let maxConnections := (upperBound + UINT32 - network.length % UINT32) % UINT32
    wireOutGroupLoop catchNonUnique id totalAgents outConnections connectionProb recipProb
      maxConnections agents (util.sortedInsert network id) random

/-- The inner `for` loop of `gen::wireGraph` over the members `i` of one family unit, with `n`
members left. -/
def wireGraphUnit (catchNonUnique : Bool) (unit : FamilyUnit)
    (familySize totalAgents outConnections : Nat) (connectionProb recipProb : ℚ) :
    Nat → Nat → (Nat → Agent) → MersenneTwister →
      Except Error ((Nat → Agent) × MersenneTwister)
  | 0, _, agents, random => Except.ok (agents, random)
  | n + 1, i, agents, random =>
    let agents1 := Function.update agents i (wireFamilyUnit (agents i) unit)
    let agents2 := Function.update agents1 i ((agents1 i).setFamilySize familySize)
    match wireOutGroup catchNonUnique i agents2 totalAgents outConnections connectionProb
        recipProb random with
    | Except.error e => Except.error e
    | Except.ok next =>
      wireGraphUnit catchNonUnique unit familySize totalAgents outConnections connectionProb
        recipProb n (i + 1) next.1 next.2

/-- The `while (counter < totalAgents)` loop of `gen::wireGraph`; `counter` and the ends of the
family unit are 32-bit values. -/
def wireGraphLoop (catchNonUnique : Bool) (totalAgents outConnections : Nat)
    (connectionProb recipProb : ℚ) (cdf : CDF) :
    Nat → Nat → (Nat → Agent) → MersenneTwister →
      Except Error ((Nat → Agent) × MersenneTwister)
  | 0, counter, agents, random =>
    if counter < totalAgents then Except.error Error.loopBound else Except.ok (agents, random)
  | fuel + 1, counter, agents, random =>
    if counter < totalAgents then
      let p := random.uniformReal
      match chooseFamilySize p.1 cdf with
      | Except.error e => Except.error e
      | Except.ok index =>
        let familySize := (index + 1) % UINT32
        let first := counter
        let second :=
          if (counter + familySize) % UINT32 > totalAgents then totalAgents
          else (counter + familySize) % UINT32
        match wireGraphUnit catchNonUnique (first, second) familySize totalAgents
            outConnections connectionProb recipProb (second - first) first agents p.2 with
        | Except.error e => Except.error e
        | Except.ok next =>
          wireGraphLoop catchNonUnique totalAgents outConnections connectionProb recipProb cdf
            fuel ((counter + familySize) % UINT32) next.1 next.2
    else Except.ok (agents, random)

/-- `gen::wireGraph`; the `while` loop is given `totalAgents` rounds. -/
def wireGraph (catchNonUnique : Bool) (agents : Nat → Agent) (totalAgents : Nat)
    (census : List ℚ) (outConnections : Nat) (connectionProb recipProb : ℚ)
    (random : MersenneTwister) : Except Error ((Nat → Agent) × MersenneTwister) :=
  match createCDF census with
  | Except.error e => Except.error e
  | Except.ok cdf =>
    wireGraphLoop catchNonUnique totalAgents outConnections connectionProb recipProb cdf
      totalAgents 0 agents random

end gen

/-! ## Arithmetic in `double` -/

/-- The number of binary digits of `n`, for `n < 2 ^ fuel`. -/
def bitLength : Nat → Nat → Nat
  | 0, _ => 0
  | fuel + 1, n => if n = 0 then 0 else bitLength fuel (n / 2) + 1

/-- The integer nearest to `a / b`, a tie going to the even one. -/
def roundHalfEven (a b : Nat) : Nat :=
  let q := a / b
  let r := a % b
  if 2 * r < b then q else if b < 2 * r then q + 1 else if q % 2 = 0 then q else q + 1

/-- The `double` nearest to the positive rational `n / d` (IEEE 754 binary64, round to nearest,
ties to even): with `2 ^ e ≤ n / d < 2 ^ (e + 1)` the value is rounded to a multiple of
`2 ^ (max e (-1022) - 52)`. The overflow to infinity of a value of `2 ^ 1024` or more is not
represented. -/
def roundToDoublePos (n d : Nat) : ℚ :=
  let e0 : Int := (bitLength n n : Int) - (bitLength d d : Int)
  let atLeast : Bool :=
    if 0 ≤ e0 then decide (d * 2 ^ e0.toNat ≤ n) else decide (d ≤ n * 2 ^ (-e0).toNat)
  let e : Int := if atLeast then e0 else e0 - 1
  let qe : Int := max e (-1022) - 52
  if 0 ≤ qe then ((roundHalfEven n (d * 2 ^ qe.toNat) * 2 ^ qe.toNat : Nat) : ℚ)
  else ((roundHalfEven (n * 2 ^ (-qe).toNat) d : Nat) : ℚ) / ((2 ^ (-qe).toNat : Nat) : ℚ)

/-- The result in `double` of an arithmetic operation whose exact result is `x`: the nearest
`double`. -/
def roundToDouble (x : ℚ) : ℚ :=
  if x.num = 0 then 0
  else if 0 < x.num then roundToDoublePos x.num.natAbs x.den
  else -roundToDoublePos x.num.natAbs x.den

/-! ## `iris/gen/PopulationDispenser.cpp` -/

namespace gen

/-- The members of `gen::PopulationDispenser`. -/
structure PopulationDispenser where
  /-- The group types that can still be chosen (`std::vector<types::uint32>`). -/
  m_groups : List Nat := []
  /-- The remaining population of each of these groups (`std::vector<types::uint64>`). -/
  m_populations : List Nat := []

namespace PopulationDispenser

/-- `std::accumulate(m_populations.begin(), m_populations.end(), 0)` converted to `AgentID`:
the accumulator has the type of the initial value `0`, a 32-bit `int`, so every partial sum is
cut to 32 bits. -/
def computedPopulation (populations : List Nat) : Nat :=
  populations.foldl (fun acc x => (acc + x) % UINT32) 0

/-- The round-robin loop of `checkPopulationRemainder`, with `n` rounds left; an access to
`m_populations[currentIndex]` past the end is reported as `Error.outOfBounds`. -/
def distributeRemainder : Nat → Nat → List Nat → Except Error (List Nat)
  | 0, _, populations => Except.ok populations
  | n + 1, currentIndex, populations =>
    if currentIndex < populations.length then
      let currentGroupPop := populations.getD currentIndex 0 % UINT32
      let populations1 := populations.set currentIndex ((currentGroupPop + 1) % UINT32)
      let nextIndex := (currentIndex + 1) % UINT32
      distributeRemainder n (if nextIndex ≥ populations1.length then 0 else nextIndex)
        populations1
    else Except.error Error.outOfBounds

/-- `PopulationDispenser::checkPopulationRemainder`. -/
def checkPopulationRemainder (d : PopulationDispenser) (requiredPopulation : Nat) :
    Except Error PopulationDispenser :=
  if computedPopulation d.m_populations > requiredPopulation then
    Except.error Error.overAllocation
  else
    let remainder := requiredPopulation - computedPopulation d.m_populations
    if remainder ≠ 0 then
      match distributeRemainder remainder 0 d.m_populations with
      | Except.error e => Except.error e
      | Except.ok populations => Except.ok { d with m_populations := populations }
    else Except.ok d

/-- `PopulationDispenser::clear`. -/
def clear (_d : PopulationDispenser) : PopulationDispenser :=
  { m_groups := [], m_populations := [] }

/-- `PopulationDispenser::hasMore`. -/
def hasMore (d : PopulationDispenser) : Bool := !d.m_groups.isEmpty

/-- The `for` loop of `PopulationDispenser::initialize` over the percentages from index `i`
on. The product `totalPopulation * percent` is a `double`: `fl` is the rounding that the
multiplication applies to the exact product (`roundToDouble` in the program, the identity in
exact arithmetic), and `(AgentID)floor(totalPopulation * percent)` is the floor of the
rounded product, cut to 32 bits. -/
def initializeLoop (fl : ℚ → ℚ) (totalPopulation : Nat) (requireAtLeastOne : Bool) :
    List ℚ → Nat → PopulationDispenser → PopulationDispenser
  | [], _, d => d
  | percent :: rest, i, d =>
    let groupPop := Int.toNat ⌊fl ((totalPopulation : ℚ) * percent)⌋ % UINT32
    if groupPop ≠ 0 then
      initializeLoop fl totalPopulation requireAtLeastOne rest (i + 1)
        { m_groups := d.m_groups ++ [i % UINT32],
          m_populations := d.m_populations ++ [groupPop] }
    else if requireAtLeastOne then
      initializeLoop fl totalPopulation requireAtLeastOne rest (i + 1)
        { m_groups := d.m_groups ++ [i % UINT32], m_populations := d.m_populations ++ [1] }
    else initializeLoop fl totalPopulation requireAtLeastOne rest (i + 1) d

/-- `PopulationDispenser::initialize` (the name is reserved in Lean), with the rounding `fl` of
the `double` product. -/
def initializeDispenser (fl : ℚ → ℚ) (d : PopulationDispenser) (percentages : List ℚ)
    (totalPopulation : Nat) (requireAtLeastOne : Bool) : Except Error PopulationDispenser :=
  checkPopulationRemainder
    (initializeLoop fl totalPopulation requireAtLeastOne percentages 0 d.clear) totalPopulation

/-- `PopulationDispenser::nextGroup`: the chosen group, the dispenser and the generator after
the call. `m_populations[groupSelection] - 1` is taken on 64 bits and cut to 32 bits. -/
def nextGroup (d : PopulationDispenser) (random : MersenneTwister) :
    Except Error (Nat × PopulationDispenser × MersenneTwister) :=
  if d.m_groups.length = 0 then Except.error Error.dispenserEmpty
  else
    let drawn := random.uniformInt 0 ((d.m_groups.length + UINT32 - 1) % UINT32)
    let groupSelection := drawn.1
    if groupSelection < d.m_groups.length ∧ groupSelection < d.m_populations.length then
      let currentGroup := d.m_groups.getD groupSelection 0
      let currentPopulation :=
        (d.m_populations.getD groupSelection 0 + SIZE_T - 1) % SIZE_T % UINT32
      if currentPopulation = 0 then
        Except.ok (currentGroup,
          { m_groups := d.m_groups.eraseIdx groupSelection,
            m_populations := d.m_populations.eraseIdx groupSelection }, drawn.2)
      else
        Except.ok (currentGroup,
          { d with m_populations := d.m_populations.set groupSelection currentPopulation },
          drawn.2)
    else Except.error Error.outOfBounds

/-- The loop `while (dispenser.hasMore()) { next = dispenser.nextGroup(random); ... }` of the
callers (`AttributeGeneratorTests.cpp`), collecting the groups returned. -/
def drain : Nat → PopulationDispenser → MersenneTwister →
    Except Error (List Nat × PopulationDispenser × MersenneTwister)
  | 0, d, random =>
    if d.hasMore then Except.error Error.loopBound else Except.ok ([], d, random)
  | fuel + 1, d, random =>
    if d.hasMore then
      match nextGroup d random with
      | Except.error e => Except.error e
      | Except.ok next =>
        match drain fuel next.2.1 next.2.2 with
        | Except.error e => Except.error e
        | Except.ok rest => Except.ok (next.1 :: rest.1, rest.2.1, rest.2.2)
    else Except.ok ([], d, random)

/-- The quota of category `c` in a dispenser: the population stored next to the group `c`. -/
def quotaOf : List Nat → List Nat → Nat → Nat
  | g :: groups, p :: populations, c => (if g = c then p else 0) + quotaOf groups populations c
  | _, _, _ => 0

/-- The retained categories with their initial quotas, before `checkPopulationRemainder`. -/
def initialQuotas (fl : ℚ → ℚ) (percentages : List ℚ) (totalPopulation : Nat)
    (requireAtLeastOne : Bool) : PopulationDispenser :=
  initializeLoop fl totalPopulation requireAtLeastOne percentages 0 {}

/-- A dispenser from which `nextGroup` can draw: one population per group, every population
between `1` and `2^32 - 1`, fewer than `2^32` groups. -/
def Drawable (d : PopulationDispenser) : Prop :=
  d.m_groups.length = d.m_populations.length ∧ d.m_groups.length < UINT32 ∧
    ∀ x ∈ d.m_populations, 1 ≤ x ∧ x < UINT32

end PopulationDispenser

end gen

/-! ## Invariants of graph generation -/

/-- A well-formed network of agent `j` among `N` agents: strictly ascending, identifiers
below `N` only, and `j` itself absent. -/
def NetworkOk (N j : Nat) (network : List Nat) : Prop :=
  network.Pairwise (· < ·) ∧ (∀ x ∈ network, x < N) ∧ j ∉ network

/-- The degree bound of an agent: `familyConnections + outConnections`, capped at `N - 1`. -/
def degreeCap (N outConnections : Nat) (agent : Agent) : Nat :=
  min (agent.getFamilyConnections + outConnections) (N - 1)

/-- The state of an agent that `gen::wireGraph` has gone through: a well-formed network within
the degree bound, and a recorded family size between `1` and `2^32 - 1`. -/
def WiredAgent (N outConnections j : Nat) (agent : Agent) : Prop :=
  NetworkOk N j agent.m_network ∧ 1 ≤ agent.m_familySize ∧ agent.m_familySize < UINT32 ∧
    agent.m_network.length ≤ degreeCap N outConnections agent

/-- The state of the agents when `gen::wireGraph` has gone through the agents below `k`:
these are wired, the others still have an empty network. -/
def Wired (N outConnections k : Nat) (agents : Nat → Agent) : Prop :=
  ∀ j, j < N → (agents j).m_uid = j ∧
    (k ≤ j → (agents j).m_network = []) ∧
    (j < k → WiredAgent N outConnections j (agents j))

/-- The state inside `gen::wireOutGroup` of agent `id`: the agents below `id` are wired, those
above still have an empty network, the network of `id` is well formed, and the local copy
`network` holds it together with `id`. -/
def OutGroupInv (N outConnections id : Nat) (agents : Nat → Agent) (network : List Nat) :
    Prop :=
  (∀ j, j < N → (agents j).m_uid = j ∧
    (id < j → (agents j).m_network = []) ∧
    (j < id → WiredAgent N outConnections j (agents j))) ∧
  NetworkOk N id (agents id).m_network ∧
  network.Pairwise (· < ·) ∧
  (∀ x, x ∈ network ↔ x = id ∨ x ∈ (agents id).m_network) ∧
  network.length = (agents id).m_network.length + 1

/-- What holds of the outcome of the loop of `gen::wireOutGroup` for agent `id` that starts
with `len` neighbours, recorded family size `fs` and `n` rounds to go: on success the
invariant holds again, the family size is the same and at most `n` neighbours were added; a
failure is the uncaught "no sample space", and can only occur when the rounds outnumber the
free identifiers. -/
def OutGroupPost (catchNonUnique : Bool) (N outConnections id len fs n : Nat)
    (outcome : Except Error ((Nat → Agent) × MersenneTwister)) : Prop :=
  match outcome with
  | Except.ok res =>
    (∃ network, OutGroupInv N outConnections id res.1 network) ∧
      (res.1 id).m_familySize = fs ∧ (res.1 id).m_network.length ≤ len + n
  | Except.error e => e = Error.noSampleSpace ∧ catchNonUnique = false ∧ N < len + 1 + n

/-- What holds of the outcome of a stage of `gen::wireGraph` that is to leave the agents below
`k` wired, the family sizes in play being at most `fs`: success with these agents wired, or
the uncaught "no sample space", possible only when `outConnections + fs` exceeds 32 bits. -/
def WiredPost (catchNonUnique : Bool) (N outConnections k fs : Nat)
    (outcome : Except Error ((Nat → Agent) × MersenneTwister)) : Prop :=
  match outcome with
  | Except.ok res => Wired N outConnections k res.1
  | Except.error e =>
    e = Error.noSampleSpace ∧ catchNonUnique = false ∧ UINT32 < outConnections + fs

/-- The agents as the callers set them up before graph generation: default-constructed, with
`setUId(i)` applied to agent `i`. -/
def freshAgents : Nat → Agent := fun i => { m_uid := i }

/-- A census of `2^32 - 2` entries: `0`, `1/2`, then `2^32 - 5` zeros and a final `1/2`, so
that the family sizes `2` and `2^32 - 2` have the probability `1/2` each. -/
def wrapCensus : List ℚ := 0 :: 1 / 2 :: (List.replicate 4294967291 0 ++ [1 / 2])

/-- A generator whose second raw output is `2^53 - 1` and whose other raw outputs are `1`:
the second real draw is just below `1`, the others are `2^-53`. -/
def wrapTape : MersenneTwister :=
  { tape := fun k => if k = 1 then 9007199254740991 else 1, pos := 0 }

/-! ## `iris/Parameters.hpp` -/

/-- `iris::Parameters`. -/
structure Parameters where
  /-- The parameter argument for the utility function. -/
  m_lambda : ℚ := 0
  /-- The number of agents. -/
  m_n : Nat := 0
  /-- The number of non-family connections to make. -/
  m_outConnections : Nat := 0
  /-- The share of the population that is powerful. -/
  m_powerPercent : ℚ := 0
  /-- The number of in-group interactions per step. -/
  m_qIn : Nat := 0
  /-- The number of out-group interactions per step. -/
  m_qOut : Nat := 0
  /-- The default resistance. -/
  m_resist : ℚ := 0
  /-- The maximum resistance. -/
  m_resistMax : ℚ := 0
  /-- The minimum resistance. -/
  m_resistMin : ℚ := 0
  /-- The number of steps of a simulation (`types::uint64`). -/
  m_steps : Nat := 0
  /-- The probability of a non-family connection. -/
  m_prob : ℚ := 0
  /-- The probability of a reciprocal connection. -/
  m_recip : ℚ := 0

/-! ## The standard library pieces used by the step -/

/-- The element access `v[index]` of a `std::vector`; past the end it is reported as
`Error.outOfBounds`. -/
def vectorAt (v : List Nat) (index : Nat) : Except Error Nat :=
  if index < v.length then Except.ok (v.getD index 0) else Except.error Error.outOfBounds

/-- `std::iter_swap` on the positions `i` and `j` of a vector. -/
def swapAt (v : List Nat) (i j : Nat) : List Nat :=
  (v.set i (v.getD j 0)).set j (v.getD i 0)

/-- The exchange loop of `std::shuffle`, with `n` rounds left: position `i` is exchanged with
a position drawn uniformly from `[0, i]`. -/
def shuffleLoop : Nat → Nat → List Nat → MersenneTwister → List Nat × MersenneTwister
  | 0, _, v, random => (v, random)
  | n + 1, i, v, random =>
    let drawn := random.uniformInt 0 i
    shuffleLoop n (i + 1) (swapAt v i drawn.1) drawn.2

/-- `std::shuffle(v.begin(), v.end(), random)`: the positions `1, ..., v.size() - 1` are
exchanged in turn with a position drawn at or below them. -/
def shuffle (v : List Nat) (random : MersenneTwister) : List Nat × MersenneTwister :=
  shuffleLoop (v.length - 1) 1 v random

/-- The conversion of a `types::fnumeric` to a `types::uint32` parameter: the fractional part
is dropped (the conversion of a value outside `[0, 2^32)` is undefined in C++; here a negative
value gives `0` and a large one is cut to 32 bits). -/
def fnumericToUint32 (value : ℚ) : Nat := Int.toNat ⌊value⌋ % UINT32

/-! ## `iris/Agent.cpp`: behaviour, privilege and the interaction ledger -/

namespace Agent

/-- `Agent::Outcome`. -/
inductive Outcome where
  /-- The agent changes the inspected behaviour. -/
  | Change
  /-- The agent keeps the inspected behaviour. -/
  | Keep
  deriving DecidableEq, Repr

/-- `Agent::CommType`. -/
inductive CommType where
  /-- The neighbour differs and the agent changed. -/
  | Censored
  /-- No influence is recorded. -/
  | Neither
  /-- The neighbour agrees and the agent kept its behaviour. -/
  | Reinforced
  deriving DecidableEq, Repr

/-- Modelled from the spec: `Agent::Sides` is declared in `Agent.hpp`, which is not among the
sources. The spec calls it the pair `(against, inFavor)` of counts; the tests build it from
two `uint32` values. -/
abbrev Sides := Nat × Nat

/-- `Agent::isPowerful`. -/
def isPowerful (agent : Agent) : Bool := agent.m_powerful

/-- `Agent::getPrivilege`. -/
def getPrivilege (agent : Agent) : Nat := agent.m_privilege

/-- `Agent::getBehavior`. -/
def getBehavior (agent : Agent) : List Nat :=
  if agent.m_state.1.m_time > agent.m_state.2.m_time then agent.m_state.1.m_behavior
  else agent.m_state.2.m_behavior

/-- `Agent::getBehaviorAt`: the throw is `Error.staleState`. -/
def getBehaviorAt (agent : Agent) (index time : Nat) : Except Error Nat :=
  if agent.m_state.1.m_time = time then vectorAt agent.m_state.1.m_behavior index
  else if agent.m_state.2.m_time = time then vectorAt agent.m_state.2.m_behavior index
  else Except.error Error.staleState

/-- The entry of the ledger of `agent` for `id`, as `Agent::getInteractionsWith` yields it:
the stored entry, or a fresh one with all counters at zero. -/
def interactionWith (agent : Agent) (id : Nat) : Interaction :=
  (agent.m_interactions id).getD {}

/-- `Agent::getInteractionsWith`: an absent entry is inserted with all counters at zero; the
agent after the call and the entry found. -/
def getInteractionsWith (agent : Agent) (id : Nat) : Agent × Interaction :=
  match agent.m_interactions id with
  | some comm => (agent, comm)
  | none =>
    ({ agent with m_interactions := Function.update agent.m_interactions id (some {}) }, {})

/-- `Agent::increasePrivilege`: `m_privilege++` on 32 bits. -/
def increasePrivilege (agent : Agent) : Agent :=
  { agent with m_privilege := (agent.m_privilege + 1) % UINT32 }

/-- `Agent::setInitialBehavior`. -/
def setInitialBehavior (agent : Agent) (behavior : List Nat) : Agent :=
  { agent with m_state :=
      ({ m_behavior := behavior, m_time := 0 }, { m_behavior := behavior, m_time := 0 }) }

/-- `Agent::setPowerful`. -/
def setPowerful (agent : Agent) (isPowerful : Bool) : Agent :=
  { agent with m_powerful := isPowerful }

/-- `Agent::setUId`. -/
def setUId (agent : Agent) (uid : Nat) : Agent := { agent with m_uid := uid }

/-- `Agent::updateState`; a write past the end of the behaviour tuple is reported as
`Error.outOfBounds`. -/
def updateState (agent : Agent) (index behavior time : Nat) : Except Error Agent :=
  if index < agent.m_state.1.m_behavior.length then
    Except.ok { agent with m_state :=
      ({ m_behavior := agent.m_state.1.m_behavior.set index behavior, m_time := time },
        agent.m_state.1) }
  else Except.error Error.outOfBounds

/-- `Agent::updateCommunicationWith`. -/
def updateCommunicationWith (agent : Agent) (network : List Nat) : Agent :=
  network.foldl
    (fun a otherId =>
      let found := a.getInteractionsWith otherId
      let comm := { found.2 with m_communicated := (found.2.m_communicated + 1) % UINT32 }
      { found.1 with
        m_interactions := Function.update found.1.m_interactions otherId (some comm) })
    agent

/-- `Agent::updateInfluenceOn`. -/
def updateInfluenceOn (agent : Agent) (targetId : Nat) (commType : CommType) : Agent :=
  let found := agent.getInteractionsWith targetId
  let comm :=
    match commType with
    | CommType.Censored => { found.2 with m_censored := (found.2.m_censored + 1) % UINT32 }
    | CommType.Neither => found.2
    | CommType.Reinforced =>
      { found.2 with m_reinforced := (found.2.m_reinforced + 1) % UINT32 }
  let counted := { comm with m_communicated := (comm.m_communicated + 1) % UINT32 }
  { found.1 with
    m_interactions := Function.update found.1.m_interactions targetId (some counted) }

/-! ### Outcomes -/

/-- `Agent::computeOutcomeDirectly`. -/
def computeOutcomeDirectly (sides : Sides) : Outcome :=
  if sides.1 > sides.2 then Outcome.Change else Outcome.Keep

/-- `Agent::computeUtility(lambda, x)`; `exp` stands for `std::exp`. -/
def computeUtility (exp : ℚ → ℚ) (lambda : ℚ) (x : Nat) : ℚ :=
  let fx := (x : ℚ)
  1 - exp (-1 * lambda * fx)

/-- `Agent::computeOutcomeSociodynamically`. The two calls are
`computeUtility(sides.first, params.m_lambda)` and
`computeUtility(sides.second, params.m_lambda)`: the count is passed for the `fnumeric`
parameter `lambda` and `m_lambda` for the `uint32` parameter `x`. -/
def computeOutcomeSociodynamically (exp : ℚ → ℚ) (sides : Sides) (params : Parameters)
    (random : MersenneTwister) : Outcome × MersenneTwister :=
  let against := computeUtility exp (sides.1 : ℚ) (fnumericToUint32 params.m_lambda)
  let infavor := computeUtility exp (sides.2 : ℚ) (fnumericToUint32 params.m_lambda)
  let changeProb := params.m_resist + infavor - against
  let clampedProb := min params.m_resistMax (max changeProb params.m_resistMin)
  let outcomeProb := random.uniformReal
  (if outcomeProb.1 > clampedProb then Outcome.Change else Outcome.Keep, outcomeProb.2)

/-- The `std::count_if` of `Agent::computeSides`: the number of members of the group whose
behaviour at `index` and `time` differs from `behavior`. -/
def countAgainst (agents : Nat → Agent) (index behavior time : Nat) :
    List Nat → Except Error Nat
  | [] => Except.ok 0
  | id :: rest =>
    match (agents id).getBehaviorAt index time with
    | Except.error e => Except.error e
    | Except.ok val =>
      match countAgainst agents index behavior time rest with
      | Except.error e => Except.error e
      | Except.ok n => Except.ok (if val ≠ behavior then n + 1 else n)

/-- `Agent::computeSides`; both counts are stored on 32 bits. -/
def computeSides (index behavior : Nat) (socialGroup : List Nat) (agents : Nat → Agent)
    (_totalAgents time : Nat) : Except Error Sides :=
  match countAgainst agents index behavior time socialGroup with
  | Except.error e => Except.error e
  | Except.ok against =>
    let infavor := socialGroup.length - against
    Except.ok (against % UINT32, infavor % UINT32)

/-- `Agent::determineCommType`. -/
def determineCommType (me you : Nat) (outcome : Outcome) : CommType :=
  if me = you then
    if outcome = Outcome.Keep then CommType.Reinforced else CommType.Neither
  else if outcome = Outcome.Change then CommType.Censored else CommType.Neither

/-! ### Groups -/

/-- `Agent::cacheBehaviorsAsSet`, from the list `cached` collected so far. -/
def cacheBehaviorsLoop (agents : Nat → Agent) (index time : Nat) :
    List Nat → List Nat → Except Error (List Nat)
  | [], cached => Except.ok cached
  | pg :: rest, cached =>
    match (agents pg).getBehaviorAt index time with
    | Except.error e => Except.error e
    | Except.ok behav =>
      cacheBehaviorsLoop agents index time rest
        (if behav ∈ cached then cached else cached ++ [behav])

/-- `Agent::cacheBehaviorsAsSet`. -/
def cacheBehaviorsAsSet (powerGroup : List Nat) (agents : Nat → Agent) (index time : Nat) :
    Except Error (List Nat) :=
  cacheBehaviorsLoop agents index time powerGroup []

/-- `Agent::extractPowerful`: the loop runs over the positions `i` of `network`, tests
`agents[i]` and collects `i`. -/
def extractPowerful (network : List Nat) (agents : Nat → Agent) (_totalAgents : Nat) :
    List Nat :=
  (List.range network.length).filter (fun i => (agents i).isPowerful)

/-- `Agent::removeNonPowerful`. -/
def removeNonPowerful (network : List Nat) (agents : Nat → Agent) (_totalAgents : Nat) :
    List Nat :=
  network.filter (fun id => (agents id).isPowerful)

/-- `Agent::obtainRandomInGroup`. -/
def obtainRandomInGroup (agent : Agent) (qIn : Nat) (random : MersenneTwister) :
    List Nat × MersenneTwister :=
  let shuffled := shuffle agent.m_network random
  (if qIn < shuffled.1.length then shuffled.1.take qIn else shuffled.1, shuffled.2)

/-- The `for` loop of `Agent::obtainRandomOutGroup`, with `n` rounds left: the exception of
`ensureRandom` is caught and the round is skipped. -/
def obtainRandomOutGroupLoop (totalAgents : Nat) :
    Nat → List Nat → List Nat → MersenneTwister → Except Error (List Nat × MersenneTwister)
  | 0, _, outGroup, random => Except.ok (outGroup, random)
  | n + 1, network, outGroup, random =>
    let drawn := random.uniformInt 0 ((totalAgents + UINT32 - 1) % UINT32)
    match util.ensureRandom drawn.1 network 0 totalAgents with
    | Except.error Error.noSampleSpace =>
      obtainRandomOutGroupLoop totalAgents n network outGroup drawn.2
    | Except.error e => Except.error e
    | Except.ok nextAgent =>
      obtainRandomOutGroupLoop totalAgents n (util.sortedInsert network nextAgent)
        (outGroup ++ [nextAgent]) drawn.2

/-- `Agent::obtainRandomOutGroup`: `totalAgents - m_network.size() - 1` is taken on
`size_t`. -/
def obtainRandomOutGroup (agent : Agent) (qOut totalAgents : Nat) (random : MersenneTwister) :
    Except Error (List Nat × MersenneTwister) :=
  let networkBound :=
    ((totalAgents + SIZE_T - agent.m_network.length % SIZE_T) % SIZE_T + SIZE_T - 1) % SIZE_T
  let upperBound := if qOut > networkBound then networkBound else qOut
  let network := util.sortedInsert agent.m_network agent.m_uid
  obtainRandomOutGroupLoop totalAgents upperBound network [] random

/-- `Agent::obtainRandomInfluentialGroup`, called on `agents[self]`. -/
def obtainRandomInfluentialGroup (self qIn qOut : Nat) (agents : Nat → Agent)
    (totalAgents : Nat) (random : MersenneTwister) :
    Except Error (List Nat × MersenneTwister) :=
  let inGroup := (agents self).obtainRandomInGroup qIn random
  match (agents self).obtainRandomOutGroup qOut totalAgents inGroup.2 with
  | Except.error e => Except.error e
  | Except.ok outGroup =>
    let kept :=
      if (agents self).m_powerful then removeNonPowerful outGroup.1 agents totalAgents
      else outGroup.1
    Except.ok (inGroup.1 ++ kept, outGroup.2)

/-- `Agent::selectNewBehavior`. -/
def selectNewBehavior (currentBehavior behaviorRange : Nat) (random : MersenneTwister) :
    Except Error (Nat × MersenneTwister) :=
  if behaviorRange = 0 ∨ behaviorRange = 1 then Except.ok (currentBehavior, random)
  else
    let chosen := random.uniformInt 0 (behaviorRange - 1)
    match util.ensureRandom chosen.1 [currentBehavior] 0 behaviorRange with
    | Except.error e => Except.error e
    | Except.ok behavior => Except.ok (behavior, chosen.2)

/-! ### Privilege -/

/-- The loop of `Agent::distributePrivilege`, called on `agents[self]`, over the members of
the social group that are left. -/
def distributePrivilegeLoop (self currentIndex currentBehavior : Nat) (outcome : Outcome)
    (time : Nat) : List Nat → (Nat → Agent) → Except Error (Nat → Agent)
  | [], agents => Except.ok agents
  | soc :: rest, agents =>
    match (agents soc).getBehaviorAt currentIndex time with
    | Except.error e => Except.error e
    | Except.ok socBehavior =>
      let commType := determineCommType currentBehavior socBehavior outcome
      let agents1 :=
        Function.update agents soc ((agents soc).updateInfluenceOn (agents self).m_uid commType)
      let agents2 :=
        if (agents1 self).m_powerful ∧ commType ≠ CommType.Neither then
          Function.update agents1 soc (agents1 soc).increasePrivilege
        else agents1
      distributePrivilegeLoop self currentIndex currentBehavior outcome time rest agents2

/-- `Agent::distributePrivilege`, called on `agents[self]`. -/
def distributePrivilege (self currentIndex currentBehavior : Nat) (socialGroup : List Nat)
    (outcome : Outcome) (agents : Nat → Agent) (time : Nat) : Except Error (Nat → Agent) :=
  distributePrivilegeLoop self currentIndex currentBehavior outcome time socialGroup agents

/-- The loop of `Agent::distributePrivilegeWithPower`, called on `agents[self]`, over the
members of the social group that are left. -/
def distributePrivilegeWithPowerLoop (self currentIndex currentBehavior : Nat)
    (powerCache : List Nat) (outcome : Outcome) (time : Nat) :
    List Nat → (Nat → Agent) → Except Error (Nat → Agent)
  | [], agents => Except.ok agents
  | soc :: rest, agents =>
    match (agents soc).getBehaviorAt currentIndex time with
    | Except.error e => Except.error e
    | Except.ok socBehavior =>
      let commType := determineCommType currentBehavior socBehavior outcome
      let agents1 :=
        Function.update agents soc ((agents soc).updateInfluenceOn (agents self).m_uid commType)
      let agents2 :=
        if socBehavior ∈ powerCache ∧ commType ≠ CommType.Neither then
          Function.update agents1 soc (agents1 soc).increasePrivilege
        else agents1
      distributePrivilegeWithPowerLoop self currentIndex currentBehavior powerCache outcome
        time rest agents2

/-- `Agent::distributePrivilegeWithPower`, called on `agents[self]`. -/
def distributePrivilegeWithPower (self currentIndex currentBehavior : Nat)
    (socialGroup powerGroup : List Nat) (outcome : Outcome) (agents : Nat → Agent)
    (time : Nat) : Except Error (Nat → Agent) :=
  match cacheBehaviorsAsSet powerGroup agents currentIndex time with
  | Except.error e => Except.error e
  | Except.ok powerCache =>
    distributePrivilegeWithPowerLoop self currentIndex currentBehavior powerCache outcome time
      socialGroup agents

/-! ### The step -/

/-- The local variables of `Agent::step` next to the state it leaves. -/
structure StepRecord where
  /-- The agents after the step. -/
  agents : Nat → Agent
  /-- The generator after the step. -/
  random : MersenneTwister
  /-- The local `socialGroup`. -/
  socialGroup : List Nat
  /-- The local `powerGroup`. -/
  powerGroup : List Nat
  /-- The local `inspectIndex`. -/
  inspectIndex : Nat
  /-- The local `inspectBehav`. -/
  inspectBehav : Nat
  /-- The local `outcome`. -/
  outcome : Outcome

/-- Part (3) of `Agent::step`, the statement
`if(m_powerful || (!m_powerful && powerGroup.size() == 0)) { ... } else { ... }`: the outcome,
the agents after the distribution of privilege, and the generator. -/
def decideOutcome (exp : ℚ → ℚ) (self : Nat) (params : Parameters) (agents : Nat → Agent)
    (totalAgents : Nat) (socialGroup powerGroup : List Nat) (inspectIndex inspectBehav : Nat)
    (timeBefore : Nat) (random : MersenneTwister) :
    Except Error (Outcome × (Nat → Agent) × MersenneTwister) :=
  if (agents self).m_powerful ∨ (¬ (agents self).m_powerful ∧ powerGroup.length = 0) then
    match computeSides inspectIndex inspectBehav socialGroup agents totalAgents timeBefore with
    | Except.error e => Except.error e
    | Except.ok sides =>
      let decided := computeOutcomeSociodynamically exp sides params random
      match distributePrivilege self inspectIndex inspectBehav socialGroup decided.1 agents
          timeBefore with
      | Except.error e => Except.error e
      | Except.ok agents1 => Except.ok (decided.1, agents1, decided.2)
  else
    match computeSides inspectIndex inspectBehav powerGroup agents totalAgents timeBefore with
    | Except.error e => Except.error e
    | Except.ok sides =>
      let outcome := computeOutcomeDirectly sides
      match distributePrivilegeWithPower self inspectIndex inspectBehav socialGroup powerGroup
          outcome agents timeBefore with
      | Except.error e => Except.error e
      | Except.ok agents1 => Except.ok (outcome, agents1, random)

/-- The statement `if(outcome == Outcome::Change) { ... } else { ... }` of `Agent::step`: the
new state of `agents[self]` is committed at `time`. -/
def commitOutcome (agent : Agent) (outcome : Outcome) (behaviors : List Nat)
    (inspectIndex inspectBehav time : Nat) (random : MersenneTwister) :
    Except Error (Agent × MersenneTwister) :=
  if outcome = Outcome.Change then
    match vectorAt behaviors inspectIndex with
    | Except.error e => Except.error e
    | Except.ok behaviorRange =>
      match selectNewBehavior inspectBehav behaviorRange random with
      | Except.error e => Except.error e
      | Except.ok chosen =>
        match agent.updateState inspectIndex chosen.1 time with
        | Except.error e => Except.error e
        | Except.ok agent1 => Except.ok (agent1, chosen.2)
  else
    match agent.updateState inspectIndex inspectBehav time with
    | Except.error e => Except.error e
    | Except.ok agent1 => Except.ok (agent1, random)

/-- `Agent::step`, called on `agents[self]`, together with its local variables. `time - 1` is
taken on 64 bits, `behaviors.size()` is cut to 32 bits. -/
def stepRecord (exp : ℚ → ℚ) (self : Nat) (params : Parameters) (agents : Nat → Agent)
    (totalAgents : Nat) (behaviors : List Nat) (time : Nat) (random : MersenneTwister) :
    Except Error StepRecord :=
  match obtainRandomInfluentialGroup self params.m_qIn params.m_qOut agents totalAgents
      random with
  | Except.error e => Except.error e
  | Except.ok social =>
    let socialGroup := social.1
    let powerGroup := extractPowerful socialGroup agents totalAgents
    let numBehaviors := behaviors.length % UINT32
    let drawnIndex := social.2.uniformInt 0 ((numBehaviors + UINT32 - 1) % UINT32)
    let inspectIndex := drawnIndex.1
    let timeBefore := (time + UINT64 - 1) % UINT64
    match (agents self).getBehaviorAt inspectIndex timeBefore with
    | Except.error e => Except.error e
    | Except.ok inspectBehav =>
      match decideOutcome exp self params agents totalAgents socialGroup powerGroup
          inspectIndex inspectBehav timeBefore drawnIndex.2 with
      | Except.error e => Except.error e
      | Except.ok decided =>
        let outcome := decided.1
        let agents1 := decided.2.1
        match commitOutcome (agents1 self) outcome behaviors inspectIndex inspectBehav time
            decided.2.2 with
        | Except.error e => Except.error e
        | Except.ok committed =>
          let agents2 := Function.update agents1 self committed.1
          let agents3 :=
            if outcome = Outcome.Keep ∧
                ((agents2 self).m_powerful ∨ powerGroup.length ≠ 0) then
              Function.update agents2 self (agents2 self).increasePrivilege
            else agents2
          let agents4 :=
            Function.update agents3 self ((agents3 self).updateCommunicationWith socialGroup)
          Except.ok
            { agents := agents4, random := committed.2, socialGroup := socialGroup,
              powerGroup := powerGroup, inspectIndex := inspectIndex,
              inspectBehav := inspectBehav, outcome := outcome }

/-- `Agent::step`, called on `agents[self]`: the agents and the generator after the call. -/
def step (exp : ℚ → ℚ) (self : Nat) (params : Parameters) (agents : Nat → Agent)
    (totalAgents : Nat) (behaviors : List Nat) (time : Nat) (random : MersenneTwister) :
    Except Error ((Nat → Agent) × MersenneTwister) :=
  match stepRecord exp self params agents totalAgents behaviors time random with
  | Except.error e => Except.error e
  | Except.ok record => Except.ok (record.agents, record.random)

end Agent

/-! ## `iris/Model.cpp`: the serial driver -/

/-- The members of `iris::Model` that `Model::runSimulation` reads and writes. -/
structure Model where
  /-- The array of agents. -/
  m_agents : Nat → Agent
  /-- The number of categories of each behaviour dimension. -/
  m_behaviors : List Nat := []
  /-- The iteration order, shuffled at each step. -/
  m_indices : List Nat := []
  /-- The parameters of the simulation. -/
  m_params : Parameters := {}
  /-- The random number generator. -/
  m_random : MersenneTwister
  /-- The current time step (`types::uint64`). -/
  m_time : Nat := 0

namespace Model

/-- The loop `for(auto& ind : m_indices) m_agents[ind].step(...)` of `Model::runSimulation`
over the indices that are left. -/
def stepAll (exp : ℚ → ℚ) (params : Parameters) (behaviors : List Nat) (time : Nat) :
    List Nat → (Nat → Agent) → MersenneTwister → Except Error ((Nat → Agent) × MersenneTwister)
  | [], agents, random => Except.ok (agents, random)
  | ind :: rest, agents, random =>
    match Agent.step exp ind params agents params.m_n behaviors time random with
    | Except.error e => Except.error e
    | Except.ok next => stepAll exp params behaviors time rest next.1 next.2

/-- The loop `while(m_time < m_params.m_steps)` of `Model::runSimulation`, with `fuel` rounds
allowed. -/
def runSimulationLoop (exp : ℚ → ℚ) : Nat → Model → Except Error Model
  | 0, model =>
    if model.m_time < model.m_params.m_steps then Except.error Error.loopBound
    else Except.ok model
  | fuel + 1, model =>
    if model.m_time < model.m_params.m_steps then
      let time := (model.m_time + 1) % UINT64
      let shuffled := shuffle model.m_indices model.m_random
      match stepAll exp model.m_params model.m_behaviors time shuffled.1 model.m_agents
          shuffled.2 with
      | Except.error e => Except.error e
      | Except.ok next =>
        runSimulationLoop exp fuel
          { model with m_agents := next.1, m_indices := shuffled.1, m_random := next.2,
                       m_time := time }
    else Except.ok model

/-- `Model::runSimulation` (the statistics output left aside); the loop is given `m_steps`
rounds. -/
def runSimulation (exp : ℚ → ℚ) (model : Model) : Except Error Model :=
  runSimulationLoop exp model.m_params.m_steps { model with m_time := 0 }

end Model

/-! ## `iris/gen/AttributeGenerator.cpp` -/

namespace Agent

/-- `Agent::setInitialValues`. -/
def setInitialValues (agent : Agent) (values : List Nat) : Agent :=
  { agent with m_values := values }

/-- `Agent::getValues`. -/
def getValues (agent : Agent) : List Nat := agent.m_values

end Agent

namespace gen

/-- `gen::PopDispensers`. -/
abbrev PopDispensers := List PopulationDispenser

/-- `gen::createAttributeList`: one call of `nextGroup` per dispenser, in order; the list of
the groups returned, the dispensers and the generator after the calls. -/
def createAttributeList : PopDispensers → MersenneTwister →
    Except Error (List Nat × PopDispensers × MersenneTwister)
  | [], random => Except.ok ([], [], random)
  | disp :: rest, random =>
    match disp.nextGroup random with
    | Except.error e => Except.error e
    | Except.ok next =>
      match createAttributeList rest next.2.2 with
      | Except.error e => Except.error e
      | Except.ok more => Except.ok (next.1 :: more.1, next.2.1 :: more.2.1, more.2.2)

/-- `gen::createPopulationDispensers`: for each variable with `currentFactor` factors a
dispenser initialised with `currentFactor` times the probability `1 / currentFactor`, the
total population and `requireAtLeastOne = true`. The quotient and the products of
`initialize` are `double`s: `fl` is the rounding of their exact values (`roundToDouble` in the
program, the identity in exact arithmetic). -/
def createPopulationDispensers (fl : ℚ → ℚ) : List Nat → Nat → Except Error PopDispensers
  | [], _ => Except.ok []
  | currentFactor :: rest, totalAgents =>
    let prob : ℚ := fl (1 / (currentFactor : ℚ))
    let factors := List.replicate currentFactor prob
    match PopulationDispenser.initializeDispenser fl {} factors totalAgents true with
    | Except.error e => Except.error e
    | Except.ok disp =>
      match createPopulationDispensers fl rest totalAgents with
      | Except.error e => Except.error e
      | Except.ok result => Except.ok (disp :: result)

/-- `gen::createSubAttributeList`. -/
def createSubAttributeList (base target : List Nat) : Except Error (List Nat) :=
  if base.length < target.length then Except.error Error.baseTooSmall
  else Except.ok (base.take target.length)

/-- The `for` loop of `gen::generateAttributes` over the agents from `i` on, with `n` agents
left. -/
def generateAttributesLoop (behaviors : List Nat) :
    Nat → Nat → (Nat → Agent) → PopDispensers → MersenneTwister →
      Except Error ((Nat → Agent) × PopDispensers × MersenneTwister)
  | 0, _, agents, valueDisp, random => Except.ok (agents, valueDisp, random)
  | n + 1, i, agents, valueDisp, random =>
    match createAttributeList valueDisp random with
    | Except.error e => Except.error e
    | Except.ok drawn =>
      let vList := drawn.1
      match createSubAttributeList vList behaviors with
      | Except.error e => Except.error e
      | Except.ok bList =>
        let agents1 := Function.update agents i ((agents i).setInitialBehavior bList)
        let agents2 := Function.update agents1 i ((agents1 i).setInitialValues vList)
        generateAttributesLoop behaviors n (i + 1) agents2 drawn.2.1 drawn.2.2

/-- `gen::generateAttributes`, with the rounding `fl` of the `double` operations of
`createPopulationDispensers`. -/
def generateAttributes (fl : ℚ → ℚ) (agents : Nat → Agent) (totalAgents : Nat)
    (values behaviors : List Nat) (random : MersenneTwister) :
    Except Error ((Nat → Agent) × MersenneTwister) :=
  match createPopulationDispensers fl values totalAgents with
  | Except.error e => Except.error e
  | Except.ok valueDisp =>
    match generateAttributesLoop behaviors totalAgents 0 agents valueDisp random with
    | Except.error e => Except.error e
    | Except.ok done => Except.ok (done.1, done.2.2)

/-- The `for` loop of `gen::generatePowerfulAgents`, with `n` rounds left; the exception of
`ensureRandom` is not caught, and a write `agents[chosen]` past the end of the array of
`totalAgents` agents is reported as `Error.outOfBounds`. -/
def generatePowerfulAgentsLoop (totalAgents : Nat) :
    Nat → (Nat → Agent) → List Nat → MersenneTwister →
      Except Error ((Nat → Agent) × MersenneTwister)
  | 0, agents, _, random => Except.ok (agents, random)
  | n + 1, agents, selected, random =>
    let drawn := random.uniformInt 0 ((totalAgents + UINT32 - 1) % UINT32)
    match util.ensureRandom drawn.1 selected 0 totalAgents with
    | Except.error e => Except.error e
    | Except.ok chosen =>
      if chosen < totalAgents then
        generatePowerfulAgentsLoop totalAgents n
          (Function.update agents chosen ((agents chosen).setPowerful true))
          (util.sortedInsert selected chosen) drawn.2
      else Except.error Error.outOfBounds

/-- `gen::generatePowerfulAgents`. The product `totalAgents * powerPercent` is a `double`: `fl`
is the rounding that the multiplication applies to the exact product (`roundToDouble` in the
program, the identity in exact arithmetic), and
`(AgentID)std::floor(totalAgents * powerPercent)` is the floor of the rounded product, cut to
32 bits. -/
def generatePowerfulAgents (fl : ℚ → ℚ) (agents : Nat → Agent) (totalAgents : Nat)
    (powerPercent : ℚ) (requireAtLeastOne : Bool) (random : MersenneTwister) :
    Except Error ((Nat → Agent) × MersenneTwister) :=
  if powerPercent = 0 then Except.ok (agents, random)
  else
    let floored := Int.toNat ⌊fl ((totalAgents : ℚ) * powerPercent)⌋ % UINT32
    let numPowerful := if floored = 0 ∧ requireAtLeastOne then 1 else floored
    generatePowerfulAgentsLoop totalAgents numPowerful agents [] random

/-- The number of powerful agents among the first `totalAgents` agents (the helper
`getPowerfulAgentCount` of `AttributeGeneratorTests.cpp`). -/
def getPowerfulAgentCount (agents : Nat → Agent) (totalAgents : Nat) : Nat :=
  ((List.range totalAgents).filter (fun i => (agents i).isPowerful)).length

/-- The number of agents among the first `totalAgents` whose value in dimension `d` is
`k`. -/
def valueCount (agents : Nat → Agent) (totalAgents d k : Nat) : Nat :=
  ((List.range totalAgents).filter
    (fun i => decide ((agents i).m_values.get? d = some k))).length

end gen

/-! ## The change rule in the words of the specification -/

/-- The utility of the specification, `utility(x) = 1 - exp(-lambda * x)`, for the count `x`
and the parameter `lambda` as it is configured. -/
def specUtility (exp : ℚ → ℚ) (lambda : ℚ) (x : Nat) : ℚ := 1 - exp (-lambda * (x : ℚ))

/-- The sociodynamic rule of the specification: the agent changes exactly when the draw `u`
exceeds `resist + utility(inFavor) - utility(against)` clamped to `[resistMin, resistMax]`. -/
def specChanges (exp : ℚ → ℚ) (sides : Agent.Sides) (params : Parameters) (u : ℚ) : Prop :=
  u > min params.m_resistMax
    (max params.m_resistMin
      (params.m_resist + specUtility exp params.m_lambda sides.2 -
        specUtility exp params.m_lambda sides.1))

/-! ## Invariants of the step -/

/-- Both snapshots of the agent have `D` entries and one of them carries the time `t`: every
dimension below `D` can be read at `t`. -/
def HoldsAt (D t : Nat) (agent : Agent) : Prop :=
  agent.m_state.1.m_behavior.length = D ∧ agent.m_state.2.m_behavior.length = D ∧
    (agent.m_state.1.m_time = t ∨ agent.m_state.2.m_time = t)

/-- The members of an agent that only its own generation and its own step write: both
snapshots, the network, the identifier, the powerful flag, the family size and the values
are the same in `a` and `b`. -/
def SameCore (a b : Agent) : Prop :=
  a.m_state = b.m_state ∧ a.m_network = b.m_network ∧ a.m_uid = b.m_uid ∧
    a.m_powerful = b.m_powerful ∧ a.m_familySize = b.m_familySize ∧ a.m_values = b.m_values

/-- What a step of the agent with identifier `uid` does to a member of its social group that
shows the behaviour `socBehavior`: the ledger entry for `uid` is updated according to the
communication type, and one privilege point is added when `credit` holds. -/
def contacted (uid currentBehavior socBehavior : Nat) (outcome : Agent.Outcome) (credit : Bool)
    (agent : Agent) : Agent :=
  let commType := Agent.determineCommType currentBehavior socBehavior outcome
  let noted := agent.updateInfluenceOn uid commType
  if credit ∧ commType ≠ Agent.CommType.Neither then noted.increasePrivilege else noted

/-- The setting of a step of agent `self` at time `T`, among `N` agents with `D` behaviour
dimensions: the identifier of the agent is its position, its network is well formed, the
list of dimensions has `D ≥ 1` entries, all sizes fit their machine types, and every agent
can be read at `T - 1`. -/
def StepReady (N D T self : Nat) (agents : Nat → Agent) (behaviors : List Nat) : Prop :=
  N < UINT32 ∧ self < N ∧ (agents self).m_uid = self ∧
    NetworkOk N self (agents self).m_network ∧
    behaviors.length = D ∧ 1 ≤ D ∧ D < UINT32 ∧ (∀ x ∈ behaviors, x < UINT32) ∧
    1 ≤ T ∧ T < UINT64 ∧ ∀ j, j < N → HoldsAt D (T - 1) (agents j)

/-! ## Fixtures -/

/-- The agents of the test case "Ensure removal of powerful agents works correctly": twenty
agents, the first ten with their identifier and family size `1`, the agents `3` and `7`
powerful. -/
def testAgents : Nat → Agent := fun i =>
  if i < 10 then { m_uid := i, m_familySize := 1, m_powerful := decide (i = 3 ∨ i = 7) } else {}

/-- The two agents of the end-to-end scenario of the specification: no neighbours, not
powerful, one behaviour dimension with the value `0` at time `0`. -/
def twoAgents : Nat → Agent := fun i =>
  Agent.setInitialBehavior { m_uid := i, m_familySize := 1 } [0]

/-- Three agents with one behaviour dimension that holds `0` at time `0`: agent `0` is powerful
and has no neighbour, agent `1` has the single neighbour `2`, and neither agent `1` nor agent
`2` is powerful. -/
def powerAtZero : Nat → Agent := fun i =>
  Agent.setInitialBehavior
    { m_uid := i, m_familySize := 1, m_powerful := decide (i = 0),
      m_network := if i = 1 then [2] else [] } [0]

/-- A generator whose raw outputs all equal `x`. -/
def constantTape (x : Nat) : MersenneTwister := { tape := fun _ => x, pos := 0 }

/-- A generator whose raw outputs at the positions `0, 3, 6, ...` are `0` and at every other
position `2^53 - 1`: a real draw at a position divisible by three is `0`, every other real
draw is just below `1`. -/
def trialTape : MersenneTwister :=
  { tape := fun k => if k % 3 = 0 then 0 else 9007199254740991, pos := 0 }

/-- Agents with recorded family size `1` and empty networks, except that agent `1` already has
the neighbour `2`. -/
def singleAgents : Nat → Agent := fun i =>
  if i = 1 then { m_uid := 1, m_familySize := 1, m_network := [2] }
  else { m_uid := i, m_familySize := 1 }

/-- Agents with recorded family size `2` and empty networks. -/
def unwiredPairs : Nat → Agent := fun i => { m_uid := i, m_familySize := 2 }

/-- Agents with recorded family size `2`; agent `0` has the neighbour `1`, the others have
empty networks. -/
def pairedAgents : Nat → Agent := fun i =>
  if i = 0 then { m_uid := 0, m_familySize := 2, m_network := [1] }
  else { m_uid := i, m_familySize := 2 }

/-! ## Invariants of the serial driver -/

/-- The state of the agents inside slot `T` of the serial driver: every agent below `N` has
its position as identifier, a well-formed network and two snapshots of `D` entries; the
agents that have taken their step of the slot (`stepped`) carry `T` in the current and
`T - 1` in the previous snapshot, the others carry `T - 1` in the current snapshot. -/
def SlotInv (N D T : Nat) (stepped : Nat → Prop) (agents : Nat → Agent) : Prop :=
  ∀ j, j < N → (agents j).m_uid = j ∧ NetworkOk N j (agents j).m_network ∧
    (agents j).m_state.1.m_behavior.length = D ∧
    (agents j).m_state.2.m_behavior.length = D ∧
    (stepped j → (agents j).m_state.1.m_time = T ∧ (agents j).m_state.2.m_time = T - 1) ∧
    (¬ stepped j → (agents j).m_state.1.m_time = T - 1)

/-- The state of the driver between two slots: the sizes fit their machine types, there is
at least one behaviour dimension, the iteration order is a permutation of the identifiers,
the time has not passed the number of steps, and every agent carries the current time in its
current snapshot. -/
def DriverInv (N D : Nat) (model : Model) : Prop :=
  model.m_params.m_n = N ∧ N < UINT32 ∧ model.m_behaviors.length = D ∧ 1 ≤ D ∧ D < UINT32 ∧
    (∀ x ∈ model.m_behaviors, x < UINT32) ∧ model.m_indices.Perm (List.range N) ∧
    model.m_params.m_steps < UINT64 ∧ model.m_time ≤ model.m_params.m_steps ∧
    SlotInv N D (model.m_time + 1) (fun _ => False) model.m_agents

/-! ## Counters that only grow -/

/-- The 32-bit increment `++` of a counter. -/
def bump (v : Nat) : Nat := (v + 1) % UINT32

/-- The counter value `y` is what at most `k` increments make of `x`. -/
def Bumped (k x y : Nat) : Prop := ∃ i, i ≤ k ∧ y = bump^[i] x

/-- The privilege and the ledger of `b` are what at most `k` increments per counter make of
those of `a`, and every ledger entry of `a` is still present in `b`. -/
def GrowsBy (k : Nat) (a b : Agent) : Prop :=
  Bumped k a.m_privilege b.m_privilege ∧
    ∀ key, (a.m_interactions key ≠ none → b.m_interactions key ≠ none) ∧
      Bumped k (a.interactionWith key).m_communicated (b.interactionWith key).m_communicated ∧
      Bumped k (a.interactionWith key).m_censored (b.interactionWith key).m_censored ∧
      Bumped k (a.interactionWith key).m_reinforced (b.interactionWith key).m_reinforced

end iris

/-! ## Facts about the sampling primitive -/

namespace iris.util

theorem getD_le_getD_of_sorted {E : List Nat} (hs : E.Pairwise (· ≤ ·)) {i j : Nat}
    (hij : i ≤ j) (hj : j < E.length) : E.getD i 0 ≤ E.getD j 0 := by
  rcases Nat.eq_or_lt_of_le hij with rfl | hlt
  · exact le_rfl
  · rw [List.getD_eq_getElem _ _ hj, List.getD_eq_getElem _ _ (lt_trans hlt hj)]
    exact List.pairwise_iff_getElem.mp hs i j _ _ hlt

theorem getD_mem_of_lt {E : List Nat} {i : Nat} (h : i < E.length) : E.getD i 0 ∈ E := by
  rw [List.getD_eq_getElem _ _ h]
  exact List.getElem_mem h

theorem exists_getD_eq_of_mem {E : List Nat} {x : Nat} (h : x ∈ E) :
    ∃ i, i < E.length ∧ E.getD i 0 = x := by
  obtain ⟨n, hn, rfl⟩ := List.mem_iff_getElem.mp h
  exact ⟨n, hn, List.getD_eq_getElem _ _ hn⟩

theorem lowerBound_le_length (E : List Nat) (val : Nat) : lowerBound E val ≤ E.length :=
  List.findIdx_le_length _

theorem getD_lt_of_lt_lowerBound {E : List Nat} {v j : Nat} (h : j < lowerBound E v) :
    E.getD j 0 < v := by
  have hj : j < E.length := lt_of_lt_of_le h (lowerBound_le_length E v)
  unfold lowerBound at h
  have h2 := List.not_of_lt_findIdx h
  rw [List.getD_eq_getElem _ _ hj]
  simpa using h2

theorem le_getD_lowerBound {E : List Nat} {val : Nat} (h : lowerBound E val < E.length) :
    val ≤ E.getD (lowerBound E val) 0 := by
  rw [List.getD_eq_getElem _ _ h]
  unfold lowerBound at h ⊢
  have h2 := List.findIdx_getElem (w := h)
  simpa using h2

theorem lowerBound_le_of_le_getD {E : List Nat} {val k : Nat}
    (h : val ≤ E.getD k 0) : lowerBound E val ≤ k := by
  by_contra hcon
  have := getD_lt_of_lt_lowerBound (E := E) (v := val) (j := k) (by omega)
  omega

theorem binarySearch_le_length (E : List Nat) (r : Nat) : binarySearch E r ≤ E.length := by
  unfold binarySearch
  simp only
  split_ifs
  · exact lowerBound_le_length E r
  · exact le_rfl

theorem binarySearch_lt {E : List Nat} {r : Nat} (h : binarySearch E r < E.length) :
    binarySearch E r = lowerBound E r ∧ E.getD (binarySearch E r) 0 = r ∧
      ∀ j, j < binarySearch E r → E.getD j 0 < r := by
  unfold binarySearch at h ⊢
  simp only at h ⊢
  split_ifs at h ⊢ with hc
  · have hl : lowerBound E r < E.length := h
    refine ⟨rfl, ?_, fun j hj => getD_lt_of_lt_lowerBound hj⟩
    have := le_getD_lowerBound hl
    omega
  · omega

theorem binarySearch_eq_length_of_not_mem {E : List Nat} {r : Nat} (h : r ∉ E) :
    binarySearch E r = E.length := by
  by_contra hne
  have hlt : binarySearch E r < E.length :=
    lt_of_le_of_ne (binarySearch_le_length E r) hne
  exact h ((binarySearch_lt hlt).2.1 ▸ getD_mem_of_lt hlt)

theorem binarySearch_lt_of_mem {E : List Nat} {r : Nat} (hs : E.Pairwise (· ≤ ·))
    (h : r ∈ E) : binarySearch E r < E.length := by
  obtain ⟨k, hk, hkr⟩ := exists_getD_eq_of_mem h
  have hlb : lowerBound E r ≤ k := lowerBound_le_of_le_getD (by omega)
  have hlt : lowerBound E r < E.length := by omega
  have h1 := le_getD_lowerBound hlt
  have h2 := getD_le_getD_of_sorted hs hlb hk
  unfold binarySearch
  simp only
  rw [if_pos]
  · exact hlt
  · exact ⟨by omega, by omega⟩

/-- Upward probe: from a position all of whose predecessors are below `r`, the loop ends at the
first value from `r` on that is not excluded. -/
theorem exploreUpperSphereLoop_spec {E : List Nat} (hs : E.Pairwise (· ≤ ·))
    (hb : ∀ x ∈ E, x + 1 < UINT32) (hlen : E.length < UINT32) :
    ∀ (fuel r i : Nat), E.length - i < fuel → (∀ j, j < i → j < E.length → E.getD j 0 < r) →
      ∃ v, exploreUpperSphereLoop E fuel r i = some v ∧ r ≤ v ∧ v ∉ E ∧
        ∀ x, r ≤ x → x < v → x ∈ E := by
  intro fuel
  induction fuel with
  | zero => intro r i h; omega
  | succ f ih =>
    intro r i hf hinv
    unfold exploreUpperSphereLoop
    by_cases hi : i < E.length
    · have hi1 : (i + 1) % UINT32 = i + 1 := Nat.mod_eq_of_lt (by omega)
      rw [if_pos hi, hi1]
      by_cases heq : r = E.getD i 0
      · have hr1 : (r + 1) % UINT32 = r + 1 :=
          Nat.mod_eq_of_lt (hb r (heq ▸ getD_mem_of_lt hi))
        rw [if_pos heq, hr1]
        obtain ⟨v, hv, hle, hnot, hfill⟩ := ih (r + 1) (i + 1) (by omega) (by
          intro j hj hjl
          rcases Nat.eq_or_lt_of_le (Nat.lt_succ_iff.mp hj) with rfl | hlt
          · omega
          · have := hinv j hlt hjl
            omega)
        refine ⟨v, hv, by omega, hnot, ?_⟩
        intro x hx hxv
        rcases Nat.eq_or_lt_of_le hx with rfl | hlt
        · exact heq ▸ getD_mem_of_lt hi
        · exact hfill x hlt hxv
      · rw [if_neg heq]
        by_cases hlt : r < E.getD i 0
        · rw [if_pos hlt]
          refine ⟨r, rfl, le_rfl, ?_, fun x hx hxr => by omega⟩
          intro hmem
          obtain ⟨k, hk, hkr⟩ := exists_getD_eq_of_mem hmem
          rcases Nat.lt_or_ge k i with hki | hki
          · have := hinv k hki hk
            omega
          · have := getD_le_getD_of_sorted hs hki hk
            omega
        · rw [if_neg hlt]
          exact ih r (i + 1) (by omega) (by
            intro j hj hjl
            rcases Nat.eq_or_lt_of_le (Nat.lt_succ_iff.mp hj) with rfl | hlt2
            · omega
            · exact hinv j hlt2 hjl)
    · rw [if_neg hi]
      refine ⟨r, rfl, le_rfl, ?_, fun x hx hxr => by omega⟩
      intro hmem
      obtain ⟨k, hk, hkr⟩ := exists_getD_eq_of_mem hmem
      have := hinv k (by omega) hk
      omega

theorem exploreLowerSphereLoop_exit {E : List Nat} (fuel r i : Nat) (hi : E.length ≤ i) :
    exploreLowerSphereLoop E (fuel + 1) r i = some r := by
  unfold exploreLowerSphereLoop
  rw [if_pos hi]

theorem exploreLowerSphereLoop_wrapped {E : List Nat} (hb : ∀ x ∈ E, x + 1 < UINT32)
    (fuel i : Nat) : exploreLowerSphereLoop E (fuel + 1) (UINT32 - 1) i = some (UINT32 - 1) := by
  unfold exploreLowerSphereLoop
  by_cases hi : i ≥ E.length
  · rw [if_pos hi]
  · have hm := hb _ (getD_mem_of_lt (not_le.mp hi))
    rw [if_neg hi, if_neg (by omega), if_pos (by omega)]

/-- Downward probe: the loop ends at the first value from `r` downwards that is not excluded,
or at `2^32 - 1` when every value from `r` down to `0` is excluded. -/
theorem exploreLowerSphereLoop_spec {E : List Nat} (hs : E.Pairwise (· ≤ ·))
    (hb : ∀ x ∈ E, x + 1 < UINT32) (hlen : E.length < UINT32) :
    ∀ (i fuel r : Nat), i + 1 < fuel → i < E.length →
      (r = E.getD i 0 ∨ ∀ j, i < j → j < E.length → r < E.getD j 0) →
      ∃ v, exploreLowerSphereLoop E fuel r i = some v ∧
        ((v ≤ r ∧ v ∉ E ∧ ∀ x, v < x → x ≤ r → x ∈ E) ∨
          (v = UINT32 - 1 ∧ ∀ x, x ≤ r → x ∈ E)) := by
  intro i
  induction i with
  | zero =>
    intro fuel r hf hi hpre
    obtain ⟨f, rfl⟩ : ∃ f, fuel = f + 2 := ⟨fuel - 2, by omega⟩
    have hidx : (0 + UINT32 - 1) % UINT32 = UINT32 - 1 := by decide
    have hge : ∀ k, k < E.length → E.getD 0 0 ≤ E.getD k 0 := fun k hk =>
      getD_le_getD_of_sorted hs (Nat.zero_le k) hk
    unfold exploreLowerSphereLoop
    rw [if_neg (by omega), hidx]
    by_cases heq : r = E.getD 0 0
    · rw [if_pos heq, exploreLowerSphereLoop_exit _ _ _ (by omega)]
      have hmem : r ∈ E := heq ▸ getD_mem_of_lt hi
      have hrb := hb r hmem
      rcases Nat.eq_zero_or_pos r with h0 | hpos
      · refine ⟨_, rfl, Or.inr ⟨?_, ?_⟩⟩
        · subst h0; decide
        · intro x hx
          have : x = r := by omega
          exact this ▸ hmem
      · have hm : (r + UINT32 - 1) % UINT32 = r - 1 := by
          rw [show r + UINT32 - 1 = (r - 1) + UINT32 by omega, Nat.add_mod_right]
          exact Nat.mod_eq_of_lt (by omega)
        rw [hm]
        refine ⟨_, rfl, Or.inl ⟨by omega, ?_, ?_⟩⟩
        · intro hmem2
          obtain ⟨k, hk, hkr⟩ := exists_getD_eq_of_mem hmem2
          have := hge k hk
          omega
        · intro x hx hxr
          have : x = r := by omega
          exact this ▸ hmem
    · rw [if_neg heq]
      have hpre2 : ∀ j, 0 < j → j < E.length → r < E.getD j 0 := by
        rcases hpre with h | h
        · exact absurd h heq
        · exact h
      by_cases hgt : r > E.getD 0 0
      · rw [if_pos hgt]
        refine ⟨r, rfl, Or.inl ⟨le_rfl, ?_, fun x hx hxr => by omega⟩⟩
        intro hmem
        obtain ⟨k, hk, hkr⟩ := exists_getD_eq_of_mem hmem
        rcases Nat.eq_zero_or_pos k with rfl | hkpos
        · omega
        · have := hpre2 k hkpos hk
          omega
      · rw [if_neg hgt, exploreLowerSphereLoop_exit _ _ _ (by omega)]
        refine ⟨r, rfl, Or.inl ⟨le_rfl, ?_, fun x hx hxr => by omega⟩⟩
        intro hmem
        obtain ⟨k, hk, hkr⟩ := exists_getD_eq_of_mem hmem
        have := hge k hk
        omega
  | succ n ih =>
    intro fuel r hf hi hpre
    obtain ⟨f, rfl⟩ : ∃ f, fuel = f + 1 := ⟨fuel - 1, by omega⟩
    have hidx : (n + 1 + UINT32 - 1) % UINT32 = n := by
      rw [show n + 1 + UINT32 - 1 = n + UINT32 by omega, Nat.add_mod_right]
      exact Nat.mod_eq_of_lt (by omega)
    unfold exploreLowerSphereLoop
    rw [if_neg (by omega), hidx]
    by_cases heq : r = E.getD (n + 1) 0
    · rw [if_pos heq]
      have hmem : r ∈ E := heq ▸ getD_mem_of_lt hi
      have hrb := hb r hmem
      rcases Nat.eq_zero_or_pos r with h0 | hpos
      · obtain ⟨f', rfl⟩ : ∃ f', f = f' + 1 := ⟨f - 1, by omega⟩
        have hm : (r + UINT32 - 1) % UINT32 = UINT32 - 1 := by subst h0; decide
        rw [hm, exploreLowerSphereLoop_wrapped hb]
        refine ⟨_, rfl, Or.inr ⟨rfl, ?_⟩⟩
        intro x hx
        have : x = r := by omega
        exact this ▸ hmem
      · have hm : (r + UINT32 - 1) % UINT32 = r - 1 := by
          rw [show r + UINT32 - 1 = (r - 1) + UINT32 by omega, Nat.add_mod_right]
          exact Nat.mod_eq_of_lt (by omega)
        rw [hm]
        obtain ⟨v, hv, hcase⟩ := ih f (r - 1) (by omega) (by omega) (Or.inr (by
          intro j hj hjl
          have := getD_le_getD_of_sorted hs (show n + 1 ≤ j by omega) hjl
          omega))
        refine ⟨v, hv, ?_⟩
        rcases hcase with ⟨h1, h2, h3⟩ | ⟨h1, h2⟩
        · refine Or.inl ⟨by omega, h2, ?_⟩
          intro x hx hxr
          rcases Nat.eq_or_lt_of_le hxr with rfl | hlt
          · exact hmem
          · exact h3 x hx (by omega)
        · refine Or.inr ⟨h1, ?_⟩
          intro x hxr
          rcases Nat.eq_or_lt_of_le hxr with rfl | hlt
          · exact hmem
          · exact h2 x (by omega)
    · rw [if_neg heq]
      have hpre2 : ∀ j, n + 1 < j → j < E.length → r < E.getD j 0 := by
        rcases hpre with h | h
        · exact absurd h heq
        · exact h
      by_cases hgt : r > E.getD (n + 1) 0
      · rw [if_pos hgt]
        refine ⟨r, rfl, Or.inl ⟨le_rfl, ?_, fun x hx hxr => by omega⟩⟩
        intro hmem
        obtain ⟨k, hk, hkr⟩ := exists_getD_eq_of_mem hmem
        rcases Nat.lt_or_ge (n + 1) k with hlt | hge
        · have := hpre2 k hlt hk
          omega
        · have := getD_le_getD_of_sorted hs hge hi
          omega
      · rw [if_neg hgt]
        exact ih f r (by omega) (by omega) (Or.inr (by
          intro j hj hjl
          rcases Nat.eq_or_lt_of_le (show n + 1 ≤ j by omega) with h | h
          · rw [← h]; omega
          · exact hpre2 j h hjl))

end iris.util

namespace iris.util

/-- A strictly ascending list below `hi` has at most `hi` elements. -/
theorem length_le_of_strictly_ascending {E : List Nat} {hi : Nat} (hs : E.Pairwise (· < ·))
    (hE : ∀ x ∈ E, x < hi) : E.length ≤ hi := by
  have hnd : E.Nodup := hs.imp (fun h => Nat.ne_of_lt h)
  have hsub : E.toFinset ⊆ Finset.range hi := by
    intro x hx
    exact Finset.mem_range.mpr (hE x (List.mem_toFinset.mp hx))
  have := Finset.card_le_card hsub
  rwa [List.toFinset_card_of_nodup hnd, Finset.card_range] at this

/-- The behaviour of `ensureRandom` on an ascending exclusion list inside `[lo, hi)` and a
candidate inside `[lo, hi)`: the candidate itself, else the nearest free value above, else the
nearest free value below, else the failure "no sample space". -/
theorem ensureRandom_spec {E : List Nat} {r lo hi : Nat} (hs : E.Pairwise (· ≤ ·))
    (hE : ∀ x ∈ E, lo ≤ x ∧ x < hi) (hhi : hi < UINT32) (hlen : E.length < UINT32) :
    (r ∉ E ∧ ensureRandom r E lo hi = Except.ok r) ∨
    (r ∈ E ∧ ∃ v, ensureRandom r E lo hi = Except.ok v ∧ r < v ∧ v < hi ∧ v ∉ E ∧
      ∀ x, r < x → x < v → x ∈ E) ∨
    (r ∈ E ∧ (∀ x, r < x → x < hi → x ∈ E) ∧
      ∃ v, ensureRandom r E lo hi = Except.ok v ∧ lo ≤ v ∧ v < r ∧ v ∉ E ∧
        ∀ x, v < x → x < r → x ∈ E) ∨
    ((∀ x, lo ≤ x → x < hi → x ∈ E) ∧
      ensureRandom r E lo hi = Except.error Error.noSampleSpace) := by
  have hb : ∀ x ∈ E, x + 1 < UINT32 := fun x hx => by have := (hE x hx).2; omega
  by_cases hmem : r ∈ E
  · right
    have hlt := binarySearch_lt_of_mem hs hmem
    obtain ⟨-, hsr, hbelow⟩ := binarySearch_lt hlt
    have hmod : binarySearch E r % UINT32 = binarySearch E r := Nat.mod_eq_of_lt (by omega)
    have hpos : 0 < E.length := by omega
    have hlastmem : E.getD (E.length - 1) 0 ∈ E := getD_mem_of_lt (by omega)
    have hfirstmem : E.getD 0 0 ∈ E := getD_mem_of_lt hpos
    have hrlast : r ≤ E.getD (E.length - 1) 0 := by
      have := getD_le_getD_of_sorted hs (show binarySearch E r ≤ E.length - 1 by omega)
        (by omega)
      omega
    obtain ⟨vu, hvu, hrvu, hvunot, hvufill⟩ :=
      exploreUpperSphereLoop_spec hs hb hlen (E.length + 1) r (binarySearch E r) (by omega)
        (fun j hj _ => hbelow j hj)
    have hrvu2 : r < vu := by
      rcases Nat.eq_or_lt_of_le hrvu with h | h
      · exact absurd (h ▸ hmem) hvunot
      · exact h
    have hupper : ensureRandom r E lo hi =
        if vu < E.getD (E.length - 1) 0 ∨ (vu > E.getD (E.length - 1) 0 ∧ vu < hi) then
          Except.ok vu
        else
          match exploreLowerSphere r (binarySearch E r) E with
          | none => Except.error Error.loopBound
          | some rValue =>
            if (rValue > E.getD 0 0 ∧ rValue < E.getD (E.length - 1) 0) ∨
                (rValue < E.getD 0 0 ∧ rValue ≥ lo) then
              Except.ok rValue
            else Except.error Error.noSampleSpace := by
      unfold ensureRandom
      simp only [hmod]
      rw [if_neg (by omega)]
      unfold exploreUpperSphere
      rw [hvu]
    by_cases hc : vu < E.getD (E.length - 1) 0 ∨ (vu > E.getD (E.length - 1) 0 ∧ vu < hi)
    · left
      rw [hupper, if_pos hc]
      refine ⟨hmem, vu, rfl, hrvu2, ?_, hvunot, fun x hx hxv => hvufill x (by omega) hxv⟩
      rcases hc with h | h
      · have := (hE _ hlastmem).2
        omega
      · exact h.2
    · right
      have hvuhi : hi ≤ vu := by
        by_contra hcon
        apply hc
        rcases Nat.lt_trichotomy vu (E.getD (E.length - 1) 0) with h | h | h
        · exact Or.inl h
        · exact absurd (h ▸ hlastmem) hvunot
        · exact Or.inr ⟨h, by omega⟩
      have hfillup : ∀ x, r < x → x < hi → x ∈ E := fun x hx hxhi =>
        hvufill x (by omega) (by omega)
      obtain ⟨vl, hvl, hcase⟩ :=
        exploreLowerSphereLoop_spec hs hb hlen (binarySearch E r) (binarySearch E r + 2) r
          (by omega) hlt (Or.inl hsr.symm)
      have hlower : ensureRandom r E lo hi =
          if (vl > E.getD 0 0 ∧ vl < E.getD (E.length - 1) 0) ∨
              (vl < E.getD 0 0 ∧ vl ≥ lo) then
            Except.ok vl
          else Except.error Error.noSampleSpace := by
        rw [hupper, if_neg hc]
        unfold exploreLowerSphere
        rw [hvl]
      rcases hcase with ⟨hvlr, hvlnot, hvlfill⟩ | ⟨hw, hall⟩
      · have hvlr2 : vl < r := by
          rcases Nat.eq_or_lt_of_le hvlr with h | h
          · exact absurd (h ▸ hmem) (h ▸ hvlnot)
          · exact h
        by_cases hc2 : (vl > E.getD 0 0 ∧ vl < E.getD (E.length - 1) 0) ∨
            (vl < E.getD 0 0 ∧ vl ≥ lo)
        · left
          rw [hlower, if_pos hc2]
          refine ⟨hmem, hfillup, vl, rfl, ?_, hvlr2, hvlnot,
            fun x hx hxr => hvlfill x hx (by omega)⟩
          rcases hc2 with h | h
          · have := (hE _ hfirstmem).1
            omega
          · exact h.2
        · right
          rw [hlower, if_neg hc2]
          refine ⟨?_, rfl⟩
          have hvllo : vl < lo := by
            by_contra hcon
            apply hc2
            rcases Nat.lt_trichotomy vl (E.getD 0 0) with h | h | h
            · exact Or.inr ⟨h, by omega⟩
            · exact absurd (h ▸ hfirstmem) hvlnot
            · exact Or.inl ⟨h, by omega⟩
          intro x hxlo hxhi
          rcases Nat.lt_or_ge r x with h | h
          · exact hfillup x h hxhi
          · exact hvlfill x (by omega) h
      · right
        have h1 := (hE _ hlastmem).2
        have h2 := (hE _ hfirstmem).2
        rw [hlower, if_neg (by omega)]
        refine ⟨?_, rfl⟩
        intro x hxlo hxhi
        rcases Nat.lt_or_ge r x with h | h
        · exact hfillup x h hxhi
        · exact hall x h
  · left
    refine ⟨hmem, ?_⟩
    unfold ensureRandom
    simp only
    rw [if_pos (by rw [binarySearch_eq_length_of_not_mem hmem])]

/-- The two outcomes of `ensureRandom` on an ascending exclusion list inside `[lo, hi)` and a
candidate inside `[lo, hi)`: a free value of `[lo, hi)`, or "no sample space" when no value is
free. -/
theorem ensureRandom_cases {E : List Nat} {r lo hi : Nat} (hs : E.Pairwise (· ≤ ·))
    (hE : ∀ x ∈ E, lo ≤ x ∧ x < hi) (hr : lo ≤ r ∧ r < hi) (hhi : hi < UINT32)
    (hlen : E.length < UINT32) :
    (∃ v, ensureRandom r E lo hi = Except.ok v ∧ v ∉ E ∧ lo ≤ v ∧ v < hi) ∨
    (ensureRandom r E lo hi = Except.error Error.noSampleSpace ∧
      ∀ x, lo ≤ x → x < hi → x ∈ E) := by
  rcases ensureRandom_spec hs hE hhi hlen with
    ⟨hn, h⟩ | ⟨hm, v, h, h1, h2, h3, -⟩ | ⟨hm, -, v, h, h1, h2, h3, -⟩ | ⟨hall, h⟩
  · exact Or.inl ⟨r, h, hn, hr.1, hr.2⟩
  · exact Or.inl ⟨v, h, h3, by have := (hE r hm).1; omega, h2⟩
  · exact Or.inl ⟨v, h, h3, h1, by have := (hE r hm).2; omega⟩
  · exact Or.inr ⟨h, hall⟩

end iris.util

/-! ## Claims about `util::ensureRandom` -/

namespace iris.util

/-- C1 (as stated, refuted): the repository's own test case. With the ascending exclusion list
`{0, 2, 3, 6, 8, 11, 12, 23, 45, 76, 77, 78}`, bounds `[0, 10)` and candidate `76`,
`ensureRandom` returns `75`, which is not below the upper limit `10`. -/
theorem ensureRandom_returns_out_of_bounds :
    List.Pairwise (· ≤ ·) [0, 2, 3, 6, 8, 11, 12, 23, 45, 76, 77, 78] ∧
    ensureRandom 76 [0, 2, 3, 6, 8, 11, 12, 23, 45, 76, 77, 78] 0 10 = Except.ok 75 ∧
    ¬ (0 ≤ 75 ∧ 75 < 10) :=
  ⟨by decide, rfl, by decide⟩

/-- C1 (amended): for every ascending exclusion list `E` with fewer than `2^32` elements, all
of them inside `[lo, hi)`, and every candidate `r` inside `[lo, hi)`, a value `v` returned by
`ensureRandom r E lo hi` is not an element of `E` and satisfies `lo ≤ v < hi`; and the call
either returns a value or throws "no sample space". -/
theorem ensureRandom_sound {E : List Nat} {r lo hi : Nat} (hs : E.Pairwise (· ≤ ·))
    (hE : ∀ x ∈ E, lo ≤ x ∧ x < hi) (hr : lo ≤ r ∧ r < hi) (hhi : hi < UINT32)
    (hlen : E.length < UINT32) :
    (∀ v, ensureRandom r E lo hi = Except.ok v → v ∉ E ∧ lo ≤ v ∧ v < hi) ∧
    ((∃ v, ensureRandom r E lo hi = Except.ok v) ∨
      ensureRandom r E lo hi = Except.error Error.noSampleSpace) := by
  rcases ensureRandom_cases hs hE hr hhi hlen with ⟨v, h, h1, h2, h3⟩ | ⟨h, -⟩
  · refine ⟨?_, Or.inl ⟨v, h⟩⟩
    intro w hw
    rw [h] at hw
    cases hw
    exact ⟨h1, h2, h3⟩
  · refine ⟨?_, Or.inr h⟩
    intro w hw
    rw [h] at hw
    cases hw

/-- Witness for C1 (amended): exclusion list `{0, 2, 3}`, bounds `[0, 5)`, candidate `2`. -/
theorem ensureRandom_sound_witness :
    List.Pairwise (· ≤ ·) [0, 2, 3] ∧ (∀ x ∈ [0, 2, 3], 0 ≤ x ∧ x < 5) ∧ (0 ≤ 2 ∧ 2 < 5) ∧
    ((∀ v, ensureRandom 2 [0, 2, 3] 0 5 = Except.ok v → v ∉ [0, 2, 3] ∧ 0 ≤ v ∧ v < 5) ∧
      ((∃ v, ensureRandom 2 [0, 2, 3] 0 5 = Except.ok v) ∨
        ensureRandom 2 [0, 2, 3] 0 5 = Except.error Error.noSampleSpace)) :=
  ⟨by decide, by decide, by decide,
    ensureRandom_sound (by decide) (by decide) (by decide) (by decide) (by decide)⟩

/-- C2: for every strictly ascending exclusion list `E` inside `[lo, hi)` and every candidate
`r` inside `[lo, hi)` (32-bit values), `ensureRandom r E lo hi` throws "no sample space" if and
only if `E` contains every integer of `[lo, hi)`; otherwise it returns a value. -/
theorem ensureRandom_fails_iff_exhausted {E : List Nat} {r lo hi : Nat}
    (hs : E.Pairwise (· < ·)) (hE : ∀ x ∈ E, lo ≤ x ∧ x < hi) (hr : lo ≤ r ∧ r < hi)
    (hhi : hi < UINT32) :
    (ensureRandom r E lo hi = Except.error Error.noSampleSpace ↔
      ∀ x, lo ≤ x → x < hi → x ∈ E) ∧
    ((∃ x, lo ≤ x ∧ x < hi ∧ x ∉ E) → ∃ v, ensureRandom r E lo hi = Except.ok v) := by
  have hlen : E.length < UINT32 :=
    lt_of_le_of_lt (length_le_of_strictly_ascending hs (fun x hx => (hE x hx).2)) hhi
  have hs2 : E.Pairwise (· ≤ ·) := hs.imp (fun h => Nat.le_of_lt h)
  rcases ensureRandom_cases hs2 hE hr hhi hlen with ⟨v, h, h1, h2, h3⟩ | ⟨h, hall⟩
  · refine ⟨⟨?_, ?_⟩, fun _ => ⟨v, h⟩⟩
    · intro herr
      rw [h] at herr
      cases herr
    · intro hcov
      exact absurd (hcov v h2 h3) h1
  · refine ⟨⟨fun _ => hall, fun _ => h⟩, ?_⟩
    rintro ⟨x, hx1, hx2, hx3⟩
    exact absurd (hall x hx1 hx2) hx3

/-- Witness for C2: exclusion list `{1, 2}`, bounds `[0, 3)`, candidate `1`. -/
theorem ensureRandom_fails_iff_exhausted_witness :
    List.Pairwise (· < ·) [1, 2] ∧ (∀ x ∈ [1, 2], 0 ≤ x ∧ x < 3) ∧ (0 ≤ 1 ∧ 1 < 3) ∧
    ((ensureRandom 1 [1, 2] 0 3 = Except.error Error.noSampleSpace ↔
        ∀ x, 0 ≤ x → x < 3 → x ∈ [1, 2]) ∧
      ((∃ x, 0 ≤ x ∧ x < 3 ∧ x ∉ [1, 2]) → ∃ v, ensureRandom 1 [1, 2] 0 3 = Except.ok v)) :=
  ⟨by decide, by decide, by decide,
    ensureRandom_fails_iff_exhausted (by decide) (by decide) (by decide) (by decide)⟩

/-- C3: for every strictly ascending `E` inside `[lo, hi)` and every `r` inside `[lo, hi)`
(32-bit values): if `r` is not in `E`, `ensureRandom` returns `r`; if `r` is in `E` and some
integer of `(r, hi)` is not in `E`, it returns the smallest such integer; otherwise, if some
integer of `[lo, r)` is not in `E`, it returns the largest such integer. -/
theorem ensureRandom_nearest_free {E : List Nat} {r lo hi : Nat}
    (hs : E.Pairwise (· < ·)) (hE : ∀ x ∈ E, lo ≤ x ∧ x < hi) (hr : lo ≤ r ∧ r < hi)
    (hhi : hi < UINT32) :
    (r ∉ E → ensureRandom r E lo hi = Except.ok r) ∧
    (r ∈ E → (∃ x, r < x ∧ x < hi ∧ x ∉ E) →
      ∃ v, ensureRandom r E lo hi = Except.ok v ∧ (r < v ∧ v < hi ∧ v ∉ E) ∧
        ∀ x, r < x → x < hi → x ∉ E → v ≤ x) ∧
    (r ∈ E → (¬ ∃ x, r < x ∧ x < hi ∧ x ∉ E) → (∃ x, lo ≤ x ∧ x < r ∧ x ∉ E) →
      ∃ v, ensureRandom r E lo hi = Except.ok v ∧ (lo ≤ v ∧ v < r ∧ v ∉ E) ∧
        ∀ x, lo ≤ x → x < r → x ∉ E → x ≤ v) := by
  have hlen : E.length < UINT32 :=
    lt_of_le_of_lt (length_le_of_strictly_ascending hs (fun x hx => (hE x hx).2)) hhi
  have hs2 : E.Pairwise (· ≤ ·) := hs.imp (fun h => Nat.le_of_lt h)
  refine ⟨?_, ?_, ?_⟩
  · intro hn
    rcases ensureRandom_spec (r := r) hs2 hE hhi hlen with
      ⟨-, h⟩ | ⟨hm, -⟩ | ⟨hm, -⟩ | ⟨hall, -⟩
    · exact h
    · exact absurd hm hn
    · exact absurd hm hn
    · exact absurd (hall r hr.1 hr.2) hn
  · rintro hm ⟨y, hy1, hy2, hy3⟩
    rcases ensureRandom_spec (r := r) hs2 hE hhi hlen with
      ⟨hn, -⟩ | ⟨-, v, h, h1, h2, h3, h4⟩ | ⟨-, hfill, -⟩ | ⟨hall, -⟩
    · exact absurd hm hn
    · refine ⟨v, h, ⟨h1, h2, h3⟩, ?_⟩
      intro x hx1 _ hx3
      by_contra hcon
      exact hx3 (h4 x hx1 (by omega))
    · exact absurd (hfill y hy1 hy2) hy3
    · exact absurd (hall y (by omega) hy2) hy3
  · rintro hm hnone ⟨y, hy1, hy2, hy3⟩
    rcases ensureRandom_spec (r := r) hs2 hE hhi hlen with
      ⟨hn, -⟩ | ⟨-, v, -, h1, h2, h3, -⟩ | ⟨-, -, v, h, h1, h2, h3, h4⟩ | ⟨hall, -⟩
    · exact absurd hm hn
    · exact absurd ⟨v, h1, h2, h3⟩ hnone
    · refine ⟨v, h, ⟨h1, h2, h3⟩, ?_⟩
      intro x _ hx2 hx3
      by_contra hcon
      exact hx3 (h4 x (by omega) hx2)
    · exact absurd (hall y hy1 (by omega)) hy3

/-- Witness for C3: exclusion list `{0, 2, 3}`, bounds `[0, 5)`, candidate `2`. -/
theorem ensureRandom_nearest_free_witness :
    List.Pairwise (· < ·) [0, 2, 3] ∧ (∀ x ∈ [0, 2, 3], 0 ≤ x ∧ x < 5) ∧ (0 ≤ 2 ∧ 2 < 5) ∧
    ((2 ∉ [0, 2, 3] → ensureRandom 2 [0, 2, 3] 0 5 = Except.ok 2) ∧
    (2 ∈ [0, 2, 3] → (∃ x, 2 < x ∧ x < 5 ∧ x ∉ [0, 2, 3]) →
      ∃ v, ensureRandom 2 [0, 2, 3] 0 5 = Except.ok v ∧ (2 < v ∧ v < 5 ∧ v ∉ [0, 2, 3]) ∧
        ∀ x, 2 < x → x < 5 → x ∉ [0, 2, 3] → v ≤ x) ∧
    (2 ∈ [0, 2, 3] → (¬ ∃ x, 2 < x ∧ x < 5 ∧ x ∉ [0, 2, 3]) →
      (∃ x, 0 ≤ x ∧ x < 2 ∧ x ∉ [0, 2, 3]) →
      ∃ v, ensureRandom 2 [0, 2, 3] 0 5 = Except.ok v ∧ (0 ≤ v ∧ v < 2 ∧ v ∉ [0, 2, 3]) ∧
        ∀ x, 0 ≤ x → x < 2 → x ∉ [0, 2, 3] → x ≤ v)) :=
  ⟨by decide, by decide, by decide,
    ensureRandom_nearest_free (by decide) (by decide) (by decide) (by decide)⟩

end iris.util

/-! ## Facts about sorted insertion -/

namespace iris.util

theorem sortedInsert_eq_append {l : List Nat} {v : Nat} (h : ∀ x ∈ l, x < v) :
    sortedInsert l v = l ++ [v] := by
  have hlb : lowerBound l v = l.length := by
    unfold lowerBound
    rw [List.findIdx_eq_length]
    intro x hx
    simpa using h x hx
  unfold sortedInsert
  rw [hlb, List.take_length, List.drop_length]

theorem mem_sortedInsert {l : List Nat} {v x : Nat} :
    x ∈ sortedInsert l v ↔ x = v ∨ x ∈ l := by
  unfold sortedInsert
  rw [List.mem_append, List.mem_cons]
  constructor
  · rintro (h | h | h)
    · exact Or.inr (List.mem_of_mem_take h)
    · exact Or.inl h
    · exact Or.inr (List.mem_of_mem_drop h)
  · rintro (h | h)
    · exact Or.inr (Or.inl h)
    · rw [← List.take_append_drop (lowerBound l v) l, List.mem_append] at h
      rcases h with h | h
      · exact Or.inl h
      · exact Or.inr (Or.inr h)

theorem length_sortedInsert (l : List Nat) (v : Nat) :
    (sortedInsert l v).length = l.length + 1 := by
  unfold sortedInsert
  have := lowerBound_le_length l v
  simp only [List.length_append, List.length_cons, List.length_take, List.length_drop]
  omega

theorem lt_of_mem_take_lowerBound {l : List Nat} {v x : Nat}
    (h : x ∈ l.take (lowerBound l v)) : x < v := by
  obtain ⟨i, hi, hx⟩ := List.mem_take_iff_getElem.mp h
  have hi2 : i < lowerBound l v ∧ i < l.length := by
    rw [Nat.lt_min] at hi
    exact hi
  have := getD_lt_of_lt_lowerBound (E := l) (v := v) (j := i) hi2.1
  rw [List.getD_eq_getElem _ _ hi2.2] at this
  omega

theorem le_of_mem_drop_lowerBound {l : List Nat} {v x : Nat} (hs : l.Pairwise (· ≤ ·))
    (h : x ∈ l.drop (lowerBound l v)) : v ≤ x := by
  obtain ⟨i, hi, hx⟩ := List.mem_drop_iff_getElem.mp h
  have hlt : lowerBound l v < l.length := by omega
  have h1 := le_getD_lowerBound hlt
  have h2 := getD_le_getD_of_sorted hs (show lowerBound l v ≤ lowerBound l v + i by omega)
    (by omega)
  have h3 : l.getD (lowerBound l v + i) 0 = l[lowerBound l v + i] :=
    List.getD_eq_getElem _ _ (by omega)
  rw [h3, hx] at h2
  omega

theorem pairwise_sortedInsert {l : List Nat} {v : Nat} (hs : l.Pairwise (· < ·))
    (hv : v ∉ l) : (sortedInsert l v).Pairwise (· < ·) := by
  have hs2 : l.Pairwise (· ≤ ·) := hs.imp (fun h => Nat.le_of_lt h)
  have hdrop : ∀ x ∈ l.drop (lowerBound l v), v < x := by
    intro x hx
    have h1 := le_of_mem_drop_lowerBound hs2 hx
    have h2 : x ≠ v := fun h => hv (h ▸ List.mem_of_mem_drop hx)
    omega
  unfold sortedInsert
  rw [List.pairwise_append]
  refine ⟨hs.sublist (List.take_sublist _ _), ?_, ?_⟩
  · rw [List.pairwise_cons]
    exact ⟨hdrop, hs.sublist (List.drop_sublist _ _)⟩
  · intro a ha b hb
    have h1 := lt_of_mem_take_lowerBound ha
    rcases List.mem_cons.mp hb with h | h
    · omega
    · have := hdrop b h
      omega

/-- A strictly ascending list inside `[a, b)` that misses a value of `[a, b)` has fewer than
`b - a` elements. -/
theorem length_lt_of_missing {E : List Nat} {a b y : Nat} (hs : E.Pairwise (· < ·))
    (hE : ∀ x ∈ E, a ≤ x ∧ x < b) (hy : a ≤ y ∧ y < b) (hny : y ∉ E) :
    E.length + 1 ≤ b - a := by
  have hnd : E.Nodup := hs.imp (fun h => Nat.ne_of_lt h)
  have hsub : E.toFinset ⊆ (Finset.Ico a b).erase y := by
    intro x hx
    have hx2 := List.mem_toFinset.mp hx
    rw [Finset.mem_erase, Finset.mem_Ico]
    exact ⟨fun h => hny (h ▸ hx2), hE x hx2⟩
  have h1 := Finset.card_le_card hsub
  rw [List.toFinset_card_of_nodup hnd,
    Finset.card_erase_of_mem (Finset.mem_Ico.mpr hy), Nat.card_Ico] at h1
  omega

/-- A strictly ascending list that contains every value below `N` has at least `N`
elements. -/
theorem le_length_of_covering {E : List Nat} {N : Nat} (h : ∀ x, x < N → x ∈ E) :
    N ≤ E.length := by
  have hsub : Finset.range N ⊆ E.toFinset := by
    intro x hx
    exact List.mem_toFinset.mpr (h x (Finset.mem_range.mp hx))
  have h1 := Finset.card_le_card hsub
  rw [Finset.card_range] at h1
  exact le_trans h1 (List.toFinset_card_le E)

end iris.util

/-! ## Facts about the network of an agent -/

namespace iris

theorem NetworkOk_length_le {N j : Nat} {network : List Nat} (h : NetworkOk N j network)
    (hj : j < N) : network.length ≤ N - 1 := by
  have := util.length_lt_of_missing (a := 0) (b := N) (y := j) h.1
    (fun x hx => ⟨Nat.zero_le x, h.2.1 x hx⟩) ⟨Nat.zero_le j, hj⟩ h.2.2
  omega

theorem NetworkOk_sortedInsert {N j v : Nat} {network : List Nat} (h : NetworkOk N j network)
    (hv : v ∉ network) (hvN : v < N) (hvj : v ≠ j) :
    NetworkOk N j (util.sortedInsert network v) := by
  refine ⟨util.pairwise_sortedInsert h.1 hv, ?_, ?_⟩
  · intro x hx
    rcases util.mem_sortedInsert.mp hx with rfl | hx
    · exact hvN
    · exact h.2.1 x hx
  · intro hj
    rcases util.mem_sortedInsert.mp hj with hj | hj
    · exact hvj hj.symm
    · exact h.2.2 hj

namespace Agent

theorem getFamilyConnections_eq {agent : Agent} (h1 : 1 ≤ agent.m_familySize)
    (h2 : agent.m_familySize < UINT32) :
    agent.getFamilyConnections = agent.m_familySize - 1 := by
  unfold getFamilyConnections
  rw [show agent.m_familySize + UINT32 - 1 = (agent.m_familySize - 1) + UINT32 by omega,
    Nat.add_mod_right]
  exact Nat.mod_eq_of_lt (by omega)

theorem connectionBound_lt (outConnections familySize totalAgents : Nat) :
    connectionBound outConnections familySize totalAgents < UINT32 := by
  unfold connectionBound
  split_ifs
  · exact Nat.mod_lt _ (by decide)
  · exact Nat.mod_lt _ (by decide)

theorem connectionBound_le (outConnections familySize totalAgents : Nat)
    (hN1 : 1 ≤ totalAgents) (hN2 : totalAgents < UINT32) :
    connectionBound outConnections familySize totalAgents ≤
      min (familySize + outConnections) (totalAgents - 1) := by
  have hm : (totalAgents + UINT32 - 1) % UINT32 = totalAgents - 1 := by
    rw [show totalAgents + UINT32 - 1 = (totalAgents - 1) + UINT32 by omega, Nat.add_mod_right]
    exact Nat.mod_eq_of_lt (by omega)
  have hle : (outConnections + familySize) % UINT32 ≤ outConnections + familySize :=
    Nat.mod_le _ _
  unfold connectionBound
  rw [hm]
  split_ifs with h
  · exact le_min (by omega) le_rfl
  · exact le_min (by omega) (by omega)

theorem connectionBound_eq {outConnections familySize totalAgents : Nat}
    (hN1 : 1 ≤ totalAgents) (hN2 : totalAgents < UINT32)
    (h : outConnections + familySize < UINT32) :
    connectionBound outConnections familySize totalAgents =
      min (familySize + outConnections) (totalAgents - 1) := by
  have hm : (totalAgents + UINT32 - 1) % UINT32 = totalAgents - 1 := by
    rw [show totalAgents + UINT32 - 1 = (totalAgents - 1) + UINT32 by omega, Nat.add_mod_right]
    exact Nat.mod_eq_of_lt (by omega)
  unfold connectionBound
  rw [hm, Nat.mod_eq_of_lt h]
  split_ifs with h2
  · rw [Nat.min_def]; split_ifs <;> omega
  · rw [Nat.min_def]; split_ifs <;> omega

theorem isNetworkFull_of_empty {agent : Agent} (outConnections totalAgents : Nat)
    (h : agent.m_network = []) : agent.isNetworkFull outConnections totalAgents = true := by
  have hb := connectionBound_lt outConnections agent.getFamilyConnections totalAgents
  have hU : UINT32 < SIZE_T := by decide
  unfold isNetworkFull
  simp only [h, List.length_nil, Nat.zero_mod, Nat.sub_zero, Nat.add_mod_right,
    decide_eq_true_eq]
  right
  rw [Nat.mod_eq_of_lt (by omega)]

theorem length_lt_of_not_isNetworkFull {agent : Agent} {outConnections totalAgents : Nat}
    (hlen : agent.m_network.length < SIZE_T)
    (h : agent.isNetworkFull outConnections totalAgents = false) :
    agent.m_network.length + 1 ≤
      connectionBound outConnections agent.getFamilyConnections totalAgents := by
  have hb := connectionBound_lt outConnections agent.getFamilyConnections totalAgents
  have hU : UINT32 < SIZE_T := by decide
  unfold isNetworkFull at h
  simp only [decide_eq_false_iff_not, not_or, not_le] at h
  rw [Nat.mod_eq_of_lt hlen] at h
  obtain ⟨h1, h2⟩ := h
  by_contra hcon
  rcases Nat.lt_or_ge
    (connectionBound outConnections agent.getFamilyConnections totalAgents)
    agent.m_network.length with hlt | hge
  · rw [Nat.mod_eq_of_lt (by omega)] at h2
    omega
  · have heq : agent.m_network.length =
        connectionBound outConnections agent.getFamilyConnections totalAgents := by omega
    apply h1
    rw [heq, show connectionBound outConnections agent.getFamilyConnections totalAgents +
      SIZE_T - connectionBound outConnections agent.getFamilyConnections totalAgents = SIZE_T
      by omega]
    exact Nat.mod_self _

end Agent

end iris

/-! ## Facts about the random source -/

namespace iris.MersenneTwister

theorem uniformInt_le (a b : Nat) (random : MersenneTwister) (h : a ≤ b) :
    (random.uniformInt a b).1 ≤ b := by
  unfold uniformInt
  have := Nat.mod_lt (random.tape random.pos) (show b - a + 1 > 0 by omega)
  simp only
  omega

theorem uniformReal_lt_one (random : MersenneTwister) : random.uniformReal.1 < 1 := by
  unfold uniformReal
  simp only
  rw [div_lt_one (by norm_num)]
  have := Nat.mod_lt (random.tape random.pos) (show 9007199254740992 > 0 by norm_num)
  exact_mod_cast this

theorem uniformReal_nonneg (random : MersenneTwister) : 0 ≤ random.uniformReal.1 := by
  unfold uniformReal
  simp only
  positivity

end iris.MersenneTwister

/-! ## Facts about family wiring -/

namespace iris.gen

theorem wireFamilyUnit_foldl (id : Nat) :
    ∀ (L : List Nat) (a : Agent), L.Pairwise (· < ·) →
      (∀ x ∈ a.m_network, ∀ y ∈ L, x < y) →
      L.foldl (fun a i => if i = id then a else a.addConnection i) a =
        { a with m_network := a.m_network ++ L.filter (fun i => decide (i ≠ id)) } := by
  intro L
  induction L with
  | nil => intro a _ _; simp
  | cons y L ih =>
    intro a hL ha
    rw [List.pairwise_cons] at hL
    rw [List.foldl_cons]
    by_cases hy : y = id
    · rw [if_pos hy, ih a hL.2 (fun x hx z hz => ha x hx z (List.mem_cons_of_mem _ hz))]
      rw [List.filter_cons_of_neg (by simpa using hy)]
    · rw [if_neg hy]
      have happ : util.sortedInsert a.m_network y = a.m_network ++ [y] :=
        util.sortedInsert_eq_append (fun x hx => ha x hx y (List.mem_cons_self _ _))
      rw [ih (a.addConnection y) hL.2 (by
        intro x hx z hz
        unfold Agent.addConnection at hx
        simp only [happ, List.mem_append, List.mem_singleton] at hx
        rcases hx with hx | rfl
        · exact ha x hx z (List.mem_cons_of_mem _ hz)
        · exact hL.1 z hz)]
      rw [List.filter_cons_of_pos (by simpa using hy)]
      unfold Agent.addConnection
      simp only [happ, List.append_assoc, List.singleton_append]

theorem wireFamilyUnit_eq (agent : Agent) (unit : FamilyUnit) (h : agent.m_network = []) :
    wireFamilyUnit agent unit =
      { agent with m_network :=
          (List.range' unit.1 (unit.2 - unit.1)).filter (fun i => decide (i ≠ agent.m_uid)) } := by
  unfold wireFamilyUnit
  simp only [Agent.getUId]
  rw [wireFamilyUnit_foldl _ _ _ (List.pairwise_lt_range' _ _) (by simp [h])]
  simp [h]

end iris.gen

/-! ## The loop of `wireOutGroup` -/

namespace iris

open gen

theorem OutGroupPost_mono {c : Bool} {N out id len fs n len' n' : Nat}
    {outcome : Except Error ((Nat → Agent) × MersenneTwister)}
    (h : OutGroupPost c N out id len' fs n' outcome) (hle : len' + n' ≤ len + n) :
    OutGroupPost c N out id len fs n outcome := by
  unfold OutGroupPost at h ⊢
  cases outcome with
  | error e =>
    simp only at h ⊢
    exact ⟨h.1, h.2.1, by omega⟩
  | ok res =>
    simp only at h ⊢
    exact ⟨h.1, h.2.1, by omega⟩

theorem wireOutGroupLoop_spec (c : Bool) {N out id : Nat} (cp rp : ℚ) (hid : id < N)
    (hN : N < UINT32) :
    ∀ (n : Nat) (agents : Nat → Agent) (network : List Nat) (random : MersenneTwister),
      OutGroupInv N out id agents network →
      OutGroupPost c N out id (agents id).m_network.length (agents id).m_familySize n
        (wireOutGroupLoop c id N out cp rp n agents network random) := by
  intro n
  induction n with
  | zero =>
    intro agents network random hinv
    unfold wireOutGroupLoop OutGroupPost
    exact ⟨⟨network, hinv⟩, rfl, Nat.le_add_right _ _⟩
  | succ n ih =>
    intro agents network random hinv
    obtain ⟨hall, hnet, hpw, hmem, hlen⟩ := hinv
    have hinv : OutGroupInv N out id agents network := ⟨hall, hnet, hpw, hmem, hlen⟩
    rw [wireOutGroupLoop]
    simp only
    by_cases hsc : random.uniformReal.1 > cp
    · rw [if_pos hsc]
      exact OutGroupPost_mono (ih agents network _ hinv) (by omega)
    · -- a connection is attempted
      rw [if_neg hsc]
      have hNm : (N + UINT32 - 1) % UINT32 = N - 1 := by
        rw [show N + UINT32 - 1 = (N - 1) + UINT32 by omega, Nat.add_mod_right]
        exact Nat.mod_eq_of_lt (by omega)
      rw [hNm]
      have hr : (random.uniformReal.2.uniformInt 0 (N - 1)).1 ≤ N - 1 :=
        MersenneTwister.uniformInt_le 0 (N - 1) _ (Nat.zero_le _)
      have hE : ∀ x ∈ network, 0 ≤ x ∧ x < N := by
        intro x hx
        refine ⟨Nat.zero_le x, ?_⟩
        rcases (hmem x).mp hx with rfl | hx
        · exact hid
        · exact hnet.2.1 x hx
      have hlenU : network.length < UINT32 :=
        lt_of_le_of_lt (util.length_le_of_strictly_ascending hpw (fun x hx => (hE x hx).2)) hN
      have hcases := util.ensureRandom_cases
        (r := (random.uniformReal.2.uniformInt 0 (N - 1)).1)
        (hpw.imp (fun h => Nat.le_of_lt h)) hE ⟨Nat.zero_le _, by omega⟩ hN hlenU
      cases hER : util.ensureRandom (random.uniformReal.2.uniformInt 0 (N - 1)).1 network 0 N with
      | error e =>
        have he : e = Error.noSampleSpace ∧ ∀ x, 0 ≤ x → x < N → x ∈ network := by
          rcases hcases with ⟨v, hv, -⟩ | ⟨h, hcov⟩
          · rw [hER] at hv; cases hv
          · rw [hER] at h; cases h; exact ⟨rfl, hcov⟩
        obtain ⟨he, hcov⟩ := he
        subst he
        simp only
        cases c with
        | true =>
          simp only [if_true]
          exact OutGroupPost_mono (ih agents network _ hinv) (by omega)
        | false =>
          have := util.le_length_of_covering (E := network) (N := N)
            (fun x hx => hcov x (Nat.zero_le x) hx)
          simp only [Bool.false_eq_true, if_false]
          unfold OutGroupPost
          exact ⟨rfl, rfl, by omega⟩
      | ok v =>
        obtain ⟨hvnot, hvN⟩ : v ∉ network ∧ v < N := by
          rcases hcases with ⟨w, hw, h1, -, h3⟩ | ⟨h, -⟩
          · rw [hER] at hw; cases hw; exact ⟨h1, h3⟩
          · rw [hER] at h; cases h
        have hvid : v ≠ id := fun h => hvnot ((hmem v).mpr (Or.inl h))
        have hvnet : v ∉ (agents id).m_network := fun h => hvnot ((hmem v).mpr (Or.inr h))
        simp only
        -- the state after the new edge `id -> v`
        have hupd_id : (Function.update agents id ((agents id).addConnection v)) id =
            (agents id).addConnection v := Function.update_same _ _ _
        have hupd_ne : ∀ j, j ≠ id →
            (Function.update agents id ((agents id).addConnection v)) j = agents j :=
          fun j hj => Function.update_noteq hj _ _
        have hinv1 : OutGroupInv N out id
            (Function.update agents id ((agents id).addConnection v))
            (util.sortedInsert network v) := by
          refine ⟨?_, ?_, util.pairwise_sortedInsert hpw hvnot, ?_, ?_⟩
          · intro j hj
            by_cases hji : j = id
            · subst hji
              rw [hupd_id]
              exact ⟨(hall j hj).1, fun h => absurd h (lt_irrefl _),
                fun h => absurd h (lt_irrefl _)⟩
            · rw [hupd_ne j hji]
              exact hall j hj
          · rw [hupd_id]
            exact NetworkOk_sortedInsert hnet hvnet hvN hvid
          · intro x
            rw [hupd_id, util.mem_sortedInsert, hmem x]
            unfold Agent.addConnection
            simp only [util.mem_sortedInsert]
            exact or_left_comm
          · rw [hupd_id, util.length_sortedInsert, hlen]
            unfold Agent.addConnection
            simp only [util.length_sortedInsert]
        have hfs1 : ((Function.update agents id ((agents id).addConnection v)) id).m_familySize =
            (agents id).m_familySize := by rw [hupd_id]; rfl
        have hlen1 : ((Function.update agents id ((agents id).addConnection v)) id).m_network.length =
            (agents id).m_network.length + 1 := by
          rw [hupd_id]
          unfold Agent.addConnection
          simp only [util.length_sortedInsert]
        split_ifs with hrec
        · -- the edge is reciprocated
          simp only [Bool.and_eq_true, Bool.not_eq_true', decide_eq_true_eq] at hrec
          obtain ⟨⟨-, hfull⟩, hconn⟩ := hrec
          rw [hupd_ne v hvid] at hfull hconn
          have hvlt : v < id := by
            by_contra hcon
            have hem := (hall v hvN).2.1 (by omega)
            rw [Agent.isNetworkFull_of_empty out N hem] at hfull
            cases hfull
          obtain ⟨hvu, -, hvw⟩ := hall v hvN
          obtain ⟨hvok, hvfs1, hvfs2, hvcap⟩ := hvw hvlt
          have hidnot : id ∉ (agents v).m_network := by
            unfold Agent.isConnectedTo at hconn
            simpa using hconn
          have hSZ : (agents v).m_network.length < SIZE_T := by
            have h1 := NetworkOk_length_le hvok hvN
            have h2 : UINT32 < SIZE_T := by decide
            omega
          have hroom := Agent.length_lt_of_not_isNetworkFull hSZ hfull
          have hcb := Agent.connectionBound_le out (agents v).getFamilyConnections N (by omega) hN
          have hinv2 : OutGroupInv N out id
              (Function.update (Function.update agents id ((agents id).addConnection v)) v
                (((Function.update agents id ((agents id).addConnection v)) v).addConnection id))
              (util.sortedInsert network v) := by
            obtain ⟨hall1, hnet1, hpw1, hmem1, hlen1'⟩ := hinv1
            have hid2 : (Function.update (Function.update agents id ((agents id).addConnection v)) v
                (((Function.update agents id ((agents id).addConnection v)) v).addConnection id)) id =
                (Function.update agents id ((agents id).addConnection v)) id :=
              Function.update_noteq (Ne.symm hvid) _ _
            refine ⟨?_, ?_, hpw1, ?_, ?_⟩
            · intro j hj
              by_cases hjv : j = v
              · subst hjv
                rw [Function.update_same, hupd_ne j hvid]
                refine ⟨hvu, fun h => absurd h (by omega), fun _ => ?_⟩
                refine ⟨NetworkOk_sortedInsert hvok hidnot hid (Ne.symm hvid), hvfs1, hvfs2, ?_⟩
                unfold degreeCap
                unfold degreeCap at hvcap
                show (util.sortedInsert (agents j).m_network id).length ≤ _
                rw [util.length_sortedInsert]
                have : ((agents j).addConnection id).getFamilyConnections =
                    (agents j).getFamilyConnections := rfl
                rw [this]
                omega
              · rw [Function.update_noteq hjv]
                exact hall1 j hj
            · rw [hid2]; exact hnet1
            · intro x; rw [hid2]; exact hmem1 x
            · rw [hid2]; exact hlen1'
          have hid3 : (Function.update (Function.update agents id ((agents id).addConnection v)) v
              (((Function.update agents id ((agents id).addConnection v)) v).addConnection id)) id =
              (Function.update agents id ((agents id).addConnection v)) id :=
            Function.update_noteq (Ne.symm hvid) _ _
          have := ih _ _ (random.uniformReal.2.uniformInt 0 (N - 1)).2.uniformReal.2 hinv2
          rw [hid3, hfs1, hlen1] at this
          exact OutGroupPost_mono this (by omega)
        · have := ih _ _ (random.uniformReal.2.uniformInt 0 (N - 1)).2.uniformReal.2 hinv1
          rw [hfs1, hlen1] at this
          exact OutGroupPost_mono this (by omega)

end iris

/-! ## The stages of `wireGraph` -/

namespace iris

open gen

theorem WiredPost_mono {c : Bool} {N out k fs fs' : Nat}
    {outcome : Except Error ((Nat → Agent) × MersenneTwister)}
    (h : WiredPost c N out k fs' outcome) (hle : fs' ≤ fs) :
    WiredPost c N out k fs outcome := by
  unfold WiredPost at h ⊢
  cases outcome with
  | error e =>
    simp only at h ⊢
    exact ⟨h.1, h.2.1, by omega⟩
  | ok res => exact h

/-- `wireOutGroup` for an agent `id` whose family has just been wired. -/
theorem wireOutGroup_spec (c : Bool) (N out id : Nat) (cp rp : ℚ) (hid : id < N)
    (hN : N < UINT32) (agents : Nat → Agent) (random : MersenneTwister)
    (hall : ∀ j, j < N → (agents j).m_uid = j ∧
      (id < j → (agents j).m_network = []) ∧
      (j < id → WiredAgent N out j (agents j)))
    (hnet : NetworkOk N id (agents id).m_network)
    (hfs1 : 1 ≤ (agents id).m_familySize) (hfs2 : (agents id).m_familySize < UINT32)
    (hlen : (agents id).m_network.length + 1 ≤ (agents id).m_familySize) :
    WiredPost c N out (id + 1) (agents id).m_familySize
      (wireOutGroup c id agents N out cp rp random) := by
  have hfc := Agent.getFamilyConnections_eq hfs1 hfs2
  have hlenN := NetworkOk_length_le hnet hid
  unfold wireOutGroup
  by_cases hout : out = 0
  · rw [if_pos hout]
    show Wired N out (id + 1) agents
    intro j hj
    refine ⟨(hall j hj).1, fun h => (hall j hj).2.1 (by omega), fun h => ?_⟩
    rcases Nat.eq_or_lt_of_le (Nat.lt_succ_iff.mp h) with rfl | hlt
    · refine ⟨hnet, hfs1, hfs2, ?_⟩
      unfold degreeCap
      rw [hfc]
      exact le_min (by omega) hlenN
    · exact (hall j hj).2.2 hlt
  · rw [if_neg hout]
    simp only [Agent.getNetwork]
    have hinv : OutGroupInv N out id agents (util.sortedInsert (agents id).m_network id) :=
      ⟨hall, hnet, util.pairwise_sortedInsert hnet.1 hnet.2.2,
        fun x => util.mem_sortedInsert, util.length_sortedInsert _ _⟩
    have hpost := wireOutGroupLoop_spec c cp rp hid hN
      ((Agent.connectionBound out (agents id).getFamilyConnections N + UINT32 -
        (agents id).m_network.length % UINT32) % UINT32)
      agents _ random hinv
    -- the number of rounds when `outConnections + familyConnections` fits in 32 bits
    have hrounds : out + (agents id).getFamilyConnections < UINT32 →
        (agents id).m_network.length +
          (Agent.connectionBound out (agents id).getFamilyConnections N + UINT32 -
            (agents id).m_network.length % UINT32) % UINT32 =
          min ((agents id).getFamilyConnections + out) (N - 1) := by
      intro hfit
      rw [Agent.connectionBound_eq (by omega) hN hfit, hfc,
        Nat.mod_eq_of_lt (show (agents id).m_network.length < UINT32 by omega)]
      have hle : (agents id).m_network.length ≤ min ((agents id).m_familySize - 1 + out) (N - 1) :=
        le_min (by omega) hlenN
      have hlt : min ((agents id).m_familySize - 1 + out) (N - 1) < UINT32 :=
        lt_of_le_of_lt (min_le_right _ _) (by omega)
      rw [show min ((agents id).m_familySize - 1 + out) (N - 1) + UINT32 -
          (agents id).m_network.length =
          (min ((agents id).m_familySize - 1 + out) (N - 1) - (agents id).m_network.length) +
            UINT32 by omega, Nat.add_mod_right, Nat.mod_eq_of_lt (by omega)]
      omega
    unfold OutGroupPost at hpost
    unfold WiredPost
    split at hpost
    · rename_i res heq
      obtain ⟨⟨network', hall', hnet', -, -, -⟩, hfs', hlen'⟩ := hpost
      intro j hj
      refine ⟨(hall' j hj).1, fun h => (hall' j hj).2.1 (by omega), fun h => ?_⟩
      rcases Nat.eq_or_lt_of_le (Nat.lt_succ_iff.mp h) with rfl | hlt
      · refine ⟨hnet', by omega, by omega, ?_⟩
        have hfc' : (res.1 j).getFamilyConnections = (agents j).getFamilyConnections := by
          unfold Agent.getFamilyConnections
          rw [hfs']
        unfold degreeCap
        rw [hfc']
        by_cases hfit : out + (agents j).getFamilyConnections < UINT32
        · rw [← hrounds hfit]
          exact hlen'
        · have := NetworkOk_length_le hnet' hid
          exact le_min (by omega) this
      · exact (hall' j hj).2.2 hlt
    · rename_i e heq
      obtain ⟨he, hc, hbig⟩ := hpost
      refine ⟨he, hc, ?_⟩
      by_contra hcon
      have hfit : out + (agents id).getFamilyConnections < UINT32 := by omega
      have h1 := hrounds hfit
      have h2 : min ((agents id).getFamilyConnections + out) (N - 1) ≤ N - 1 := min_le_right _ _
      omega

end iris

namespace iris

open gen

/-- The inner loop of `wireGraph` over the members of one family unit. -/
theorem wireGraphUnit_spec (c : Bool) (N out first second fs : Nat) (cp rp : ℚ)
    (hN : N < UINT32) (hsec : second ≤ N) (hunit : second ≤ first + fs) (hfs1 : 1 ≤ fs)
    (hfs2 : fs < UINT32) :
    ∀ (n i : Nat) (agents : Nat → Agent) (random : MersenneTwister),
      Wired N out i agents → first ≤ i → i + n = second →
      WiredPost c N out second fs
        (wireGraphUnit c (first, second) fs N out cp rp n i agents random) := by
  intro n
  induction n with
  | zero =>
    intro i agents random hw _ hin
    unfold wireGraphUnit
    show Wired N out second agents
    have : i = second := by omega
    exact this ▸ hw
  | succ n ih =>
    intro i agents random hw hfi hin
    have hiN : i < N := by omega
    obtain ⟨hu, hempty, -⟩ := hw i hiN
    have hem := hempty le_rfl
    rw [wireGraphUnit]
    simp only [Function.update_same, Function.update_idem]
    rw [wireFamilyUnit_eq _ _ hem, hu]
    simp only [Agent.setFamilySize]
    -- the agent after family wiring
    have hF1 : ∀ x ∈ (List.range' first (second - first)).filter (fun k => decide (k ≠ i)),
        first ≤ x ∧ x < second := by
      intro x hx
      have := List.mem_range'_1.mp (List.mem_filter.mp hx).1
      omega
    have hF2 : i ∉ (List.range' first (second - first)).filter (fun k => decide (k ≠ i)) := by
      intro hx
      have := (List.mem_filter.mp hx).2
      simp at this
    have hF3 : ((List.range' first (second - first)).filter
        (fun k => decide (k ≠ i))).Pairwise (· < ·) :=
      (List.pairwise_lt_range' _ _).sublist (List.filter_sublist _)
    have hF4 := util.length_lt_of_missing hF3 hF1 ⟨hfi, by omega⟩ hF2
    have hF5 : ((List.range' first (second - first)).filter
        (fun k => decide (k ≠ i))).length + 1 ≤ fs := by omega
    have hpost := wireOutGroup_spec c N out i cp rp hiN hN
      (Function.update agents i
        { agents i with
          m_familySize := fs
          m_network := (List.range' first (second - first)).filter (fun k => decide (k ≠ i)) })
      random
      (by
        intro j hj
        by_cases hji : j = i
        · subst hji
          rw [Function.update_same]
          exact ⟨hu, fun h => absurd h (lt_irrefl _), fun h => absurd h (lt_irrefl _)⟩
        · rw [Function.update_noteq hji]
          obtain ⟨h1, h2, h3⟩ := hw j hj
          exact ⟨h1, fun h => h2 (by omega), h3⟩)
      (by
        rw [Function.update_same]
        exact ⟨hF3, fun x hx => by have := hF1 x hx; omega, hF2⟩)
      (by rw [Function.update_same]; exact hfs1)
      (by rw [Function.update_same]; exact hfs2)
      (by rw [Function.update_same]; exact hF5)
    rw [Function.update_same] at hpost
    simp only at hpost
    unfold WiredPost at hpost
    split at hpost
    · rename_i res heq
      have hnext := ih (i + 1) res.1 res.2 hpost (by omega) (by omega)
      rw [hu] at heq
      rw [heq]
      exact hnext
    · rename_i e heq
      rw [hu] at heq
      rw [heq]
      exact hpost

end iris

namespace iris

open gen

theorem chooseFamilySizeLoop_ok (p : ℚ) :
    ∀ (cdf : List ℚ) (i : Nat), (∃ x ∈ cdf, p ≤ x) →
      ∃ index, chooseFamilySizeLoop p cdf i = Except.ok index ∧ index < i + cdf.length := by
  intro cdf
  induction cdf with
  | nil => intro i h; obtain ⟨x, hx, -⟩ := h; cases hx
  | cons y rest ih =>
    intro i h
    unfold chooseFamilySizeLoop
    by_cases hp : p ≤ y
    · rw [if_pos hp]
      refine ⟨i % UINT32, rfl, ?_⟩
      have := Nat.mod_le i UINT32
      simp only [List.length_cons]
      omega
    · rw [if_neg hp]
      obtain ⟨x, hx, hpx⟩ := h
      rcases List.mem_cons.mp hx with rfl | hx
      · exact absurd hpx hp
      · obtain ⟨index, h1, h2⟩ := ih (i + 1) ⟨x, hx, hpx⟩
        refine ⟨index, h1, ?_⟩
        simp only [List.length_cons]
        omega

theorem chooseFamilySize_ok (p : ℚ) (cdf : CDF) (h : ∃ x ∈ cdf, p ≤ x) :
    ∃ index, chooseFamilySize p cdf = Except.ok index ∧ index < cdf.length := by
  obtain ⟨index, h1, h2⟩ := chooseFamilySizeLoop_ok p cdf 0 h
  exact ⟨index, h1, by omega⟩

theorem createCDF_ok {census : List ℚ} (h : census ≠ []) :
    ∃ cdf, createCDF census = Except.ok cdf ∧ cdf.length = census.length ∧ (1 : ℚ) ∈ cdf := by
  cases census with
  | nil => exact absurd rfl h
  | cons c rest =>
    refine ⟨_, rfl, ?_, ?_⟩
    · simp only [List.length_set, List.length_scanl, List.length_cons]
    · rw [List.mem_iff_getElem]
      refine ⟨(List.scanl (fun prev x => prev + x) c rest).length - 1, ?_, ?_⟩
      · simp only [List.length_set, List.length_scanl]
        omega
      · simp only [List.getElem_set_self]

/-- The `while` loop of `wireGraph`, started with the agents below `counter` wired. -/
theorem wireGraphLoop_spec (c : Bool) {N out : Nat} (cp rp : ℚ) {cdf : CDF}
    (hN : N + cdf.length ≤ UINT32) (hone : (1 : ℚ) ∈ cdf) :
    ∀ (fuel counter : Nat) (agents : Nat → Agent) (random : MersenneTwister),
      Wired N out (min counter N) agents → N - counter ≤ fuel →
      WiredPost c N out N cdf.length
        (wireGraphLoop c N out cp rp cdf fuel counter agents random) := by
  intro fuel
  induction fuel with
  | zero =>
    intro counter agents random hw hf
    unfold wireGraphLoop
    rw [if_neg (by omega)]
    show Wired N out N agents
    rw [min_eq_right (by omega)] at hw
    exact hw
  | succ fuel ih =>
    intro counter agents random hw hf
    rw [wireGraphLoop]
    by_cases hc : counter < N
    · rw [if_pos hc]
      simp only
      obtain ⟨index, hidx, hlt⟩ := chooseFamilySize_ok random.uniformReal.1 cdf
        ⟨1, hone, le_of_lt (MersenneTwister.uniformReal_lt_one random)⟩
      rw [hidx]
      simp only
      have hfs : (index + 1) % UINT32 = index + 1 := Nat.mod_eq_of_lt (by omega)
      have hsum : (counter + (index + 1)) % UINT32 = counter + (index + 1) :=
        Nat.mod_eq_of_lt (by omega)
      rw [hfs, hsum]
      have hsecond : (if counter + (index + 1) > N then N else counter + (index + 1)) =
          min (counter + (index + 1)) N := by
        rw [Nat.min_def]
        split_ifs <;> omega
      rw [hsecond]
      rw [min_eq_left (le_of_lt hc)] at hw
      have hunit := wireGraphUnit_spec c N out counter (min (counter + (index + 1)) N)
        (index + 1) cp rp (by omega)
        (min_le_right _ _) (min_le_left _ _) (by omega) (by omega)
        (min (counter + (index + 1)) N - counter) counter agents random.uniformReal.2 hw le_rfl
        (by
          have : counter ≤ min (counter + (index + 1)) N := le_min (by omega) (le_of_lt hc)
          omega)
      unfold WiredPost at hunit
      split at hunit
      · rename_i res heq
        rw [heq]
        exact ih (counter + (index + 1)) res.1 res.2 hunit (by omega)
      · rename_i e heq
        rw [heq]
        exact ⟨hunit.1, hunit.2.1, by omega⟩
    · rw [if_neg hc]
      show Wired N out N agents
      rw [min_eq_right (by omega)] at hw
      exact hw

/-- `wireGraph` on agents that start with empty networks and identifiers equal to their
index, when `N + |census|` fits in 32 bits. -/
theorem wireGraph_spec (c : Bool) (N out : Nat) (cp rp : ℚ) {census : List ℚ}
    (agents : Nat → Agent) (random : MersenneTwister)
    (hN : N + census.length ≤ UINT32) (hcensus : census ≠ [])
    (h0 : ∀ i, i < N → (agents i).m_network = [] ∧ (agents i).m_uid = i) :
    WiredPost c N out N census.length (wireGraph c agents N census out cp rp random) := by
  obtain ⟨cdf, hcdf, hlen, hone⟩ := createCDF_ok hcensus
  unfold wireGraph
  rw [hcdf]
  simp only
  rw [← hlen]
  refine wireGraphLoop_spec c cp rp (by omega) hone N 0 agents random ?_ (by omega)
  intro j hj
  rw [Nat.zero_min]
  exact ⟨(h0 j hj).2, fun _ => (h0 j hj).1, fun h => absurd h (Nat.not_lt_zero _)⟩

theorem wireGraph_empty_census (c : Bool) (N out : Nat) (cp rp : ℚ) (agents : Nat → Agent)
    (random : MersenneTwister) :
    wireGraph c agents N [] out cp rp random = Except.error Error.outOfBounds := rfl

end iris

/-! ## Claims about `gen::wireGraph` -/

namespace iris

open gen

/-- C4 (amended): when `N + |census|` fits in 32 bits, for every census, number of agents `N`,
`outConnections`, pair of probabilities and sequence of random draws (and for both builds of
the exception handler), a run of `wireGraph` on `N` agents that start with empty networks and
identifiers equal to their index leaves every agent with a network that is strictly ascending,
contains only identifiers below `N` and does not contain the identifier of the agent itself.
The run does complete for a non-empty census when the exception is caught or
`outConnections + |census|` fits in 32 bits. -/
theorem wireGraph_networks_wellformed (c : Bool) (agents : Nat → Agent) (N : Nat)
    (census : List ℚ) (out : Nat) (cp rp : ℚ) (random : MersenneTwister)
    (hN : N + census.length ≤ UINT32)
    (h0 : ∀ i, i < N → (agents i).m_network = [] ∧ (agents i).m_uid = i) :
    (∀ res, wireGraph c agents N census out cp rp random = Except.ok res →
      ∀ i, i < N → (res.1 i).m_uid = i ∧ (res.1 i).m_network.Pairwise (· < ·) ∧
        (∀ x ∈ (res.1 i).m_network, x < N) ∧ (res.1 i).m_uid ∉ (res.1 i).m_network) ∧
    (census ≠ [] → (c = true ∨ out + census.length ≤ UINT32) →
      ∃ res, wireGraph c agents N census out cp rp random = Except.ok res) := by
  constructor
  · intro res hres i hi
    have hcensus : census ≠ [] := by
      rintro rfl
      rw [wireGraph_empty_census] at hres
      cases hres
    have hpost := wireGraph_spec c N out cp rp agents random hN hcensus h0
    rw [hres] at hpost
    obtain ⟨hu, -, hw⟩ := hpost i hi
    obtain ⟨⟨h1, h2, h3⟩, -⟩ := hw hi
    exact ⟨hu, h1, h2, hu.symm ▸ h3⟩
  · intro hcensus hfit
    have hpost := wireGraph_spec c N out cp rp agents random hN hcensus h0
    cases hres : wireGraph c agents N census out cp rp random with
    | ok res => exact ⟨res, rfl⟩
    | error e =>
      rw [hres] at hpost
      obtain ⟨-, hc, hbig⟩ := hpost
      rcases hfit with h | h
      · rw [h] at hc; cases hc
      · omega

/-- Witness for C4 (amended): three agents, census `{0, 1}`, one out-group connection. -/
theorem wireGraph_networks_wellformed_witness :
    (3 + ([0, 1] : List ℚ).length ≤ UINT32) ∧
    (∀ i, i < 3 → (freshAgents i).m_network = [] ∧ (freshAgents i).m_uid = i) ∧
    ((∀ res, wireGraph false freshAgents 3 [0, 1] 1 1 1 ⟨fun _ => 1, 0⟩ = Except.ok res →
      ∀ i, i < 3 → (res.1 i).m_uid = i ∧ (res.1 i).m_network.Pairwise (· < ·) ∧
        (∀ x ∈ (res.1 i).m_network, x < 3) ∧ (res.1 i).m_uid ∉ (res.1 i).m_network) ∧
    (([0, 1] : List ℚ) ≠ [] → (false = true ∨ 1 + ([0, 1] : List ℚ).length ≤ UINT32) →
      ∃ res, wireGraph false freshAgents 3 [0, 1] 1 1 1 ⟨fun _ => 1, 0⟩ = Except.ok res)) :=
  ⟨by decide, fun _ _ => ⟨rfl, rfl⟩,
    wireGraph_networks_wellformed false freshAgents 3 [0, 1] 1 1 1 ⟨fun _ => 1, 0⟩ (by decide)
      (fun _ _ => ⟨rfl, rfl⟩)⟩

/-- C5 (amended): when `N + |census|` fits in 32 bits, for every run of `wireGraph` on agents that start
with empty networks (and identifiers equal to their index) and every sequence of random draws,
the final network of each agent has at most
`min(getFamilyConnections() + outConnections, N - 1)` entries, where `getFamilyConnections()`
is the recorded family size of the agent minus one. The run does complete for a non-empty
census when the exception is caught or `outConnections + |census|` fits in 32 bits. -/
theorem wireGraph_degree_bounded (c : Bool) (agents : Nat → Agent) (N : Nat)
    (census : List ℚ) (out : Nat) (cp rp : ℚ) (random : MersenneTwister)
    (hN : N + census.length ≤ UINT32)
    (h0 : ∀ i, i < N → (agents i).m_network = [] ∧ (agents i).m_uid = i) :
    (∀ res, wireGraph c agents N census out cp rp random = Except.ok res →
      ∀ i, i < N →
        (res.1 i).getFamilyConnections = (res.1 i).getFamilySize - 1 ∧
        (res.1 i).m_network.length ≤ min ((res.1 i).getFamilyConnections + out) (N - 1)) ∧
    (census ≠ [] → (c = true ∨ out + census.length ≤ UINT32) →
      ∃ res, wireGraph c agents N census out cp rp random = Except.ok res) := by
  constructor
  · intro res hres i hi
    have hcensus : census ≠ [] := by
      rintro rfl
      rw [wireGraph_empty_census] at hres
      cases hres
    have hpost := wireGraph_spec c N out cp rp agents random hN hcensus h0
    rw [hres] at hpost
    obtain ⟨-, -, hw⟩ := hpost i hi
    obtain ⟨-, hfs1, hfs2, hcap⟩ := hw hi
    exact ⟨Agent.getFamilyConnections_eq hfs1 hfs2, hcap⟩
  · intro hcensus hfit
    have hpost := wireGraph_spec c N out cp rp agents random hN hcensus h0
    cases hres : wireGraph c agents N census out cp rp random with
    | ok res => exact ⟨res, rfl⟩
    | error e =>
      rw [hres] at hpost
      obtain ⟨-, hc, hbig⟩ := hpost
      rcases hfit with h | h
      · rw [h] at hc; cases hc
      · omega

/-- Witness for C5 (amended): four agents, census `{0, 1}`, two out-group connections. -/
theorem wireGraph_degree_bounded_witness :
    (4 + ([0, 1] : List ℚ).length ≤ UINT32) ∧
    (∀ i, i < 4 → (freshAgents i).m_network = [] ∧ (freshAgents i).m_uid = i) ∧
    ((∀ res, wireGraph false freshAgents 4 [0, 1] 2 1 1 ⟨fun n => n, 0⟩ = Except.ok res →
      ∀ i, i < 4 →
        (res.1 i).getFamilyConnections = (res.1 i).getFamilySize - 1 ∧
        (res.1 i).m_network.length ≤ min ((res.1 i).getFamilyConnections + 2) (4 - 1)) ∧
    (([0, 1] : List ℚ) ≠ [] → (false = true ∨ 2 + ([0, 1] : List ℚ).length ≤ UINT32) →
      ∃ res, wireGraph false freshAgents 4 [0, 1] 2 1 1 ⟨fun n => n, 0⟩ = Except.ok res)) :=
  ⟨by decide, fun _ _ => ⟨rfl, rfl⟩,
    wireGraph_degree_bounded false freshAgents 4 [0, 1] 2 1 1 ⟨fun n => n, 0⟩ (by decide)
      (fun _ _ => ⟨rfl, rfl⟩)⟩

end iris

/-! ## `wireGraph` without out-group connections -/

namespace iris

open gen

/-- With `outConnections = 0` the inner loop of `wireGraph` only wires the family: each member
gets the other identifiers of the unit and the drawn family size. -/
theorem wireGraphUnit_zero_out (c : Bool) (unit : FamilyUnit) (fs N : Nat) (cp rp : ℚ) :
    ∀ (n i : Nat) (agents : Nat → Agent) (random : MersenneTwister),
      (∀ j, i ≤ j → j < i + n → (agents j).m_network = [] ∧ (agents j).m_uid = j) →
      wireGraphUnit c unit fs N 0 cp rp n i agents random =
        Except.ok (fun j =>
          if i ≤ j ∧ j < i + n then
            { agents j with
              m_familySize := fs
              m_network := (List.range' unit.1 (unit.2 - unit.1)).filter
                (fun k => decide (k ≠ j)) }
          else agents j, random) := by
  intro n
  induction n with
  | zero =>
    intro i agents random _
    unfold wireGraphUnit
    congr 2
    funext j
    rw [if_neg (by omega)]
  | succ n ih =>
    intro i agents random h
    obtain ⟨hem, hu⟩ := h i le_rfl (by omega)
    rw [wireGraphUnit]
    simp only [Function.update_same, Function.update_idem]
    rw [wireFamilyUnit_eq _ _ hem, hu]
    simp only [Agent.setFamilySize, wireOutGroup, if_true]
    rw [ih]
    · congr 2
      funext j
      by_cases hj : j = i
      · subst hj
        rw [if_neg (by omega), if_pos (by omega), Function.update_same, hu]
      · rw [Function.update_noteq hj]
        by_cases hj2 : i + 1 ≤ j ∧ j < i + 1 + n
        · rw [if_pos hj2, if_pos (by omega)]
        · rw [if_neg hj2, if_neg (by omega)]
    · intro j hj1 hj2
      rw [Function.update_noteq (by omega)]
      exact h j (by omega) (by omega)

/-- With the cumulative distribution `{1.0}` and no out-group connections every family unit is
a single agent: `wireGraph` records family size `1` and leaves every network empty. -/
theorem wireGraphLoop_singletons (c : Bool) {N : Nat} (cp rp : ℚ) (hN : N < UINT32) :
    ∀ (fuel counter : Nat) (agents : Nat → Agent) (random : MersenneTwister),
      N - counter ≤ fuel →
      (∀ j, j < N → (agents j).m_network = [] ∧ (agents j).m_uid = j) →
      (∀ j, j < N → j < counter → (agents j).m_familySize = 1) →
      ∃ res, wireGraphLoop c N 0 cp rp [1] fuel counter agents random = Except.ok res ∧
        ∀ j, j < N → (res.1 j).m_network = [] ∧ (res.1 j).m_familySize = 1 := by
  intro fuel
  induction fuel with
  | zero =>
    intro counter agents random hf h0 hfs
    unfold wireGraphLoop
    rw [if_neg (by omega)]
    exact ⟨_, rfl, fun j hj => ⟨(h0 j hj).1, hfs j hj (by omega)⟩⟩
  | succ fuel ih =>
    intro counter agents random hf h0 hfs
    rw [wireGraphLoop]
    by_cases hc : counter < N
    · rw [if_pos hc]
      have hp : random.uniformReal.1 ≤ 1 := le_of_lt (MersenneTwister.uniformReal_lt_one random)
      have hsum : (counter + 1) % UINT32 = counter + 1 := Nat.mod_eq_of_lt (by omega)
      simp only [chooseFamilySize, chooseFamilySizeLoop, if_pos hp, Nat.zero_mod, Nat.zero_add,
        Nat.one_mod_eq_one.mpr (show UINT32 ≠ 1 by decide), hsum]
      rw [if_neg (by omega), show counter + 1 - counter = 1 by omega,
        wireGraphUnit_zero_out c _ _ _ _ _ 1 counter agents _
          (fun j hj1 hj2 => h0 j (by omega))]
      simp only
      apply ih
      · omega
      · intro j hj
        by_cases hjc : counter ≤ j ∧ j < counter + 1
        · have hjeq : j = counter := by omega
          subst hjeq
          rw [if_pos hjc]
          refine ⟨?_, (h0 j hj).2⟩
          show List.filter _ (List.range' j (j + 1 - j)) = []
          rw [show j + 1 - j = 1 by omega]
          simp
        · rw [if_neg hjc]
          exact h0 j hj
      · intro j hj hjc
        by_cases hjc2 : counter ≤ j ∧ j < counter + 1
        · rw [if_pos hjc2]
        · rw [if_neg hjc2]
          exact hfs j hj (by omega)
    · rw [if_neg hc]
      exact ⟨_, rfl, fun j hj => ⟨(h0 j hj).1, hfs j hj (by omega)⟩⟩

end iris

namespace iris

open gen

/-- C6 (as stated, refuted): a census `{1.0}` has the cumulative distribution `{1.0}`, and the
run with `N = 5`, this census and `outConnections = 0` leaves agent `0` with an empty network,
not with the other four identifiers. -/
theorem wireGraph_cdf_one_networks_empty :
    createCDF [1] = Except.ok [1] ∧
    ∃ res, wireGraph false freshAgents 5 [1] 0 1 1 ⟨fun _ => 0, 0⟩ = Except.ok res ∧
      (res.1 0).m_network = [] ∧ (res.1 0).m_network ≠ [1, 2, 3, 4] := by
  refine ⟨by with_unfolding_all rfl, _, by with_unfolding_all rfl, ?_, ?_⟩
  · with_unfolding_all rfl
  · with_unfolding_all decide

/-- C6 (amended): running `wireGraph` with `N = 5`, a census whose cumulative distribution is
`{1.0}` and `outConnections = 0` leaves every agent with an empty network and family size `1`,
for every sequence of random draws; the network consisting of exactly the other four
identifiers (and family size `5`) results from a census whose cumulative distribution is
`{0, 0, 0, 0, 1.0}` when the first draw is positive. -/
theorem wireGraph_five_agents (c : Bool) (census : List ℚ) (cp rp : ℚ)
    (random : MersenneTwister) :
    (createCDF census = Except.ok [1] →
      ∃ res, wireGraph c freshAgents 5 census 0 cp rp random = Except.ok res ∧
        ∀ i, i < 5 → (res.1 i).m_network = [] ∧ (res.1 i).getFamilySize = 1) ∧
    (createCDF census = Except.ok [0, 0, 0, 0, 1] → 0 < random.uniformReal.1 →
      ∃ res, wireGraph c freshAgents 5 census 0 cp rp random = Except.ok res ∧
        ∀ i, i < 5 →
          (res.1 i).m_network = (List.range 5).filter (fun k => decide (k ≠ i)) ∧
          (res.1 i).getFamilySize = 5) := by
  constructor
  · intro hcdf
    unfold wireGraph
    rw [hcdf]
    exact wireGraphLoop_singletons c cp rp (by decide) 5 0 freshAgents random (by omega)
      (fun _ _ => ⟨rfl, rfl⟩) (fun j _ hj => absurd hj (Nat.not_lt_zero j))
  · intro hcdf hpos
    have hp : random.uniformReal.1 ≤ 1 := le_of_lt (MersenneTwister.uniformReal_lt_one random)
    have hidx : chooseFamilySize random.uniformReal.1 [0, 0, 0, 0, 1] = Except.ok 4 := by
      simp only [chooseFamilySize, chooseFamilySizeLoop, if_neg (not_le.mpr hpos), if_pos hp]
      rfl
    unfold wireGraph
    rw [hcdf]
    simp only
    rw [show wireGraphLoop c 5 0 cp rp [0, 0, 0, 0, 1] 5 0 freshAgents random =
      wireGraphLoop c 5 0 cp rp [0, 0, 0, 0, 1] (4 + 1) 0 freshAgents random from rfl,
      wireGraphLoop, if_pos (by omega)]
    simp only [hidx, show (4 + 1) % UINT32 = 5 from rfl, show (0 + 5) % UINT32 = 5 from rfl,
      gt_iff_lt, lt_irrefl, if_false, Nat.sub_zero]
    rw [wireGraphUnit_zero_out c _ _ _ _ _ 5 0 freshAgents _ (fun _ _ _ => ⟨rfl, rfl⟩)]
    simp only
    refine ⟨_, by unfold wireGraphLoop; rw [if_neg (by omega)], ?_⟩
    intro i hi
    simp only
    rw [if_pos (by omega)]
    exact ⟨rfl, rfl⟩

/-- Witness for C6 (amended): the census `{1}` for the first part, the census
`{0, 0, 0, 0, 1}` and the tape of ones for the second. -/
theorem wireGraph_five_agents_witness :
    createCDF [1] = Except.ok [1] ∧
    createCDF [0, 0, 0, 0, 1] = Except.ok [0, 0, 0, 0, 1] ∧
    0 < (MersenneTwister.uniformReal ⟨fun _ => 1, 0⟩).1 ∧
    (∃ res, wireGraph false freshAgents 5 [1] 0 1 1 ⟨fun _ => 1, 0⟩ = Except.ok res ∧
      ∀ i, i < 5 → (res.1 i).m_network = [] ∧ (res.1 i).getFamilySize = 1) ∧
    (∃ res, wireGraph false freshAgents 5 [0, 0, 0, 0, 1] 0 1 1 ⟨fun _ => 1, 0⟩ =
        Except.ok res ∧
      ∀ i, i < 5 →
        (res.1 i).m_network = (List.range 5).filter (fun k => decide (k ≠ i)) ∧
        (res.1 i).getFamilySize = 5) :=
  ⟨by with_unfolding_all rfl, by with_unfolding_all rfl, by with_unfolding_all decide,
    (wireGraph_five_agents false [1] 1 1 ⟨fun _ => 1, 0⟩).1 (by with_unfolding_all rfl),
    (wireGraph_five_agents false [0, 0, 0, 0, 1] 1 1 ⟨fun _ => 1, 0⟩).2
      (by with_unfolding_all rfl) (by with_unfolding_all decide)⟩

/-- C7 (evaluation at the failing input): with three agents, the census `{1/2, 1/2}` and
draws above `1/2`, every family is drawn with size `2`; the last unit `[2, 3)` is clipped to
the single agent `2`, whose network stays empty, yet its recorded family size is `2`. With
`outConnections = 1` the same agent, having no family member, ends with two out-group
neighbours. -/
theorem wireGraph_clipped_unit_family_size :
    (∃ res, wireGraph false freshAgents 3 [1 / 2, 1 / 2] 0 1 1
        ⟨fun _ => 9007199254740991, 0⟩ = Except.ok res ∧
      (res.1 2).m_network = [] ∧ (res.1 2).getFamilySize = 2 ∧
      (res.1 0).m_network = [1] ∧ (res.1 1).m_network = [0]) ∧
    (∃ res, wireGraph false freshAgents 3 [1 / 2, 1 / 2] 1 1 1
        ⟨fun _ => 9007199254740991, 0⟩ = Except.ok res ∧
      (res.1 2).getFamilySize = 2 ∧ (res.1 2).m_network = [0, 1]) := by
  constructor
  · refine ⟨_, by with_unfolding_all rfl, ?_, ?_, ?_, ?_⟩ <;> with_unfolding_all rfl
  · refine ⟨_, by with_unfolding_all rfl, ?_, ?_⟩ <;> with_unfolding_all rfl

end iris
/-! ## Facts about rounding to `double` -/

namespace iris

theorem bitLength_zero : ∀ fuel, bitLength fuel 0 = 0 := by
  intro fuel
  cases fuel with
  | zero => rfl
  | succ f => rw [bitLength, if_pos rfl]

/-- A positive `n < 2 ^ fuel` has `bitLength fuel n` binary digits. -/
theorem bitLength_spec : ∀ (fuel n : Nat), n < 2 ^ fuel → 0 < n →
    2 ^ (bitLength fuel n - 1) ≤ n ∧ n < 2 ^ bitLength fuel n ∧ 1 ≤ bitLength fuel n := by
  intro fuel
  induction fuel with
  | zero =>
    intro n h1 h2
    simp only [Nat.pow_zero] at h1
    omega
  | succ fuel ih =>
    intro n h1 h2
    rw [bitLength, if_neg (by omega)]
    by_cases hn : n / 2 = 0
    · have h3 : n = 1 := by omega
      subst h3
      rw [show 1 / 2 = 0 from rfl, bitLength_zero]
      decide
    · have h3 : n / 2 < 2 ^ fuel := by
        rw [Nat.pow_succ] at h1
        omega
      obtain ⟨a, b, c⟩ := ih (n / 2) h3 (by omega)
      refine ⟨?_, ?_, by omega⟩
      · rw [Nat.add_sub_cancel]
        have h4 : 2 ^ bitLength fuel (n / 2) = 2 ^ (bitLength fuel (n / 2) - 1) * 2 := by
          rw [← Nat.pow_succ]
          congr 1
          omega
        omega
      · rw [Nat.pow_succ]
        omega

/-- Rounding to the nearest integer goes up by at most one half. -/
theorem roundHalfEven_le (a b : Nat) : 2 * (b * roundHalfEven a b) ≤ 2 * a + b := by
  have h := Nat.div_add_mod a b
  unfold roundHalfEven
  simp only
  split_ifs <;> (try simp only [Nat.mul_add, Nat.mul_one]) <;> omega

theorem two_zpow_toNat (k : ℤ) (hk : 0 ≤ k) : ((2 ^ k.toNat : Nat) : ℚ) = (2 : ℚ) ^ k := by
  have h : ((k.toNat : Nat) : ℤ) = k := Int.toNat_of_nonneg hk
  rw [Nat.cast_pow, Nat.cast_ofNat, ← zpow_natCast, h]

theorem two_zpow_pos (k : ℤ) : (0 : ℚ) < (2 : ℚ) ^ k := zpow_pos (by norm_num) k

theorem two_zpow_mono {a b : ℤ} (h : a ≤ b) : (2 : ℚ) ^ a ≤ (2 : ℚ) ^ b :=
  zpow_le_zpow_right₀ (by norm_num) h

/-- The error of `roundToDoublePos`: at most half a unit in the last place, times `2 d`. -/
theorem roundToDoublePos_bounds (n d : Nat) (hn : 0 < n) (hd : 0 < d) :
    ∃ e : ℤ, (2 : ℚ) ^ e * d ≤ n ∧ (n : ℚ) < (2 : ℚ) ^ (e + 1) * d ∧
      roundToDoublePos n d * (2 * d) ≤ 2 * n + (2 : ℚ) ^ (max e (-1022) - 52) * d := by
  obtain ⟨hn1, hn2, hn3⟩ := bitLength_spec n n (Nat.lt_two_pow n) hn
  obtain ⟨hd1, hd2, hd3⟩ := bitLength_spec d d (Nat.lt_two_pow d) hd
  unfold roundToDoublePos
  generalize bitLength n n = bn at *
  generalize bitLength d d = bd at *
  have hnq : (0 : ℚ) < n := by exact_mod_cast hn
  have hdq : (0 : ℚ) < d := by exact_mod_cast hd
  have A1 : (2 : ℚ) ^ ((bn : ℤ) - 1) ≤ n := by
    have h : (((2 ^ (bn - 1) : Nat) : Nat) : ℚ) ≤ n := by exact_mod_cast hn1
    rw [Nat.cast_pow, Nat.cast_ofNat, ← zpow_natCast] at h
    rwa [show ((bn - 1 : Nat) : ℤ) = (bn : ℤ) - 1 by omega] at h
  have A2 : (n : ℚ) < (2 : ℚ) ^ (bn : ℤ) := by
    have h : (n : ℚ) < ((2 ^ bn : Nat) : ℚ) := by exact_mod_cast hn2
    rwa [Nat.cast_pow, Nat.cast_ofNat, ← zpow_natCast] at h
  have D1 : (2 : ℚ) ^ ((bd : ℤ) - 1) ≤ d := by
    have h : (((2 ^ (bd - 1) : Nat) : Nat) : ℚ) ≤ d := by exact_mod_cast hd1
    rw [Nat.cast_pow, Nat.cast_ofNat, ← zpow_natCast] at h
    rwa [show ((bd - 1 : Nat) : ℤ) = (bd : ℤ) - 1 by omega] at h
  have D2 : (d : ℚ) < (2 : ℚ) ^ (bd : ℤ) := by
    have h : (d : ℚ) < ((2 ^ bd : Nat) : ℚ) := by exact_mod_cast hd2
    rwa [Nat.cast_pow, Nat.cast_ofNat, ← zpow_natCast] at h
  have two0 : (2 : ℚ) ≠ 0 := by norm_num
  -- the candidate exponent
  have L : (2 : ℚ) ^ ((bn : ℤ) - (bd : ℤ) - 1) * d ≤ n := by
    have h1 : (2 : ℚ) ^ ((bn : ℤ) - (bd : ℤ) - 1) * (2 : ℚ) ^ (bd : ℤ) = (2 : ℚ) ^ ((bn : ℤ) - 1) := by
      rw [← zpow_add₀ two0]
      congr 1
      omega
    have h2 : (2 : ℚ) ^ ((bn : ℤ) - (bd : ℤ) - 1) * d ≤
        (2 : ℚ) ^ ((bn : ℤ) - (bd : ℤ) - 1) * (2 : ℚ) ^ (bd : ℤ) :=
      mul_le_mul_of_nonneg_left (le_of_lt D2) (le_of_lt (two_zpow_pos _))
    linarith
  have U : (n : ℚ) < (2 : ℚ) ^ ((bn : ℤ) - (bd : ℤ) + 1) * d := by
    have h1 : (2 : ℚ) ^ ((bn : ℤ) - (bd : ℤ) + 1) * (2 : ℚ) ^ ((bd : ℤ) - 1) = (2 : ℚ) ^ (bn : ℤ) := by
      rw [← zpow_add₀ two0]
      congr 1
      omega
    have h2 : (2 : ℚ) ^ ((bn : ℤ) - (bd : ℤ) + 1) * (2 : ℚ) ^ ((bd : ℤ) - 1) ≤
        (2 : ℚ) ^ ((bn : ℤ) - (bd : ℤ) + 1) * d :=
      mul_le_mul_of_nonneg_left D1 (le_of_lt (two_zpow_pos _))
    linarith
  generalize hE0 : (bn : ℤ) - (bd : ℤ) = e0 at *
  -- the comparison with `2 ^ e0`
  have hAt : ((if 0 ≤ e0 then decide (d * 2 ^ e0.toNat ≤ n)
      else decide (d ≤ n * 2 ^ (-e0).toNat)) = true) ↔ (2 : ℚ) ^ e0 * d ≤ n := by
    by_cases h0 : 0 ≤ e0
    · rw [if_pos h0, decide_eq_true_iff, ← two_zpow_toNat e0 h0]
      constructor
      · intro h
        have : ((d * 2 ^ e0.toNat : Nat) : ℚ) ≤ n := by exact_mod_cast h
        rw [Nat.cast_mul] at this
        linarith
      · intro h
        have : ((d * 2 ^ e0.toNat : Nat) : ℚ) ≤ n := by
          rw [Nat.cast_mul]
          linarith
        exact_mod_cast this
    · rw [if_neg h0, decide_eq_true_iff]
      have hT := two_zpow_toNat (-e0) (by omega)
      have hinv : (2 : ℚ) ^ e0 * (2 : ℚ) ^ (-e0) = 1 := by
        rw [← zpow_add₀ two0, add_neg_cancel, zpow_zero]
      have hpos := two_zpow_pos e0
      have hpos2 := two_zpow_pos (-e0)
      constructor
      · intro h
        have h1 : ((d : Nat) : ℚ) ≤ ((n * 2 ^ (-e0).toNat : Nat) : ℚ) := by exact_mod_cast h
        rw [Nat.cast_mul, hT] at h1
        have h2 := mul_le_mul_of_nonneg_left h1 (le_of_lt hpos)
        have h3 : (2 : ℚ) ^ e0 * ((n : ℚ) * (2 : ℚ) ^ (-e0)) = n := by
          rw [mul_comm (n : ℚ), ← mul_assoc, hinv, one_mul]
        linarith
      · intro h
        have h2 := mul_le_mul_of_nonneg_left h (le_of_lt hpos2)
        have h3 : (2 : ℚ) ^ (-e0) * ((2 : ℚ) ^ e0 * d) = d := by
          rw [← mul_assoc, mul_comm ((2 : ℚ) ^ (-e0)), hinv, one_mul]
        have h1 : ((d : Nat) : ℚ) ≤ ((n * 2 ^ (-e0).toNat : Nat) : ℚ) := by
          rw [Nat.cast_mul, hT]
          linarith
        exact_mod_cast h1
  simp only
  generalize (if 0 ≤ e0 then decide (d * 2 ^ e0.toNat ≤ n)
      else decide (d ≤ n * 2 ^ (-e0).toNat)) = atLeast at *
  -- the rounding of the scaled value
  have hR : ∀ e : ℤ,
      (if 0 ≤ max e (-1022) - 52 then
        ((roundHalfEven n (d * 2 ^ (max e (-1022) - 52).toNat) *
          2 ^ (max e (-1022) - 52).toNat : Nat) : ℚ)
      else ((roundHalfEven (n * 2 ^ (-(max e (-1022) - 52)).toNat) d : Nat) : ℚ) /
        ((2 ^ (-(max e (-1022) - 52)).toNat : Nat) : ℚ)) * (2 * d) ≤
        2 * n + (2 : ℚ) ^ (max e (-1022) - 52) * d := by
    intro e
    generalize max e (-1022) - 52 = qe
    by_cases h0 : 0 ≤ qe
    · rw [if_pos h0]
      have h := roundHalfEven_le n (d * 2 ^ qe.toNat)
      have hq : ((2 * (d * 2 ^ qe.toNat * roundHalfEven n (d * 2 ^ qe.toNat)) : Nat) : ℚ) ≤
          ((2 * n + d * 2 ^ qe.toNat : Nat) : ℚ) := by exact_mod_cast h
      simp only [Nat.cast_mul, Nat.cast_add, Nat.cast_ofNat, two_zpow_toNat qe h0] at hq ⊢
      generalize ((roundHalfEven n (d * 2 ^ qe.toNat) : Nat) : ℚ) = R at *
      nlinarith [hq]
    · rw [if_neg h0]
      have h := roundHalfEven_le (n * 2 ^ (-qe).toNat) d
      have hq : ((2 * (d * roundHalfEven (n * 2 ^ (-qe).toNat) d) : Nat) : ℚ) ≤
          ((2 * (n * 2 ^ (-qe).toNat) + d : Nat) : ℚ) := by exact_mod_cast h
      have hT := two_zpow_toNat (-qe) (by omega)
      simp only [Nat.cast_mul, Nat.cast_add, Nat.cast_ofNat] at hq
      rw [hT] at hq ⊢
      generalize ((roundHalfEven (n * 2 ^ (-qe).toNat) d : Nat) : ℚ) = R at *
      have hpos := two_zpow_pos (-qe)
      have hinv : (2 : ℚ) ^ qe * (2 : ℚ) ^ (-qe) = 1 := by
        rw [← zpow_add₀ two0, add_neg_cancel, zpow_zero]
      have h1 : R / (2 : ℚ) ^ (-qe) * (2 * d) * (2 : ℚ) ^ (-qe) = 2 * (d * R) := by
        field_simp
        ring
      have h2 : (2 * (n : ℚ) + (2 : ℚ) ^ qe * d) * (2 : ℚ) ^ (-qe) =
          2 * (n * (2 : ℚ) ^ (-qe)) + d := by
        have : (2 : ℚ) ^ qe * d * (2 : ℚ) ^ (-qe) = d := by
          rw [mul_comm ((2 : ℚ) ^ qe), mul_assoc, hinv, mul_one]
        rw [add_mul, this]
        ring
      have h3 : R / (2 : ℚ) ^ (-qe) * (2 * d) * (2 : ℚ) ^ (-qe) ≤
          (2 * (n : ℚ) + (2 : ℚ) ^ qe * d) * (2 : ℚ) ^ (-qe) := by
        rw [h1, h2]
        exact hq
      exact le_of_mul_le_mul_right h3 hpos
  cases atLeast with
  | true =>
    simp only [if_true]
    exact ⟨e0, hAt.mp rfl, U, hR e0⟩
  | false =>
    simp only [Bool.false_eq_true, if_false]
    refine ⟨e0 - 1, L, ?_, hR (e0 - 1)⟩
    rw [show e0 - 1 + 1 = e0 by omega]
    have := hAt.not.mp (by simp)
    linarith

/-- The floor of a non-negative value rounded to `double` exceeds the value by a factor of at
most `1 + 2^-53`. -/
theorem roundToDouble_floor_le (x : ℚ) (hx : 0 ≤ x) :
    ((⌊roundToDouble x⌋ : ℤ) : ℚ) ≤ x * (1 + 1 / 2 ^ 53) := by
  have hgoal0 : (0 : ℚ) ≤ x * (1 + 1 / 2 ^ 53) := mul_nonneg hx (by norm_num)
  unfold roundToDouble
  by_cases h0 : x.num = 0
  · rw [if_pos h0, Int.floor_zero, Int.cast_zero]
    exact hgoal0
  · have hpos : 0 < x.num := lt_of_le_of_ne (Rat.num_nonneg.mpr hx) (Ne.symm h0)
    rw [if_neg h0, if_pos hpos]
    have hn : 0 < x.num.natAbs := Int.natAbs_pos.mpr h0
    obtain ⟨e, h1, h2, h3⟩ := roundToDoublePos_bounds x.num.natAbs x.den hn x.den_pos
    have hxe : x = (x.num.natAbs : ℚ) / (x.den : ℚ) := by
      have h4 : ((x.num.natAbs : Nat) : ℚ) = ((x.num : ℤ) : ℚ) := by
        rw [Nat.cast_natAbs, abs_of_pos hpos]
      rw [h4]
      exact (Rat.num_div_den x).symm
    have hd : (0 : ℚ) < (x.den : ℚ) := by exact_mod_cast x.den_pos
    generalize roundToDoublePos x.num.natAbs x.den = r at *
    generalize (x.num.natAbs : ℚ) = n at *
    generalize (x.den : ℚ) = d at *
    have two0 : (2 : ℚ) ≠ 0 := by norm_num
    by_cases he : -1022 ≤ e
    · rw [max_eq_left he] at h3
      have h5 : (2 : ℚ) ^ (e - 52) = (2 : ℚ) ^ e * (1 / 2 ^ 52) := by
        rw [sub_eq_add_neg, zpow_add₀ two0]
        congr 1
        rw [zpow_neg, one_div]
        norm_cast
      rw [h5] at h3
      have h6 : r * (2 * d) ≤ x * (1 + 1 / 2 ^ 53) * (2 * d) := by
        have h7 : x * (1 + 1 / 2 ^ 53) * (2 * d) = 2 * n + n * (1 / 2 ^ 52) := by
          rw [hxe]
          field_simp
          ring
        rw [h7]
        have h8 : (2 : ℚ) ^ e * (1 / 2 ^ 52) * d ≤ n * (1 / 2 ^ 52) := by
          have := mul_le_mul_of_nonneg_right h1 (show (0 : ℚ) ≤ 1 / 2 ^ 52 by norm_num)
          linarith
        linarith
      have h9 : r ≤ x * (1 + 1 / 2 ^ 53) := le_of_mul_le_mul_right h6 (by linarith)
      exact le_trans (Int.floor_le r) h9
    · rw [max_eq_right (by omega)] at h3
      have h5 : (2 : ℚ) ^ (e + 1) ≤ (2 : ℚ) ^ (-2 : ℤ) := two_zpow_mono (by omega)
      have h6 : (2 : ℚ) ^ ((-1022 : ℤ) - 52) ≤ (2 : ℚ) ^ (-2 : ℤ) := two_zpow_mono (by omega)
      have h7 : (2 : ℚ) ^ (-2 : ℤ) = 1 / 4 := by norm_num
      rw [h7] at h5 h6
      generalize (2 : ℚ) ^ ((-1022 : ℤ) - 52) = t at h3 h6
      generalize (2 : ℚ) ^ (e + 1) = u at h2 h5
      have h8 : r * (2 * d) < 1 * (2 * d) := by
        have g1 : u * d ≤ 1 / 4 * d := mul_le_mul_of_nonneg_right h5 (le_of_lt hd)
        have g2 : t * d ≤ 1 / 4 * d := mul_le_mul_of_nonneg_right h6 (le_of_lt hd)
        linarith
      have h9 : r < 1 := lt_of_mul_lt_mul_right h8 (by linarith)
      have h10 : ⌊r⌋ < 1 := Int.floor_lt.mpr (by exact_mod_cast h9)
      have h11 : ((⌊r⌋ : ℤ) : ℚ) ≤ 0 := by exact_mod_cast (show ⌊r⌋ ≤ 0 by omega)
      linarith

/-- The value `0` is a `double`. -/
theorem roundToDouble_zero : roundToDouble 0 = 0 := by
  unfold roundToDouble
  exact if_pos rfl

/-- Rounding a positive rational gives a non-negative value. -/
theorem roundToDoublePos_nonneg (n d : Nat) : 0 ≤ roundToDoublePos n d := by
  unfold roundToDoublePos
  simp only
  split_ifs <;>
    first
    | exact Nat.cast_nonneg _
    | exact div_nonneg (Nat.cast_nonneg _) (Nat.cast_nonneg _)

/-- Rounding a non-negative value to `double` gives a non-negative value. -/
theorem roundToDouble_nonneg (x : ℚ) (hx : 0 ≤ x) : 0 ≤ roundToDouble x := by
  unfold roundToDouble
  split_ifs with h0 h1
  · exact le_refl _
  · exact roundToDoublePos_nonneg _ _
  · exact absurd (lt_of_le_of_ne (Rat.num_nonneg.mpr hx) (Ne.symm h0)) h1

/-- In the normal range a value rounded to `double` exceeds the value by a factor of at most
`1 + 2^-53`. -/
theorem roundToDouble_le (x : ℚ) (hx : 1 / 2 ^ 1022 ≤ x) :
    roundToDouble x ≤ x * (1 + 1 / 2 ^ 53) := by
  have hx0 : 0 < x := lt_of_lt_of_le (by positivity) hx
  unfold roundToDouble
  have h0 : x.num ≠ 0 := fun h => (ne_of_gt hx0) (Rat.zero_of_num_zero h)
  have hpos : 0 < x.num := Rat.num_pos.mpr hx0
  rw [if_neg h0, if_pos hpos]
  have hn : 0 < x.num.natAbs := Int.natAbs_pos.mpr h0
  obtain ⟨e, h1, h2, h3⟩ := roundToDoublePos_bounds x.num.natAbs x.den hn x.den_pos
  have hxe : x = (x.num.natAbs : ℚ) / (x.den : ℚ) := by
    have h4 : ((x.num.natAbs : Nat) : ℚ) = ((x.num : ℤ) : ℚ) := by
      rw [Nat.cast_natAbs, abs_of_pos hpos]
    rw [h4]
    exact (Rat.num_div_den x).symm
  have hd : (0 : ℚ) < (x.den : ℚ) := by exact_mod_cast x.den_pos
  generalize roundToDoublePos x.num.natAbs x.den = r at *
  generalize (x.num.natAbs : ℚ) = n at *
  generalize (x.den : ℚ) = d at *
  have two0 : (2 : ℚ) ≠ 0 := by norm_num
  have he : -1022 ≤ e := by
    by_contra hcon
    have h5 : (2 : ℚ) ^ (e + 1) ≤ (2 : ℚ) ^ (-1022 : ℤ) := two_zpow_mono (by omega)
    have h6 : (2 : ℚ) ^ (-1022 : ℤ) = 1 / 2 ^ 1022 := by
      rw [zpow_neg, one_div]
      norm_cast
    rw [h6] at h5
    have h7 : n = x * d := by
      rw [hxe]
      field_simp
    have h8 : (2 : ℚ) ^ (e + 1) * d ≤ x * d :=
      mul_le_mul_of_nonneg_right (le_trans h5 hx) (le_of_lt hd)
    linarith
  rw [max_eq_left he] at h3
  have h5 : (2 : ℚ) ^ (e - 52) = (2 : ℚ) ^ e * (1 / 2 ^ 52) := by
    rw [sub_eq_add_neg, zpow_add₀ two0]
    congr 1
    rw [zpow_neg, one_div]
    norm_cast
  rw [h5] at h3
  have h6 : r * (2 * d) ≤ x * (1 + 1 / 2 ^ 53) * (2 * d) := by
    have h7 : x * (1 + 1 / 2 ^ 53) * (2 * d) = 2 * n + n * (1 / 2 ^ 52) := by
      rw [hxe]
      field_simp
      ring
    rw [h7]
    have h8 : (2 : ℚ) ^ e * (1 / 2 ^ 52) * d ≤ n * (1 / 2 ^ 52) := by
      have := mul_le_mul_of_nonneg_right h1 (show (0 : ℚ) ≤ 1 / 2 ^ 52 by norm_num)
      linarith
    linarith
  exact le_of_mul_le_mul_right h6 (by linarith)

end iris


/-! ## Facts about the population dispenser -/

namespace iris.gen.PopulationDispenser

theorem sum_set_add : ∀ (l : List Nat) (i v : Nat), i < l.length →
    (l.set i v).sum + l.getD i 0 = l.sum + v := by
  intro l
  induction l with
  | nil => intro i v h; cases h
  | cons x l ih =>
    intro i v h
    cases i with
    | zero => simp only [List.set_cons_zero, List.sum_cons, List.getD_cons_zero]; omega
    | succ i =>
      have := ih i v (by simpa using h)
      simp only [List.set_cons_succ, List.sum_cons, List.getD_cons_succ]
      omega

theorem sum_eraseIdx_add : ∀ (l : List Nat) (i : Nat), i < l.length →
    (l.eraseIdx i).sum + l.getD i 0 = l.sum := by
  intro l
  induction l with
  | nil => intro i h; cases h
  | cons x l ih =>
    intro i h
    cases i with
    | zero => simp only [List.eraseIdx_cons_zero, List.sum_cons, List.getD_cons_zero]; omega
    | succ i =>
      have := ih i (by simpa using h)
      simp only [List.eraseIdx_cons_succ, List.sum_cons, List.getD_cons_succ]
      omega

theorem getD_set (l : List Nat) (i k v : Nat) (h : i < l.length) :
    (l.set i v).getD k 0 = if i = k then v else l.getD k 0 := by
  rw [List.getD_eq_getElem?_getD, List.getD_eq_getElem?_getD, List.getElem?_set]
  split_ifs <;> rfl

theorem getD_mem_or_zero (l : List Nat) (k : Nat) (h : k < l.length) : l.getD k 0 ∈ l := by
  rw [List.getD_eq_getElem _ _ h]
  exact List.getElem_mem h

theorem computedPopulation_foldl : ∀ (l : List Nat) (acc : Nat), acc < UINT32 →
    l.foldl (fun acc x => (acc + x) % UINT32) acc = (acc + l.sum) % UINT32 := by
  intro l
  induction l with
  | nil => intro acc h; simp only [List.foldl_nil, List.sum_nil, Nat.add_zero]
           exact (Nat.mod_eq_of_lt h).symm
  | cons x l ih =>
    intro acc _
    rw [List.foldl_cons, ih _ (Nat.mod_lt _ (by decide)), List.sum_cons, Nat.mod_add_mod,
      Nat.add_assoc]

theorem computedPopulation_eq (l : List Nat) : computedPopulation l = l.sum % UINT32 := by
  unfold computedPopulation
  rw [computedPopulation_foldl l 0 (by decide), Nat.zero_add]

theorem succ_mod_eq (t m : Nat) (hm : 0 < m) :
    (t + 1) % m = if t % m + 1 < m then t % m + 1 else 0 := by
  have hlt := Nat.mod_lt t hm
  rw [Nat.add_mod]
  split_ifs with h
  · rw [Nat.mod_eq_of_lt (show 1 < m by omega), Nat.mod_eq_of_lt h]
  · have heq : t % m + 1 = m := by omega
    rcases Nat.eq_or_lt_of_le (show 1 ≤ m from hm) with h1 | h1
    · rw [← h1]; simp [Nat.mod_one]
    · rw [Nat.mod_eq_of_lt h1, heq, Nat.mod_self]

/-- The round-robin loop started at step `t` (at index `t % m`) for `n` rounds adds to the
population at position `k` the number of steps `j` of `[t, t + n)` with `j % m = k`. -/
theorem distributeRemainder_spec {m : Nat} (hm : 0 < m) (hmU : m < UINT32) :
    ∀ (n t : Nat) (pops : List Nat), pops.length = m →
      (∀ k, k < m → pops.getD k 0 +
        (Nat.count (fun j => j % m = k) (t + n) - Nat.count (fun j => j % m = k) t) < UINT32) →
      ∃ res, distributeRemainder n (t % m) pops = Except.ok res ∧ res.length = m ∧
        (∀ k, k < m → res.getD k 0 = pops.getD k 0 +
          (Nat.count (fun j => j % m = k) (t + n) - Nat.count (fun j => j % m = k) t)) ∧
        res.sum = pops.sum + n := by
  intro n
  induction n with
  | zero =>
    intro t pops hlen _
    refine ⟨pops, rfl, hlen, ?_, rfl⟩
    intro k _
    simp
  | succ n ih =>
    intro t pops hlen hb
    have htm := Nat.mod_lt t hm
    have hcnt : ∀ k, Nat.count (fun j => j % m = k) (t + 1) =
        Nat.count (fun j => j % m = k) t + if t % m = k then 1 else 0 :=
      fun k => Nat.count_succ _ _
    have hmono : ∀ k, Nat.count (fun j => j % m = k) (t + 1) ≤
        Nat.count (fun j => j % m = k) (t + (n + 1)) :=
      fun k => Nat.count_monotone _ (by omega)
    have hcur := hb (t % m) htm
    have h1 := hcnt (t % m)
    have h2 := hmono (t % m)
    rw [if_pos rfl] at h1
    have hcurU : pops.getD (t % m) 0 % UINT32 = pops.getD (t % m) 0 :=
      Nat.mod_eq_of_lt (by omega)
    have hnewU : (pops.getD (t % m) 0 + 1) % UINT32 = pops.getD (t % m) 0 + 1 :=
      Nat.mod_eq_of_lt (by omega)
    have hidxU : (t % m + 1) % UINT32 = t % m + 1 := Nat.mod_eq_of_lt (by omega)
    have hnext : (if t % m + 1 ≥ m then 0 else t % m + 1) = (t + 1) % m := by
      rw [succ_mod_eq t m hm]
      split_ifs <;> omega
    rw [distributeRemainder]
    simp only [hlen, if_pos htm, hcurU, hnewU, hidxU, List.length_set, hnext]
    obtain ⟨res, hres, hrlen, hpt, hrsum⟩ := ih (t + 1)
      (pops.set (t % m) (pops.getD (t % m) 0 + 1)) (by rw [List.length_set, hlen]) (by
        intro k hk
        rw [getD_set _ _ _ _ (by omega)]
        have h3 := hb k hk
        have h4 := hcnt k
        have h5 := hmono k
        rw [show t + 1 + n = t + (n + 1) by omega]
        split_ifs with heq
        · subst heq
          rw [if_pos rfl] at h4
          omega
        · rw [if_neg heq] at h4
          omega)
    refine ⟨res, hres, hrlen, ?_, ?_⟩
    · intro k hk
      rw [hpt k hk, getD_set _ _ _ _ (by omega)]
      have h4 := hcnt k
      have h5 := hmono k
      rw [show t + 1 + n = t + (n + 1) by omega]
      split_ifs with heq
      · subst heq
        rw [if_pos rfl] at h4
        omega
      · rw [if_neg heq] at h4
        omega
    · have := sum_set_add pops (t % m) (pops.getD (t % m) 0 + 1) (by omega)
      omega

theorem count_mod_eq (n m k : Nat) (hm : 0 < m) (hk : k < m) :
    Nat.count (fun j => j % m = k) n = n / m + if k < n % m then 1 else 0 := by
  have h := Nat.count_modEq_card n hm k
  rw [Nat.mod_eq_of_lt hk] at h
  rw [← h]
  congr 1
  funext j
  unfold Nat.ModEq
  rw [Nat.mod_eq_of_lt hk]

end iris.gen.PopulationDispenser

namespace iris.gen.PopulationDispenser

theorem initializeLoop_inv (fl : ℚ → ℚ) (total : Nat) (req : Bool) :
    ∀ (ps : List ℚ) (i : Nat) (d : PopulationDispenser),
      d.m_groups.length = d.m_populations.length →
      (∀ x ∈ d.m_populations, 1 ≤ x ∧ x < UINT32) →
      (initializeLoop fl total req ps i d).m_groups.length =
          (initializeLoop fl total req ps i d).m_populations.length ∧
        ∀ x ∈ (initializeLoop fl total req ps i d).m_populations, 1 ≤ x ∧ x < UINT32 := by
  intro ps
  induction ps with
  | nil => intro i d h1 h2; exact ⟨h1, h2⟩
  | cons p rest ih =>
    intro i d h1 h2
    rw [initializeLoop]
    split_ifs with hq hr
    · apply ih
      · simp only [List.length_append, List.length_singleton, h1]
      · intro x hx
        rcases List.mem_append.mp hx with hx | hx
        · exact h2 x hx
        · rw [List.mem_singleton] at hx
          subst hx
          exact ⟨Nat.pos_of_ne_zero hq, Nat.mod_lt _ (by decide)⟩
    · apply ih
      · simp only [List.length_append, List.length_singleton, h1]
      · intro x hx
        rcases List.mem_append.mp hx with hx | hx
        · exact h2 x hx
        · rw [List.mem_singleton] at hx
          subst hx
          exact ⟨le_rfl, by decide⟩
    · exact ih _ d h1 h2

/-- The populations that the loop of `initialize` retains, in the words of the
specification: the floor of `percentage * total`, or `1` where that floor is zero and
`requireAtLeastOne` is set; the other categories are dropped. -/
theorem initializeLoop_populations (fl : ℚ → ℚ) (total : Nat) (req : Bool) :
    ∀ (ps : List ℚ) (i : Nat) (d : PopulationDispenser),
      (initializeLoop fl total req ps i d).m_populations =
        d.m_populations ++ ps.filterMap (fun p =>
          if Int.toNat ⌊fl ((total : ℚ) * p)⌋ % UINT32 ≠ 0 then
            some (Int.toNat ⌊fl ((total : ℚ) * p)⌋ % UINT32)
          else if req then some 1 else none) := by
  intro ps
  induction ps with
  | nil => intro i d; simp [initializeLoop]
  | cons p rest ih =>
    intro i d
    rw [initializeLoop, List.filterMap_cons]
    by_cases hq : Int.toNat ⌊fl ((total : ℚ) * p)⌋ % UINT32 ≠ 0
    · simp only [if_pos hq]
      rw [ih]
      simp only [List.append_assoc, List.singleton_append]
    · simp only [if_neg hq]
      cases req with
      | true =>
        simp only [if_true]
        rw [ih]
        simp only [List.append_assoc, List.singleton_append, if_true]
      | false =>
        simp only [Bool.false_eq_true, if_false]
        rw [ih]
        simp only [Bool.false_eq_true, if_false]

theorem initialQuotas_inv (fl : ℚ → ℚ) (ps : List ℚ) (total : Nat) (req : Bool) :
    (initialQuotas fl ps total req).m_groups.length =
        (initialQuotas fl ps total req).m_populations.length ∧
      ∀ x ∈ (initialQuotas fl ps total req).m_populations, 1 ≤ x ∧ x < UINT32 :=
  initializeLoop_inv fl total req ps 0 {} rfl (fun x hx => by cases hx)

theorem length_le_sum_of_pos : ∀ (l : List Nat), (∀ x ∈ l, 1 ≤ x) → l.length ≤ l.sum := by
  intro l
  induction l with
  | nil => intro _; exact le_rfl
  | cons x l ih =>
    intro h
    have h1 := h x (List.mem_cons_self _ _)
    have h2 := ih (fun y hy => h y (List.mem_cons_of_mem _ hy))
    simp only [List.length_cons, List.sum_cons]
    omega

theorem initializeDispenser_eq (fl : ℚ → ℚ) (d : PopulationDispenser) (ps : List ℚ) (total : Nat)
    (req : Bool) :
    initializeDispenser fl d ps total req =
      checkPopulationRemainder (initialQuotas fl ps total req) total := rfl

/-- `initialize` when the initial quotas do not exceed the total and some category is
retained: the remainder is dealt round-robin. -/
theorem initializeDispenser_spec (fl : ℚ → ℚ) (d : PopulationDispenser) (ps : List ℚ) (total : Nat)
    (req : Bool) (hT : total < UINT32)
    (hm : 1 ≤ (initialQuotas fl ps total req).m_populations.length)
    (hsum : (initialQuotas fl ps total req).m_populations.sum ≤ total) :
    ∃ d', initializeDispenser fl d ps total req = Except.ok d' ∧
      d'.m_groups = (initialQuotas fl ps total req).m_groups ∧
      d'.m_populations.length = (initialQuotas fl ps total req).m_populations.length ∧
      (∀ k, k < (initialQuotas fl ps total req).m_populations.length →
        d'.m_populations.getD k 0 = (initialQuotas fl ps total req).m_populations.getD k 0 +
          (total - (initialQuotas fl ps total req).m_populations.sum) /
            (initialQuotas fl ps total req).m_populations.length +
          if k < (total - (initialQuotas fl ps total req).m_populations.sum) %
            (initialQuotas fl ps total req).m_populations.length then 1 else 0) ∧
      d'.m_populations.sum = total := by
  obtain ⟨hlen, hpos⟩ := initialQuotas_inv fl ps total req
  have hmle := length_le_sum_of_pos _ (fun x hx => (hpos x hx).1)
  rw [initializeDispenser_eq]
  generalize initialQuotas fl ps total req = d0 at *
  unfold checkPopulationRemainder
  rw [computedPopulation_eq, Nat.mod_eq_of_lt (by omega), if_neg (by omega)]
  simp only
  by_cases hrem : total - d0.m_populations.sum = 0
  · rw [if_neg (by simpa using hrem)]
    refine ⟨d0, rfl, rfl, rfl, ?_, by omega⟩
    intro k _
    rw [hrem]
    simp
  · rw [if_pos hrem]
    obtain ⟨res, hres, hrlen, hpt, hrsum⟩ := distributeRemainder_spec hm (by omega)
      (total - d0.m_populations.sum) 0 d0.m_populations rfl (by
        intro k hk
        have h1 : d0.m_populations.getD k 0 ≤ d0.m_populations.sum :=
          List.le_sum_of_mem (getD_mem_or_zero _ _ hk)
        have h2 : Nat.count (fun j => j % d0.m_populations.length = k)
            (0 + (total - d0.m_populations.sum)) ≤ 0 + (total - d0.m_populations.sum) :=
          Nat.count_le _
        have h3 : Nat.count (fun j => j % d0.m_populations.length = k) 0 = 0 :=
          Nat.count_zero _
        omega)
    rw [Nat.zero_mod] at hres
    rw [hres]
    refine ⟨_, rfl, rfl, hrlen, ?_, by simp only; omega⟩
    intro k hk
    simp only
    rw [hpt k hk, Nat.zero_add, Nat.count_zero, Nat.sub_zero, count_mod_eq _ _ _ hm hk,
      Nat.add_assoc]

/-- Without `requireAtLeastOne`, when the floor of a rounded product exceeds the product by a
factor of at most `c`, the retained floors of non-negative percentages add up to at most
`total * c` times the sum of the percentages. -/
theorem initializeLoop_sum_le (fl : ℚ → ℚ) (c : ℚ) (hc : 0 ≤ c)
    (hfl : ∀ x, 0 ≤ x → ((⌊fl x⌋ : ℤ) : ℚ) ≤ x * c) (total : Nat) :
    ∀ (ps : List ℚ) (i : Nat) (d : PopulationDispenser), (∀ p ∈ ps, 0 ≤ p) →
      (((initializeLoop fl total false ps i d).m_populations.sum : Nat) : ℚ) ≤
        (d.m_populations.sum : ℚ) + (total : ℚ) * ps.sum * c := by
  intro ps
  induction ps with
  | nil => intro i d _; simp [initializeLoop]
  | cons p rest ih =>
    intro i d hp
    have hp0 := hp p (List.mem_cons_self _ _)
    have hrest : ∀ q ∈ rest, 0 ≤ q := fun q hq => hp q (List.mem_cons_of_mem _ hq)
    have hprod : (0 : ℚ) ≤ (total : ℚ) * p := mul_nonneg (Nat.cast_nonneg _) hp0
    have hfloor : ((Int.toNat ⌊fl ((total : ℚ) * p)⌋ % UINT32 : Nat) : ℚ) ≤
        (total : ℚ) * p * c := by
      have h1 : Int.toNat ⌊fl ((total : ℚ) * p)⌋ % UINT32 ≤ Int.toNat ⌊fl ((total : ℚ) * p)⌋ :=
        Nat.mod_le _ _
      have h2 : ((Int.toNat ⌊fl ((total : ℚ) * p)⌋ : Nat) : ℚ) ≤ (total : ℚ) * p * c := by
        by_cases hneg : 0 ≤ ⌊fl ((total : ℚ) * p)⌋
        · have h3 : ((Int.toNat ⌊fl ((total : ℚ) * p)⌋ : Nat) : ℤ) = ⌊fl ((total : ℚ) * p)⌋ :=
            Int.toNat_of_nonneg hneg
          have h4 : ((Int.toNat ⌊fl ((total : ℚ) * p)⌋ : Nat) : ℚ) =
              ((⌊fl ((total : ℚ) * p)⌋ : ℤ) : ℚ) :=
            calc ((Int.toNat ⌊fl ((total : ℚ) * p)⌋ : Nat) : ℚ)
                = (((Int.toNat ⌊fl ((total : ℚ) * p)⌋ : Nat) : ℤ) : ℚ) := by norm_cast
              _ = ((⌊fl ((total : ℚ) * p)⌋ : ℤ) : ℚ) := by rw [h3]
          rw [h4]
          exact hfl _ hprod
        · rw [Int.toNat_of_nonpos (by omega), Nat.cast_zero]
          exact mul_nonneg hprod hc
      exact le_trans (by exact_mod_cast h1) h2
    rw [initializeLoop]
    simp only [Bool.false_eq_true, if_false]
    rw [List.sum_cons, mul_add, add_mul]
    split_ifs with hq
    · refine le_trans (ih (i + 1) _ hrest) ?_
      simp only [List.sum_append, List.sum_singleton, Nat.cast_add]
      linarith
    · refine le_trans (ih (i + 1) d hrest) ?_
      have := mul_nonneg hprod hc
      linarith

/-- Without `requireAtLeastOne`, for non-negative percentages that sum to at most `1` and a
32-bit total, the retained quotas sum to at most the total when the floor of a rounded product
exceeds the product by a factor of at most `1 + 2^-53`. -/
theorem initialQuotas_sum_le (fl : ℚ → ℚ)
    (hfl : ∀ x, 0 ≤ x → ((⌊fl x⌋ : ℤ) : ℚ) ≤ x * (1 + 1 / 2 ^ 53)) (ps : List ℚ) (total : Nat)
    (hp : ∀ p ∈ ps, 0 ≤ p) (hs : ps.sum ≤ 1) (hT : total < UINT32) :
    (initialQuotas fl ps total false).m_populations.sum ≤ total := by
  have h := initializeLoop_sum_le fl (1 + 1 / 2 ^ 53) (by norm_num) hfl total ps 0 {} hp
  have h2 : (total : ℚ) * ps.sum ≤ (total : ℚ) :=
    mul_le_of_le_one_right (Nat.cast_nonneg _) hs
  have hTq : (total : ℚ) < 4294967296 := by
    have : (total : ℚ) < ((UINT32 : Nat) : ℚ) := by exact_mod_cast hT
    simpa [UINT32] using this
  have h3 : (((initialQuotas fl ps total false).m_populations.sum : Nat) : ℚ) <
      ((total + 1 : Nat) : ℚ) := by
    unfold initialQuotas
    simp only [List.sum_nil, Nat.cast_zero, zero_add] at h
    have h4 : (total : ℚ) * ps.sum * (1 + 1 / 2 ^ 53) ≤ (total : ℚ) * (1 + 1 / 2 ^ 53) :=
      mul_le_mul_of_nonneg_right h2 (by norm_num)
    have h5 : (total : ℚ) * (1 + 1 / 2 ^ 53) < (total : ℚ) + 1 := by
      have : (total : ℚ) * (1 / 2 ^ 53) < 1 := by
        have h6 : (total : ℚ) * (1 / 2 ^ 53) < 4294967296 * (1 / 2 ^ 53) :=
          mul_lt_mul_of_pos_right hTq (by norm_num)
        have h7 : (4294967296 : ℚ) * (1 / 2 ^ 53) < 1 := by norm_num
        linarith
      linarith
    rw [Nat.cast_add, Nat.cast_one]
    linarith
  have h8 : (initialQuotas fl ps total false).m_populations.sum < total + 1 := by
    exact_mod_cast h3
  omega

end iris.gen.PopulationDispenser

namespace iris.gen.PopulationDispenser

theorem quotaOf_set : ∀ (gs ps : List Nat) (i v c : Nat), gs.length = ps.length →
    i < gs.length →
    quotaOf gs (ps.set i v) c + (if gs.getD i 0 = c then ps.getD i 0 else 0) =
      quotaOf gs ps c + (if gs.getD i 0 = c then v else 0) := by
  intro gs
  induction gs with
  | nil => intro ps i v c _ h; cases h
  | cons g gs ih =>
    intro ps i v c hlen hi
    cases ps with
    | nil => cases hlen
    | cons p ps =>
      cases i with
      | zero =>
        simp only [List.set_cons_zero, quotaOf, List.getD_cons_zero]
        omega
      | succ i =>
        have := ih ps i v c (by simpa using hlen) (by simpa using hi)
        simp only [List.set_cons_succ, quotaOf, List.getD_cons_succ]
        omega

theorem quotaOf_eraseIdx : ∀ (gs ps : List Nat) (i c : Nat), gs.length = ps.length →
    i < gs.length →
    quotaOf (gs.eraseIdx i) (ps.eraseIdx i) c + (if gs.getD i 0 = c then ps.getD i 0 else 0) =
      quotaOf gs ps c := by
  intro gs
  induction gs with
  | nil => intro ps i c _ h; cases h
  | cons g gs ih =>
    intro ps i c hlen hi
    cases ps with
    | nil => cases hlen
    | cons p ps =>
      cases i with
      | zero =>
        simp only [List.eraseIdx_cons_zero, quotaOf, List.getD_cons_zero]
        omega
      | succ i =>
        have := ih ps i c (by simpa using hlen) (by simpa using hi)
        simp only [List.eraseIdx_cons_succ, quotaOf, List.getD_cons_succ]
        omega

/-- One call of `nextGroup` on a drawable, non-empty dispenser: it succeeds, takes one unit
from the returned group and from no other, and leaves a drawable dispenser. -/
theorem nextGroup_spec (d : PopulationDispenser) (random : MersenneTwister)
    (hd : Drawable d) (hne : d.m_groups.length ≠ 0) :
    ∃ next, nextGroup d random = Except.ok next ∧ Drawable next.2.1 ∧
      next.2.1.m_populations.sum + 1 = d.m_populations.sum ∧
      ∀ c, quotaOf d.m_groups d.m_populations c =
        quotaOf next.2.1.m_groups next.2.1.m_populations c + (if next.1 = c then 1 else 0) := by
  obtain ⟨hlen, hlenU, hpos⟩ := hd
  have hU : UINT32 < SIZE_T := by decide
  have hbound : (d.m_groups.length + UINT32 - 1) % UINT32 = d.m_groups.length - 1 := by
    rw [show d.m_groups.length + UINT32 - 1 = (d.m_groups.length - 1) + UINT32 by omega,
      Nat.add_mod_right]
    exact Nat.mod_eq_of_lt (by omega)
  have hsel : (random.uniformInt 0 (d.m_groups.length - 1)).1 < d.m_groups.length := by
    have := MersenneTwister.uniformInt_le 0 (d.m_groups.length - 1) random (Nat.zero_le _)
    omega
  have hselp : (random.uniformInt 0 (d.m_groups.length - 1)).1 < d.m_populations.length := by
    omega
  obtain ⟨hp1, hp2⟩ := hpos _ (getD_mem_or_zero _ _ hselp)
  have hcur : (d.m_populations.getD (random.uniformInt 0 (d.m_groups.length - 1)).1 0 +
      SIZE_T - 1) % SIZE_T % UINT32 =
      d.m_populations.getD (random.uniformInt 0 (d.m_groups.length - 1)).1 0 - 1 := by
    have h1 : (d.m_populations.getD (random.uniformInt 0 (d.m_groups.length - 1)).1 0 - 1) %
        SIZE_T = d.m_populations.getD (random.uniformInt 0 (d.m_groups.length - 1)).1 0 - 1 :=
      Nat.mod_eq_of_lt (by omega)
    rw [show d.m_populations.getD (random.uniformInt 0 (d.m_groups.length - 1)).1 0 +
        SIZE_T - 1 =
        (d.m_populations.getD (random.uniformInt 0 (d.m_groups.length - 1)).1 0 - 1) + SIZE_T
        by omega, Nat.add_mod_right, h1, Nat.mod_eq_of_lt (by omega)]
  unfold nextGroup
  rw [if_neg hne]
  simp only [hbound, hcur]
  rw [if_pos ⟨hsel, hselp⟩]
  have hsum1 := sum_eraseIdx_add d.m_populations _ hselp
  have hsum2 := sum_set_add d.m_populations _
    (d.m_populations.getD (random.uniformInt 0 (d.m_groups.length - 1)).1 0 - 1) hselp
  by_cases hz : d.m_populations.getD (random.uniformInt 0 (d.m_groups.length - 1)).1 0 - 1 = 0
  · rw [if_pos hz]
    refine ⟨_, rfl, ⟨?_, ?_, ?_⟩, ?_, ?_⟩
    · simp only [List.length_eraseIdx, if_pos hsel, if_pos hselp, hlen]
    · simp only [List.length_eraseIdx, if_pos hsel]
      omega
    · intro x hx
      exact hpos x ((List.eraseIdx_sublist _ _).subset hx)
    · simp only
      omega
    · intro c
      have := quotaOf_eraseIdx d.m_groups d.m_populations _ c hlen hsel
      simp only
      rw [← this]
      split_ifs <;> omega
  · rw [if_neg hz]
    refine ⟨_, rfl, ⟨?_, hlenU, ?_⟩, ?_, ?_⟩
    · simp only [List.length_set, hlen]
    · intro x hx
      rcases List.mem_or_eq_of_mem_set hx with hx | hx
      · exact hpos x hx
      · subst hx
        omega
    · simp only
      omega
    · intro c
      have := quotaOf_set d.m_groups d.m_populations _
        (d.m_populations.getD (random.uniformInt 0 (d.m_groups.length - 1)).1 0 - 1) c hlen hsel
      simp only
      split_ifs at this ⊢ <;> omega

theorem quotaOf_nil_left (ps : List Nat) (c : Nat) : quotaOf [] ps c = 0 := by
  unfold quotaOf
  rfl

/-- The loop `while (hasMore()) nextGroup(random)` on a drawable dispenser, with fuel for every
unit: it makes as many calls as there are units, all of them succeed, every category is
returned as often as its quota says, and the dispenser is exhausted afterwards. -/
theorem drain_spec : ∀ (fuel : Nat) (d : PopulationDispenser) (random : MersenneTwister),
    Drawable d → d.m_populations.sum ≤ fuel →
    ∃ res, drain fuel d random = Except.ok res ∧ res.1.length = d.m_populations.sum ∧
      res.2.1.hasMore = false ∧
      ∀ c, res.1.count c = quotaOf d.m_groups d.m_populations c := by
  intro fuel
  induction fuel with
  | zero =>
    intro d random hd hf
    have hlen := length_le_sum_of_pos _ (fun x hx => (hd.2.2 x hx).1)
    have hg : d.m_groups = [] := List.length_eq_zero.mp (by rw [hd.1]; omega)
    have hp : d.m_populations = [] := List.length_eq_zero.mp (by omega)
    unfold drain
    simp only [hasMore, hg, List.isEmpty_nil, Bool.not_true, Bool.false_eq_true, if_false]
    refine ⟨_, rfl, by simp [hp], by simp [hasMore, hg], ?_⟩
    intro c
    simp [hg, quotaOf_nil_left]
  | succ fuel ih =>
    intro d random hd hf
    by_cases hg : d.m_groups = []
    · have hp : d.m_populations = [] :=
        List.length_eq_zero.mp (by rw [← hd.1, hg]; rfl)
      unfold drain
      simp only [hasMore, hg, List.isEmpty_nil, Bool.not_true, Bool.false_eq_true, if_false]
      refine ⟨_, rfl, by simp [hp], by simp [hasMore, hg], ?_⟩
      intro c
      simp [hg, quotaOf_nil_left]
    · have hne : d.m_groups.length ≠ 0 := fun h => hg (List.length_eq_zero.mp h)
      have hmore : d.hasMore = true := by
        unfold hasMore
        cases hgs : d.m_groups with
        | nil => exact absurd hgs hg
        | cons a l => rfl
      obtain ⟨next, hnext, hd1, hsum1, hquota⟩ := nextGroup_spec d random hd hne
      obtain ⟨rest, hrest, hrlen, hrmore, hrcount⟩ :=
        ih next.2.1 next.2.2 hd1 (by omega)
      rw [drain, if_pos hmore, hnext]
      simp only [hrest]
      refine ⟨_, rfl, ?_, hrmore, ?_⟩
      · simp only [List.length_cons, hrlen]
        omega
      · intro c
        rw [List.count_cons, hrcount c, hquota c]
        simp only [beq_iff_eq]

end iris.gen.PopulationDispenser

/-! ## Claims about `PopulationDispenser` -/

namespace iris.gen.PopulationDispenser

theorem distributeRemainder_error : ∀ (n i : Nat) (pops : List Nat) (e : Error),
    distributeRemainder n i pops = Except.error e → e = Error.outOfBounds := by
  intro n
  induction n with
  | zero => intro i pops e h; cases h
  | succ n ih =>
    intro i pops e h
    rw [distributeRemainder] at h
    split_ifs at h with h1
    · exact ih _ _ e h
    · cases h
      rfl

/-- When the initial quotas do not exceed the total and a category is retained unless the
total is zero, `initialize` yields a drawable dispenser that holds exactly `total` units. -/
theorem initializeDispenser_drawable (fl : ℚ → ℚ) (d : PopulationDispenser) (ps : List ℚ) (total : Nat)
    (req : Bool) (hT : total < UINT32)
    (hsum : (initialQuotas fl ps total req).m_populations.sum ≤ total)
    (hm : 0 < total → 1 ≤ (initialQuotas fl ps total req).m_populations.length) :
    ∃ d', initializeDispenser fl d ps total req = Except.ok d' ∧ Drawable d' ∧
      d'.m_populations.sum = total := by
  obtain ⟨hlen, hpos⟩ := initialQuotas_inv fl ps total req
  have hmle := length_le_sum_of_pos _ (fun x hx => (hpos x hx).1)
  by_cases hm1 : 1 ≤ (initialQuotas fl ps total req).m_populations.length
  · obtain ⟨d', hd', hg, hl, hpt, hs⟩ := initializeDispenser_spec fl d ps total req hT hm1 hsum
    refine ⟨d', hd', ⟨by rw [hg, hl, hlen], by rw [hg, hlen]; omega, ?_⟩, hs⟩
    intro x hx
    have hxs : x ≤ d'.m_populations.sum := List.le_sum_of_mem hx
    refine ⟨?_, by omega⟩
    obtain ⟨k, hk, hkx⟩ := util.exists_getD_eq_of_mem hx
    rw [hl] at hk
    have h1 : (initialQuotas fl ps total req).m_populations.getD k 0 ≤ d'.m_populations.getD k 0 := by
      rw [hpt k hk, Nat.add_assoc]
      exact Nat.le_add_right _ _
    have h2 := (hpos _ (getD_mem_or_zero _ _ hk)).1
    omega
  · have ht : total = 0 := by
      by_contra hcon
      exact hm1 (hm (Nat.pos_of_ne_zero hcon))
    have hp0 : (initialQuotas fl ps total req).m_populations = [] :=
      List.length_eq_zero.mp (by omega)
    have hg0 : (initialQuotas fl ps total req).m_groups = [] :=
      List.length_eq_zero.mp (by rw [hlen, hp0]; rfl)
    refine ⟨initialQuotas fl ps total req, ?_, ⟨hlen, by rw [hg0]; decide, hpos⟩, ?_⟩
    · rw [initializeDispenser_eq]
      unfold checkPopulationRemainder
      rw [computedPopulation_eq, hp0, ht]
      rfl
    · rw [hp0, ht]
      rfl

/-- C8 (as stated, refuted): for the distribution `{1/2, 1/2, 0}`, total `2` and
`requireAtLeastOne` set, `initialize` throws the over-allocation error (forced quotas
`1 + 1 + 1 > 2`); for the distribution `{1/2, 1/2}`, total `1` and `requireAtLeastOne` unset,
no category is retained and the round-robin accesses `m_populations[0]` of an empty vector;
for the `double` values of `{0.5, 0.3, 0.2, 0.0}`, which sum to exactly `1`, total `10` and
`requireAtLeastOne` set, the product `10 * 0.3` rounds to `3.0`, the quotas are `5, 3, 2` and
the forced `1`, and `initialize` throws the over-allocation error. In each case no call of
`nextGroup` can follow. -/
theorem initialize_fails_on_unit_distributions :
    ([1 / 2, 1 / 2, 0] : List ℚ).sum = 1 ∧
    initializeDispenser roundToDouble {} [1 / 2, 1 / 2, 0] 2 true =
      Except.error Error.overAllocation ∧
    ([1 / 2, 1 / 2] : List ℚ).sum = 1 ∧
    initializeDispenser roundToDouble {} [1 / 2, 1 / 2] 1 false =
      Except.error Error.outOfBounds ∧
    ([1 / 2, 5404319552844595 / 18014398509481984, 3602879701896397 / 18014398509481984, 0] :
      List ℚ).sum = 1 ∧
    (initialQuotas roundToDouble
      [1 / 2, 5404319552844595 / 18014398509481984, 3602879701896397 / 18014398509481984, 0]
      10 true).m_populations = [5, 3, 2, 1] ∧
    initializeDispenser roundToDouble {}
      [1 / 2, 5404319552844595 / 18014398509481984, 3602879701896397 / 18014398509481984, 0]
      10 true = Except.error Error.overAllocation := by
  refine ⟨by norm_num, ?_, by norm_num, ?_, by norm_num, ?_, ?_⟩
  · with_unfolding_all rfl
  · with_unfolding_all rfl
  · with_unfolding_all rfl
  · with_unfolding_all rfl

/-- C8 (amended): for all non-negative percentage distributions summing to 1, every total
population `P < 2^32` and either value of `requireAtLeastOne` for which the initial quotas
that `initialize` computes (the floors of the `double` products, forced ones included) sum to
at most `P` and at least one category is retained unless `P = 0`, `initialize` succeeds, and
then, for every sequence of random draws, exactly `P` calls of `nextGroup` succeed before
`hasMore()` becomes false, and the number of times each category is returned equals the
reconciled quota of that category. This holds for every rounding `fl` of the product, that of
`double` included. -/
theorem dispenser_drains_exact_quotas (fl : ℚ → ℚ) (d : PopulationDispenser) (ps : List ℚ)
    (total : Nat) (req : Bool) (random : MersenneTwister) (fuel : Nat)
    (_hp : ∀ p ∈ ps, 0 ≤ p) (_hs : ps.sum = 1) (hT : total < UINT32)
    (hsum : (initialQuotas fl ps total req).m_populations.sum ≤ total)
    (hm : 0 < total → 1 ≤ (initialQuotas fl ps total req).m_populations.length)
    (hfuel : total ≤ fuel) :
    ∃ d', initializeDispenser fl d ps total req = Except.ok d' ∧
      ∃ res, drain fuel d' random = Except.ok res ∧ res.1.length = total ∧
        res.2.1.hasMore = false ∧
        ∀ c, res.1.count c = quotaOf d'.m_groups d'.m_populations c := by
  obtain ⟨d', hd', hdraw, hs⟩ := initializeDispenser_drawable fl d ps total req hT hsum hm
  obtain ⟨res, hres, hlen, hmore, hcount⟩ := drain_spec fuel d' random hdraw (by omega)
  exact ⟨d', hd', res, hres, by omega, hmore, hcount⟩

/-- Witness for C8 (amended): the `double` values of `{0.5, 0.3, 0.2, 0.0}`, total `10`, no
forced quota, products rounded to `double`: the quotas `5, 3, 2` are drawn in ten calls. -/
theorem dispenser_drains_exact_quotas_witness :
    (∀ p ∈ ([1 / 2, 5404319552844595 / 18014398509481984,
      3602879701896397 / 18014398509481984, 0] : List ℚ), 0 ≤ p) ∧
    ([1 / 2, 5404319552844595 / 18014398509481984, 3602879701896397 / 18014398509481984, 0] :
      List ℚ).sum = 1 ∧
    10 < UINT32 ∧
    (initialQuotas roundToDouble
      [1 / 2, 5404319552844595 / 18014398509481984, 3602879701896397 / 18014398509481984, 0]
      10 false).m_populations = [5, 3, 2] ∧
    ∃ d', initializeDispenser roundToDouble {}
        [1 / 2, 5404319552844595 / 18014398509481984, 3602879701896397 / 18014398509481984, 0]
        10 false = Except.ok d' ∧
      ∃ res, drain 10 d' ⟨fun n => n, 0⟩ = Except.ok res ∧ res.1.length = 10 ∧
        res.2.1.hasMore = false ∧
        ∀ c, res.1.count c = quotaOf d'.m_groups d'.m_populations c :=
  ⟨by norm_num, by norm_num, by decide, by with_unfolding_all rfl,
    dispenser_drains_exact_quotas roundToDouble {}
      [1 / 2, 5404319552844595 / 18014398509481984, 3602879701896397 / 18014398509481984, 0]
      10 false ⟨fun n => n, 0⟩ 10 (by norm_num) (by norm_num) (by decide)
      (by with_unfolding_all decide) (fun _ => by with_unfolding_all decide) le_rfl⟩

/-- C10 (as stated, refuted): the percentages `{1, 0}` are non-negative and sum to `1`, yet
with total `5` and `requireAtLeastOne` set the quotas are `5` and the forced `1`, and
`initialize` throws the over-allocation error. -/
theorem initialize_overallocates_with_forced_quota :
    (∀ p ∈ ([1, 0] : List ℚ), 0 ≤ p) ∧ ([1, 0] : List ℚ).sum ≤ 1 ∧
    initializeDispenser roundToDouble {} [1, 0] 5 true = Except.error Error.overAllocation := by
  refine ⟨by norm_num, by norm_num, ?_⟩
  with_unfolding_all rfl

/-- C10 (amended): for non-negative percentages summing to at most 1 and every total
population below `2^32`, `initialize` without `requireAtLeastOne` never fails with the
over-allocation error: the retained quotas sum to at most the total. This holds with the
products rounded to `double`, as in the program, and also in exact arithmetic. -/
theorem initialize_never_overallocates (d : PopulationDispenser) (ps : List ℚ) (total : Nat)
    (hp : ∀ p ∈ ps, 0 ≤ p) (hs : ps.sum ≤ 1) (hT : total < UINT32) :
    ((initialQuotas roundToDouble ps total false).m_populations.sum ≤ total ∧
      initializeDispenser roundToDouble d ps total false ≠
        Except.error Error.overAllocation) ∧
    ((initialQuotas id ps total false).m_populations.sum ≤ total ∧
      initializeDispenser id d ps total false ≠ Except.error Error.overAllocation) := by
  have hgen : ∀ fl : ℚ → ℚ, (initialQuotas fl ps total false).m_populations.sum ≤ total →
      initializeDispenser fl d ps total false ≠ Except.error Error.overAllocation := by
    intro fl hle
    rw [initializeDispenser_eq]
    unfold checkPopulationRemainder
    rw [computedPopulation_eq, Nat.mod_eq_of_lt (by omega), if_neg (by omega)]
    simp only
    split_ifs with hrem
    · cases hres : distributeRemainder
          (total - (initialQuotas fl ps total false).m_populations.sum) 0
          (initialQuotas fl ps total false).m_populations with
      | error e =>
        have := distributeRemainder_error _ _ _ e hres
        subst this
        simp
      | ok pops => simp
    · simp
  have h1 := initialQuotas_sum_le roundToDouble roundToDouble_floor_le ps total hp hs hT
  have h2 := initialQuotas_sum_le id
    (fun x hx => le_trans (Int.floor_le x)
      (le_mul_of_one_le_right hx (by norm_num))) ps total hp hs hT
  exact ⟨⟨h1, hgen _ h1⟩, ⟨h2, hgen _ h2⟩⟩

/-- Witness for C10 (amended): the `double` values of `{0.71, 0.29}` and total `100`. -/
theorem initialize_never_overallocates_witness :
    (∀ p ∈ ([799388933858263 / 1125899906842624, 5224175567749775 / 18014398509481984] :
      List ℚ), 0 ≤ p) ∧
    ([799388933858263 / 1125899906842624, 5224175567749775 / 18014398509481984] :
      List ℚ).sum ≤ 1 ∧
    100 < UINT32 ∧
    ((initialQuotas roundToDouble
        [799388933858263 / 1125899906842624, 5224175567749775 / 18014398509481984]
        100 false).m_populations.sum ≤ 100 ∧
      initializeDispenser roundToDouble {}
        [799388933858263 / 1125899906842624, 5224175567749775 / 18014398509481984]
        100 false ≠ Except.error Error.overAllocation) ∧
    ((initialQuotas id
        [799388933858263 / 1125899906842624, 5224175567749775 / 18014398509481984]
        100 false).m_populations.sum ≤ 100 ∧
      initializeDispenser id {}
        [799388933858263 / 1125899906842624, 5224175567749775 / 18014398509481984]
        100 false ≠ Except.error Error.overAllocation) :=
  ⟨by norm_num, by norm_num, by decide,
    initialize_never_overallocates {}
      [799388933858263 / 1125899906842624, 5224175567749775 / 18014398509481984] 100
      (by norm_num) (by norm_num) (by decide)⟩

end iris.gen.PopulationDispenser

/-! ## `PopulationDispenser::nextGroup` -/

namespace iris.gen.PopulationDispenser

/-- With one population per group and no population at zero, the groups that are present are
the categories with a remaining quota. -/
theorem mem_groups_iff_quota : ∀ (gs ps : List Nat) (c : Nat), gs.length = ps.length →
    (∀ x ∈ ps, 1 ≤ x) → (c ∈ gs ↔ 1 ≤ quotaOf gs ps c) := by
  intro gs
  induction gs with
  | nil =>
    intro ps c _ _
    rw [quotaOf_nil_left]
    simp
  | cons g gs ih =>
    intro ps c hlen hpos
    cases ps with
    | nil => simp at hlen
    | cons p ps =>
      have hp : 1 ≤ p := hpos p (List.mem_cons_self _ _)
      have hrest := ih ps c (by simpa using hlen) (fun x hx => hpos x (List.mem_cons_of_mem _ hx))
      unfold quotaOf
      by_cases hgc : g = c
      · subst hgc
        rw [if_pos rfl]
        simp only [List.mem_cons, true_or, true_iff]
        omega
      · rw [if_neg hgc, Nat.zero_add, ← hrest]
        simp only [List.mem_cons]
        constructor
        · rintro (h | h)
          · exact absurd h.symm hgc
          · exact h
        · exact Or.inr

/-- C11. `PopulationDispenser::nextGroup` on a dispenser as `initialize` leaves it (one
population per group, every population between `1` and `2^32 - 1`): it fails exactly when no
category remains, and the failure is "the dispenser is empty", raised before any member is
written; otherwise, for every state of the generator, it returns a category that is present
with a remaining quota of at least one, lowers the quota of that category by exactly one,
leaves the quota of every other category as it was, and keeps exactly the categories whose
quota is still positive. -/
theorem nextGroup_contract (d : PopulationDispenser) (random : MersenneTwister)
    (hd : Drawable d) :
    ((∃ e, nextGroup d random = Except.error e) ↔ d.m_groups = []) ∧
    (d.m_groups = [] → nextGroup d random = Except.error Error.dispenserEmpty) ∧
    (d.m_groups ≠ [] → ∃ next, nextGroup d random = Except.ok next ∧
      next.1 ∈ d.m_groups ∧ 1 ≤ quotaOf d.m_groups d.m_populations next.1 ∧
      quotaOf next.2.1.m_groups next.2.1.m_populations next.1 + 1 =
        quotaOf d.m_groups d.m_populations next.1 ∧
      (∀ c, c ≠ next.1 → quotaOf next.2.1.m_groups next.2.1.m_populations c =
        quotaOf d.m_groups d.m_populations c) ∧
      (∀ c, c ∈ next.2.1.m_groups ↔
        1 ≤ quotaOf next.2.1.m_groups next.2.1.m_populations c) ∧
      Drawable next.2.1) := by
  have hempty : d.m_groups = [] → nextGroup d random = Except.error Error.dispenserEmpty := by
    intro h
    unfold nextGroup
    rw [if_pos (by rw [h]; rfl)]
  have hmore : d.m_groups ≠ [] → ∃ next, nextGroup d random = Except.ok next ∧
      next.1 ∈ d.m_groups ∧ 1 ≤ quotaOf d.m_groups d.m_populations next.1 ∧
      quotaOf next.2.1.m_groups next.2.1.m_populations next.1 + 1 =
        quotaOf d.m_groups d.m_populations next.1 ∧
      (∀ c, c ≠ next.1 → quotaOf next.2.1.m_groups next.2.1.m_populations c =
        quotaOf d.m_groups d.m_populations c) ∧
      (∀ c, c ∈ next.2.1.m_groups ↔
        1 ≤ quotaOf next.2.1.m_groups next.2.1.m_populations c) ∧
      Drawable next.2.1 := by
    intro hne
    have hlen : d.m_groups.length ≠ 0 := fun h => hne (List.length_eq_zero.mp h)
    obtain ⟨next, hnext, hdn, -, hq⟩ := nextGroup_spec d random hd hlen
    have hself := hq next.1
    rw [if_pos rfl] at hself
    have hquota : 1 ≤ quotaOf d.m_groups d.m_populations next.1 := by omega
    refine ⟨next, hnext, ?_, hquota, hself.symm, ?_, ?_, hdn⟩
    · exact (mem_groups_iff_quota _ _ _ hd.1 (fun x hx => (hd.2.2 x hx).1)).mpr hquota
    · intro c hc
      have := hq c
      rw [if_neg (fun h => hc h.symm)] at this
      omega
    · intro c
      exact mem_groups_iff_quota _ _ _ hdn.1 (fun x hx => (hdn.2.2 x hx).1)
  refine ⟨⟨?_, fun h => ⟨_, hempty h⟩⟩, hempty, hmore⟩
  rintro ⟨e, he⟩
  by_contra hne
  obtain ⟨next, hnext, -⟩ := hmore hne
  rw [hnext] at he
  cases he

/-- Witness for C11: the dispenser with the categories `0` and `1` and the quotas `2` and
`1`. -/
theorem nextGroup_contract_witness :
    Drawable { m_groups := [0, 1], m_populations := [2, 1] } ∧
    ∃ next, nextGroup { m_groups := [0, 1], m_populations := [2, 1] }
        { tape := fun _ => 1, pos := 0 } = Except.ok next ∧
      next.1 ∈ [0, 1] ∧ 1 ≤ quotaOf [0, 1] [2, 1] next.1 ∧
      quotaOf next.2.1.m_groups next.2.1.m_populations next.1 + 1 =
        quotaOf [0, 1] [2, 1] next.1 ∧
      (∀ c, c ≠ next.1 → quotaOf next.2.1.m_groups next.2.1.m_populations c =
        quotaOf [0, 1] [2, 1] c) ∧
      (∀ c, c ∈ next.2.1.m_groups ↔
        1 ≤ quotaOf next.2.1.m_groups next.2.1.m_populations c) ∧
      Drawable next.2.1 :=
  have hd : Drawable { m_groups := [0, 1], m_populations := [2, 1] } :=
    ⟨rfl, by decide, by decide⟩
  ⟨hd, (nextGroup_contract { m_groups := [0, 1], m_populations := [2, 1] }
    { tape := fun _ => 1, pos := 0 } hd).2.2 (by decide)⟩

end iris.gen.PopulationDispenser

/-! ## Facts about vectors and `std::shuffle` -/

namespace iris

theorem vectorAt_ok {v : List Nat} {index : Nat} (h : index < v.length) :
    vectorAt v index = Except.ok (v.getD index 0) := by
  unfold vectorAt
  rw [if_pos h]

theorem vectorAt_error {v : List Nat} {index : Nat} (h : ¬ index < v.length) :
    vectorAt v index = Except.error Error.outOfBounds := by
  unfold vectorAt
  rw [if_neg h]

theorem length_swapAt (v : List Nat) (i j : Nat) : (swapAt v i j).length = v.length := by
  unfold swapAt
  simp only [List.length_set]

/-- Exchanging two positions of a vector permutes it. -/
theorem swapAt_perm (v : List Nat) {i j : Nat} (hi : i < v.length) (hj : j < v.length) :
    (swapAt v i j).Perm v := by
  rw [List.perm_iff_count]
  intro a
  unfold swapAt
  rw [List.getD_eq_getElem _ _ hi, List.getD_eq_getElem _ _ hj]
  have hj1 : j < (v.set i v[j]).length := by rw [List.length_set]; exact hj
  rw [List.count_set _ _ _ _ hj1, List.count_set _ _ _ _ hi, List.getElem_set]
  have hci : (v[i] == a) = true → 0 < List.count a v := by
    intro h
    rw [beq_iff_eq] at h
    exact List.count_pos_iff.mpr (h ▸ List.getElem_mem hi)
  have hcj : (v[j] == a) = true → 0 < List.count a v := by
    intro h
    rw [beq_iff_eq] at h
    exact List.count_pos_iff.mpr (h ▸ List.getElem_mem hj)
  by_cases hij : i = j
  · subst hij
    rw [if_pos rfl]
    by_cases h1 : (v[i] == a) = true
    · have := hci h1
      simp only [h1, if_true]
      omega
    · simp only [h1]
      simp
  · rw [if_neg hij]
    by_cases h1 : (v[i] == a) = true <;> by_cases h2 : (v[j] == a) = true
    · have := hci h1
      simp only [h1, h2, if_true]
      omega
    · have := hci h1
      simp only [h1, h2, if_true]
      simp only [Bool.false_eq_true, if_false]
      omega
    · have := hcj h2
      simp only [h1, h2, if_true]
      simp only [Bool.false_eq_true, if_false]
      omega
    · simp only [h1, h2]
      simp

/-- The exchange loop of `std::shuffle` permutes the vector when it starts at a position
`i ≥ 1` with `v.size() - i` rounds to go. -/
theorem shuffleLoop_perm : ∀ (n i : Nat) (v : List Nat) (random : MersenneTwister),
    i + n = v.length → ((shuffleLoop n i v random).1).Perm v := by
  intro n
  induction n with
  | zero =>
    intro i v random _
    unfold shuffleLoop
    exact List.Perm.refl _
  | succ n ih =>
    intro i v random h
    unfold shuffleLoop
    simp only
    have hd := MersenneTwister.uniformInt_le 0 i random (Nat.zero_le _)
    have hswap := swapAt_perm v (show i < v.length by omega)
      (show (random.uniformInt 0 i).1 < v.length by omega)
    exact (ih (i + 1) _ _ (by rw [length_swapAt]; omega)).trans hswap

/-- `std::shuffle` permutes the vector. -/
theorem shuffle_perm (v : List Nat) (random : MersenneTwister) :
    ((shuffle v random).1).Perm v := by
  unfold shuffle
  cases v with
  | nil =>
    unfold shuffleLoop
    exact List.Perm.refl _
  | cons a l =>
    exact shuffleLoop_perm _ 1 _ random (by simp only [List.length_cons]; omega)

end iris

/-! ## Facts about the members of an agent -/

namespace iris

namespace Agent

theorem getBehaviorAt_of_holdsAt {D t : Nat} {agent : Agent} (h : HoldsAt D t agent) {k : Nat}
    (hk : k < D) : ∃ v, agent.getBehaviorAt k t = Except.ok v := by
  obtain ⟨h1, h2, h3⟩ := h
  unfold getBehaviorAt
  by_cases ht : agent.m_state.1.m_time = t
  · rw [if_pos ht]
    exact ⟨_, vectorAt_ok (by omega)⟩
  · rw [if_neg ht, if_pos (h3.resolve_left ht)]
    exact ⟨_, vectorAt_ok (by omega)⟩

/-- Reading the current snapshot. -/
theorem getBehaviorAt_current {agent : Agent} {k t : Nat} (ht : agent.m_state.1.m_time = t)
    (hk : k < agent.m_state.1.m_behavior.length) :
    agent.getBehaviorAt k t = Except.ok (agent.m_state.1.m_behavior.getD k 0) := by
  unfold getBehaviorAt
  rw [if_pos ht]
  exact vectorAt_ok hk

/-- Reading the previous snapshot. -/
theorem getBehaviorAt_previous {agent : Agent} {k t : Nat} (h1 : agent.m_state.1.m_time ≠ t)
    (h2 : agent.m_state.2.m_time = t) (hk : k < agent.m_state.2.m_behavior.length) :
    agent.getBehaviorAt k t = Except.ok (agent.m_state.2.m_behavior.getD k 0) := by
  unfold getBehaviorAt
  rw [if_neg h1, if_pos h2]
  exact vectorAt_ok hk

/-- A read at a time that neither snapshot carries throws. -/
theorem getBehaviorAt_stale {agent : Agent} {k t : Nat} (h1 : agent.m_state.1.m_time ≠ t)
    (h2 : agent.m_state.2.m_time ≠ t) :
    agent.getBehaviorAt k t = Except.error Error.staleState := by
  unfold getBehaviorAt
  rw [if_neg h1, if_neg h2]

/-- `getBehaviorAt` only looks at the snapshots. -/
theorem getBehaviorAt_congr {a b : Agent} (h : a.m_state = b.m_state) (k t : Nat) :
    a.getBehaviorAt k t = b.getBehaviorAt k t := by
  unfold getBehaviorAt
  rw [h]

theorem getInteractionsWith_fst_core (agent : Agent) (id : Nat) :
    SameCore (agent.getInteractionsWith id).1 agent ∧
      (agent.getInteractionsWith id).1.m_privilege = agent.m_privilege := by
  unfold getInteractionsWith
  cases agent.m_interactions id <;> exact ⟨⟨rfl, rfl, rfl, rfl, rfl, rfl⟩, rfl⟩

theorem getInteractionsWith_snd (agent : Agent) (id : Nat) :
    (agent.getInteractionsWith id).2 = agent.interactionWith id := by
  unfold getInteractionsWith interactionWith
  cases agent.m_interactions id <;> rfl

theorem getInteractionsWith_fst_other (agent : Agent) {id k : Nat} (h : k ≠ id) :
    (agent.getInteractionsWith id).1.m_interactions k = agent.m_interactions k := by
  unfold getInteractionsWith
  cases agent.m_interactions id with
  | none => exact Function.update_noteq h _ _
  | some c => rfl

/-- `updateInfluenceOn` writes the ledger only. -/
theorem updateInfluenceOn_core (agent : Agent) (targetId : Nat) (commType : CommType) :
    SameCore (agent.updateInfluenceOn targetId commType) agent ∧
      (agent.updateInfluenceOn targetId commType).m_privilege = agent.m_privilege := by
  unfold updateInfluenceOn
  exact getInteractionsWith_fst_core agent targetId

/-- `updateInfluenceOn` leaves the entries of the other keys alone. -/
theorem updateInfluenceOn_other (agent : Agent) {targetId k : Nat} (commType : CommType)
    (h : k ≠ targetId) :
    (agent.updateInfluenceOn targetId commType).m_interactions k = agent.m_interactions k := by
  unfold updateInfluenceOn
  simp only
  rw [Function.update_noteq h]
  exact getInteractionsWith_fst_other agent h

/-- The entry that `updateInfluenceOn` writes. -/
theorem updateInfluenceOn_entry (agent : Agent) (targetId : Nat) (commType : CommType) :
    (agent.updateInfluenceOn targetId commType).interactionWith targetId =
      { m_communicated := ((agent.interactionWith targetId).m_communicated + 1) % UINT32,
        m_censored :=
          if commType = CommType.Censored then
            ((agent.interactionWith targetId).m_censored + 1) % UINT32
          else (agent.interactionWith targetId).m_censored,
        m_reinforced :=
          if commType = CommType.Reinforced then
            ((agent.interactionWith targetId).m_reinforced + 1) % UINT32
          else (agent.interactionWith targetId).m_reinforced } := by
  unfold updateInfluenceOn
  simp only [interactionWith, Function.update_same, Option.getD_some]
  rw [show (agent.getInteractionsWith targetId).2 = (agent.m_interactions targetId).getD {} from
    getInteractionsWith_snd agent targetId]
  cases commType <;> simp

theorem increasePrivilege_core (agent : Agent) : SameCore agent.increasePrivilege agent :=
  ⟨rfl, rfl, rfl, rfl, rfl, rfl⟩

theorem SameCore_refl (a : Agent) : SameCore a a := ⟨rfl, rfl, rfl, rfl, rfl, rfl⟩

theorem SameCore_trans {a b c : Agent} (h1 : SameCore a b) (h2 : SameCore b c) :
    SameCore a c :=
  ⟨h1.1.trans h2.1, h1.2.1.trans h2.2.1, h1.2.2.1.trans h2.2.2.1,
    h1.2.2.2.1.trans h2.2.2.2.1, h1.2.2.2.2.1.trans h2.2.2.2.2.1,
    h1.2.2.2.2.2.trans h2.2.2.2.2.2⟩

/-- A contact writes the ledger and the privilege only. -/
theorem contacted_core (uid cur soc : Nat) (outcome : Outcome) (credit : Bool)
    (agent : Agent) : SameCore (contacted uid cur soc outcome credit agent) agent := by
  unfold contacted
  simp only
  split_ifs
  · exact SameCore_trans (increasePrivilege_core _) (updateInfluenceOn_core _ _ _).1
  · exact (updateInfluenceOn_core _ _ _).1

/-- The privilege after a contact. -/
theorem contacted_privilege (uid cur soc : Nat) (outcome : Outcome) (credit : Bool)
    (agent : Agent) :
    (contacted uid cur soc outcome credit agent).m_privilege =
      if credit = true ∧ determineCommType cur soc outcome ≠ CommType.Neither then
        (agent.m_privilege + 1) % UINT32
      else agent.m_privilege := by
  unfold contacted
  simp only
  split_ifs
  · show ((agent.updateInfluenceOn uid _).m_privilege + 1) % UINT32 = _
    rw [(updateInfluenceOn_core _ _ _).2]
  · exact (updateInfluenceOn_core _ _ _).2

/-- The ledger after a contact: the entries of the other keys. -/
theorem contacted_other (uid cur soc : Nat) (outcome : Outcome) (credit : Bool)
    (agent : Agent) {k : Nat} (h : k ≠ uid) :
    (contacted uid cur soc outcome credit agent).m_interactions k = agent.m_interactions k := by
  unfold contacted
  simp only
  split_ifs
  · exact updateInfluenceOn_other agent _ h
  · exact updateInfluenceOn_other agent _ h

/-- The ledger after a contact: the entry of the stepping agent. -/
theorem contacted_entry (uid cur soc : Nat) (outcome : Outcome) (credit : Bool)
    (agent : Agent) :
    (contacted uid cur soc outcome credit agent).interactionWith uid =
      (agent.updateInfluenceOn uid (determineCommType cur soc outcome)).interactionWith uid := by
  unfold contacted
  simp only
  split_ifs
  · rfl
  · rfl

end Agent

end iris

/-! ## Facts about the social group of a step -/

namespace iris

namespace Agent

/-- The in-group is the beginning of the shuffled network. -/
theorem obtainRandomInGroup_eq (agent : Agent) (qIn : Nat) (random : MersenneTwister) :
    (agent.obtainRandomInGroup qIn random).1 = ((shuffle agent.m_network random).1).take qIn := by
  unfold obtainRandomInGroup
  simp only
  split_ifs with h
  · rfl
  · exact (List.take_of_length_le (by omega)).symm

/-- The in-group: at most `qIn` distinct members of the network. -/
theorem obtainRandomInGroup_spec (agent : Agent) (qIn : Nat) (random : MersenneTwister)
    (hnd : agent.m_network.Nodup) :
    (agent.obtainRandomInGroup qIn random).1.Nodup ∧
    (∀ x ∈ (agent.obtainRandomInGroup qIn random).1, x ∈ agent.m_network) ∧
    (agent.obtainRandomInGroup qIn random).1.length = min qIn agent.m_network.length := by
  rw [obtainRandomInGroup_eq]
  have hp := shuffle_perm agent.m_network random
  refine ⟨?_, ?_, ?_⟩
  · exact (hp.nodup_iff.mpr hnd).sublist (List.take_sublist _ _)
  · intro x hx
    exact hp.subset (List.mem_of_mem_take hx)
  · rw [List.length_take, hp.length_eq]

/-- The loop of `obtainRandomOutGroup` when the rounds do not outnumber the free identifiers:
every round succeeds and adds a new identifier below `N` that is not excluded. -/
theorem obtainRandomOutGroupLoop_spec {N : Nat} (hN1 : 1 ≤ N) (hN : N < UINT32) :
    ∀ (n : Nat) (E og : List Nat) (random : MersenneTwister),
      E.Pairwise (· < ·) → (∀ x ∈ E, x < N) → E.length + n ≤ N →
      ∃ added random1, obtainRandomOutGroupLoop N n E og random =
          Except.ok (og ++ added, random1) ∧
        added.length = n ∧ added.Nodup ∧ ∀ x ∈ added, x < N ∧ x ∉ E := by
  intro n
  induction n with
  | zero =>
    intro E og random _ _ _
    refine ⟨[], random, ?_, rfl, List.nodup_nil, ?_⟩
    · unfold obtainRandomOutGroupLoop
      rw [List.append_nil]
    · intro x hx
      cases hx
  | succ n ih =>
    intro E og random hs hE hlen
    have hbound : (N + UINT32 - 1) % UINT32 = N - 1 := by
      rw [show N + UINT32 - 1 = (N - 1) + UINT32 by omega, Nat.add_mod_right]
      exact Nat.mod_eq_of_lt (by omega)
    have hdraw := MersenneTwister.uniformInt_le 0 (N - 1) random (Nat.zero_le _)
    have hcases := @util.ensureRandom_cases E (random.uniformInt 0 (N - 1)).1 0 N
      (hs.imp (fun h => Nat.le_of_lt h)) (fun x hx => ⟨Nat.zero_le x, hE x hx⟩)
      ⟨Nat.zero_le _, by omega⟩ hN (by omega)
    unfold obtainRandomOutGroupLoop
    simp only [hbound]
    rcases hcases with ⟨v, hv, hvE, -, hvN⟩ | ⟨-, hall⟩
    · rw [hv]
      simp only
      obtain ⟨added, random1, hrun, hl, hnd, hmem⟩ :=
        ih (util.sortedInsert E v) (og ++ [v]) (random.uniformInt 0 (N - 1)).2
          (util.pairwise_sortedInsert hs hvE)
          (fun x hx => by
            rcases util.mem_sortedInsert.mp hx with rfl | hx
            · exact hvN
            · exact hE x hx)
          (by rw [util.length_sortedInsert]; omega)
      refine ⟨v :: added, random1, ?_, ?_, ?_, ?_⟩
      · rw [hrun, List.append_assoc]
        rfl
      · rw [List.length_cons, hl]
      · refine List.nodup_cons.mpr ⟨?_, hnd⟩
        intro hin
        exact (hmem v hin).2 (util.mem_sortedInsert.mpr (Or.inl rfl))
      · intro x hx
        rcases List.mem_cons.mp hx with rfl | hx
        · exact ⟨hvN, hvE⟩
        · exact ⟨(hmem x hx).1, fun h => (hmem x hx).2 (util.mem_sortedInsert.mpr (Or.inr h))⟩
    · exfalso
      have := util.le_length_of_covering (E := E) (N := N)
        (fun x hx => hall x (Nat.zero_le x) hx)
      omega

/-- `obtainRandomOutGroup` on a well-formed network: exactly `min(qOut, N - |network| - 1)`
distinct identifiers below `N`, none in the network and none equal to the agent. -/
theorem obtainRandomOutGroup_spec {N : Nat} (hN : N < UINT32) (agent : Agent) (qOut : Nat)
    (random : MersenneTwister) (hid : agent.m_uid < N)
    (hnet : NetworkOk N agent.m_uid agent.m_network) :
    ∃ outGroup random1, agent.obtainRandomOutGroup qOut N random =
        Except.ok (outGroup, random1) ∧
      outGroup.length = min qOut (N - agent.m_network.length - 1) ∧ outGroup.Nodup ∧
      ∀ x ∈ outGroup, x < N ∧ x ≠ agent.m_uid ∧ x ∉ agent.m_network := by
  have hlen := NetworkOk_length_le hnet hid
  have hU : UINT32 < SIZE_T := by decide
  have hbound : ((N + SIZE_T - agent.m_network.length % SIZE_T) % SIZE_T + SIZE_T - 1) %
      SIZE_T = N - agent.m_network.length - 1 := by
    rw [Nat.mod_eq_of_lt (show agent.m_network.length < SIZE_T by omega),
      show N + SIZE_T - agent.m_network.length = (N - agent.m_network.length) + SIZE_T by omega,
      Nat.add_mod_right, Nat.mod_eq_of_lt (show N - agent.m_network.length < SIZE_T by omega),
      show N - agent.m_network.length + SIZE_T - 1 =
        (N - agent.m_network.length - 1) + SIZE_T by omega,
      Nat.add_mod_right]
    exact Nat.mod_eq_of_lt (by omega)
  unfold obtainRandomOutGroup
  simp only [hbound]
  obtain ⟨added, random1, hrun, hl, hnd, hmem⟩ :=
    obtainRandomOutGroupLoop_spec (N := N) (by omega) hN
      (if qOut > N - agent.m_network.length - 1 then N - agent.m_network.length - 1 else qOut)
      (util.sortedInsert agent.m_network agent.m_uid) [] random
      (util.pairwise_sortedInsert hnet.1 hnet.2.2)
      (fun x hx => by
        rcases util.mem_sortedInsert.mp hx with rfl | hx
        · exact hid
        · exact hnet.2.1 x hx)
      (by rw [util.length_sortedInsert]; split_ifs <;> omega)
  refine ⟨added, random1, ?_, ?_, hnd, ?_⟩
  · rw [hrun, List.nil_append]
  · rw [hl]
    split_ifs <;> omega
  · intro x hx
    refine ⟨(hmem x hx).1, ?_, ?_⟩
    · rintro rfl
      exact (hmem _ hx).2 (util.mem_sortedInsert.mpr (Or.inl rfl))
    · intro h
      exact (hmem x hx).2 (util.mem_sortedInsert.mpr (Or.inr h))

/-- The social group of an agent with a well-formed network: distinct identifiers below `N`,
none of them the agent itself, at most `N - 1` and at most `qIn + qOut` of them. -/
theorem obtainRandomInfluentialGroup_spec {N : Nat} (hN : N < UINT32) (self qIn qOut : Nat)
    (agents : Nat → Agent) (random : MersenneTwister) (hself : self < N)
    (hid : (agents self).m_uid = self) (hnet : NetworkOk N self (agents self).m_network) :
    ∃ social, obtainRandomInfluentialGroup self qIn qOut agents N random = Except.ok social ∧
      social.1.Nodup ∧ (∀ x ∈ social.1, x < N ∧ x ≠ self) ∧ social.1.length ≤ N - 1 ∧
      social.1.length ≤ qIn + qOut := by
  have hnd : (agents self).m_network.Nodup := hnet.1.imp (fun h => Nat.ne_of_lt h)
  obtain ⟨hin1, hin2, hin3⟩ := obtainRandomInGroup_spec (agents self) qIn random hnd
  have hlen := NetworkOk_length_le hnet hself
  obtain ⟨outGroup, random1, hout, hl, hond, hmem⟩ :=
    obtainRandomOutGroup_spec hN (agents self) qOut
      ((agents self).obtainRandomInGroup qIn random).2 (by rw [hid]; exact hself)
      (by rw [hid]; exact hnet)
  rw [hid] at hmem
  unfold obtainRandomInfluentialGroup
  simp only
  rw [hout]
  simp only
  have hkept : ∀ kept : List Nat, kept.Sublist outGroup →
      (((agents self).obtainRandomInGroup qIn random).1 ++ kept).Nodup ∧
      (∀ x ∈ ((agents self).obtainRandomInGroup qIn random).1 ++ kept, x < N ∧ x ≠ self) ∧
      (((agents self).obtainRandomInGroup qIn random).1 ++ kept).length ≤ N - 1 ∧
      (((agents self).obtainRandomInGroup qIn random).1 ++ kept).length ≤ qIn + qOut := by
    intro kept hsub
    have hkl := hsub.length_le
    refine ⟨?_, ?_, ?_, ?_⟩
    · refine List.nodup_append.mpr ⟨hin1, hond.sublist hsub, ?_⟩
      intro x hx1 hx2
      exact (hmem x (hsub.subset hx2)).2.2 (hin2 x hx1)
    · intro x hx
      rcases List.mem_append.mp hx with hx | hx
      · exact ⟨hnet.2.1 x (hin2 x hx), fun h => hnet.2.2 (h ▸ hin2 x hx)⟩
      · exact ⟨(hmem x (hsub.subset hx)).1, (hmem x (hsub.subset hx)).2.1⟩
    · rw [List.length_append, hin3]
      omega
    · rw [List.length_append, hin3]
      omega
  split_ifs
  · exact ⟨_, rfl, hkept _ (List.filter_sublist _)⟩
  · exact ⟨_, rfl, hkept _ (List.Sublist.refl _)⟩

end Agent

end iris

/-! ## Facts about sides and the distribution of privilege -/

namespace iris

namespace Agent

/-- `countAgainst` succeeds on a group whose members can all be read, and counts at most the
group. -/
theorem countAgainst_ok (agents : Nat → Agent) (index behavior time : Nat) :
    ∀ G : List Nat, (∀ j ∈ G, ∃ v, (agents j).getBehaviorAt index time = Except.ok v) →
      ∃ n, countAgainst agents index behavior time G = Except.ok n ∧ n ≤ G.length := by
  intro G
  induction G with
  | nil =>
    intro _
    exact ⟨0, rfl, Nat.le_refl _⟩
  | cons g G ih =>
    intro h
    obtain ⟨v, hv⟩ := h g (List.mem_cons_self _ _)
    obtain ⟨n, hn, hle⟩ := ih (fun j hj => h j (List.mem_cons_of_mem _ hj))
    unfold countAgainst
    rw [hv]
    simp only
    rw [hn]
    simp only
    split_ifs
    · exact ⟨n + 1, rfl, by simp only [List.length_cons]; omega⟩
    · exact ⟨n, rfl, by simp only [List.length_cons]; omega⟩

/-- `computeSides` succeeds on a group whose members can all be read. -/
theorem computeSides_ok (agents : Nat → Agent) (index behavior N time : Nat) (G : List Nat)
    (h : ∀ j ∈ G, ∃ v, (agents j).getBehaviorAt index time = Except.ok v) :
    ∃ sides, computeSides index behavior G agents N time = Except.ok sides := by
  obtain ⟨n, hn, -⟩ := countAgainst_ok agents index behavior time G h
  unfold computeSides
  rw [hn]
  exact ⟨_, rfl⟩

/-- `computeSides` on the empty group. -/
theorem computeSides_nil (agents : Nat → Agent) (index behavior N time : Nat) :
    computeSides index behavior [] agents N time = Except.ok (0, 0) := rfl

/-- The loop of `cacheBehaviorsAsSet` succeeds on a group whose members can all be read, and
collects exactly the behaviours read, next to those it started from. -/
theorem cacheBehaviorsLoop_spec (agents : Nat → Agent) (index time : Nat) :
    ∀ (G cached : List Nat),
      (∀ j ∈ G, ∃ v, (agents j).getBehaviorAt index time = Except.ok v) →
      ∃ cache, cacheBehaviorsLoop agents index time G cached = Except.ok cache ∧
        ∀ x, x ∈ cache ↔
          x ∈ cached ∨ ∃ pg ∈ G, (agents pg).getBehaviorAt index time = Except.ok x := by
  intro G
  induction G with
  | nil =>
    intro cached _
    refine ⟨cached, rfl, fun x => ⟨Or.inl, ?_⟩⟩
    rintro (h | ⟨pg, hpg, -⟩)
    · exact h
    · cases hpg
  | cons g G ih =>
    intro cached h
    obtain ⟨v, hv⟩ := h g (List.mem_cons_self _ _)
    obtain ⟨cache, hc, hmem⟩ := ih (if v ∈ cached then cached else cached ++ [v])
      (fun j hj => h j (List.mem_cons_of_mem _ hj))
    unfold cacheBehaviorsLoop
    rw [hv]
    simp only
    refine ⟨cache, hc, fun x => ?_⟩
    rw [hmem x]
    have hstart : x ∈ (if v ∈ cached then cached else cached ++ [v]) ↔ x ∈ cached ∨ x = v := by
      split_ifs with hin
      · constructor
        · exact Or.inl
        · rintro (h1 | rfl)
          · exact h1
          · exact hin
      · rw [List.mem_append, List.mem_singleton]
    rw [hstart]
    constructor
    · rintro ((h1 | rfl) | ⟨pg, hpg, hx⟩)
      · exact Or.inl h1
      · exact Or.inr ⟨g, List.mem_cons_self _ _, hv⟩
      · exact Or.inr ⟨pg, List.mem_cons_of_mem _ hpg, hx⟩
    · rintro (h1 | ⟨pg, hpg, hx⟩)
      · exact Or.inl (Or.inl h1)
      · rcases List.mem_cons.mp hpg with rfl | hpg
        · rw [hv] at hx
          injection hx with hx
          exact Or.inl (Or.inr hx.symm)
        · exact Or.inr ⟨pg, hpg, hx⟩

/-- `cacheBehaviorsAsSet` collects exactly the behaviours of the members of the group. -/
theorem cacheBehaviorsAsSet_spec (agents : Nat → Agent) (index time : Nat) (G : List Nat)
    (h : ∀ j ∈ G, ∃ v, (agents j).getBehaviorAt index time = Except.ok v) :
    ∃ cache, cacheBehaviorsAsSet G agents index time = Except.ok cache ∧
      ∀ x, x ∈ cache ↔ ∃ pg ∈ G, (agents pg).getBehaviorAt index time = Except.ok x := by
  obtain ⟨cache, hc, hmem⟩ := cacheBehaviorsLoop_spec agents index time G [] h
  refine ⟨cache, hc, fun x => ?_⟩
  rw [hmem x]
  constructor
  · rintro (h1 | h1)
    · cases h1
    · exact h1
  · exact Or.inr

/-- One round of the distribution loops: the member `soc` is contacted. -/
theorem update_contacted (agents : Nat → Agent) (self soc cur v : Nat) (outcome : Outcome)
    (credit : Bool) :
    (if credit = true ∧ determineCommType cur v outcome ≠ CommType.Neither then
      Function.update
        (Function.update agents soc
          ((agents soc).updateInfluenceOn (agents self).m_uid (determineCommType cur v outcome)))
        soc
        ((Function.update agents soc
          ((agents soc).updateInfluenceOn (agents self).m_uid
            (determineCommType cur v outcome))) soc).increasePrivilege
    else
      Function.update agents soc
        ((agents soc).updateInfluenceOn (agents self).m_uid (determineCommType cur v outcome))) =
    Function.update agents soc (contacted (agents self).m_uid cur v outcome credit (agents soc)) := by
  unfold contacted
  simp only
  split_ifs
  · rw [Function.update_same, Function.update_idem]
  · rfl

/-- The uid and the powerful flag of every agent after a contact of `soc`. -/
theorem update_contacted_core (agents : Nat → Agent) (soc uid cur v : Nat) (outcome : Outcome)
    (credit : Bool) (j : Nat) :
    SameCore (Function.update agents soc (contacted uid cur v outcome credit (agents soc)) j)
      (agents j) := by
  by_cases h : j = soc
  · subst h
    rw [Function.update_same]
    exact contacted_core _ _ _ _ _ _
  · rw [Function.update_noteq h]
    exact SameCore_refl _

/-- The loop of `distributePrivilege` over distinct members that can all be read: it
succeeds, every member is contacted once, with the credit decided by the powerful flag of the
stepping agent, and no other agent is written. -/
theorem distributePrivilegeLoop_spec (self cur index : Nat) (outcome : Outcome) (time : Nat) :
    ∀ (G : List Nat) (agents : Nat → Agent), G.Nodup →
      (∀ j ∈ G, ∃ v, (agents j).getBehaviorAt index time = Except.ok v) →
      ∃ agents1, distributePrivilegeLoop self index cur outcome time G agents =
          Except.ok agents1 ∧
        (∀ j, j ∉ G → agents1 j = agents j) ∧
        ∀ j ∈ G, ∃ v, (agents j).getBehaviorAt index time = Except.ok v ∧
          agents1 j =
            contacted (agents self).m_uid cur v outcome (agents self).m_powerful (agents j) := by
  intro G
  induction G with
  | nil =>
    intro agents _ _
    refine ⟨agents, rfl, fun _ _ => rfl, ?_⟩
    intro j hj
    cases hj
  | cons soc G ih =>
    intro agents hnd h
    obtain ⟨hsoc, hnd1⟩ := List.nodup_cons.mp hnd
    obtain ⟨v, hv⟩ := h soc (List.mem_cons_self _ _)
    have hpow : (Function.update agents soc
        ((agents soc).updateInfluenceOn (agents self).m_uid
          (determineCommType cur v outcome)) self).m_powerful = (agents self).m_powerful := by
      by_cases hs : self = soc
      · subst hs
        rw [Function.update_same]
        exact (updateInfluenceOn_core _ _ _).1.2.2.2.1
      · rw [Function.update_noteq hs]
    have hcore := update_contacted_core agents soc (agents self).m_uid cur v outcome
      (agents self).m_powerful
    obtain ⟨agents1, hrun, hout, hin⟩ :=
      ih (Function.update agents soc
          (contacted (agents self).m_uid cur v outcome (agents self).m_powerful (agents soc)))
        hnd1
        (fun j hj => by
          rw [getBehaviorAt_congr (hcore j).1]
          exact h j (List.mem_cons_of_mem _ hj))
    unfold distributePrivilegeLoop
    rw [hv]
    simp only
    rw [hpow, update_contacted agents self soc cur v outcome (agents self).m_powerful, hrun]
    refine ⟨agents1, rfl, ?_, ?_⟩
    · intro j hj
      rw [hout j (fun hjG => hj (List.mem_cons_of_mem _ hjG)),
        Function.update_noteq (fun hjs : j = soc => hj (by rw [hjs]; exact List.mem_cons_self _ _))]
    · intro j hj
      rcases List.mem_cons.mp hj with rfl | hjG
      · refine ⟨v, hv, ?_⟩
        rw [hout j hsoc, Function.update_same]
      · obtain ⟨w, hw, hres⟩ := hin j hjG
        have hjs : j ≠ soc := fun hjs => hsoc (hjs ▸ hjG)
        rw [getBehaviorAt_congr (hcore j).1] at hw
        refine ⟨w, hw, ?_⟩
        rw [hres, (hcore self).2.2.1, (hcore self).2.2.2.1, Function.update_noteq hjs]

/-- The loop of `distributePrivilegeWithPower` over distinct members that can all be read: it
succeeds, every member is contacted once, with the credit decided by the presence of its
behaviour in the cache, and no other agent is written. -/
theorem distributePrivilegeWithPowerLoop_spec (self cur index : Nat) (powerCache : List Nat)
    (outcome : Outcome) (time : Nat) :
    ∀ (G : List Nat) (agents : Nat → Agent), G.Nodup →
      (∀ j ∈ G, ∃ v, (agents j).getBehaviorAt index time = Except.ok v) →
      ∃ agents1, distributePrivilegeWithPowerLoop self index cur powerCache outcome time G
          agents = Except.ok agents1 ∧
        (∀ j, j ∉ G → agents1 j = agents j) ∧
        ∀ j ∈ G, ∃ v, (agents j).getBehaviorAt index time = Except.ok v ∧
          agents1 j =
            contacted (agents self).m_uid cur v outcome (decide (v ∈ powerCache))
              (agents j) := by
  intro G
  induction G with
  | nil =>
    intro agents _ _
    refine ⟨agents, rfl, fun _ _ => rfl, ?_⟩
    intro j hj
    cases hj
  | cons soc G ih =>
    intro agents hnd h
    obtain ⟨hsoc, hnd1⟩ := List.nodup_cons.mp hnd
    obtain ⟨v, hv⟩ := h soc (List.mem_cons_self _ _)
    have hcore := update_contacted_core agents soc (agents self).m_uid cur v outcome
      (decide (v ∈ powerCache))
    obtain ⟨agents1, hrun, hout, hin⟩ :=
      ih (Function.update agents soc
          (contacted (agents self).m_uid cur v outcome (decide (v ∈ powerCache)) (agents soc)))
        hnd1
        (fun j hj => by
          rw [getBehaviorAt_congr (hcore j).1]
          exact h j (List.mem_cons_of_mem _ hj))
    have hupd := update_contacted agents self soc cur v outcome (decide (v ∈ powerCache))
    simp only [decide_eq_true_eq] at hupd
    unfold distributePrivilegeWithPowerLoop
    rw [hv]
    simp only
    rw [hupd, hrun]
    refine ⟨agents1, rfl, ?_, ?_⟩
    · intro j hj
      rw [hout j (fun hjG => hj (List.mem_cons_of_mem _ hjG)),
        Function.update_noteq (fun hjs : j = soc => hj (by rw [hjs]; exact List.mem_cons_self _ _))]
    · intro j hj
      rcases List.mem_cons.mp hj with rfl | hjG
      · refine ⟨v, hv, ?_⟩
        rw [hout j hsoc, Function.update_same]
      · obtain ⟨w, hw, hres⟩ := hin j hjG
        have hjs : j ≠ soc := fun hjs => hsoc (hjs ▸ hjG)
        rw [getBehaviorAt_congr (hcore j).1] at hw
        refine ⟨w, hw, ?_⟩
        rw [hres, (hcore self).2.2.1, Function.update_noteq hjs]

end Agent

end iris

/-! ## Facts about the outcome of a step and its commitment -/

namespace iris

namespace util

/-- A candidate that is not excluded is returned as it is. -/
theorem ensureRandom_of_not_mem {E : List Nat} {r : Nat} (lo hi : Nat) (h : r ∉ E) :
    ensureRandom r E lo hi = Except.ok r := by
  unfold ensureRandom
  simp only
  rw [if_pos (by rw [binarySearch_eq_length_of_not_mem h])]

end util

namespace Agent

/-- `selectNewBehavior` never fails: with at most one category it returns the current
behaviour, with two or more it returns another behaviour below the number of categories. -/
theorem selectNewBehavior_spec (cur range : Nat) (random : MersenneTwister)
    (hrange : range < UINT32) :
    ∃ v random1, selectNewBehavior cur range random = Except.ok (v, random1) ∧
      (range ≤ 1 → v = cur ∧ random1 = random) ∧ (2 ≤ range → v ≠ cur ∧ v < range) := by
  unfold selectNewBehavior
  by_cases hsmall : range = 0 ∨ range = 1
  · rw [if_pos hsmall]
    exact ⟨cur, random, rfl, fun _ => ⟨rfl, rfl⟩, fun h => by omega⟩
  · rw [if_neg hsmall]
    simp only
    have hdraw := MersenneTwister.uniformInt_le 0 (range - 1) random (Nat.zero_le _)
    by_cases hcur : cur < range
    · have hcases := @util.ensureRandom_cases [cur] (random.uniformInt 0 (range - 1)).1 0 range
        (List.pairwise_singleton _ _)
        (fun x hx => by rw [List.mem_singleton] at hx; subst hx; exact ⟨Nat.zero_le _, hcur⟩)
        ⟨Nat.zero_le _, by omega⟩ hrange (by simp only [List.length_singleton]; decide)
      rcases hcases with ⟨v, hv, hvE, -, hvN⟩ | ⟨-, hall⟩
      · rw [hv]
        refine ⟨v, _, rfl, fun h => by omega, fun _ => ⟨?_, hvN⟩⟩
        intro h
        exact hvE (by rw [h]; exact List.mem_singleton_self _)
      · exfalso
        have := util.le_length_of_covering (E := [cur]) (N := range)
          (fun x hx => hall x (Nat.zero_le x) hx)
        simp only [List.length_singleton] at this
        omega
    · have hne : (random.uniformInt 0 (range - 1)).1 ∉ [cur] := by
        rw [List.mem_singleton]
        omega
      rw [util.ensureRandom_of_not_mem 0 range hne]
      exact ⟨_, _, rfl, fun h => by omega, fun _ => ⟨by omega, by omega⟩⟩

/-- `updateCommunicationWith` over distinct identifiers writes the ledger only: the entry of
every identifier of the list gets one more contact, the other entries are left alone. -/
theorem updateCommunicationWith_spec : ∀ (G : List Nat) (agent : Agent), G.Nodup →
    SameCore (agent.updateCommunicationWith G) agent ∧
    (agent.updateCommunicationWith G).m_privilege = agent.m_privilege ∧
    (∀ k, k ∉ G → (agent.updateCommunicationWith G).m_interactions k = agent.m_interactions k) ∧
    ∀ g ∈ G, (agent.updateCommunicationWith G).interactionWith g =
      { agent.interactionWith g with
        m_communicated := ((agent.interactionWith g).m_communicated + 1) % UINT32 } := by
  intro G
  induction G with
  | nil =>
    intro agent _
    refine ⟨SameCore_refl _, rfl, fun _ _ => rfl, ?_⟩
    intro g hg
    cases hg
  | cons g G ih =>
    intro agent hnd
    obtain ⟨hg, hnd1⟩ := List.nodup_cons.mp hnd
    obtain ⟨hcore, hpriv, hother, hentry⟩ := ih
      { (agent.getInteractionsWith g).1 with
        m_interactions := Function.update (agent.getInteractionsWith g).1.m_interactions g
          (some { (agent.getInteractionsWith g).2 with
            m_communicated := ((agent.getInteractionsWith g).2.m_communicated + 1) % UINT32 }) }
      hnd1
    have hfold : agent.updateCommunicationWith (g :: G) =
        Agent.updateCommunicationWith
          { (agent.getInteractionsWith g).1 with
            m_interactions := Function.update (agent.getInteractionsWith g).1.m_interactions g
              (some { (agent.getInteractionsWith g).2 with
                m_communicated :=
                  ((agent.getInteractionsWith g).2.m_communicated + 1) % UINT32 }) } G := rfl
    rw [hfold]
    refine ⟨SameCore_trans hcore (getInteractionsWith_fst_core agent g).1,
      hpriv.trans (getInteractionsWith_fst_core agent g).2, ?_, ?_⟩
    · intro k hk
      have hkg : k ≠ g := fun h => hk (by rw [h]; exact List.mem_cons_self _ _)
      rw [hother k (fun h => hk (List.mem_cons_of_mem _ h))]
      simp only
      rw [Function.update_noteq hkg]
      exact getInteractionsWith_fst_other agent hkg
    · intro x hx
      rcases List.mem_cons.mp hx with rfl | hxG
      · unfold interactionWith
        rw [hother x hg]
        simp only [Function.update_same, Option.getD_some]
        rw [show (agent.getInteractionsWith x).2 = (agent.m_interactions x).getD {} from
          getInteractionsWith_snd agent x]
      · have hxg : x ≠ g := fun h => hg (h ▸ hxG)
        rw [hentry x hxG]
        unfold interactionWith
        simp only
        rw [Function.update_noteq hxg, getInteractionsWith_fst_other agent hxg]

/-- `updateState` within the tuple: the current snapshot moves to the previous one and the
new current snapshot differs from it at `index` and in its time only. -/
theorem updateState_ok (agent : Agent) {index : Nat} (behavior time : Nat)
    (h : index < agent.m_state.1.m_behavior.length) :
    agent.updateState index behavior time =
      Except.ok { agent with m_state :=
        ({ m_behavior := agent.m_state.1.m_behavior.set index behavior, m_time := time },
          agent.m_state.1) } := by
  unfold updateState
  rw [if_pos h]

/-- The commitment of an outcome within the tuple and within the list of dimensions: it
succeeds and writes the snapshots only; the value committed is the inspected one when the
outcome is to keep it or the dimension has at most one category, and another value below the
number of categories otherwise. -/
theorem commitOutcome_spec (agent : Agent) (outcome : Outcome) (behaviors : List Nat)
    {index : Nat} (cur time : Nat) (random : MersenneTwister)
    (h1 : index < agent.m_state.1.m_behavior.length) (h2 : index < behaviors.length)
    (h3 : ∀ x ∈ behaviors, x < UINT32) :
    ∃ newv random1, commitOutcome agent outcome behaviors index cur time random =
        Except.ok ({ agent with m_state :=
          ({ m_behavior := agent.m_state.1.m_behavior.set index newv, m_time := time },
            agent.m_state.1) }, random1) ∧
      (outcome = Outcome.Keep → newv = cur ∧ random1 = random) ∧
      (outcome = Outcome.Change →
        (behaviors.getD index 0 ≤ 1 → newv = cur) ∧
        (2 ≤ behaviors.getD index 0 → newv ≠ cur ∧ newv < behaviors.getD index 0)) := by
  unfold commitOutcome
  cases outcome with
  | Keep =>
    rw [if_neg (by decide), updateState_ok agent cur time h1]
    exact ⟨cur, random, rfl, fun _ => ⟨rfl, rfl⟩, fun h => absurd h (by decide)⟩
  | Change =>
    rw [if_pos rfl, vectorAt_ok h2]
    simp only
    have hr : behaviors.getD index 0 < UINT32 := h3 _ (util.getD_mem_of_lt h2)
    obtain ⟨v, random1, hsel, hle, hge⟩ :=
      selectNewBehavior_spec cur (behaviors.getD index 0) random hr
    rw [hsel]
    simp only
    rw [updateState_ok agent v time h1]
    exact ⟨v, random1, rfl, fun h => absurd h (by decide), fun _ => ⟨fun h => (hle h).1, hge⟩⟩

end Agent

end iris

/-! ## The step of an agent -/

namespace iris

namespace Agent

/-- Part (3) of the step, for a social group of distinct members that can all be read, like
the members of the power group: it succeeds, contacts every member of the social group once
and writes no other agent. A member is credited when the stepping agent is powerful or, in
the power-aware branch, when its behaviour is shown by a member of the power group. The
outcome is the sociodynamic one on the social group when the stepping agent is powerful or
the power group is empty, and the direct one on the power group otherwise. -/
theorem decideOutcome_spec (exp : ℚ → ℚ) (self : Nat) (params : Parameters)
    (agents : Nat → Agent) (N : Nat) (G PG : List Nat) (index cur t : Nat)
    (random : MersenneTwister) (hG : G.Nodup)
    (hread : ∀ j ∈ G, ∃ v, (agents j).getBehaviorAt index t = Except.ok v)
    (hpread : ∀ j ∈ PG, ∃ v, (agents j).getBehaviorAt index t = Except.ok v) :
    ∃ outcome agents1 random1,
      decideOutcome exp self params agents N G PG index cur t random =
        Except.ok (outcome, agents1, random1) ∧
      (∀ j, j ∉ G → agents1 j = agents j) ∧
      (∀ j ∈ G, ∃ v credit, (agents j).getBehaviorAt index t = Except.ok v ∧
        agents1 j = contacted (agents self).m_uid cur v outcome credit (agents j) ∧
        (credit = true ↔ ((agents self).m_powerful = true ∨
          ∃ pg ∈ PG, (agents pg).getBehaviorAt index t = Except.ok v))) ∧
      (((agents self).m_powerful = true ∨ PG = []) →
        ∃ sides, computeSides index cur G agents N t = Except.ok sides ∧
          outcome = (computeOutcomeSociodynamically exp sides params random).1 ∧
          random1 = (computeOutcomeSociodynamically exp sides params random).2) ∧
      (¬ ((agents self).m_powerful = true ∨ PG = []) →
        ∃ sides, computeSides index cur PG agents N t = Except.ok sides ∧
          outcome = computeOutcomeDirectly sides ∧ random1 = random) := by
  unfold decideOutcome
  by_cases hc : (agents self).m_powerful = true ∨
      (¬ (agents self).m_powerful = true ∧ PG.length = 0)
  · have hc1 : (agents self).m_powerful = true ∨ PG = [] := by
      rcases hc with h | ⟨-, h⟩
      · exact Or.inl h
      · exact Or.inr (List.length_eq_zero.mp h)
    rw [if_pos hc]
    obtain ⟨sides, hsides⟩ := computeSides_ok agents index cur N t G hread
    rw [hsides]
    simp only
    obtain ⟨agents1, hrun, hout, hin⟩ := distributePrivilegeLoop_spec self cur index
      (computeOutcomeSociodynamically exp sides params random).1 t G agents hG hread
    unfold distributePrivilege
    rw [hrun]
    refine ⟨_, agents1, _, rfl, hout, ?_, fun _ => ⟨sides, rfl, rfl, rfl⟩,
      fun h => absurd hc1 h⟩
    intro j hj
    obtain ⟨v, hv, hres⟩ := hin j hj
    refine ⟨v, (agents self).m_powerful, hv, hres, ?_⟩
    constructor
    · exact Or.inl
    · rintro (h | ⟨pg, hpg, -⟩)
      · exact h
      · rcases hc1 with h | h
        · exact h
        · rw [h] at hpg
          cases hpg
  · have hc1 : ¬ ((agents self).m_powerful = true ∨ PG = []) := by
      rintro (h | h)
      · exact hc (Or.inl h)
      · by_cases hp : (agents self).m_powerful = true
        · exact hc (Or.inl hp)
        · exact hc (Or.inr ⟨hp, by rw [h]; rfl⟩)
    rw [if_neg hc]
    obtain ⟨sides, hsides⟩ := computeSides_ok agents index cur N t PG hpread
    rw [hsides]
    simp only
    obtain ⟨cache, hcache, hmem⟩ := cacheBehaviorsAsSet_spec agents index t PG hpread
    obtain ⟨agents1, hrun, hout, hin⟩ := distributePrivilegeWithPowerLoop_spec self cur index
      cache (computeOutcomeDirectly sides) t G agents hG hread
    unfold distributePrivilegeWithPower
    rw [hcache]
    simp only
    rw [hrun]
    refine ⟨_, agents1, _, rfl, hout, ?_, fun h => absurd h hc1,
      fun _ => ⟨sides, rfl, rfl, rfl⟩⟩
    intro j hj
    obtain ⟨v, hv, hres⟩ := hin j hj
    refine ⟨v, decide (v ∈ cache), hv, hres, ?_⟩
    rw [decide_eq_true_eq, hmem v]
    constructor
    · exact Or.inr
    · rintro (h | h)
      · exact absurd (Or.inl h) hc1
      · exact h

/-- The members of the power group of a step are positions of the social group. -/
theorem mem_extractPowerful {network : List Nat} {agents : Nat → Agent} {N i : Nat}
    (h : i ∈ extractPowerful network agents N) :
    i < network.length ∧ (agents i).m_powerful = true := by
  unfold extractPowerful at h
  rw [List.mem_filter, List.mem_range] at h
  exact h

/-- The step of an agent in the setting `StepReady`: it succeeds. The social group consists
of distinct identifiers below `N` other than the agent, the power group is what
`extractPowerful` makes of it, the inspected dimension is one of the `D` dimensions and the
inspected behaviour is the one read at `T - 1`. Every member of the social group is contacted
once, no agent other than these and the stepping agent is written, and the stepping agent
commits a new snapshot at `T`, gains one privilege point when it keeps its behaviour in the
presence of power, and notes one contact with every member of the social group. -/
theorem stepRecord_spec (exp : ℚ → ℚ) {N D T self : Nat} (params : Parameters)
    (agents : Nat → Agent) (behaviors : List Nat) (random : MersenneTwister)
    (h : StepReady N D T self agents behaviors) :
    ∃ r, stepRecord exp self params agents N behaviors T random = Except.ok r ∧
      r.socialGroup.Nodup ∧ (∀ x ∈ r.socialGroup, x < N ∧ x ≠ self) ∧
      r.socialGroup.length ≤ params.m_qIn + params.m_qOut ∧
      r.powerGroup = extractPowerful r.socialGroup agents N ∧
      r.inspectIndex < D ∧
      (agents self).getBehaviorAt r.inspectIndex (T - 1) = Except.ok r.inspectBehav ∧
      (∀ j, j ≠ self → j ∉ r.socialGroup → r.agents j = agents j) ∧
      (∀ j ∈ r.socialGroup, ∃ v credit,
        (agents j).getBehaviorAt r.inspectIndex (T - 1) = Except.ok v ∧
        r.agents j = contacted self r.inspectBehav v r.outcome credit (agents j) ∧
        (credit = true ↔ ((agents self).m_powerful = true ∨
          ∃ pg ∈ r.powerGroup,
            (agents pg).getBehaviorAt r.inspectIndex (T - 1) = Except.ok v))) ∧
      (∃ newv,
        r.agents self =
          Agent.updateCommunicationWith
            { agents self with
              m_state :=
                ({ m_behavior := (agents self).m_state.1.m_behavior.set r.inspectIndex newv,
                   m_time := T }, (agents self).m_state.1)
              m_privilege :=
                if r.outcome = Outcome.Keep ∧
                    ((agents self).m_powerful = true ∨ r.powerGroup ≠ []) then
                  ((agents self).m_privilege + 1) % UINT32
                else (agents self).m_privilege }
            r.socialGroup ∧
        (r.outcome = Outcome.Keep → newv = r.inspectBehav) ∧
        (r.outcome = Outcome.Change →
          (behaviors.getD r.inspectIndex 0 ≤ 1 → newv = r.inspectBehav) ∧
          (2 ≤ behaviors.getD r.inspectIndex 0 →
            newv ≠ r.inspectBehav ∧ newv < behaviors.getD r.inspectIndex 0))) ∧
      (((agents self).m_powerful = true ∨ r.powerGroup = []) →
        ∃ sides random0,
          computeSides r.inspectIndex r.inspectBehav r.socialGroup agents N (T - 1) =
            Except.ok sides ∧
          r.outcome = (computeOutcomeSociodynamically exp sides params random0).1) ∧
      (¬ ((agents self).m_powerful = true ∨ r.powerGroup = []) →
        ∃ sides,
          computeSides r.inspectIndex r.inspectBehav r.powerGroup agents N (T - 1) =
            Except.ok sides ∧
          r.outcome = computeOutcomeDirectly sides) := by
  obtain ⟨hN, hself, hid, hnet, hD, hD1, hDU, hB, hT1, hTU, hhold⟩ := h
  obtain ⟨social, hsocial, hnd, hmem, hlenN, hlenQ⟩ :=
    obtainRandomInfluentialGroup_spec hN self params.m_qIn params.m_qOut agents random hself
      hid hnet
  have hnum : (behaviors.length % UINT32 + UINT32 - 1) % UINT32 = D - 1 := by
    rw [hD, Nat.mod_eq_of_lt hDU, show D + UINT32 - 1 = (D - 1) + UINT32 by omega,
      Nat.add_mod_right]
    exact Nat.mod_eq_of_lt (by omega)
  have htime : (T + UINT64 - 1) % UINT64 = T - 1 := by
    rw [show T + UINT64 - 1 = (T - 1) + UINT64 by omega, Nat.add_mod_right]
    exact Nat.mod_eq_of_lt (by omega)
  have hidx : (social.2.uniformInt 0 (D - 1)).1 < D := by
    have := MersenneTwister.uniformInt_le 0 (D - 1) social.2 (Nat.zero_le _)
    omega
  obtain ⟨cur, hcur⟩ := getBehaviorAt_of_holdsAt (hhold self hself) hidx
  have hread : ∀ j ∈ social.1, ∃ v, (agents j).getBehaviorAt
      (social.2.uniformInt 0 (D - 1)).1 (T - 1) = Except.ok v :=
    fun j hj => getBehaviorAt_of_holdsAt (hhold j (hmem j hj).1) hidx
  have hpread : ∀ j ∈ extractPowerful social.1 agents N, ∃ v, (agents j).getBehaviorAt
      (social.2.uniformInt 0 (D - 1)).1 (T - 1) = Except.ok v := by
    intro j hj
    have := (mem_extractPowerful hj).1
    exact getBehaviorAt_of_holdsAt (hhold j (by omega)) hidx
  obtain ⟨outcome, agents1, random1, hdec, hout, hin, hsoc, hdir⟩ :=
    decideOutcome_spec exp self params agents N social.1 (extractPowerful social.1 agents N)
      (social.2.uniformInt 0 (D - 1)).1 cur (T - 1) (social.2.uniformInt 0 (D - 1)).2 hnd hread
      hpread
  have hselfG : self ∉ social.1 := fun hs => (hmem self hs).2 rfl
  have hself1 : agents1 self = agents self := hout self hselfG
  obtain ⟨newv, random2, hcommit, hkeep, hchange⟩ :=
    commitOutcome_spec (agents self) outcome behaviors cur T random1
      (show (social.2.uniformInt 0 (D - 1)).1 < (agents self).m_state.1.m_behavior.length by
        rw [(hhold self hself).1]; exact hidx)
      (show (social.2.uniformInt 0 (D - 1)).1 < behaviors.length by rw [hD]; exact hidx) hB
  unfold stepRecord
  rw [hsocial]
  simp only [hnum, htime]
  rw [hcur]
  simp only
  rw [hdec]
  simp only
  rw [hself1, hcommit]
  simp only [Function.update_same]
  refine ⟨_, rfl, hnd, hmem, hlenQ, rfl, hidx, hcur, ?_, ?_, ?_, ?_, ?_⟩
  · intro j hjs hjG
    simp only
    rw [Function.update_noteq hjs]
    split_ifs
    · rw [Function.update_noteq hjs, Function.update_noteq hjs]
      exact hout j hjG
    · rw [Function.update_noteq hjs]
      exact hout j hjG
  · intro j hj
    have hjs : j ≠ self := (hmem j hj).2
    obtain ⟨v, credit, hv, hres, hcredit⟩ := hin j hj
    refine ⟨v, credit, hv, ?_, hcredit⟩
    simp only
    rw [Function.update_noteq hjs]
    rw [hid] at hres
    split_ifs
    · rw [Function.update_noteq hjs, Function.update_noteq hjs]
      exact hres
    · rw [Function.update_noteq hjs]
      exact hres
  · refine ⟨newv, ?_, fun hk => (hkeep hk).1, hchange⟩
    simp only [Function.update_same]
    have hne : (extractPowerful social.1 agents N).length ≠ 0 ↔
        extractPowerful social.1 agents N ≠ [] := by
      rw [Ne, List.length_eq_zero]
    by_cases hc : outcome = Outcome.Keep ∧
        ((agents self).m_powerful = true ∨ extractPowerful social.1 agents N ≠ [])
    · rw [if_pos (by rw [hne]; exact hc), if_pos hc, Function.update_same]
      rfl
    · rw [if_neg (by rw [hne]; exact hc), if_neg hc, Function.update_same]
  · intro hp
    obtain ⟨sides, hs1, hs2, -⟩ := hsoc hp
    exact ⟨sides, _, hs1, hs2⟩
  · intro hp
    obtain ⟨sides, hs1, hs2, -⟩ := hdir hp
    exact ⟨sides, hs1, hs2⟩

end Agent

end iris

/-! ## Properties of the outcome, of the power group and of the snapshots -/

namespace iris

namespace Agent

theorem fnumericToUint32_natCast {n : Nat} (h : n < UINT32) :
    fnumericToUint32 (n : ℚ) = n := by
  unfold fnumericToUint32
  rw [Int.floor_natCast, Int.toNat_ofNat]
  exact Nat.mod_eq_of_lt h

/-- When `m_lambda` is a whole number below `2^32`, the sociodynamic outcome of the code is
the one of the specification: the two arguments of `computeUtility` are exchanged at the call,
which only matters through the conversion of `m_lambda` to `uint32`. -/
theorem computeOutcomeSociodynamically_of_whole_lambda (exp : ℚ → ℚ) (sides : Sides)
    (params : Parameters) (random : MersenneTwister) (n : Nat) (hn : n < UINT32)
    (hl : params.m_lambda = (n : ℚ)) :
    (computeOutcomeSociodynamically exp sides params random).1 = Outcome.Change ↔
      specChanges exp sides params random.uniformReal.1 := by
  unfold computeOutcomeSociodynamically specChanges computeUtility specUtility
  simp only
  rw [hl, fnumericToUint32_natCast hn]
  have key : max (params.m_resist + (1 - exp (-1 * (sides.2 : ℚ) * (n : ℚ))) -
      (1 - exp (-1 * (sides.1 : ℚ) * (n : ℚ)))) params.m_resistMin =
      max params.m_resistMin (params.m_resist + (1 - exp (-(n : ℚ) * (sides.2 : ℚ))) -
        (1 - exp (-(n : ℚ) * (sides.1 : ℚ)))) := by
    rw [max_comm, show -1 * (sides.1 : ℚ) * (n : ℚ) = -(n : ℚ) * (sides.1 : ℚ) by ring,
      show -1 * (sides.2 : ℚ) * (n : ℚ) = -(n : ℚ) * (sides.2 : ℚ) by ring]
  simp only [key]
  split_ifs with h
  · exact ⟨fun _ => h, fun _ => rfl⟩
  · exact ⟨fun hc => absurd hc (by decide), fun hc => absurd hc h⟩

/-- C12 (defect of the code). With `m_lambda = 1/2`, sides `(against, inFavor) = (0, 1)`,
`resist = resistMin = 0`, `resistMax = 1` and the draw `u = 1/4`,
`computeOutcomeSociodynamically` returns `Change`, whereas the rule of the specification
(`u > clamp(resist + utility(1) - utility(0))` with `utility(x) = 1 - exp(-x/2)`) does not
hold, for every exponential with `exp 0 = 1` and `exp(-1/2) < 3/4`: the call passes the count
as `lambda` and `m_lambda` as the `uint32` argument `x`, so `1/2` is cut to `0`. -/
theorem computeOutcomeSociodynamically_truncates_lambda (exp : ℚ → ℚ) (h0 : exp 0 = 1)
    (h1 : exp (-(1 / 2)) < 3 / 4) :
    (computeOutcomeSociodynamically exp (0, 1) { m_lambda := 1 / 2, m_resistMax := 1 }
      (constantTape 2251799813685248)).1 = Outcome.Change ∧
    (constantTape 2251799813685248).uniformReal.1 = 1 / 4 ∧
    ¬ specChanges exp (0, 1) { m_lambda := 1 / 2, m_resistMax := 1 }
      (constantTape 2251799813685248).uniformReal.1 := by
  have hdraw : (constantTape 2251799813685248).uniformReal.1 = 1 / 4 := by
    unfold MersenneTwister.uniformReal constantTape
    norm_num
  have hcut : fnumericToUint32 (1 / 2) = 0 := by
    unfold fnumericToUint32
    rw [show ⌊(1 / 2 : ℚ)⌋ = 0 by rw [Int.floor_eq_iff]; norm_num]
    rfl
  refine ⟨?_, hdraw, ?_⟩
  · unfold computeOutcomeSociodynamically computeUtility
    simp only [hdraw, hcut]
    norm_num [h0]
  · unfold specChanges specUtility
    simp only [hdraw]
    norm_num [h0]
    linarith

/-- Witness for C12: the exponential replaced by `1 + x + x^2/2`. -/
theorem computeOutcomeSociodynamically_truncates_lambda_witness :
    (fun x : ℚ => 1 + x + x ^ 2 / 2) 0 = 1 ∧
    (fun x : ℚ => 1 + x + x ^ 2 / 2) (-(1 / 2)) < 3 / 4 ∧
    (computeOutcomeSociodynamically (fun x : ℚ => 1 + x + x ^ 2 / 2) (0, 1)
      { m_lambda := 1 / 2, m_resistMax := 1 } (constantTape 2251799813685248)).1 =
        Outcome.Change ∧
    (constantTape 2251799813685248).uniformReal.1 = 1 / 4 ∧
    ¬ specChanges (fun x : ℚ => 1 + x + x ^ 2 / 2) (0, 1)
      { m_lambda := 1 / 2, m_resistMax := 1 }
      (constantTape 2251799813685248).uniformReal.1 :=
  ⟨by norm_num, by norm_num,
    computeOutcomeSociodynamically_truncates_lambda (fun x : ℚ => 1 + x + x ^ 2 / 2)
      (by norm_num) (by norm_num)⟩

/-- C13 (defect of the code). On the agents of the repository's test (agents `3` and `7`
powerful) and the network `{2, 3, 4, 7, 9}` of the neighbouring test section,
`extractPowerful` returns `{3}`: it tests `agents[i]` for the positions `i = 0, ..., 4` and
collects the positions. The powerful members of the network are `{3, 7}`, which is what
`removeNonPowerful` leaves of it. On the network `{1, 2, 3, 4}` of its own test section the
result `{3}` happens to be the powerful member. -/
theorem extractPowerful_collects_positions :
    extractPowerful [2, 3, 4, 7, 9] testAgents 10 = [3] ∧
    [2, 3, 4, 7, 9].filter (fun id => (testAgents id).isPowerful) = [3, 7] ∧
    removeNonPowerful [2, 3, 4, 7, 9] testAgents 10 = [3, 7] ∧
    extractPowerful [1, 2, 3, 4] testAgents 10 = [3] ∧
    extractPowerful [7] testAgents 10 = [] := by
  decide

/-- C18. For an agent initialised with `setInitialBehavior(b)` and a dimension `i` of `b`:
both snapshots carry the time `0` and hold `b`, so that `getBehaviorAt(i, 0)` returns `b[i]`
whichever slot is read; after `updateState(i, v, T)` on any agent whose tuple has the
dimension `i`, `getBehaviorAt(i, T)` returns `v`; and `getBehaviorAt` at a time that is the
time of neither snapshot throws. -/
theorem behavior_round_trip (agent : Agent) (b : List Nat) (i v T : Nat) (hi : i < b.length) :
    (agent.setInitialBehavior b).getBehaviorAt i 0 = Except.ok (b.getD i 0) ∧
    ((agent.setInitialBehavior b).m_state.1.m_time = 0 ∧
      vectorAt (agent.setInitialBehavior b).m_state.1.m_behavior i = Except.ok (b.getD i 0)) ∧
    ((agent.setInitialBehavior b).m_state.2.m_time = 0 ∧
      vectorAt (agent.setInitialBehavior b).m_state.2.m_behavior i = Except.ok (b.getD i 0)) ∧
    (∀ a : Agent, i < a.m_state.1.m_behavior.length →
      ∃ a1, a.updateState i v T = Except.ok a1 ∧ a1.getBehaviorAt i T = Except.ok v) ∧
    (∀ (a : Agent) (k t : Nat), a.m_state.1.m_time ≠ t → a.m_state.2.m_time ≠ t →
      a.getBehaviorAt k t = Except.error Error.staleState) := by
  refine ⟨?_, ⟨rfl, vectorAt_ok hi⟩, ⟨rfl, vectorAt_ok hi⟩, ?_, ?_⟩
  · exact getBehaviorAt_current rfl hi
  · intro a ha
    refine ⟨_, updateState_ok a v T ha, ?_⟩
    have hlen : i < (a.m_state.1.m_behavior.set i v).length := by
      rw [List.length_set]
      exact ha
    have hread := @getBehaviorAt_current { a with m_state :=
      ({ m_behavior := a.m_state.1.m_behavior.set i v, m_time := T }, a.m_state.1) } i T rfl
      hlen
    rw [hread]
    show Except.ok ((a.m_state.1.m_behavior.set i v).getD i 0) = Except.ok v
    rw [List.getD_eq_getElem _ _ hlen, List.getElem_set_self]
  · intro a k t h1 h2
    exact getBehaviorAt_stale h1 h2

/-- Witness for C18: the tuple `{3, 4, 1}` of the repository's test and its last
dimension. -/
theorem behavior_round_trip_witness :
    2 < [3, 4, 1].length ∧
    (Agent.setInitialBehavior {} [3, 4, 1]).getBehaviorAt 2 0 = Except.ok 1 ∧
    (∀ a : Agent, 2 < a.m_state.1.m_behavior.length →
      ∃ a1, a.updateState 2 54 1 = Except.ok a1 ∧ a1.getBehaviorAt 2 1 = Except.ok 54) ∧
    (∀ (a : Agent) (k t : Nat), a.m_state.1.m_time ≠ t → a.m_state.2.m_time ≠ t →
      a.getBehaviorAt k t = Except.error Error.staleState) :=
  have h := behavior_round_trip {} [3, 4, 1] 2 54 1 (by decide)
  ⟨by decide, h.1, h.2.2.2.1, h.2.2.2.2⟩

end Agent

end iris

/-! ## The effect of a step, member by member -/

namespace iris

namespace Agent

/-- `step` returns what `stepRecord` records. -/
theorem step_of_stepRecord {exp : ℚ → ℚ} {self : Nat} {params : Parameters}
    {agents : Nat → Agent} {N : Nat} {behaviors : List Nat} {T : Nat}
    {random : MersenneTwister} {r : StepRecord}
    (h : stepRecord exp self params agents N behaviors T random = Except.ok r) :
    step exp self params agents N behaviors T random = Except.ok (r.agents, r.random) := by
  unfold step
  rw [h]

/-- The effect of a step in the setting `StepReady`, member by member. The step succeeds;
the social group consists of distinct identifiers below `N` other than the stepping agent.
An agent outside the social group other than the stepping agent is not written. A member of
the social group keeps its snapshots, network, identifier, flag, family size and values; its
privilege grows by one (on 32 bits) exactly when its communication type is not `Neither` and
the stepping agent is powerful or a member of the power group shows the same behaviour; its
ledger entry for the stepping agent is the one `updateInfluenceOn` writes, and no other entry
changes. The stepping agent gets the new snapshot at `T` while its old current snapshot
becomes the previous one; its privilege grows by one (on 32 bits) exactly when it keeps its
behaviour and it is powerful or the power group is not empty; its ledger gets one more
contact for every member of the social group and is left alone elsewhere. -/
theorem stepRecord_effect (exp : ℚ → ℚ) {N D T self : Nat} (params : Parameters)
    (agents : Nat → Agent) (behaviors : List Nat) (random : MersenneTwister)
    (h : StepReady N D T self agents behaviors) :
    ∃ r, stepRecord exp self params agents N behaviors T random = Except.ok r ∧
      (r.socialGroup.Nodup ∧ (∀ x ∈ r.socialGroup, x < N ∧ x ≠ self) ∧
        r.socialGroup.length ≤ params.m_qIn + params.m_qOut ∧
        r.powerGroup = extractPowerful r.socialGroup agents N ∧ r.inspectIndex < D ∧
        (agents self).getBehaviorAt r.inspectIndex (T - 1) = Except.ok r.inspectBehav) ∧
      (∀ j, j ≠ self → j ∉ r.socialGroup → r.agents j = agents j) ∧
      (∀ j, j ≠ self → SameCore (r.agents j) (agents j)) ∧
      (∀ j ∈ r.socialGroup, ∃ v,
        (agents j).getBehaviorAt r.inspectIndex (T - 1) = Except.ok v ∧
        ((((agents self).m_powerful = true ∨ ∃ pg ∈ r.powerGroup,
              (agents pg).getBehaviorAt r.inspectIndex (T - 1) = Except.ok v) ∧
            determineCommType r.inspectBehav v r.outcome ≠ CommType.Neither) →
          (r.agents j).m_privilege = ((agents j).m_privilege + 1) % UINT32) ∧
        (¬ (((agents self).m_powerful = true ∨ ∃ pg ∈ r.powerGroup,
              (agents pg).getBehaviorAt r.inspectIndex (T - 1) = Except.ok v) ∧
            determineCommType r.inspectBehav v r.outcome ≠ CommType.Neither) →
          (r.agents j).m_privilege = (agents j).m_privilege) ∧
        (∀ k, k ≠ self → (r.agents j).m_interactions k = (agents j).m_interactions k) ∧
        (r.agents j).interactionWith self =
          ((agents j).updateInfluenceOn self
            (determineCommType r.inspectBehav v r.outcome)).interactionWith self) ∧
      (∃ newv,
        (r.agents self).m_state =
          ({ m_behavior := (agents self).m_state.1.m_behavior.set r.inspectIndex newv,
             m_time := T }, (agents self).m_state.1) ∧
        (r.outcome = Outcome.Keep → newv = r.inspectBehav) ∧
        (r.outcome = Outcome.Change →
          (behaviors.getD r.inspectIndex 0 ≤ 1 → newv = r.inspectBehav) ∧
          (2 ≤ behaviors.getD r.inspectIndex 0 →
            newv ≠ r.inspectBehav ∧ newv < behaviors.getD r.inspectIndex 0))) ∧
      ((r.agents self).m_network = (agents self).m_network ∧
        (r.agents self).m_uid = (agents self).m_uid ∧
        (r.agents self).m_powerful = (agents self).m_powerful ∧
        (r.agents self).m_familySize = (agents self).m_familySize ∧
        (r.agents self).m_values = (agents self).m_values) ∧
      ((r.agents self).m_privilege =
        if r.outcome = Outcome.Keep ∧
            ((agents self).m_powerful = true ∨ r.powerGroup ≠ []) then
          ((agents self).m_privilege + 1) % UINT32
        else (agents self).m_privilege) ∧
      ((∀ k, k ∉ r.socialGroup →
          (r.agents self).m_interactions k = (agents self).m_interactions k) ∧
        ∀ g ∈ r.socialGroup, (r.agents self).interactionWith g =
          { (agents self).interactionWith g with
            m_communicated := (((agents self).interactionWith g).m_communicated + 1) %
              UINT32 }) ∧
      (((agents self).m_powerful = true ∨ r.powerGroup = []) →
        ∃ sides random0,
          computeSides r.inspectIndex r.inspectBehav r.socialGroup agents N (T - 1) =
            Except.ok sides ∧
          r.outcome = (computeOutcomeSociodynamically exp sides params random0).1) ∧
      (¬ ((agents self).m_powerful = true ∨ r.powerGroup = []) →
        ∃ sides,
          computeSides r.inspectIndex r.inspectBehav r.powerGroup agents N (T - 1) =
            Except.ok sides ∧
          r.outcome = computeOutcomeDirectly sides) := by
  obtain ⟨r, hr, hnd, hmem, hlen, hpg, hidx, hcur, hout, hin, ⟨newv, hselfr, hkeep, hchange⟩,
    hsoc, hdir⟩ := stepRecord_spec exp params agents behaviors random h
  obtain ⟨hcore, hpriv, hother, hentry⟩ := updateCommunicationWith_spec r.socialGroup
    { agents self with
      m_state :=
        ({ m_behavior := (agents self).m_state.1.m_behavior.set r.inspectIndex newv,
           m_time := T }, (agents self).m_state.1)
      m_privilege :=
        if r.outcome = Outcome.Keep ∧
            ((agents self).m_powerful = true ∨ r.powerGroup ≠ []) then
          ((agents self).m_privilege + 1) % UINT32
        else (agents self).m_privilege } hnd
  rw [← hselfr] at hcore hpriv hother hentry
  refine ⟨r, hr, ⟨hnd, hmem, hlen, hpg, hidx, hcur⟩, hout, ?_, ?_, ⟨newv, hcore.1, hkeep, hchange⟩,
    ⟨hcore.2.1, hcore.2.2.1, hcore.2.2.2.1, hcore.2.2.2.2.1, hcore.2.2.2.2.2⟩, hpriv,
    ⟨hother, hentry⟩, hsoc, hdir⟩
  · intro j hjs
    by_cases hjG : j ∈ r.socialGroup
    · obtain ⟨v, credit, -, hres, -⟩ := hin j hjG
      rw [hres]
      exact contacted_core _ _ _ _ _ _
    · rw [hout j hjs hjG]
      exact SameCore_refl _
  · intro j hjG
    obtain ⟨v, credit, hv, hres, hcredit⟩ := hin j hjG
    refine ⟨v, hv, ?_, ?_, ?_, ?_⟩
    · intro hc
      rw [hres, contacted_privilege, if_pos ⟨hcredit.mpr hc.1, hc.2⟩]
    · intro hc
      rw [hres, contacted_privilege, if_neg (fun hc1 => hc ⟨hcredit.mp hc1.1, hc1.2⟩)]
    · intro k hk
      rw [hres]
      exact contacted_other _ _ _ _ _ _ hk
    · rw [hres]
      exact contacted_entry _ _ _ _ _ _

end Agent

end iris

/-! ## Properties of the step of an agent -/

namespace iris

namespace Agent

/-- The two agents of the fixture are ready for the step of agent `0` at time `1`. -/
theorem stepReady_twoAgents : StepReady 2 1 1 0 twoAgents [2] := by
  refine ⟨by decide, by decide, rfl, ⟨List.Pairwise.nil, ?_, ?_⟩, rfl, by decide, by decide,
    ?_, by decide, by decide, ?_⟩
  · intro x hx
    cases hx
  · intro hx
    cases hx
  · intro x hx
    rw [List.mem_singleton] at hx
    subst hx
    decide
  · intro j _
    exact ⟨rfl, rfl, Or.inl rfl⟩

/-- C14. `Agent::step` at time `T` on an agent whose current snapshot has the time `T - 1`,
in the setting `StepReady`: the step succeeds; afterwards every dimension can be read at `T`,
the previous snapshot is the old current snapshot and is still read at `T - 1`, every
dimension other than the inspected one has the same value at `T` as at `T - 1`, the inspected
dimension has the same value at `T` as at `T - 1` when the outcome is `Keep`, and when the
outcome is `Change` and the dimension has at least two categories its value at `T` differs
from the one at `T - 1` and is below the number of categories. -/
theorem step_commits_snapshot (exp : ℚ → ℚ) {N D T self : Nat} (params : Parameters)
    (agents : Nat → Agent) (behaviors : List Nat) (random : MersenneTwister)
    (h : StepReady N D T self agents behaviors)
    (hcur : (agents self).m_state.1.m_time = T - 1) :
    ∃ r, stepRecord exp self params agents N behaviors T random = Except.ok r ∧
      step exp self params agents N behaviors T random = Except.ok (r.agents, r.random) ∧
      (∀ k, k < D → ∃ v, (r.agents self).getBehaviorAt k T = Except.ok v) ∧
      (r.agents self).m_state.2 = (agents self).m_state.1 ∧
      (∀ k, k < D → (r.agents self).getBehaviorAt k (T - 1) =
        Except.ok ((agents self).m_state.1.m_behavior.getD k 0)) ∧
      (∀ k, k < D → k ≠ r.inspectIndex →
        (r.agents self).getBehaviorAt k T = (r.agents self).getBehaviorAt k (T - 1)) ∧
      (r.outcome = Outcome.Keep →
        (r.agents self).getBehaviorAt r.inspectIndex T =
          (r.agents self).getBehaviorAt r.inspectIndex (T - 1)) ∧
      (r.outcome = Outcome.Change → 2 ≤ behaviors.getD r.inspectIndex 0 →
        ∃ v w, (r.agents self).getBehaviorAt r.inspectIndex T = Except.ok v ∧
          (r.agents self).getBehaviorAt r.inspectIndex (T - 1) = Except.ok w ∧
          v ≠ w ∧ v < behaviors.getD r.inspectIndex 0) := by
  obtain ⟨r, hr, ⟨-, -, -, -, hidx, hread⟩, -, -, -, ⟨newv, hstate, hkeep, hchange⟩, -⟩ :=
    stepRecord_effect exp params agents behaviors random h
  obtain ⟨-, hself, -, -, -, -, -, -, hT1, -, hhold⟩ := h
  have hlen : (agents self).m_state.1.m_behavior.length = D := (hhold self hself).1
  have hTne : T ≠ T - 1 := by omega
  have h1 : (r.agents self).m_state.1.m_time = T := by rw [hstate]
  have h2 : (r.agents self).m_state.2.m_time = T - 1 := by rw [hstate]; exact hcur
  have hb1 : (r.agents self).m_state.1.m_behavior =
      (agents self).m_state.1.m_behavior.set r.inspectIndex newv := by rw [hstate]
  have hb2 : (r.agents self).m_state.2.m_behavior = (agents self).m_state.1.m_behavior := by
    rw [hstate]
  have hatT : ∀ k, k < D → (r.agents self).getBehaviorAt k T =
      Except.ok (((agents self).m_state.1.m_behavior.set r.inspectIndex newv).getD k 0) := by
    intro k hk
    rw [getBehaviorAt_current h1 (by rw [hb1, List.length_set, hlen]; exact hk), hb1]
  have hbefore : ∀ k, k < D → (r.agents self).getBehaviorAt k (T - 1) =
      Except.ok ((agents self).m_state.1.m_behavior.getD k 0) := by
    intro k hk
    rw [getBehaviorAt_previous (by rw [h1]; exact hTne) h2 (by rw [hb2, hlen]; exact hk), hb2]
  have hcurv : r.inspectBehav = (agents self).m_state.1.m_behavior.getD r.inspectIndex 0 := by
    rw [getBehaviorAt_current hcur (by rw [hlen]; exact hidx)] at hread
    injection hread with hread
    exact hread.symm
  have hset : ((agents self).m_state.1.m_behavior.set r.inspectIndex newv).getD
      r.inspectIndex 0 = newv := by
    rw [List.getD_eq_getElem _ _ (by rw [List.length_set, hlen]; exact hidx),
      List.getElem_set_self]
  refine ⟨r, hr, step_of_stepRecord hr, fun k hk => ⟨_, hatT k hk⟩, by rw [hstate], hbefore,
    ?_, ?_, ?_⟩
  · intro k hk hne
    rw [hatT k hk, hbefore k hk,
      List.getD_eq_getElem _ _ (by rw [List.length_set, hlen]; exact hk),
      List.getElem_set_ne (fun h => hne h.symm),
      List.getD_eq_getElem _ _ (by rw [hlen]; exact hk)]
  · intro hk
    rw [hatT _ hidx, hbefore _ hidx, hset, hkeep hk, hcurv]
  · intro hc hcat
    refine ⟨newv, r.inspectBehav, ?_, ?_, ((hchange hc).2 hcat).1, ((hchange hc).2 hcat).2⟩
    · rw [hatT _ hidx, hset]
    · rw [hbefore _ hidx, hcurv]

/-- Witness for C14: the step of agent `0` of the two-agent fixture at time `1`, with one
out-group partner. -/
theorem step_commits_snapshot_witness :
    StepReady 2 1 1 0 twoAgents [2] ∧ (twoAgents 0).m_state.1.m_time = 1 - 1 ∧
    ∃ r, stepRecord (fun x => 1 + x) 0 { m_qOut := 1 } twoAgents 2 [2] 1 (constantTape 1) =
        Except.ok r ∧
      step (fun x => 1 + x) 0 { m_qOut := 1 } twoAgents 2 [2] 1 (constantTape 1) =
        Except.ok (r.agents, r.random) ∧
      (∀ k, k < 1 → ∃ v, (r.agents 0).getBehaviorAt k 1 = Except.ok v) ∧
      (r.agents 0).m_state.2 = (twoAgents 0).m_state.1 ∧
      (∀ k, k < 1 → (r.agents 0).getBehaviorAt k (1 - 1) =
        Except.ok ((twoAgents 0).m_state.1.m_behavior.getD k 0)) ∧
      (∀ k, k < 1 → k ≠ r.inspectIndex →
        (r.agents 0).getBehaviorAt k 1 = (r.agents 0).getBehaviorAt k (1 - 1)) ∧
      (r.outcome = Outcome.Keep →
        (r.agents 0).getBehaviorAt r.inspectIndex 1 =
          (r.agents 0).getBehaviorAt r.inspectIndex (1 - 1)) ∧
      (r.outcome = Outcome.Change → 2 ≤ [2].getD r.inspectIndex 0 →
        ∃ v w, (r.agents 0).getBehaviorAt r.inspectIndex 1 = Except.ok v ∧
          (r.agents 0).getBehaviorAt r.inspectIndex (1 - 1) = Except.ok w ∧
          v ≠ w ∧ v < [2].getD r.inspectIndex 0) :=
  ⟨stepReady_twoAgents, rfl,
    step_commits_snapshot (fun x => 1 + x) { m_qOut := 1 } twoAgents [2] (constantTape 1)
      stepReady_twoAgents rfl⟩

end Agent

end iris

namespace iris

namespace Agent

/-- The own privilege of the stepping agent in terms of the local `powerGroup` of the step,
which is what `extractPowerful` returns on the social group (positions, not members): in the
setting `StepReady` (where the social group never contains the agent itself) and with the
privilege counter below its 32-bit maximum, the privilege of the agent grows by exactly one if
the outcome is `Keep` and the agent is powerful or that local `powerGroup` is not empty, and is
unchanged otherwise. -/
theorem step_own_privilege (exp : ℚ → ℚ) {N D T self : Nat} (params : Parameters)
    (agents : Nat → Agent) (behaviors : List Nat) (random : MersenneTwister)
    (h : StepReady N D T self agents behaviors)
    (hp : (agents self).m_privilege + 1 < UINT32) :
    ∃ r, stepRecord exp self params agents N behaviors T random = Except.ok r ∧
      step exp self params agents N behaviors T random = Except.ok (r.agents, r.random) ∧
      self ∉ r.socialGroup ∧ r.powerGroup = extractPowerful r.socialGroup agents N ∧
      (r.agents self).m_privilege =
        if r.outcome = Outcome.Keep ∧
            ((agents self).m_powerful = true ∨ r.powerGroup ≠ []) then
          (agents self).m_privilege + 1
        else (agents self).m_privilege := by
  obtain ⟨r, hr, ⟨-, hmem, -, hpg, -⟩, -, -, -, -, -, hpriv, -⟩ :=
    stepRecord_effect exp params agents behaviors random h
  refine ⟨r, hr, step_of_stepRecord hr, fun hs => (hmem self hs).2 rfl, hpg, ?_⟩
  rw [hpriv, Nat.mod_eq_of_lt hp]

/-- The own privilege of agent `0` of the two-agent fixture in its step at time `1`. -/
theorem step_own_privilege_witness :
    StepReady 2 1 1 0 twoAgents [2] ∧ (twoAgents 0).m_privilege + 1 < UINT32 ∧
    ∃ r, stepRecord (fun x => 1 + x) 0 { m_qOut := 1 } twoAgents 2 [2] 1 (constantTape 1) =
        Except.ok r ∧
      step (fun x => 1 + x) 0 { m_qOut := 1 } twoAgents 2 [2] 1 (constantTape 1) =
        Except.ok (r.agents, r.random) ∧
      0 ∉ r.socialGroup ∧ r.powerGroup = extractPowerful r.socialGroup twoAgents 2 ∧
      (r.agents 0).m_privilege =
        if r.outcome = Outcome.Keep ∧
            ((twoAgents 0).m_powerful = true ∨ r.powerGroup ≠ []) then
          (twoAgents 0).m_privilege + 1
        else (twoAgents 0).m_privilege :=
  ⟨stepReady_twoAgents, by decide,
    step_own_privilege (fun x => 1 + x) { m_qOut := 1 } twoAgents [2] (constantTape 1)
      stepReady_twoAgents (by decide)⟩

/-- C16 (defect of the code). Agent `1` of three agents steps at time `1` with `qIn = 1` and
`qOut = 0`; it is not powerful and its social group is `{2}`, which contains no powerful
agent, so that the power group, the powerful members of the social group, is empty and the
privilege of agent `1` should stay `0`. The step computes its power group with
`extractPowerful`, which tests `agents[i]` for the position `i = 0` and returns `{0}`; the
outcome is decided directly and is `Keep`, and the privilege of agent `1` becomes `1`. -/
theorem step_credits_positional_power :
    (powerAtZero 1).m_powerful = false ∧ (powerAtZero 2).m_powerful = false ∧
    (powerAtZero 1).m_privilege = 0 ∧
    ∃ r, stepRecord (fun x => 1 + x) 1 { m_qIn := 1 } powerAtZero 3 [2] 1 (constantTape 0) =
        Except.ok r ∧
      step (fun x => 1 + x) 1 { m_qIn := 1 } powerAtZero 3 [2] 1 (constantTape 0) =
        Except.ok (r.agents, r.random) ∧
      r.socialGroup = [2] ∧ 1 ∉ r.socialGroup ∧
      r.socialGroup.filter (fun g => (powerAtZero g).isPowerful) = [] ∧
      removeNonPowerful r.socialGroup powerAtZero 3 = [] ∧
      r.powerGroup = [0] ∧ r.outcome = Outcome.Keep ∧
      (r.agents 1).m_privilege = 1 := by
  refine ⟨rfl, rfl, rfl, _, by with_unfolding_all rfl, by with_unfolding_all rfl,
    by with_unfolding_all rfl, by with_unfolding_all decide, by with_unfolding_all rfl,
    by with_unfolding_all rfl, by with_unfolding_all rfl, by with_unfolding_all rfl,
    by with_unfolding_all rfl⟩

/-- C17. After `Agent::step` of agent `self` in the setting `StepReady`, with no ledger
counter at its 32-bit maximum: the social group `G` consists of distinct identifiers other
than `self`; for each `g` in `G`, the entry of `g` for `self` has `communicated` increased by
exactly one, `censored` increased by one exactly when the communication type is `Censored`
and `reinforced` increased by one exactly when it is `Reinforced`, and no other entry of `g`
changes; the entry of `self` for `g` has `communicated` increased by exactly one and its
other counters unchanged; no other entry of the ledger of `self` changes, and the ledger of
every other agent is unchanged. -/
theorem step_ledger (exp : ℚ → ℚ) {N D T self : Nat} (params : Parameters)
    (agents : Nat → Agent) (behaviors : List Nat) (random : MersenneTwister)
    (h : StepReady N D T self agents behaviors)
    (hno : ∀ j k, ((agents j).interactionWith k).m_communicated + 1 < UINT32 ∧
      ((agents j).interactionWith k).m_censored + 1 < UINT32 ∧
      ((agents j).interactionWith k).m_reinforced + 1 < UINT32) :
    ∃ r, stepRecord exp self params agents N behaviors T random = Except.ok r ∧
      step exp self params agents N behaviors T random = Except.ok (r.agents, r.random) ∧
      r.socialGroup.Nodup ∧ self ∉ r.socialGroup ∧
      (∀ g ∈ r.socialGroup, ∃ v,
        (agents g).getBehaviorAt r.inspectIndex (T - 1) = Except.ok v ∧
        ((r.agents g).interactionWith self).m_communicated =
          ((agents g).interactionWith self).m_communicated + 1 ∧
        ((r.agents g).interactionWith self).m_censored =
          ((agents g).interactionWith self).m_censored +
            (if determineCommType r.inspectBehav v r.outcome = CommType.Censored then 1
              else 0) ∧
        ((r.agents g).interactionWith self).m_reinforced =
          ((agents g).interactionWith self).m_reinforced +
            (if determineCommType r.inspectBehav v r.outcome = CommType.Reinforced then 1
              else 0) ∧
        ∀ k, k ≠ self → (r.agents g).m_interactions k = (agents g).m_interactions k) ∧
      (∀ g ∈ r.socialGroup,
        ((r.agents self).interactionWith g).m_communicated =
          ((agents self).interactionWith g).m_communicated + 1 ∧
        ((r.agents self).interactionWith g).m_censored =
          ((agents self).interactionWith g).m_censored ∧
        ((r.agents self).interactionWith g).m_reinforced =
          ((agents self).interactionWith g).m_reinforced) ∧
      (∀ k, k ∉ r.socialGroup →
        (r.agents self).m_interactions k = (agents self).m_interactions k) ∧
      (∀ j, j ≠ self → j ∉ r.socialGroup →
        (r.agents j).m_interactions = (agents j).m_interactions) := by
  obtain ⟨r, hr, ⟨hnd, hmem, -⟩, hout, -, hin, -, -, -, ⟨hother, hentry⟩, -⟩ :=
    stepRecord_effect exp params agents behaviors random h
  refine ⟨r, hr, step_of_stepRecord hr, hnd, fun hs => (hmem self hs).2 rfl, ?_, ?_, hother,
    fun j hjs hjG => by rw [hout j hjs hjG]⟩
  · intro g hg
    obtain ⟨v, hv, -, -, hk, he⟩ := hin g hg
    obtain ⟨h1, h2, h3⟩ := hno g self
    refine ⟨v, hv, ?_, ?_, ?_, hk⟩
    · rw [he, updateInfluenceOn_entry]
      exact Nat.mod_eq_of_lt h1
    · rw [he, updateInfluenceOn_entry]
      simp only
      split_ifs
      · exact Nat.mod_eq_of_lt h2
      · rfl
    · rw [he, updateInfluenceOn_entry]
      simp only
      split_ifs
      · exact Nat.mod_eq_of_lt h3
      · rfl
  · intro g hg
    rw [hentry g hg]
    exact ⟨Nat.mod_eq_of_lt (hno self g).1, rfl, rfl⟩

/-- Witness for C17: the step of agent `0` of the two-agent fixture at time `1`, with one
out-group partner. -/
theorem step_ledger_witness :
    StepReady 2 1 1 0 twoAgents [2] ∧
    (∀ j k, ((twoAgents j).interactionWith k).m_communicated + 1 < UINT32 ∧
      ((twoAgents j).interactionWith k).m_censored + 1 < UINT32 ∧
      ((twoAgents j).interactionWith k).m_reinforced + 1 < UINT32) ∧
    ∃ r, stepRecord (fun x => 1 + x) 0 { m_qOut := 1 } twoAgents 2 [2] 1 (constantTape 1) =
        Except.ok r ∧
      step (fun x => 1 + x) 0 { m_qOut := 1 } twoAgents 2 [2] 1 (constantTape 1) =
        Except.ok (r.agents, r.random) ∧
      r.socialGroup.Nodup ∧ 0 ∉ r.socialGroup ∧
      (∀ g ∈ r.socialGroup, ∃ v,
        (twoAgents g).getBehaviorAt r.inspectIndex (1 - 1) = Except.ok v ∧
        ((r.agents g).interactionWith 0).m_communicated =
          ((twoAgents g).interactionWith 0).m_communicated + 1 ∧
        ((r.agents g).interactionWith 0).m_censored =
          ((twoAgents g).interactionWith 0).m_censored +
            (if determineCommType r.inspectBehav v r.outcome = CommType.Censored then 1
              else 0) ∧
        ((r.agents g).interactionWith 0).m_reinforced =
          ((twoAgents g).interactionWith 0).m_reinforced +
            (if determineCommType r.inspectBehav v r.outcome = CommType.Reinforced then 1
              else 0) ∧
        ∀ k, k ≠ 0 → (r.agents g).m_interactions k = (twoAgents g).m_interactions k) ∧
      (∀ g ∈ r.socialGroup,
        ((r.agents 0).interactionWith g).m_communicated =
          ((twoAgents 0).interactionWith g).m_communicated + 1 ∧
        ((r.agents 0).interactionWith g).m_censored =
          ((twoAgents 0).interactionWith g).m_censored ∧
        ((r.agents 0).interactionWith g).m_reinforced =
          ((twoAgents 0).interactionWith g).m_reinforced) ∧
      (∀ k, k ∉ r.socialGroup →
        (r.agents 0).m_interactions k = (twoAgents 0).m_interactions k) ∧
      (∀ j, j ≠ 0 → j ∉ r.socialGroup →
        (r.agents j).m_interactions = (twoAgents j).m_interactions) :=
  have hno : ∀ j k, ((twoAgents j).interactionWith k).m_communicated + 1 < UINT32 ∧
      ((twoAgents j).interactionWith k).m_censored + 1 < UINT32 ∧
      ((twoAgents j).interactionWith k).m_reinforced + 1 < UINT32 :=
    fun _ _ => ⟨show 0 + 1 < UINT32 by decide, show 0 + 1 < UINT32 by decide,
      show 0 + 1 < UINT32 by decide⟩
  ⟨stepReady_twoAgents, hno,
    step_ledger (fun x => 1 + x) { m_qOut := 1 } twoAgents [2] (constantTape 1)
      stepReady_twoAgents hno⟩

end Agent

end iris

/-! ## The serial driver -/

namespace iris

namespace Model

/-- Inside a slot, every agent can be read at the time before the slot. -/
theorem holdsAt_of_slotInv {N D T : Nat} {stepped : Nat → Prop} {agents : Nat → Agent}
    (h : SlotInv N D T stepped agents) {j : Nat} (hj : j < N) :
    HoldsAt D (T - 1) (agents j) := by
  obtain ⟨-, -, h1, h2, h3, h4⟩ := h j hj
  refine ⟨h1, h2, ?_⟩
  by_cases hs : stepped j
  · exact Or.inr (h3 hs).2
  · exact Or.inl (h4 hs)

/-- Inside a slot, an agent that has not yet taken its step is ready for it. -/
theorem stepReady_of_slotInv {N D T ind : Nat} {stepped : Nat → Prop} {agents : Nat → Agent}
    {behaviors : List Nat} (h : SlotInv N D T stepped agents) (hN : N < UINT32)
    (hind : ind < N) (hD : behaviors.length = D) (hD1 : 1 ≤ D) (hDU : D < UINT32)
    (hB : ∀ x ∈ behaviors, x < UINT32) (hT1 : 1 ≤ T) (hTU : T < UINT64) :
    StepReady N D T ind agents behaviors :=
  ⟨hN, hind, (h ind hind).1, (h ind hind).2.1, hD, hD1, hDU, hB, hT1, hTU,
    fun _ hj => holdsAt_of_slotInv h hj⟩

/-- The loop over the iteration order inside slot `T`: when the agents still to be stepped
are distinct, below `N` and have not yet taken their step, every step succeeds, and
afterwards these agents have taken their step. A property `Q` of the agents that every step
of a ready agent preserves holds afterwards as well. -/
theorem stepAll_spec (exp : ℚ → ℚ) {N D T : Nat} (params : Parameters) (behaviors : List Nat)
    (hn : params.m_n = N) (hN : N < UINT32) (hD : behaviors.length = D) (hD1 : 1 ≤ D)
    (hDU : D < UINT32) (hB : ∀ x ∈ behaviors, x < UINT32) (hT1 : 1 ≤ T) (hTU : T < UINT64)
    (Q : (Nat → Agent) → Prop)
    (hQ : ∀ (agents : Nat → Agent) (ind : Nat) (random : MersenneTwister),
      StepReady N D T ind agents behaviors → (agents ind).m_state.1.m_time = T - 1 →
      Q agents →
      ∀ r, Agent.stepRecord exp ind params agents N behaviors T random = Except.ok r →
        Q r.agents) :
    ∀ (L : List Nat) (stepped : Nat → Prop) (agents : Nat → Agent) (random : MersenneTwister),
      L.Nodup → (∀ x ∈ L, x < N ∧ ¬ stepped x) → SlotInv N D T stepped agents → Q agents →
      ∃ res, stepAll exp params behaviors T L agents random = Except.ok res ∧
        SlotInv N D T (fun j => stepped j ∨ j ∈ L) res.1 ∧ Q res.1 := by
  intro L
  induction L with
  | nil =>
    intro stepped agents random _ _ hinv hq
    refine ⟨(agents, random), rfl, ?_, hq⟩
    intro j hj
    obtain ⟨h1, h2, h3, h4, h5, h6⟩ := hinv j hj
    refine ⟨h1, h2, h3, h4, ?_, ?_⟩
    · rintro (hs | hs)
      · exact h5 hs
      · cases hs
    · intro hs
      exact h6 (fun h => hs (Or.inl h))
  | cons ind L ih =>
    intro stepped agents random hnd hL hinv hq
    obtain ⟨hindL, hnd1⟩ := List.nodup_cons.mp hnd
    obtain ⟨hind, hns⟩ := hL ind (List.mem_cons_self _ _)
    have hready := stepReady_of_slotInv hinv hN hind hD hD1 hDU hB hT1 hTU
    have hcur : (agents ind).m_state.1.m_time = T - 1 := (hinv ind hind).2.2.2.2.2 hns
    obtain ⟨r, hr, -, -, hcore, -, ⟨newv, hstate, -⟩, ⟨hnet, huid, -⟩, -⟩ :=
      Agent.stepRecord_effect exp params agents behaviors random hready
    have hq1 : Q r.agents := hQ agents ind random hready hcur hq r hr
    have hinv1 : SlotInv N D T (fun j => stepped j ∨ j = ind) r.agents := by
      intro j hj
      obtain ⟨h1, h2, h3, h4, h5, h6⟩ := hinv j hj
      by_cases hji : j = ind
      · subst hji
        refine ⟨by rw [huid]; exact h1, by rw [hnet]; exact h2, ?_, ?_, ?_, ?_⟩
        · rw [hstate]
          simp only [List.length_set]
          exact h3
        · rw [hstate]
          exact h3
        · intro _
          rw [hstate]
          exact ⟨rfl, hcur⟩
        · intro hs
          exact absurd (Or.inr rfl) hs
      · obtain ⟨c1, c2, c3, -⟩ := hcore j hji
        refine ⟨by rw [c3]; exact h1, by rw [c2]; exact h2, by rw [c1]; exact h3,
          by rw [c1]; exact h4, ?_, ?_⟩
        · rintro (hs | hs)
          · rw [c1]
            exact h5 hs
          · exact absurd hs hji
        · intro hs
          rw [c1]
          exact h6 (fun h => hs (Or.inl h))
    obtain ⟨res, hres, hinv2, hq2⟩ := ih (fun j => stepped j ∨ j = ind) r.agents r.random hnd1
      (fun x hx => ⟨(hL x (List.mem_cons_of_mem _ hx)).1, by
        rintro (hs | hs)
        · exact (hL x (List.mem_cons_of_mem _ hx)).2 hs
        · exact hindL (hs ▸ hx)⟩)
      hinv1 hq1
    unfold stepAll
    rw [hn, Agent.step_of_stepRecord hr]
    simp only
    refine ⟨res, hres, ?_, hq2⟩
    intro j hj
    obtain ⟨h1, h2, h3, h4, h5, h6⟩ := hinv2 j hj
    refine ⟨h1, h2, h3, h4, ?_, ?_⟩
    · rintro (hs | hs)
      · exact h5 (Or.inl (Or.inl hs))
      · rcases List.mem_cons.mp hs with hs | hs
        · exact h5 (Or.inl (Or.inr hs))
        · exact h5 (Or.inr hs)
    · intro hs
      apply h6
      rintro ((hs1 | hs1) | hs1)
      · exact hs (Or.inl hs1)
      · exact hs (Or.inr (by rw [hs1]; exact List.mem_cons_self _ _))
      · exact hs (Or.inr (List.mem_cons_of_mem _ hs1))

/-- The loop of `runSimulation` from a state of the driver between two slots, with fuel for
the remaining steps: every slot succeeds and the loop ends at the configured number of steps
in a state between two slots. A property `Q` of the agents that every step of a ready agent
preserves holds at the end as well. -/
theorem runSimulationLoop_spec (exp : ℚ → ℚ) {N D : Nat} (params : Parameters)
    (behaviors : List Nat) (Q : (Nat → Agent) → Prop)
    (hQ : ∀ (T : Nat) (agents : Nat → Agent) (ind : Nat) (random : MersenneTwister),
      StepReady N D T ind agents behaviors → (agents ind).m_state.1.m_time = T - 1 →
      Q agents →
      ∀ r, Agent.stepRecord exp ind params agents N behaviors T random = Except.ok r →
        Q r.agents) :
    ∀ (fuel : Nat) (model : Model), model.m_params = params → model.m_behaviors = behaviors →
      DriverInv N D model → Q model.m_agents → params.m_steps - model.m_time ≤ fuel →
      ∃ final, runSimulationLoop exp fuel model = Except.ok final ∧ DriverInv N D final ∧
        Q final.m_agents ∧ final.m_time = params.m_steps ∧ final.m_params = params ∧
        final.m_behaviors = behaviors := by
  intro fuel
  induction fuel with
  | zero =>
    intro model hp hb hinv hq hfuel
    have htime := hinv.2.2.2.2.2.2.2.2.1
    rw [hp] at htime
    unfold runSimulationLoop
    rw [hp, if_neg (by omega)]
    exact ⟨model, rfl, hinv, hq, by omega, hp, hb⟩
  | succ fuel ih =>
    intro model hp hb hinv hq hfuel
    obtain ⟨hn, hN, hD, hD1, hDU, hB, hperm, hsteps, htime, hslot⟩ := hinv
    rw [hp] at hn hsteps htime
    rw [hb] at hD hB
    unfold runSimulationLoop
    rw [hp, hb]
    by_cases hlt : model.m_time < params.m_steps
    · rw [if_pos hlt]
      simp only
      have hT : (model.m_time + 1) % UINT64 = model.m_time + 1 := Nat.mod_eq_of_lt (by omega)
      rw [hT]
      have hsp := (shuffle_perm model.m_indices model.m_random).trans hperm
      obtain ⟨res, hres, hslot1, hq1⟩ :=
        stepAll_spec exp params behaviors hn hN hD hD1 hDU hB
          (show 1 ≤ model.m_time + 1 by omega) (show model.m_time + 1 < UINT64 by omega) Q
          (hQ (model.m_time + 1)) (shuffle model.m_indices model.m_random).1
          (fun _ => False) model.m_agents (shuffle model.m_indices model.m_random).2
          (hsp.nodup_iff.mpr (List.nodup_range N))
          (fun x hx => ⟨List.mem_range.mp (hsp.subset hx), fun hf => hf⟩) hslot hq
      rw [hres]
      simp only
      obtain ⟨final, hfinal, hinvf, hqf, htf, hpf, hbf⟩ := ih
        { model with
          m_agents := res.1
          m_indices := (shuffle model.m_indices model.m_random).1
          m_random := res.2
          m_time := model.m_time + 1 }
        hp hb
        (by
          refine ⟨by rw [hp]; exact hn, hN, by rw [hb]; exact hD, hD1, hDU,
            by rw [hb]; exact hB, hsp, by rw [hp]; exact hsteps,
            by rw [hp]; show model.m_time + 1 ≤ params.m_steps; omega, ?_⟩
          intro j hj
          obtain ⟨h1, h2, h3, h4, h5, -⟩ := hslot1 j hj
          have hmem : j ∈ (shuffle model.m_indices model.m_random).1 :=
            hsp.symm.subset (List.mem_range.mpr hj)
          refine ⟨h1, h2, h3, h4, fun hf => absurd hf id, fun _ => ?_⟩
          exact (h5 (Or.inr hmem)).1)
        hq1
        (by show params.m_steps - (model.m_time + 1) ≤ fuel; omega)
      rw [hp, hb] at hfinal
      exact ⟨final, hfinal, hinvf, hqf, htf, hpf, hbf⟩
    · rw [if_neg hlt]
      exact ⟨model, rfl,
        ⟨by rw [hp]; exact hn, hN, by rw [hb]; exact hD, hD1, hDU, by rw [hb]; exact hB,
          hperm, by rw [hp]; exact hsteps, by rw [hp]; exact htime, hslot⟩,
        hq, by omega, hp, hb⟩

/-- `runSimulation` from agents initialised at time `0`: the run succeeds and ends at the
configured number of steps in a state between two slots; a property `Q` of the agents that
every step of a ready agent preserves holds at the end. -/
theorem runSimulation_spec (exp : ℚ → ℚ) {N D : Nat} (model : Model)
    (Q : (Nat → Agent) → Prop)
    (hQ : ∀ (T : Nat) (agents : Nat → Agent) (ind : Nat) (random : MersenneTwister),
      StepReady N D T ind agents model.m_behaviors →
      (agents ind).m_state.1.m_time = T - 1 → Q agents →
      ∀ r, Agent.stepRecord exp ind model.m_params agents N model.m_behaviors T random =
          Except.ok r → Q r.agents)
    (hn : model.m_params.m_n = N) (hN : N < UINT32) (hD : model.m_behaviors.length = D)
    (hD1 : 1 ≤ D) (hDU : D < UINT32) (hB : ∀ x ∈ model.m_behaviors, x < UINT32)
    (hperm : model.m_indices.Perm (List.range N)) (hsteps : model.m_params.m_steps < UINT64)
    (hagents : ∀ j, j < N → (model.m_agents j).m_uid = j ∧
      NetworkOk N j (model.m_agents j).m_network ∧
      (model.m_agents j).m_state.1.m_behavior.length = D ∧
      (model.m_agents j).m_state.2.m_behavior.length = D ∧
      (model.m_agents j).m_state.1.m_time = 0)
    (hq : Q model.m_agents) :
    ∃ final, runSimulation exp model = Except.ok final ∧ DriverInv N D final ∧
      Q final.m_agents ∧ final.m_time = model.m_params.m_steps ∧
      final.m_params = model.m_params ∧ final.m_behaviors = model.m_behaviors := by
  unfold runSimulation
  exact runSimulationLoop_spec exp model.m_params model.m_behaviors Q hQ model.m_params.m_steps
    { model with m_time := 0 } rfl rfl
    ⟨hn, hN, hD, hD1, hDU, hB, hperm, hsteps, Nat.zero_le _, fun j hj => by
      obtain ⟨h1, h2, h3, h4, h5⟩ := hagents j hj
      exact ⟨h1, h2, h3, h4, fun hf => absurd hf id, fun _ => h5⟩⟩
    hq (by show model.m_params.m_steps - 0 ≤ model.m_params.m_steps; omega)

end Model

end iris

/-! ## Properties of the serial driver -/

namespace iris

namespace Model

/-- Writing back the value an entry already has leaves the tuple as it is. -/
theorem set_getD_self (l : List Nat) (i : Nat) : l.set i (l.getD i 0) = l := by
  apply List.ext_getElem
  · rw [List.length_set]
  · intro n h1 h2
    rw [List.getElem_set]
    split_ifs with h
    · subst h
      rw [List.getD_eq_getElem _ _ h2]
    · rfl

/-- With equal counts on both sides and a clamped resistance of at least `1`, the
sociodynamic outcome is `Keep`, whatever the draw: the two utilities cancel and the draw is
below `1`. -/
theorem computeOutcomeSociodynamically_keep (exp : ℚ → ℚ) (sides : Agent.Sides)
    (params : Parameters) (random : MersenneTwister) (hs : sides.1 = sides.2)
    (hres : 1 ≤ min params.m_resistMax (max params.m_resist params.m_resistMin)) :
    (Agent.computeOutcomeSociodynamically exp sides params random).1 = Agent.Outcome.Keep := by
  unfold Agent.computeOutcomeSociodynamically
  simp only
  rw [hs, add_sub_cancel_right, if_neg]
  have := MersenneTwister.uniformReal_lt_one random
  intro hgt
  linarith

/-- A run in which every agent starts from snapshots at time `0` with one entry per behaviour
dimension: the run succeeds, ends at the configured number of steps with every agent
carrying that time in its current snapshot, and keeps a property `Q` that every step of a
ready agent preserves. -/
theorem runSimulation_from_start (exp : ℚ → ℚ) (model : Model) (Q : (Nat → Agent) → Prop)
    (hQ : ∀ (T : Nat) (agents : Nat → Agent) (ind : Nat) (random : MersenneTwister),
      StepReady model.m_params.m_n model.m_behaviors.length T ind agents model.m_behaviors →
      (agents ind).m_state.1.m_time = T - 1 → Q agents →
      ∀ r, Agent.stepRecord exp ind model.m_params agents model.m_params.m_n
          model.m_behaviors T random = Except.ok r → Q r.agents)
    (hN : model.m_params.m_n < UINT32) (hsteps : model.m_params.m_steps < UINT64)
    (hne : model.m_behaviors ≠ []) (hDU : model.m_behaviors.length < UINT32)
    (hB : ∀ x ∈ model.m_behaviors, x < UINT32)
    (hperm : model.m_indices.Perm (List.range model.m_params.m_n))
    (hagents : ∀ j, j < model.m_params.m_n → (model.m_agents j).m_uid = j ∧
      NetworkOk model.m_params.m_n j (model.m_agents j).m_network ∧
      ∃ b : List Nat, b.length = model.m_behaviors.length ∧
        (model.m_agents j).m_state =
          ({ m_behavior := b, m_time := 0 }, { m_behavior := b, m_time := 0 }))
    (hq : Q model.m_agents) :
    ∃ final, runSimulation exp model = Except.ok final ∧
      final.m_time = model.m_params.m_steps ∧ Q final.m_agents ∧
      ∀ j, j < model.m_params.m_n →
        (final.m_agents j).m_state.1.m_time = model.m_params.m_steps ∧
        HoldsAt model.m_behaviors.length model.m_params.m_steps (final.m_agents j) := by
  have hD1 : 1 ≤ model.m_behaviors.length := by
    cases hb : model.m_behaviors with
    | nil => exact absurd hb hne
    | cons a l => simp only [List.length_cons]; omega
  obtain ⟨final, hrun, hinv, hqf, htime, -, -⟩ :=
    runSimulation_spec exp model Q hQ rfl hN rfl hD1 hDU hB hperm hsteps
      (fun j hj => by
        obtain ⟨h1, h2, b, hb, hst⟩ := hagents j hj
        rw [hst]
        exact ⟨h1, h2, hb, hb, rfl⟩)
      hq
  refine ⟨final, hrun, htime, hqf, ?_⟩
  intro j hj
  obtain ⟨-, -, h3, h4, -, h6⟩ := hinv.2.2.2.2.2.2.2.2.2 j hj
  have h7 : (final.m_agents j).m_state.1.m_time = model.m_params.m_steps := by
    rw [h6 (fun hf => hf), htime]
    rfl
  exact ⟨h7, h3, h4, Or.inl h7⟩

/-- The model of the two-agent fixture is set up as the driver expects it. -/
theorem twoAgents_start (j : Nat) (_hj : j < 2) :
    (twoAgents j).m_uid = j ∧ NetworkOk 2 j (twoAgents j).m_network ∧
      ∃ b : List Nat, b.length = [2].length ∧
        (twoAgents j).m_state =
          ({ m_behavior := b, m_time := 0 }, { m_behavior := b, m_time := 0 }) := by
  refine ⟨rfl, ⟨List.Pairwise.nil, ?_, ?_⟩, [0], rfl, rfl⟩
  · intro x hx
    cases hx
  · intro hx
    cases hx

/-- C19. The serial driver `Model::runSimulation`, started from agents initialised at time
`0` (both snapshots hold the same tuple, one entry per behaviour dimension) with their
positions as identifiers and well-formed networks, a non-empty list of behaviour dimensions
and an iteration order that is a permutation of the identifiers, all sizes fitting their
machine types: the run succeeds for every number of steps, every order of stepping and every
sequence of random draws, so no call of `getBehaviorAt` throws; and after every slot `T` of
the run every agent holds a snapshot with the time `T`, the one the reads of slot `T + 1`
ask for. -/
theorem runSimulation_never_stale (exp : ℚ → ℚ) (model : Model)
    (hN : model.m_params.m_n < UINT32) (hsteps : model.m_params.m_steps < UINT64)
    (hne : model.m_behaviors ≠ []) (hDU : model.m_behaviors.length < UINT32)
    (hB : ∀ x ∈ model.m_behaviors, x < UINT32)
    (hperm : model.m_indices.Perm (List.range model.m_params.m_n))
    (hagents : ∀ j, j < model.m_params.m_n → (model.m_agents j).m_uid = j ∧
      NetworkOk model.m_params.m_n j (model.m_agents j).m_network ∧
      ∃ b : List Nat, b.length = model.m_behaviors.length ∧
        (model.m_agents j).m_state =
          ({ m_behavior := b, m_time := 0 }, { m_behavior := b, m_time := 0 })) :
    (∃ final, runSimulation exp model = Except.ok final ∧
      final.m_time = model.m_params.m_steps) ∧
    ∀ T, T ≤ model.m_params.m_steps →
      ∃ mid, runSimulation exp
          { model with m_params := { model.m_params with m_steps := T } } = Except.ok mid ∧
        mid.m_time = T ∧
        ∀ j, j < model.m_params.m_n → HoldsAt model.m_behaviors.length T (mid.m_agents j) := by
  constructor
  · obtain ⟨final, hrun, htime, -, -⟩ :=
      runSimulation_from_start exp model (fun _ => True) (fun _ _ _ _ _ _ _ _ _ => trivial)
        hN hsteps hne hDU hB hperm hagents trivial
    exact ⟨final, hrun, htime⟩
  · intro T hT
    obtain ⟨mid, hrun, htime, -, hhold⟩ :=
      runSimulation_from_start exp
        { model with m_params := { model.m_params with m_steps := T } } (fun _ => True)
        (fun _ _ _ _ _ _ _ _ _ => trivial) hN
        (show T < UINT64 by omega) hne hDU hB hperm hagents trivial
    exact ⟨mid, hrun, htime, fun j hj => (hhold j hj).2⟩

/-- Witness for C19: the two-agent fixture with one behaviour dimension of two categories and
three steps. -/
theorem runSimulation_never_stale_witness :
    (2 : Nat) < UINT32 ∧ (3 : Nat) < UINT64 ∧ ([2] : List Nat) ≠ [] ∧
    ([2] : List Nat).length < UINT32 ∧ (∀ x ∈ ([2] : List Nat), x < UINT32) ∧
    ([0, 1] : List Nat).Perm (List.range 2) ∧
    (∃ final, runSimulation (fun x => 1 + x)
        { m_agents := twoAgents, m_behaviors := [2], m_indices := [0, 1],
          m_params := { m_n := 2, m_steps := 3 }, m_random := constantTape 1 } =
          Except.ok final ∧ final.m_time = 3) ∧
    ∀ T, T ≤ 3 →
      ∃ mid, runSimulation (fun x => 1 + x)
          { m_agents := twoAgents, m_behaviors := [2], m_indices := [0, 1],
            m_params := { m_n := 2, m_steps := T }, m_random := constantTape 1 } =
            Except.ok mid ∧
        mid.m_time = T ∧ ∀ j, j < 2 → HoldsAt 1 T (mid.m_agents j) :=
  ⟨by decide, by decide, by decide, by decide, by decide, by decide,
    runSimulation_never_stale (fun x => 1 + x)
      { m_agents := twoAgents, m_behaviors := [2], m_indices := [0, 1],
        m_params := { m_n := 2, m_steps := 3 }, m_random := constantTape 1 }
      (by decide) (by decide) (by decide) (by decide) (by decide) (by decide) twoAgents_start⟩

/-- C20, as stated, fails: in the two-agent run of the specification (one behaviour dimension
with two categories, no powerful agent, `qIn = qOut = 0`, all resistances `0`) with a
generator whose raw outputs are all `1`, the first step changes the behaviour of agent `0`
from `{0}` to `{1}`: the draw `2^-53` exceeds the clamped resistance `0`. -/
theorem runSimulation_changes_behavior_without_group :
    (runSimulation (fun x => 1 + x)
        { m_agents := twoAgents, m_behaviors := [2], m_indices := [0, 1],
          m_params := { m_n := 2, m_steps := 1 }, m_random := constantTape 1 }).toOption.map
      (fun final => (final.m_agents 0).getBehavior) = some [1] ∧
    (twoAgents 0).getBehavior = [0] ∧
    (twoAgents 0).m_powerful = false ∧ (twoAgents 1).m_powerful = false := by
  refine ⟨?_, rfl, rfl, rfl⟩
  with_unfolding_all decide

/-- C20 (amended). In a run with `qIn = qOut = 0` whose clamped resistance
`min(resistMax, max(resist, resistMin))` is at least `1`, started as the driver expects it
(agents initialised at time `0`, identifiers, networks and sizes as in C19): the run succeeds
and, for every sequence of random draws, after every slot `T` of the run both snapshots of
every agent hold the tuple the agent started with, so that `getBehavior` returns it. -/
theorem runSimulation_keeps_behaviors (exp : ℚ → ℚ) (model : Model)
    (hN : model.m_params.m_n < UINT32) (hsteps : model.m_params.m_steps < UINT64)
    (hne : model.m_behaviors ≠ []) (hDU : model.m_behaviors.length < UINT32)
    (hB : ∀ x ∈ model.m_behaviors, x < UINT32)
    (hperm : model.m_indices.Perm (List.range model.m_params.m_n))
    (hagents : ∀ j, j < model.m_params.m_n → (model.m_agents j).m_uid = j ∧
      NetworkOk model.m_params.m_n j (model.m_agents j).m_network ∧
      ∃ b : List Nat, b.length = model.m_behaviors.length ∧
        (model.m_agents j).m_state =
          ({ m_behavior := b, m_time := 0 }, { m_behavior := b, m_time := 0 }))
    (hqIn : model.m_params.m_qIn = 0) (hqOut : model.m_params.m_qOut = 0)
    (hres : 1 ≤ min model.m_params.m_resistMax
      (max model.m_params.m_resist model.m_params.m_resistMin)) :
    ∀ T, T ≤ model.m_params.m_steps →
      ∃ mid, runSimulation exp
          { model with m_params := { model.m_params with m_steps := T } } = Except.ok mid ∧
        mid.m_time = T ∧
        ∀ j, j < model.m_params.m_n →
          (mid.m_agents j).m_state.1.m_behavior = (model.m_agents j).getBehavior ∧
          (mid.m_agents j).m_state.2.m_behavior = (model.m_agents j).getBehavior ∧
          (mid.m_agents j).getBehavior = (model.m_agents j).getBehavior := by
  intro T hT
  have hstart : ∀ j, j < model.m_params.m_n →
      (model.m_agents j).m_state.1.m_behavior = (model.m_agents j).getBehavior ∧
      (model.m_agents j).m_state.2.m_behavior = (model.m_agents j).getBehavior := by
    intro j hj
    obtain ⟨-, -, b, -, hst⟩ := hagents j hj
    unfold Agent.getBehavior
    rw [hst]
    exact ⟨rfl, rfl⟩
  obtain ⟨mid, hrun, htime, hq, -⟩ :=
    runSimulation_from_start exp
      { model with m_params := { model.m_params with m_steps := T } }
      (fun agents => ∀ j, j < model.m_params.m_n →
        (agents j).m_state.1.m_behavior = (model.m_agents j).getBehavior ∧
        (agents j).m_state.2.m_behavior = (model.m_agents j).getBehavior)
      (by
        intro T1 agents ind random hready hcur hq r hr j hj
        obtain ⟨r1, hr1, ⟨-, -, hlen, hpg, hidx, hread⟩, -, hcore, -,
          ⟨newv, hstate, hkeep, -⟩, -, -, -, hsoc, -⟩ :=
          Agent.stepRecord_effect exp
            { model.m_params with m_steps := T } agents model.m_behaviors random hready
        rw [hr] at hr1
        injection hr1 with hr1
        subst hr1
        by_cases hji : j = ind
        · subst hji
          have hG : r.socialGroup = [] := by
            apply List.length_eq_zero.mp
            have h1 : r.socialGroup.length ≤ model.m_params.m_qIn + model.m_params.m_qOut :=
              hlen
            omega
          have hPG : r.powerGroup = [] := by
            rw [hpg, hG]
            rfl
          obtain ⟨sides, random0, hsides, hout⟩ := hsoc (Or.inr hPG)
          rw [hG, Agent.computeSides_nil] at hsides
          injection hsides with hsides
          have hk : r.outcome = Agent.Outcome.Keep := by
            rw [hout, ← hsides]
            exact computeOutcomeSociodynamically_keep exp (0, 0) _ random0 rfl hres
          have hlenj : r.inspectIndex < (agents j).m_state.1.m_behavior.length := by
            rw [(hready.2.2.2.2.2.2.2.2.2.2 j hj).1]
            exact hidx
          rw [Agent.getBehaviorAt_current hcur hlenj] at hread
          injection hread with hread
          rw [hstate, hkeep hk, ← hread]
          simp only
          rw [set_getD_self]
          exact ⟨(hq j hj).1, (hq j hj).1⟩
        · rw [(hcore j hji).1]
          exact hq j hj)
      hN (show T < UINT64 by omega) hne hDU hB hperm hagents hstart
  have hgb : ∀ (a : Agent) (b : List Nat), a.m_state.1.m_behavior = b →
      a.m_state.2.m_behavior = b → a.getBehavior = b := by
    intro a b h1 h2
    unfold Agent.getBehavior
    split_ifs
    · exact h1
    · exact h2
  exact ⟨mid, hrun, htime, fun j hj => ⟨(hq j hj).1, (hq j hj).2,
    hgb _ _ (hq j hj).1 (hq j hj).2⟩⟩

/-- Witness for C20 (amended): the two-agent fixture with all resistances `1`. -/
theorem runSimulation_keeps_behaviors_witness :
    (2 : Nat) < UINT32 ∧ (3 : Nat) < UINT64 ∧ ([2] : List Nat) ≠ [] ∧
    ([2] : List Nat).length < UINT32 ∧ (∀ x ∈ ([2] : List Nat), x < UINT32) ∧
    ([0, 1] : List Nat).Perm (List.range 2) ∧ (1 : ℚ) ≤ min 1 (max 1 1) ∧
    ∀ T, T ≤ 3 →
      ∃ mid, runSimulation (fun x => 1 + x)
          { m_agents := twoAgents, m_behaviors := [2], m_indices := [0, 1],
            m_params := { m_n := 2, m_steps := T, m_resist := 1, m_resistMax := 1,
                          m_resistMin := 1 },
            m_random := constantTape 1 } = Except.ok mid ∧
        mid.m_time = T ∧
        ∀ j, j < 2 →
          (mid.m_agents j).m_state.1.m_behavior = (twoAgents j).getBehavior ∧
          (mid.m_agents j).m_state.2.m_behavior = (twoAgents j).getBehavior ∧
          (mid.m_agents j).getBehavior = (twoAgents j).getBehavior :=
  ⟨by decide, by decide, by decide, by decide, by decide, by decide, by norm_num,
    runSimulation_keeps_behaviors (fun x => 1 + x)
      { m_agents := twoAgents, m_behaviors := [2], m_indices := [0, 1],
        m_params := { m_n := 2, m_steps := 3, m_resist := 1, m_resistMax := 1,
                      m_resistMin := 1 },
        m_random := constantTape 1 }
      (by decide) (by decide) (by decide) (by decide) (by decide) (by decide) twoAgents_start
      rfl rfl (by norm_num)⟩

end Model

end iris

/-! ## Properties of the small functions of `Agent.cpp` and `AttributeGenerator.cpp` -/

namespace iris

namespace Agent

/-- C24. `Agent::obtainRandomOutGroup(qOut, N, random)` for an agent with identifier `s < N`
whose network is strictly ascending, contains only identifiers below `N` and does not contain
`s` (`N` a 32-bit value): for every state of the generator it returns exactly
`min(qOut, N - |network| - 1)` identifiers that are pairwise distinct, all below `N`, none
equal to `s` and none in the network. -/
theorem obtainRandomOutGroup_exact (agent : Agent) (qOut N : Nat) (random : MersenneTwister)
    (hN : N < UINT32) (hs : agent.m_uid < N) (hsorted : agent.m_network.Pairwise (· < ·))
    (hbelow : ∀ x ∈ agent.m_network, x < N) (hself : agent.m_uid ∉ agent.m_network) :
    ∃ outGroup random1, agent.obtainRandomOutGroup qOut N random =
        Except.ok (outGroup, random1) ∧
      outGroup.length = min qOut (N - agent.m_network.length - 1) ∧ outGroup.Nodup ∧
      ∀ x ∈ outGroup, x < N ∧ x ≠ agent.m_uid ∧ x ∉ agent.m_network :=
  obtainRandomOutGroup_spec hN agent qOut random hs ⟨hsorted, hbelow, hself⟩

/-- Witness for C24: the agent of the repository's test, with the network
`{2, 5, 9, 14, 18, 19}` among `20` agents, asked for `5` partners. -/
theorem obtainRandomOutGroup_exact_witness :
    (20 : Nat) < UINT32 ∧ (0 : Nat) < 20 ∧
    ([2, 5, 9, 14, 18, 19] : List Nat).Pairwise (· < ·) ∧
    (∀ x ∈ ([2, 5, 9, 14, 18, 19] : List Nat), x < 20) ∧
    (0 : Nat) ∉ ([2, 5, 9, 14, 18, 19] : List Nat) ∧
    ∃ outGroup random1,
      Agent.obtainRandomOutGroup { m_network := [2, 5, 9, 14, 18, 19] } 5 20 (constantTape 3) =
        Except.ok (outGroup, random1) ∧
      outGroup.length = min 5 (20 - [2, 5, 9, 14, 18, 19].length - 1) ∧ outGroup.Nodup ∧
      ∀ x ∈ outGroup, x < 20 ∧ x ≠ 0 ∧ x ∉ [2, 5, 9, 14, 18, 19] :=
  ⟨by decide, by decide, by decide, by decide, by decide,
    obtainRandomOutGroup_exact { m_network := [2, 5, 9, 14, 18, 19] } 5 20 (constantTape 3)
      (by decide) (by decide) (by decide) (by decide) (by decide)⟩

/-- C25. `Agent::selectNewBehavior(current, range, random)` for a 32-bit `range`: it returns
`current` (and draws nothing) when `range` is `0` or `1`; when `range ≥ 2` it never fails
and, for every state of the generator, returns a value `v` with `v ≠ current` and
`v < range`, whether or not `current < range`. -/
theorem selectNewBehavior_contract (current range : Nat) (random : MersenneTwister)
    (hrange : range < UINT32) :
    ((range = 0 ∨ range = 1) →
      selectNewBehavior current range random = Except.ok (current, random)) ∧
    (2 ≤ range → ∃ v random1, selectNewBehavior current range random = Except.ok (v, random1) ∧
      v ≠ current ∧ v < range) := by
  obtain ⟨v, random1, hsel, hle, hge⟩ := selectNewBehavior_spec current range random hrange
  constructor
  · intro h
    obtain ⟨h1, h2⟩ := hle (by omega)
    rw [hsel, h1, h2]
  · intro h
    exact ⟨v, random1, hsel, hge h⟩

/-- Witness for C25: five categories, current behaviour `4`, a draw that hits it. -/
theorem selectNewBehavior_contract_witness :
    (5 : Nat) < UINT32 ∧
    ((5 = 0 ∨ 5 = 1) → selectNewBehavior 4 5 (constantTape 4) =
      Except.ok (4, constantTape 4)) ∧
    (2 ≤ 5 → ∃ v random1, selectNewBehavior 4 5 (constantTape 4) = Except.ok (v, random1) ∧
      v ≠ 4 ∧ v < 5) :=
  ⟨by decide, selectNewBehavior_contract 4 5 (constantTape 4) (by decide)⟩

/-- C26. `Agent::determineCommType(me, you, outcome)` returns `Reinforced` exactly when
`me == you` and the outcome is `Keep`, `Censored` exactly when `me != you` and the outcome is
`Change`, and `Neither` exactly in the two remaining cases, for all `me` and `you`. -/
theorem determineCommType_cases (me you : Nat) (outcome : Outcome) :
    (determineCommType me you outcome = CommType.Reinforced ↔
      (me = you ∧ outcome = Outcome.Keep)) ∧
    (determineCommType me you outcome = CommType.Censored ↔
      (me ≠ you ∧ outcome = Outcome.Change)) ∧
    (determineCommType me you outcome = CommType.Neither ↔
      ((me = you ∧ outcome = Outcome.Change) ∨ (me ≠ you ∧ outcome = Outcome.Keep))) := by
  unfold determineCommType
  by_cases h : me = you <;> cases outcome <;> simp [h]

/-- C27. `Agent::computeOutcomeDirectly((against, inFavor))` returns `Change` if and only if
`against > inFavor`, and `Keep` otherwise; in particular every tie yields `Keep`. -/
theorem computeOutcomeDirectly_iff (against inFavor : Nat) :
    (computeOutcomeDirectly (against, inFavor) = Outcome.Change ↔ against > inFavor) ∧
    (computeOutcomeDirectly (against, inFavor) = Outcome.Keep ↔ against ≤ inFavor) ∧
    computeOutcomeDirectly (against, against) = Outcome.Keep := by
  unfold computeOutcomeDirectly
  refine ⟨?_, ?_, ?_⟩
  · by_cases h : against > inFavor
    · simp [h]
    · simp [h]
  · by_cases h : against > inFavor
    · simp only [h, if_true]
      constructor
      · intro hc
        cases hc
      · intro hle
        omega
    · simp only [h, if_false, true_iff]
      omega
  · simp

end Agent

namespace gen

/-- C30. `gen::createSubAttributeList(base, target)` fails if and only if `base` is shorter
than `target`, with "Base size is smaller than target!"; otherwise it returns exactly the
first `|target|` elements of `base`. Only the length of `target` is used. -/
theorem createSubAttributeList_contract (base target : List Nat) :
    ((∃ e, createSubAttributeList base target = Except.error e) ↔
      base.length < target.length) ∧
    (base.length < target.length →
      createSubAttributeList base target = Except.error Error.baseTooSmall) ∧
    (¬ base.length < target.length →
      createSubAttributeList base target = Except.ok (base.take target.length)) ∧
    (∀ other : List Nat, other.length = target.length →
      createSubAttributeList base other = createSubAttributeList base target) := by
  unfold createSubAttributeList
  refine ⟨?_, ?_, ?_, ?_⟩
  · by_cases h : base.length < target.length
    · rw [if_pos h]
      exact ⟨fun _ => h, fun _ => ⟨_, rfl⟩⟩
    · rw [if_neg h]
      constructor
      · rintro ⟨e, he⟩
        cases he
      · intro h1
        exact absurd h1 h
  · intro h
    rw [if_pos h]
  · intro h
    rw [if_neg h]
  · intro other ho
    rw [ho]

end gen

end iris

/-! ## Counters that only grow, and what a step leaves alone -/

namespace iris

theorem Bumped_refl (k x : Nat) : Bumped k x x := ⟨0, Nat.zero_le _, rfl⟩

theorem Bumped_mono {k k1 x y : Nat} (hk : k ≤ k1) (h : Bumped k x y) : Bumped k1 x y := by
  obtain ⟨i, hi, hy⟩ := h
  exact ⟨i, le_trans hi hk, hy⟩

theorem Bumped_trans {k1 k2 x y z : Nat} (h1 : Bumped k1 x y) (h2 : Bumped k2 y z) :
    Bumped (k1 + k2) x z := by
  obtain ⟨i, hi, hy⟩ := h1
  obtain ⟨j, hj, hz⟩ := h2
  refine ⟨j + i, by omega, ?_⟩
  rw [hz, hy, Function.iterate_add_apply]

theorem Bumped_bump (x : Nat) : Bumped 1 x ((x + 1) % UINT32) := ⟨1, Nat.le_refl _, rfl⟩

/-- Without overflow, increments only raise a counter. -/
theorem iterate_bump_eq : ∀ (i x : Nat), x + i < UINT32 → bump^[i] x = x + i := by
  intro i
  induction i with
  | zero => intro x _; rfl
  | succ i ih =>
    intro x h
    rw [Function.iterate_succ_apply', ih x (by omega)]
    unfold bump
    rw [Nat.mod_eq_of_lt (by omega)]
    rfl

theorem Bumped_le {k x y : Nat} (h : Bumped k x y) (hno : x + k < UINT32) :
    x ≤ y ∧ y ≤ x + k := by
  obtain ⟨i, hi, hy⟩ := h
  rw [hy, iterate_bump_eq i x (by omega)]
  omega

theorem GrowsBy_refl (k : Nat) (a : Agent) : GrowsBy k a a :=
  ⟨Bumped_refl _ _, fun _ => ⟨id, Bumped_refl _ _, Bumped_refl _ _, Bumped_refl _ _⟩⟩

theorem GrowsBy_mono {k k1 : Nat} {a b : Agent} (hk : k ≤ k1) (h : GrowsBy k a b) :
    GrowsBy k1 a b :=
  ⟨Bumped_mono hk h.1, fun key =>
    ⟨(h.2 key).1, Bumped_mono hk (h.2 key).2.1, Bumped_mono hk (h.2 key).2.2.1,
      Bumped_mono hk (h.2 key).2.2.2⟩⟩

theorem GrowsBy_trans {k1 k2 : Nat} {a b c : Agent} (h1 : GrowsBy k1 a b)
    (h2 : GrowsBy k2 b c) : GrowsBy (k1 + k2) a c :=
  ⟨Bumped_trans h1.1 h2.1, fun key =>
    ⟨fun h => (h2.2 key).1 ((h1.2 key).1 h), Bumped_trans (h1.2 key).2.1 (h2.2 key).2.1,
      Bumped_trans (h1.2 key).2.2.1 (h2.2 key).2.2.1,
      Bumped_trans (h1.2 key).2.2.2 (h2.2 key).2.2.2⟩⟩

/-- Agents with the same privilege and the same ledger. -/
theorem GrowsBy_of_eq {a b : Agent} (k : Nat) (hp : b.m_privilege = a.m_privilege)
    (hi : b.m_interactions = a.m_interactions) : GrowsBy k a b := by
  refine ⟨by rw [hp]; exact Bumped_refl _ _, fun key => ?_⟩
  unfold Agent.interactionWith
  rw [hi]
  exact ⟨id, Bumped_refl _ _, Bumped_refl _ _, Bumped_refl _ _⟩

namespace Agent

/-- The entry that `updateInfluenceOn` writes is present. -/
theorem updateInfluenceOn_present (agent : Agent) (targetId : Nat) (commType : CommType) :
    (agent.updateInfluenceOn targetId commType).m_interactions targetId ≠ none := by
  unfold updateInfluenceOn
  simp only [Function.update_same]
  exact Option.some_ne_none _

/-- `updateInfluenceOn` applies at most one increment to each counter and removes no
entry. -/
theorem updateInfluenceOn_grows (agent : Agent) (targetId : Nat) (commType : CommType) :
    GrowsBy 1 agent (agent.updateInfluenceOn targetId commType) := by
  refine ⟨by rw [(updateInfluenceOn_core _ _ _).2]; exact Bumped_refl _ _, fun key => ?_⟩
  by_cases hk : key = targetId
  · subst hk
    refine ⟨fun _ => updateInfluenceOn_present _ _ _, ?_, ?_, ?_⟩
    · rw [updateInfluenceOn_entry]
      exact Bumped_bump _
    · rw [updateInfluenceOn_entry]
      simp only
      split_ifs
      · exact Bumped_bump _
      · exact Bumped_refl _ _
    · rw [updateInfluenceOn_entry]
      simp only
      split_ifs
      · exact Bumped_bump _
      · exact Bumped_refl _ _
  · have h := updateInfluenceOn_other agent commType hk
    unfold interactionWith
    rw [h]
    exact ⟨id, Bumped_refl _ _, Bumped_refl _ _, Bumped_refl _ _⟩

/-- `increasePrivilege` applies one increment to the privilege. -/
theorem increasePrivilege_grows (agent : Agent) : GrowsBy 1 agent agent.increasePrivilege :=
  ⟨Bumped_bump _, fun _ => ⟨id, Bumped_refl _ _, Bumped_refl _ _, Bumped_refl _ _⟩⟩

/-- A contact applies at most one increment to each counter and removes no entry. -/
theorem contacted_grows (uid cur soc : Nat) (outcome : Outcome) (credit : Bool)
    (agent : Agent) : GrowsBy 1 agent (contacted uid cur soc outcome credit agent) := by
  have hu := updateInfluenceOn_grows agent uid (determineCommType cur soc outcome)
  refine ⟨?_, ?_⟩
  · rw [contacted_privilege]
    split_ifs
    · exact Bumped_bump _
    · exact Bumped_refl _ _
  · intro key
    have hi : (contacted uid cur soc outcome credit agent).m_interactions =
        (agent.updateInfluenceOn uid (determineCommType cur soc outcome)).m_interactions := by
      unfold contacted
      simp only
      split_ifs
      · rfl
      · rfl
    unfold interactionWith
    rw [hi]
    exact hu.2 key

/-- One round of `updateCommunicationWith` applies at most one increment to each counter and
removes no entry; it writes the ledger only. -/
theorem updateCommunicationWith_grows : ∀ (G : List Nat) (agent : Agent),
    GrowsBy G.length agent (agent.updateCommunicationWith G) ∧
      SameCore (agent.updateCommunicationWith G) agent := by
  intro G
  induction G with
  | nil =>
    intro agent
    exact ⟨GrowsBy_refl _ _, SameCore_refl _⟩
  | cons g G ih =>
    intro agent
    have hfold : agent.updateCommunicationWith (g :: G) =
        Agent.updateCommunicationWith (agent.updateInfluenceOn g CommType.Neither) G := rfl
    rw [hfold]
    obtain ⟨h1, h2⟩ := ih (agent.updateInfluenceOn g CommType.Neither)
    refine ⟨?_, SameCore_trans h2 (updateInfluenceOn_core _ _ _).1⟩
    have := GrowsBy_trans (updateInfluenceOn_grows agent g CommType.Neither) h1
    rw [List.length_cons, Nat.add_comm]
    exact this

/-- The write of one round of a distribution loop: every agent keeps its core, and its
counters grow by at most one increment. -/
theorem update_contacted_grows (agents : Nat → Agent) (soc uid cur v : Nat) (outcome : Outcome)
    (credit : Bool) (j : Nat) :
    GrowsBy 1 (agents j)
      (Function.update agents soc (contacted uid cur v outcome credit (agents soc)) j) := by
  by_cases h : j = soc
  · subst h
    rw [Function.update_same]
    exact contacted_grows _ _ _ _ _ _
  · rw [Function.update_noteq h]
    exact GrowsBy_refl _ _

/-- Whatever the group, a completed loop of `distributePrivilege` keeps the core of every
agent, and applies at most one increment per round to each counter. -/
theorem distributePrivilegeLoop_frame (self cur index : Nat) (outcome : Outcome) (time : Nat) :
    ∀ (G : List Nat) (agents agents1 : Nat → Agent),
      distributePrivilegeLoop self index cur outcome time G agents = Except.ok agents1 →
      ∀ j, SameCore (agents1 j) (agents j) ∧ GrowsBy G.length (agents j) (agents1 j) := by
  intro G
  induction G with
  | nil =>
    intro agents agents1 h j
    unfold distributePrivilegeLoop at h
    cases h
    exact ⟨SameCore_refl _, GrowsBy_refl _ _⟩
  | cons soc G ih =>
    intro agents agents1 h j
    unfold distributePrivilegeLoop at h
    cases hv : (agents soc).getBehaviorAt index time with
    | error e =>
      rw [hv] at h
      cases h
    | ok v =>
      rw [hv] at h
      simp only at h
      have hpow : (Function.update agents soc
          ((agents soc).updateInfluenceOn (agents self).m_uid
            (determineCommType cur v outcome)) self).m_powerful = (agents self).m_powerful := by
        by_cases hs : self = soc
        · subst hs
          rw [Function.update_same]
          exact (updateInfluenceOn_core _ _ _).1.2.2.2.1
        · rw [Function.update_noteq hs]
      rw [hpow, update_contacted agents self soc cur v outcome (agents self).m_powerful] at h
      obtain ⟨h1, h2⟩ := ih _ _ h j
      refine ⟨SameCore_trans h1 (update_contacted_core _ _ _ _ _ _ _ _), ?_⟩
      have := GrowsBy_trans (update_contacted_grows agents soc (agents self).m_uid cur v outcome
        (agents self).m_powerful j) h2
      rw [List.length_cons, Nat.add_comm]
      exact this

/-- Whatever the group, a completed loop of `distributePrivilegeWithPower` keeps the core of
every agent, and applies at most one increment per round to each counter. -/
theorem distributePrivilegeWithPowerLoop_frame (self cur index : Nat) (powerCache : List Nat)
    (outcome : Outcome) (time : Nat) :
    ∀ (G : List Nat) (agents agents1 : Nat → Agent),
      distributePrivilegeWithPowerLoop self index cur powerCache outcome time G agents =
        Except.ok agents1 →
      ∀ j, SameCore (agents1 j) (agents j) ∧ GrowsBy G.length (agents j) (agents1 j) := by
  intro G
  induction G with
  | nil =>
    intro agents agents1 h j
    unfold distributePrivilegeWithPowerLoop at h
    cases h
    exact ⟨SameCore_refl _, GrowsBy_refl _ _⟩
  | cons soc G ih =>
    intro agents agents1 h j
    unfold distributePrivilegeWithPowerLoop at h
    cases hv : (agents soc).getBehaviorAt index time with
    | error e =>
      rw [hv] at h
      cases h
    | ok v =>
      rw [hv] at h
      simp only at h
      have hupd := update_contacted agents self soc cur v outcome (decide (v ∈ powerCache))
      simp only [decide_eq_true_eq] at hupd
      rw [hupd] at h
      obtain ⟨h1, h2⟩ := ih _ _ h j
      refine ⟨SameCore_trans h1 (update_contacted_core _ _ _ _ _ _ _ _), ?_⟩
      have := GrowsBy_trans (update_contacted_grows agents soc (agents self).m_uid cur v outcome
        (decide (v ∈ powerCache)) j) h2
      rw [List.length_cons, Nat.add_comm]
      exact this

/-- Whatever the state, a completed part (3) of the step keeps the core of every agent, and
applies at most one increment per member of the social group to each counter. -/
theorem decideOutcome_frame {exp : ℚ → ℚ} {self : Nat} {params : Parameters}
    {agents : Nat → Agent} {N : Nat} {socialGroup powerGroup : List Nat} {index cur time : Nat}
    {random : MersenneTwister} {decided : Outcome × (Nat → Agent) × MersenneTwister}
    (h : decideOutcome exp self params agents N socialGroup powerGroup index cur time random =
      Except.ok decided) (j : Nat) :
    SameCore (decided.2.1 j) (agents j) ∧
      GrowsBy socialGroup.length (agents j) (decided.2.1 j) := by
  unfold decideOutcome at h
  split_ifs at h
  · cases hs : computeSides index cur socialGroup agents N time with
    | error e =>
      rw [hs] at h
      cases h
    | ok sides =>
      rw [hs] at h
      simp only at h
      unfold distributePrivilege at h
      cases hd : distributePrivilegeLoop self index cur
          (computeOutcomeSociodynamically exp sides params random).1 time socialGroup agents with
      | error e =>
        rw [hd] at h
        cases h
      | ok agents1 =>
        rw [hd] at h
        cases h
        exact distributePrivilegeLoop_frame _ _ _ _ _ _ _ _ hd j
  · cases hs : computeSides index cur powerGroup agents N time with
    | error e =>
      rw [hs] at h
      cases h
    | ok sides =>
      rw [hs] at h
      simp only at h
      unfold distributePrivilegeWithPower at h
      cases hc : cacheBehaviorsAsSet powerGroup agents index time with
      | error e =>
        rw [hc] at h
        cases h
      | ok powerCache =>
        rw [hc] at h
        simp only at h
        cases hd : distributePrivilegeWithPowerLoop self index cur powerCache
            (computeOutcomeDirectly sides) time socialGroup agents with
        | error e =>
          rw [hd] at h
          cases h
        | ok agents1 =>
          rw [hd] at h
          cases h
          exact distributePrivilegeWithPowerLoop_frame _ _ _ _ _ _ _ _ _ hd j

/-- A completed `updateState` writes the state only, and moves the current state to the
previous one. -/
theorem updateState_frame {agent agent1 : Agent} {index behavior time : Nat}
    (h : agent.updateState index behavior time = Except.ok agent1) :
    agent1.m_network = agent.m_network ∧ agent1.m_uid = agent.m_uid ∧
      agent1.m_powerful = agent.m_powerful ∧ agent1.m_familySize = agent.m_familySize ∧
      agent1.m_values = agent.m_values ∧ agent1.m_privilege = agent.m_privilege ∧
      agent1.m_interactions = agent.m_interactions ∧ agent1.m_state.2 = agent.m_state.1 ∧
      agent1.m_state.1.m_time = time := by
  unfold updateState at h
  split_ifs at h
  cases h
  exact ⟨rfl, rfl, rfl, rfl, rfl, rfl, rfl, rfl, rfl⟩

/-- A completed commit writes the state only, and moves the current state to the previous
one. -/
theorem commitOutcome_frame {agent : Agent} {outcome : Outcome} {behaviors : List Nat}
    {index cur time : Nat} {random : MersenneTwister} {committed : Agent × MersenneTwister}
    (h : commitOutcome agent outcome behaviors index cur time random = Except.ok committed) :
    committed.1.m_network = agent.m_network ∧ committed.1.m_uid = agent.m_uid ∧
      committed.1.m_powerful = agent.m_powerful ∧
      committed.1.m_familySize = agent.m_familySize ∧
      committed.1.m_values = agent.m_values ∧ committed.1.m_privilege = agent.m_privilege ∧
      committed.1.m_interactions = agent.m_interactions ∧
      committed.1.m_state.2 = agent.m_state.1 ∧ committed.1.m_state.1.m_time = time := by
  unfold commitOutcome at h
  split_ifs at h
  · cases hv : vectorAt behaviors index with
    | error e =>
      rw [hv] at h
      cases h
    | ok range =>
      rw [hv] at h
      simp only at h
      cases hsel : selectNewBehavior cur range random with
      | error e =>
        rw [hsel] at h
        cases h
      | ok chosen =>
        rw [hsel] at h
        simp only at h
        cases hu : agent.updateState index chosen.1 time with
        | error e =>
          rw [hu] at h
          cases h
        | ok agent1 =>
          rw [hu] at h
          cases h
          exact updateState_frame hu
  · cases hu : agent.updateState index cur time with
    | error e =>
      rw [hu] at h
      cases h
    | ok agent1 =>
      rw [hu] at h
      cases h
      exact updateState_frame hu

/-- The out-group loop adds at most one identifier per round. -/
theorem obtainRandomOutGroupLoop_length (N : Nat) :
    ∀ (n : Nat) (network outGroup : List Nat) (random : MersenneTwister)
      (res : List Nat × MersenneTwister),
      obtainRandomOutGroupLoop N n network outGroup random = Except.ok res →
      res.1.length ≤ outGroup.length + n := by
  intro n
  induction n with
  | zero =>
    intro network outGroup random res h
    unfold obtainRandomOutGroupLoop at h
    cases h
    exact Nat.le_refl _
  | succ n ih =>
    intro network outGroup random res h
    unfold obtainRandomOutGroupLoop at h
    simp only at h
    split at h
    · have := ih _ _ _ _ h
      omega
    · cases h
    · have := ih _ _ _ _ h
      rw [List.length_append, List.length_singleton] at this
      omega

/-- Whatever the state, the social group has at most `qIn + qOut` members. -/
theorem obtainRandomInfluentialGroup_length {self qIn qOut : Nat} {agents : Nat → Agent}
    {N : Nat} {random : MersenneTwister} {social : List Nat × MersenneTwister}
    (h : obtainRandomInfluentialGroup self qIn qOut agents N random = Except.ok social) :
    social.1.length ≤ qIn + qOut := by
  unfold obtainRandomInfluentialGroup at h
  simp only at h
  cases ho : (agents self).obtainRandomOutGroup qOut N
      ((agents self).obtainRandomInGroup qIn random).2 with
  | error e =>
    rw [ho] at h
    cases h
  | ok outGroup =>
    rw [ho] at h
    cases h
    have hin : ((agents self).obtainRandomInGroup qIn random).1.length ≤ qIn := by
      unfold obtainRandomInGroup
      simp only
      split_ifs with hq
      · rw [List.length_take]
        exact Nat.min_le_left _ _
      · omega
    have hout : outGroup.1.length ≤ qOut := by
      unfold obtainRandomOutGroup at ho
      simp only at ho
      have := obtainRandomOutGroupLoop_length _ _ _ _ _ _ ho
      rw [List.length_nil] at this
      split_ifs at this <;> omega
    have hkept : (if (agents self).m_powerful = true then
        removeNonPowerful outGroup.1 agents N else outGroup.1).length ≤ outGroup.1.length := by
      split_ifs
      · unfold removeNonPowerful
        exact List.length_filter_le _ _
      · exact Nat.le_refl _
    simp only [List.length_append]
    omega

/-- Whatever the state, a completed step has a social group of at most `qIn + qOut` members,
keeps the core of every other agent, keeps the network, the identifier, the powerful flag, the
family size and the values of the stepping agent, moves its current state to the previous one,
stamps the new one with `time`, and applies at most `2 * |socialGroup| + 1` increments to each
counter of each agent, removing no ledger entry. -/
theorem stepRecord_frame {exp : ℚ → ℚ} {self : Nat} {params : Parameters}
    {agents : Nat → Agent} {N : Nat} {behaviors : List Nat} {time : Nat}
    {random : MersenneTwister} {r : StepRecord}
    (h : stepRecord exp self params agents N behaviors time random = Except.ok r) :
    r.socialGroup.length ≤ params.m_qIn + params.m_qOut ∧
      (∀ j, j ≠ self → SameCore (r.agents j) (agents j)) ∧
      ((r.agents self).m_network = (agents self).m_network ∧
        (r.agents self).m_uid = (agents self).m_uid ∧
        (r.agents self).m_powerful = (agents self).m_powerful ∧
        (r.agents self).m_familySize = (agents self).m_familySize ∧
        (r.agents self).m_values = (agents self).m_values ∧
        (r.agents self).m_state.2 = (agents self).m_state.1 ∧
        (r.agents self).m_state.1.m_time = time) ∧
      ∀ j, GrowsBy (2 * r.socialGroup.length + 1) (agents j) (r.agents j) := by
  unfold stepRecord at h
  cases hsoc : obtainRandomInfluentialGroup self params.m_qIn params.m_qOut agents N random with
  | error e =>
    rw [hsoc] at h
    cases h
  | ok social =>
    rw [hsoc] at h
    simp only at h
    have hlen := obtainRandomInfluentialGroup_length hsoc
    generalize (social.2.uniformInt 0 ((behaviors.length % UINT32 + UINT32 - 1) % UINT32)) =
      drawn at h
    generalize (time + UINT64 - 1) % UINT64 = timeBefore at h
    cases hcur : (agents self).getBehaviorAt drawn.1 timeBefore with
    | error e =>
      rw [hcur] at h
      cases h
    | ok cur =>
      rw [hcur] at h
      simp only at h
      cases hdec : decideOutcome exp self params agents N social.1
          (extractPowerful social.1 agents N) drawn.1 cur timeBefore drawn.2 with
      | error e =>
        rw [hdec] at h
        cases h
      | ok decided =>
        rw [hdec] at h
        simp only at h
        have hd := decideOutcome_frame hdec
        cases hcom : commitOutcome (decided.2.1 self) decided.1 behaviors drawn.1 cur time
            decided.2.2 with
        | error e =>
          rw [hcom] at h
          cases h
        | ok committed =>
          rw [hcom] at h
          simp only [Function.update_same] at h
          obtain ⟨c1, c2, c3, c4, c5, c6, c7, c8, c9⟩ := commitOutcome_frame hcom
          obtain ⟨d1, d2, d3, d4, d5, d6⟩ := (hd self).1
          have hcg : GrowsBy 0 (decided.2.1 self) committed.1 := GrowsBy_of_eq 0 c6 c7
          cases h
          simp only
          refine ⟨hlen, ?_, ?_, ?_⟩
          · intro j hjs
            rw [Function.update_noteq hjs]
            split_ifs
            · rw [Function.update_noteq hjs, Function.update_noteq hjs]
              exact (hd j).1
            · rw [Function.update_noteq hjs]
              exact (hd j).1
          · rw [Function.update_same]
            split_ifs
            · rw [Function.update_same]
              obtain ⟨u1, u2, u3, u4, u5, u6⟩ :=
                (updateCommunicationWith_grows social.1 committed.1.increasePrivilege).2
              rw [u1, u2, u3, u4, u5, u6]
              exact ⟨c1.trans d2, c2.trans d3, c3.trans d4, c4.trans d5, c5.trans d6,
                c8.trans (congrArg Prod.fst d1), c9⟩
            · rw [Function.update_same]
              obtain ⟨u1, u2, u3, u4, u5, u6⟩ :=
                (updateCommunicationWith_grows social.1 committed.1).2
              rw [u1, u2, u3, u4, u5, u6]
              exact ⟨c1.trans d2, c2.trans d3, c3.trans d4, c4.trans d5, c5.trans d6,
                c8.trans (congrArg Prod.fst d1), c9⟩
          · intro j
            by_cases hjs : j = self
            · subst hjs
              rw [Function.update_same]
              split_ifs
              · rw [Function.update_same]
                have := GrowsBy_trans (GrowsBy_trans (GrowsBy_trans (hd j).2 hcg)
                  (increasePrivilege_grows committed.1))
                  (updateCommunicationWith_grows social.1 committed.1.increasePrivilege).1
                exact GrowsBy_mono (by omega) this
              · rw [Function.update_same]
                have := GrowsBy_trans (GrowsBy_trans (hd j).2 hcg)
                  (updateCommunicationWith_grows social.1 committed.1).1
                exact GrowsBy_mono (by omega) this
            · rw [Function.update_noteq hjs]
              split_ifs
              · rw [Function.update_noteq hjs, Function.update_noteq hjs]
                exact GrowsBy_mono (by omega) (hd j).2
              · rw [Function.update_noteq hjs]
                exact GrowsBy_mono (by omega) (hd j).2

end Agent

end iris

/-! ## What a step may write: monotone counters and the frame -/

namespace iris

namespace Agent

/-- C22. For every state and every generator: when `Agent::step` of agent `self` completes
with the social group `G`, and no privilege and no ledger counter is within `2 * |G| + 1` of
its 32-bit maximum (no counter wraps around), then no privilege of any agent has decreased, no
ledger entry of any agent is removed, and no `communicated`, `censored` or `reinforced`
counter of any entry of any agent has decreased (an absent entry counting as zero). The group
has at most `qIn + qOut` members. -/
theorem step_counters_never_decrease (exp : ℚ → ℚ) (self : Nat) (params : Parameters)
    (agents : Nat → Agent) (N : Nat) (behaviors : List Nat) (time : Nat)
    (random : MersenneTwister) (r : StepRecord)
    (hr : stepRecord exp self params agents N behaviors time random = Except.ok r)
    (hno : ∀ j key, (agents j).m_privilege + (2 * r.socialGroup.length + 1) < UINT32 ∧
      ((agents j).interactionWith key).m_communicated + (2 * r.socialGroup.length + 1) <
        UINT32 ∧
      ((agents j).interactionWith key).m_censored + (2 * r.socialGroup.length + 1) < UINT32 ∧
      ((agents j).interactionWith key).m_reinforced + (2 * r.socialGroup.length + 1) <
        UINT32) :
    step exp self params agents N behaviors time random = Except.ok (r.agents, r.random) ∧
      r.socialGroup.length ≤ params.m_qIn + params.m_qOut ∧
      ∀ j, (agents j).m_privilege ≤ (r.agents j).m_privilege ∧
        ∀ key, ((agents j).m_interactions key ≠ none → (r.agents j).m_interactions key ≠ none) ∧
          ((agents j).interactionWith key).m_communicated ≤
            ((r.agents j).interactionWith key).m_communicated ∧
          ((agents j).interactionWith key).m_censored ≤
            ((r.agents j).interactionWith key).m_censored ∧
          ((agents j).interactionWith key).m_reinforced ≤
            ((r.agents j).interactionWith key).m_reinforced := by
  obtain ⟨hlen, _, _, hgrow⟩ := stepRecord_frame hr
  refine ⟨step_of_stepRecord hr, hlen, fun j => ?_⟩
  obtain ⟨hp, hl⟩ := hgrow j
  refine ⟨(Bumped_le hp (hno j 0).1).1, fun key => ?_⟩
  obtain ⟨h1, h2, h3, h4⟩ := hl key
  obtain ⟨_, n2, n3, n4⟩ := hno j key
  exact ⟨h1, (Bumped_le h2 n2).1, (Bumped_le h3 n3).1, (Bumped_le h4 n4).1⟩

/-- Witness for C22: the step of agent `0` of the two-agent fixture at time `1`, with one
out-group partner. -/
theorem step_counters_never_decrease_witness :
    ∃ r, stepRecord (fun x => 1 + x) 0 { m_qOut := 1 } twoAgents 2 [2] 1 (constantTape 1) =
        Except.ok r ∧
      (∀ j key, (twoAgents j).m_privilege + (2 * r.socialGroup.length + 1) < UINT32 ∧
        ((twoAgents j).interactionWith key).m_communicated + (2 * r.socialGroup.length + 1) <
          UINT32 ∧
        ((twoAgents j).interactionWith key).m_censored + (2 * r.socialGroup.length + 1) <
          UINT32 ∧
        ((twoAgents j).interactionWith key).m_reinforced + (2 * r.socialGroup.length + 1) <
          UINT32) ∧
      step (fun x => 1 + x) 0 { m_qOut := 1 } twoAgents 2 [2] 1 (constantTape 1) =
        Except.ok (r.agents, r.random) ∧
      r.socialGroup.length ≤ 0 + 1 ∧
      ∀ j, (twoAgents j).m_privilege ≤ (r.agents j).m_privilege ∧
        ∀ key, ((twoAgents j).m_interactions key ≠ none →
            (r.agents j).m_interactions key ≠ none) ∧
          ((twoAgents j).interactionWith key).m_communicated ≤
            ((r.agents j).interactionWith key).m_communicated ∧
          ((twoAgents j).interactionWith key).m_censored ≤
            ((r.agents j).interactionWith key).m_censored ∧
          ((twoAgents j).interactionWith key).m_reinforced ≤
            ((r.agents j).interactionWith key).m_reinforced := by
  obtain ⟨r, hr, _, _, hlen, _⟩ :=
    stepRecord_spec (fun x => 1 + x) { m_qOut := 1 } twoAgents [2] (constantTape 1)
      stepReady_twoAgents
  have hsmall : 0 + (2 * r.socialGroup.length + 1) < UINT32 := by
    have h4 : 0 + (2 * (0 + 1) + 1) < UINT32 := by decide
    have hl : r.socialGroup.length ≤ 0 + 1 := hlen
    omega
  have hno : ∀ j key, (twoAgents j).m_privilege + (2 * r.socialGroup.length + 1) < UINT32 ∧
      ((twoAgents j).interactionWith key).m_communicated + (2 * r.socialGroup.length + 1) <
        UINT32 ∧
      ((twoAgents j).interactionWith key).m_censored + (2 * r.socialGroup.length + 1) <
        UINT32 ∧
      ((twoAgents j).interactionWith key).m_reinforced + (2 * r.socialGroup.length + 1) <
        UINT32 := fun _ _ => ⟨hsmall, hsmall, hsmall, hsmall⟩
  exact ⟨r, hr, hno,
    step_counters_never_decrease (fun x => 1 + x) 0 { m_qOut := 1 } twoAgents 2 [2] 1
      (constantTape 1) r hr hno⟩

/-- C23. For every state and every generator: when `Agent::step` of agent `self` completes,
every other agent has both of its behaviour snapshots (tuples and time stamps), its values,
its network, its powerful flag, its family size and its identifier unchanged, and the agent
`self` has its network, its values, its powerful flag, its family size and its identifier
unchanged; the previous snapshot of `self` is its old current snapshot and its new current
snapshot carries `time`. -/
theorem step_frame (exp : ℚ → ℚ) (self : Nat) (params : Parameters) (agents : Nat → Agent)
    (N : Nat) (behaviors : List Nat) (time : Nat) (random : MersenneTwister) (r : StepRecord)
    (hr : stepRecord exp self params agents N behaviors time random = Except.ok r) :
    step exp self params agents N behaviors time random = Except.ok (r.agents, r.random) ∧
      (∀ j, j ≠ self →
        (r.agents j).m_state = (agents j).m_state ∧
        (r.agents j).m_values = (agents j).m_values ∧
        (r.agents j).m_network = (agents j).m_network ∧
        (r.agents j).m_powerful = (agents j).m_powerful ∧
        (r.agents j).m_familySize = (agents j).m_familySize ∧
        (r.agents j).m_uid = (agents j).m_uid) ∧
      (r.agents self).m_network = (agents self).m_network ∧
      (r.agents self).m_values = (agents self).m_values ∧
      (r.agents self).m_powerful = (agents self).m_powerful ∧
      (r.agents self).m_familySize = (agents self).m_familySize ∧
      (r.agents self).m_uid = (agents self).m_uid ∧
      (r.agents self).m_state.2 = (agents self).m_state.1 ∧
      (r.agents self).m_state.1.m_time = time := by
  obtain ⟨_, hother, ⟨s1, s2, s3, s4, s5, s6, s7⟩, _⟩ := stepRecord_frame hr
  refine ⟨step_of_stepRecord hr, fun j hj => ?_, s1, s5, s3, s4, s2, s6, s7⟩
  obtain ⟨o1, o2, o3, o4, o5, o6⟩ := hother j hj
  exact ⟨o1, o6, o2, o4, o5, o3⟩

/-- Witness for C23: the step of agent `0` of the two-agent fixture at time `1`, with one
out-group partner. -/
theorem step_frame_witness :
    ∃ r, stepRecord (fun x => 1 + x) 0 { m_qOut := 1 } twoAgents 2 [2] 1 (constantTape 1) =
        Except.ok r ∧
      step (fun x => 1 + x) 0 { m_qOut := 1 } twoAgents 2 [2] 1 (constantTape 1) =
        Except.ok (r.agents, r.random) ∧
      (∀ j, j ≠ 0 →
        (r.agents j).m_state = (twoAgents j).m_state ∧
        (r.agents j).m_values = (twoAgents j).m_values ∧
        (r.agents j).m_network = (twoAgents j).m_network ∧
        (r.agents j).m_powerful = (twoAgents j).m_powerful ∧
        (r.agents j).m_familySize = (twoAgents j).m_familySize ∧
        (r.agents j).m_uid = (twoAgents j).m_uid) ∧
      (r.agents 0).m_network = (twoAgents 0).m_network ∧
      (r.agents 0).m_values = (twoAgents 0).m_values ∧
      (r.agents 0).m_powerful = (twoAgents 0).m_powerful ∧
      (r.agents 0).m_familySize = (twoAgents 0).m_familySize ∧
      (r.agents 0).m_uid = (twoAgents 0).m_uid ∧
      (r.agents 0).m_state.2 = (twoAgents 0).m_state.1 ∧
      (r.agents 0).m_state.1.m_time = 1 := by
  obtain ⟨r, hr, _⟩ :=
    stepRecord_spec (fun x => 1 + x) { m_qOut := 1 } twoAgents [2] (constantTape 1)
      stepReady_twoAgents
  exact ⟨r, hr,
    step_frame (fun x => 1 + x) 0 { m_qOut := 1 } twoAgents 2 [2] 1 (constantTape 1) r hr⟩

end Agent

end iris

/-! ## Runs without powerful agents -/

namespace iris

/-- Distinct numbers below `N`: there are at most `N` of them. -/
theorem length_le_of_nodup_of_lt {G : List Nat} {N : Nat} (hnd : G.Nodup)
    (h : ∀ x ∈ G, x < N) : G.length ≤ N := by
  have hsub : G ⊆ List.range N := fun x hx => List.mem_range.mpr (h x hx)
  have := (List.subperm_of_subset hnd hsub).length_le
  rw [List.length_range] at this
  exact this

namespace Agent

/-- Among agents none of which is powerful, the power group of any network of at most `N`
entries is empty. -/
theorem extractPowerful_eq_nil {network : List Nat} {agents : Nat → Agent} {N : Nat}
    (hlen : network.length ≤ N) (h : ∀ j, j < N → (agents j).m_powerful = false) :
    extractPowerful network agents N = [] := by
  apply List.eq_nil_iff_forall_not_mem.mpr
  intro i hi
  obtain ⟨h1, h2⟩ := mem_extractPowerful hi
  rw [h i (by omega)] at h2
  cases h2

/-- A step among agents none of which is powerful: it succeeds, its power group is empty, and
it changes neither the privilege nor the powerful flag of any agent. -/
theorem stepRecord_without_power (exp : ℚ → ℚ) {N D T self : Nat} (params : Parameters)
    (agents : Nat → Agent) (behaviors : List Nat) (random : MersenneTwister)
    (h : StepReady N D T self agents behaviors)
    (hpow : ∀ j, j < N → (agents j).m_powerful = false) :
    ∃ r, stepRecord exp self params agents N behaviors T random = Except.ok r ∧
      r.powerGroup = [] ∧
      ∀ j, (r.agents j).m_privilege = (agents j).m_privilege ∧
        (r.agents j).m_powerful = (agents j).m_powerful := by
  obtain ⟨r, hr, ⟨hnd, hmem, -, hpg, -, -⟩, hout, hcore, hin, -, hselfcore, hselfpriv, -, -, -⟩ :=
    stepRecord_effect exp params agents behaviors random h
  have hself : self < N := h.2.1
  have hPG : r.powerGroup = [] := by
    rw [hpg]
    exact extractPowerful_eq_nil
      (length_le_of_nodup_of_lt hnd (fun x hx => (hmem x hx).1)) hpow
  refine ⟨r, hr, hPG, fun j => ?_⟩
  by_cases hjs : j = self
  · subst hjs
    refine ⟨?_, hselfcore.2.2.1⟩
    rw [hselfpriv, if_neg]
    rintro ⟨-, hp | hp⟩
    · rw [hpow j hself] at hp
      cases hp
    · exact hp hPG
  · refine ⟨?_, (hcore j hjs).2.2.2.1⟩
    by_cases hjG : j ∈ r.socialGroup
    · obtain ⟨v, -, -, hsame, -⟩ := hin j hjG
      apply hsame
      rintro ⟨hp | ⟨pg, hpg1, -⟩, -⟩
      · rw [hpow self hself] at hp
        cases hp
      · rw [hPG] at hpg1
        cases hpg1
    · rw [hout j hjs hjG]

end Agent

namespace Model

/-- C21. In a run in which no agent is powerful and every agent starts with privilege `0`,
started as the driver expects it (agents initialised at time `0`, identifiers, networks and
sizes as in C19), for every population size, every `qIn` and `qOut` and every generator: the
run up to any slot `T` succeeds and leaves every agent with privilege `0` and not powerful;
and every single step of an agent from a state in which no agent is powerful and every
privilege is `0` succeeds and leads to such a state again. -/
theorem runSimulation_privilege_stays_zero (exp : ℚ → ℚ) (model : Model)
    (hN : model.m_params.m_n < UINT32) (hsteps : model.m_params.m_steps < UINT64)
    (hne : model.m_behaviors ≠ []) (hDU : model.m_behaviors.length < UINT32)
    (hB : ∀ x ∈ model.m_behaviors, x < UINT32)
    (hperm : model.m_indices.Perm (List.range model.m_params.m_n))
    (hagents : ∀ j, j < model.m_params.m_n → (model.m_agents j).m_uid = j ∧
      NetworkOk model.m_params.m_n j (model.m_agents j).m_network ∧
      ∃ b : List Nat, b.length = model.m_behaviors.length ∧
        (model.m_agents j).m_state =
          ({ m_behavior := b, m_time := 0 }, { m_behavior := b, m_time := 0 }))
    (hzero : ∀ j, j < model.m_params.m_n →
      (model.m_agents j).m_privilege = 0 ∧ (model.m_agents j).m_powerful = false) :
    (∀ T, T ≤ model.m_params.m_steps →
      ∃ mid, runSimulation exp
          { model with m_params := { model.m_params with m_steps := T } } = Except.ok mid ∧
        mid.m_time = T ∧
        ∀ j, j < model.m_params.m_n →
          (mid.m_agents j).getPrivilege = 0 ∧ (mid.m_agents j).isPowerful = false) ∧
    ∀ (T self : Nat) (agents : Nat → Agent) (random : MersenneTwister),
      StepReady model.m_params.m_n model.m_behaviors.length T self agents model.m_behaviors →
      (∀ j, j < model.m_params.m_n →
        (agents j).m_privilege = 0 ∧ (agents j).m_powerful = false) →
      ∃ after, Agent.step exp self model.m_params agents model.m_params.m_n
          model.m_behaviors T random = Except.ok after ∧
        ∀ j, j < model.m_params.m_n →
          (after.1 j).getPrivilege = 0 ∧ (after.1 j).isPowerful = false := by
  constructor
  · intro T hT
    obtain ⟨mid, hrun, htime, hq, -⟩ :=
      runSimulation_from_start exp
        { model with m_params := { model.m_params with m_steps := T } }
        (fun agents => ∀ j, j < model.m_params.m_n →
          (agents j).m_privilege = 0 ∧ (agents j).m_powerful = false)
        (by
          intro T1 agents ind random hready _ hq r hr j hj
          obtain ⟨r1, hr1, -, hsame⟩ :=
            Agent.stepRecord_without_power exp
              { model.m_params with m_steps := T } agents model.m_behaviors random hready
              (fun i hi => (hq i hi).2)
          rw [hr] at hr1
          injection hr1 with hr1
          subst hr1
          rw [(hsame j).1, (hsame j).2]
          exact hq j hj)
        hN (show T < UINT64 by omega) hne hDU hB hperm hagents hzero
    exact ⟨mid, hrun, htime, hq⟩
  · intro T self agents random hready hq
    obtain ⟨r, hr, -, hsame⟩ :=
      Agent.stepRecord_without_power exp model.m_params agents model.m_behaviors random hready
        (fun i hi => (hq i hi).2)
    refine ⟨(r.agents, r.random), Agent.step_of_stepRecord hr, fun j hj => ?_⟩
    show (r.agents j).m_privilege = 0 ∧ (r.agents j).m_powerful = false
    rw [(hsame j).1, (hsame j).2]
    exact hq j hj

/-- Witness for C21: the two-agent fixture with `qIn = 1`, `qOut = 1` and three slots. -/
theorem runSimulation_privilege_stays_zero_witness :
    (2 : Nat) < UINT32 ∧ (3 : Nat) < UINT64 ∧ ([2] : List Nat) ≠ [] ∧
    ([2] : List Nat).length < UINT32 ∧ (∀ x ∈ ([2] : List Nat), x < UINT32) ∧
    ([0, 1] : List Nat).Perm (List.range 2) ∧
    (∀ j, j < 2 → (twoAgents j).m_privilege = 0 ∧ (twoAgents j).m_powerful = false) ∧
    (∀ T, T ≤ 3 →
      ∃ mid, runSimulation (fun x => 1 + x)
          { m_agents := twoAgents, m_behaviors := [2], m_indices := [0, 1],
            m_params := { m_n := 2, m_steps := T, m_qIn := 1, m_qOut := 1 },
            m_random := constantTape 1 } = Except.ok mid ∧
        mid.m_time = T ∧
        ∀ j, j < 2 → (mid.m_agents j).getPrivilege = 0 ∧ (mid.m_agents j).isPowerful = false) ∧
    ∀ (T self : Nat) (agents : Nat → Agent) (random : MersenneTwister),
      StepReady 2 1 T self agents [2] →
      (∀ j, j < 2 → (agents j).m_privilege = 0 ∧ (agents j).m_powerful = false) →
      ∃ after, Agent.step (fun x => 1 + x) self
          { m_n := 2, m_steps := 3, m_qIn := 1, m_qOut := 1 } agents 2 [2] T random =
            Except.ok after ∧
        ∀ j, j < 2 → (after.1 j).getPrivilege = 0 ∧ (after.1 j).isPowerful = false :=
  ⟨by decide, by decide, by decide, by decide, by decide, by decide, fun _ _ => ⟨rfl, rfl⟩,
    runSimulation_privilege_stays_zero (fun x => 1 + x)
      { m_agents := twoAgents, m_behaviors := [2], m_indices := [0, 1],
        m_params := { m_n := 2, m_steps := 3, m_qIn := 1, m_qOut := 1 },
        m_random := constantTape 1 }
      (by decide) (by decide) (by decide) (by decide) (by decide) (by decide) twoAgents_start
      (fun _ _ => ⟨rfl, rfl⟩)⟩

end Model

end iris

/-! ## `generatePowerfulAgents` -/

namespace iris

namespace gen

/-- The number of powerful agents when the powerful agents below `N` are the members of a
list of distinct positions below `N`. -/
theorem getPowerfulAgentCount_eq_length {N : Nat} {added : List Nat} (hnd : added.Nodup)
    (hlt : ∀ x ∈ added, x < N) (agents : Nat → Agent)
    (h : ∀ j, j < N → ((agents j).isPowerful = true ↔ j ∈ added)) :
    getPowerfulAgentCount agents N = added.length := by
  unfold getPowerfulAgentCount
  apply List.Perm.length_eq
  apply (List.perm_ext_iff_of_nodup ((List.nodup_range N).filter _) hnd).mpr
  intro a
  rw [List.mem_filter, List.mem_range]
  constructor
  · rintro ⟨h1, h2⟩
    exact (h a h1).mp h2
  · intro ha
    exact ⟨hlt a ha, (h a (hlt a ha)).mpr ha⟩

/-- The loop of `generatePowerfulAgents` when the rounds do not outnumber the agents that are
not selected yet: every round succeeds and marks a new agent below `N`; no other agent is
written. -/
theorem generatePowerfulAgentsLoop_spec {N : Nat} (hN1 : 1 ≤ N) (hN : N < UINT32) :
    ∀ (n : Nat) (agents : Nat → Agent) (selected : List Nat) (random : MersenneTwister),
      selected.Pairwise (· < ·) → (∀ x ∈ selected, x < N) → selected.length + n ≤ N →
      ∃ (added : List Nat) (agents1 : Nat → Agent) (random1 : MersenneTwister),
        generatePowerfulAgentsLoop N n agents selected random = Except.ok (agents1, random1) ∧
        added.length = n ∧ added.Nodup ∧ (∀ x ∈ added, x < N ∧ x ∉ selected) ∧
        (∀ j ∈ added, agents1 j = (agents j).setPowerful true) ∧
        ∀ j, j ∉ added → agents1 j = agents j := by
  intro n
  induction n with
  | zero =>
    intro agents selected random _ _ _
    refine ⟨[], agents, random, rfl, rfl, List.nodup_nil, ?_, ?_, fun _ _ => rfl⟩
    · intro x hx
      cases hx
    · intro x hx
      cases hx
  | succ n ih =>
    intro agents selected random hs hE hlen
    have hbound : (N + UINT32 - 1) % UINT32 = N - 1 := by
      rw [show N + UINT32 - 1 = (N - 1) + UINT32 by omega, Nat.add_mod_right]
      exact Nat.mod_eq_of_lt (by omega)
    have hdraw := MersenneTwister.uniformInt_le 0 (N - 1) random (Nat.zero_le _)
    have hcases := @util.ensureRandom_cases selected (random.uniformInt 0 (N - 1)).1 0 N
      (hs.imp (fun h => Nat.le_of_lt h)) (fun x hx => ⟨Nat.zero_le x, hE x hx⟩)
      ⟨Nat.zero_le _, by omega⟩ hN (by omega)
    unfold generatePowerfulAgentsLoop
    simp only [hbound]
    rcases hcases with ⟨v, hv, hvE, -, hvN⟩ | ⟨-, hall⟩
    · rw [hv]
      simp only
      rw [if_pos hvN]
      obtain ⟨added, agents1, random1, hrun, hl, hnd, hmem, hin, hout⟩ :=
        ih (Function.update agents v ((agents v).setPowerful true))
          (util.sortedInsert selected v) (random.uniformInt 0 (N - 1)).2
          (util.pairwise_sortedInsert hs hvE)
          (fun x hx => by
            rcases util.mem_sortedInsert.mp hx with rfl | hx
            · exact hvN
            · exact hE x hx)
          (by rw [util.length_sortedInsert]; omega)
      have hvadded : v ∉ added := fun hin1 =>
        (hmem v hin1).2 (util.mem_sortedInsert.mpr (Or.inl rfl))
      refine ⟨v :: added, agents1, random1, hrun, ?_, ?_, ?_, ?_, ?_⟩
      · rw [List.length_cons, hl]
      · exact List.nodup_cons.mpr ⟨hvadded, hnd⟩
      · intro x hx
        rcases List.mem_cons.mp hx with rfl | hx
        · exact ⟨hvN, hvE⟩
        · exact ⟨(hmem x hx).1, fun h => (hmem x hx).2 (util.mem_sortedInsert.mpr (Or.inr h))⟩
      · intro j hj
        rcases List.mem_cons.mp hj with rfl | hj
        · rw [hout j hvadded, Function.update_same]
        · have hjv : j ≠ v := fun hjv => hvadded (hjv ▸ hj)
          rw [hin j hj, Function.update_noteq hjv]
      · intro j hj
        have hjv : j ≠ v := fun hjv => hj (by rw [hjv]; exact List.mem_cons_self _ _)
        rw [hout j (fun hja => hj (List.mem_cons_of_mem _ hja)), Function.update_noteq hjv]
    · exfalso
      have := util.le_length_of_covering (E := selected) (N := N)
        (fun x hx => hall x (Nat.zero_le x) hx)
      omega

/-- `generatePowerfulAgents` on at least one agent, with a share between `0` and `1`, for a
rounding `fl` whose floors exceed the value by a factor of at most `1 + 2^-53`: it succeeds
and marks as many distinct agents below `N` as the code computes, writing nothing else. -/
theorem generatePowerfulAgents_spec (fl : ℚ → ℚ)
    (hfl1 : ∀ x, 0 ≤ x → ((⌊fl x⌋ : ℤ) : ℚ) ≤ x * (1 + 1 / 2 ^ 53))
    (agents : Nat → Agent) {N : Nat} {powerPercent : ℚ}
    (requireAtLeastOne : Bool) (random : MersenneTwister) (hN1 : 1 ≤ N) (hN : N < UINT32)
    (hp0 : 0 ≤ powerPercent) (hp1 : powerPercent ≤ 1) :
    ∃ (added : List Nat) (agents1 : Nat → Agent) (random1 : MersenneTwister),
      generatePowerfulAgents fl agents N powerPercent requireAtLeastOne random =
        Except.ok (agents1, random1) ∧
      added.length =
        (if powerPercent = 0 then 0
          else if Int.toNat ⌊fl ((N : ℚ) * powerPercent)⌋ = 0 ∧ requireAtLeastOne = true then 1
          else Int.toNat ⌊fl ((N : ℚ) * powerPercent)⌋) ∧
      added.Nodup ∧ (∀ x ∈ added, x < N) ∧
      (∀ j ∈ added, agents1 j = (agents j).setPowerful true) ∧
      (∀ j, j ∉ added → agents1 j = agents j) ∧
      (powerPercent = 0 → agents1 = agents ∧ random1 = random) := by
  unfold generatePowerfulAgents
  by_cases hp : powerPercent = 0
  · rw [if_pos hp, if_pos hp]
    refine ⟨[], agents, random, rfl, rfl, List.nodup_nil, ?_, ?_, fun _ _ => rfl,
      fun _ => ⟨rfl, rfl⟩⟩
    · intro x hx
      cases hx
    · intro x hx
      cases hx
  · rw [if_neg hp, if_neg hp]
    have hfloor : Int.toNat ⌊fl ((N : ℚ) * powerPercent)⌋ ≤ N := by
      have hNq : (0 : ℚ) ≤ (N : ℚ) := Nat.cast_nonneg N
      have h1 : (N : ℚ) * powerPercent ≤ (N : ℚ) := by nlinarith
      have h0 : (0 : ℚ) ≤ (N : ℚ) * powerPercent := mul_nonneg hNq hp0
      have hNlt : (N : ℚ) < 4294967296 := by
        have : (N : ℚ) < ((UINT32 : Nat) : ℚ) := by exact_mod_cast hN
        simpa [UINT32] using this
      have h2 : ((⌊fl ((N : ℚ) * powerPercent)⌋ : ℤ) : ℚ) < ((N + 1 : Nat) : ℚ) := by
        have h3 := hfl1 _ h0
        have h4 : (N : ℚ) * powerPercent * (1 + 1 / 2 ^ 53) ≤ (N : ℚ) * (1 + 1 / 2 ^ 53) :=
          mul_le_mul_of_nonneg_right h1 (by norm_num)
        have h5 : (N : ℚ) * (1 / 2 ^ 53) < 4294967296 * (1 / 2 ^ 53) :=
          mul_lt_mul_of_pos_right hNlt (by norm_num)
        have h6 : (4294967296 : ℚ) * (1 / 2 ^ 53) < 1 := by norm_num
        rw [Nat.cast_add, Nat.cast_one]
        linarith
      have h7 : ⌊fl ((N : ℚ) * powerPercent)⌋ < ((N + 1 : Nat) : ℤ) := by exact_mod_cast h2
      omega
    have hmod : Int.toNat ⌊fl ((N : ℚ) * powerPercent)⌋ % UINT32 =
        Int.toNat ⌊fl ((N : ℚ) * powerPercent)⌋ := Nat.mod_eq_of_lt (by omega)
    simp only [hmod]
    have hnum : (if Int.toNat ⌊fl ((N : ℚ) * powerPercent)⌋ = 0 ∧ requireAtLeastOne = true then 1
        else Int.toNat ⌊fl ((N : ℚ) * powerPercent)⌋) ≤ N := by
      split_ifs
      · exact hN1
      · exact hfloor
    obtain ⟨added, agents1, random1, hrun, hl, hnd, hmem, hin, hout⟩ :=
      generatePowerfulAgentsLoop_spec hN1 hN
        (if Int.toNat ⌊fl ((N : ℚ) * powerPercent)⌋ = 0 ∧ requireAtLeastOne = true then 1
          else Int.toNat ⌊fl ((N : ℚ) * powerPercent)⌋) agents [] random List.Pairwise.nil
        (fun x hx => by cases hx) (by rw [List.length_nil, Nat.zero_add]; exact hnum)
    exact ⟨added, agents1, random1, hrun, hl, hnd, fun x hx => (hmem x hx).1, hin, hout,
      fun h => absurd h hp⟩

/-- C28, as stated, fails for an empty population: with `N = 0`, `powerPercent = 1/2` and
`requireAtLeastOne` set, the floor is `0`, one agent is to be marked, and the position that
`ensureRandom` returns (the candidate itself, as the exclusion list is empty) lies past the end
of the array of `0` agents; no agent can be counted as powerful. The product `0 * 0.5` is
exact, so that the run is the same with the product rounded to `double` and in exact
arithmetic. -/
theorem generatePowerfulAgents_fails_on_empty_population :
    generatePowerfulAgents roundToDouble (fun _ => {}) 0 (1 / 2) true (constantTape 0) =
      Except.error Error.outOfBounds ∧
    generatePowerfulAgents id (fun _ => {}) 0 (1 / 2) true (constantTape 0) =
      Except.error Error.outOfBounds ∧
    (0 : ℚ) ≤ 1 / 2 ∧ (1 / 2 : ℚ) ≤ 1 ∧ ⌊((0 : Nat) : ℚ) * (1 / 2)⌋ = 0 ∧
    getPowerfulAgentCount (fun _ => {}) 0 = 0 := by
  have hloop : ∀ (agents : Nat → Agent) (random : MersenneTwister),
      generatePowerfulAgentsLoop 0 1 agents [] random = Except.error Error.outOfBounds := by
    intro agents random
    unfold generatePowerfulAgentsLoop
    simp only
    rw [util.ensureRandom_of_not_mem 0 0 (List.not_mem_nil _)]
    rfl
  have hgen : ∀ fl : ℚ → ℚ, fl 0 = 0 →
      generatePowerfulAgents fl (fun _ => {}) 0 (1 / 2) true (constantTape 0) =
        Except.error Error.outOfBounds := by
    intro fl hfl0
    unfold generatePowerfulAgents
    rw [if_neg (by norm_num)]
    have hprod : ((0 : Nat) : ℚ) * (1 / 2) = 0 := by norm_num
    simp only [hprod, hfl0, Int.floor_zero, Int.toNat_zero, Nat.zero_mod, and_self, if_true]
    exact hloop _ _
  exact ⟨hgen roundToDouble roundToDouble_zero, hgen id rfl, by norm_num, by norm_num, by norm_num, rfl⟩

/-- The number of agents that `generatePowerfulAgents` marks, for every rounding `fl` that maps
`0` to `0`, has non-negative results and floors at most a factor of `1 + 2^-53` above the
value: the floor of the rounded product `N * powerPercent`, or `1` where forced. -/
theorem generatePowerfulAgents_count_of_rounding (fl : ℚ → ℚ)
    (hfl1 : ∀ x, 0 ≤ x → ((⌊fl x⌋ : ℤ) : ℚ) ≤ x * (1 + 1 / 2 ^ 53))
    (hfl2 : ∀ x, 0 ≤ x → 0 ≤ fl x) (hfl0 : fl 0 = 0)
    (agents : Nat → Agent) (N : Nat) (powerPercent : ℚ)
    (requireAtLeastOne : Bool) (random : MersenneTwister) (hN1 : 1 ≤ N) (hN : N < UINT32)
    (hp0 : 0 ≤ powerPercent) (hp1 : powerPercent ≤ 1)
    (hnone : ∀ j, j < N → (agents j).isPowerful = false) :
    ∃ res, generatePowerfulAgents fl agents N powerPercent requireAtLeastOne random =
        Except.ok res ∧
      ((getPowerfulAgentCount res.1 N : ℤ) =
        if ⌊fl ((N : ℚ) * powerPercent)⌋ = 0 ∧ 0 < powerPercent ∧ requireAtLeastOne = true then 1
        else ⌊fl ((N : ℚ) * powerPercent)⌋) ∧
      (powerPercent = 0 → res = (agents, random)) ∧
      ∀ j, res.1 j = agents j ∨ res.1 j = (agents j).setPowerful true := by
  obtain ⟨added, agents1, random1, hrun, hl, hnd, hmem, hin, hout, hzero⟩ :=
    generatePowerfulAgents_spec fl hfl1 agents requireAtLeastOne random hN1 hN hp0 hp1
  have hcount : getPowerfulAgentCount agents1 N = added.length := by
    apply getPowerfulAgentCount_eq_length hnd hmem
    intro j hj
    by_cases hja : j ∈ added
    · rw [hin j hja]
      exact ⟨fun _ => hja, fun _ => rfl⟩
    · rw [hout j hja, hnone j hj]
      exact ⟨fun h => absurd h (by decide), fun h => absurd h hja⟩
  have hf0 : 0 ≤ ⌊fl ((N : ℚ) * powerPercent)⌋ :=
    Int.floor_nonneg.mpr (hfl2 _ (mul_nonneg (Nat.cast_nonneg N) hp0))
  have hcast : (Int.toNat ⌊fl ((N : ℚ) * powerPercent)⌋ : ℤ) = ⌊fl ((N : ℚ) * powerPercent)⌋ :=
    Int.toNat_of_nonneg hf0
  have hiff : Int.toNat ⌊fl ((N : ℚ) * powerPercent)⌋ = 0 ↔ ⌊fl ((N : ℚ) * powerPercent)⌋ = 0 := by
    omega
  refine ⟨(agents1, random1), hrun, ?_, ?_, ?_⟩
  · show (getPowerfulAgentCount agents1 N : ℤ) = _
    rw [hcount, hl]
    by_cases hp : powerPercent = 0
    · rw [if_pos hp, hp, mul_zero, hfl0, Int.floor_zero]
      simp only [lt_self_iff_false, false_and, and_false, if_false, Nat.cast_zero]
    · have hpos : 0 < powerPercent := lt_of_le_of_ne hp0 (Ne.symm hp)
      rw [if_neg hp]
      by_cases hc : Int.toNat ⌊fl ((N : ℚ) * powerPercent)⌋ = 0 ∧ requireAtLeastOne = true
      · rw [if_pos hc, if_pos ⟨hiff.mp hc.1, hpos, hc.2⟩]
        rfl
      · rw [if_neg hc, if_neg (fun h => hc ⟨hiff.mpr h.1, h.2.2⟩)]
        exact hcast
  · intro hp
    obtain ⟨h1, h2⟩ := hzero hp
    rw [h1, h2]
  · intro j
    by_cases hja : j ∈ added
    · exact Or.inr (hin j hja)
    · exact Or.inl (hout j hja)

/-- C28 (amended). For `N ≥ 1` agents (`N` a 32-bit number) none of which is powerful, a
share `0 ≤ powerPercent ≤ 1` and every generator, with the floor of `N * powerPercent` taken
exactly: `generatePowerfulAgents` succeeds, and afterwards the number of powerful agents is
exactly `floor(N * powerPercent)`, except that it is exactly `1` when that floor is `0`,
`powerPercent > 0` and `requireAtLeastOne` is set; with `powerPercent = 0` neither the agents
nor the generator change; in every case an agent is either left as it was or has its
powerful flag set and nothing else changed. This is the second part of the statement (`fl`
is the identity); the first part is the same with the product rounded to `double` as in the
program, where the number is the floor of the rounded product. -/
theorem generatePowerfulAgents_count (agents : Nat → Agent) (N : Nat) (powerPercent : ℚ)
    (requireAtLeastOne : Bool) (random : MersenneTwister) (hN1 : 1 ≤ N) (hN : N < UINT32)
    (hp0 : 0 ≤ powerPercent) (hp1 : powerPercent ≤ 1)
    (hnone : ∀ j, j < N → (agents j).isPowerful = false) :
    (∃ res, generatePowerfulAgents roundToDouble agents N powerPercent requireAtLeastOne
        random = Except.ok res ∧
      ((getPowerfulAgentCount res.1 N : ℤ) =
        if ⌊roundToDouble ((N : ℚ) * powerPercent)⌋ = 0 ∧ 0 < powerPercent ∧
            requireAtLeastOne = true then 1
        else ⌊roundToDouble ((N : ℚ) * powerPercent)⌋) ∧
      (powerPercent = 0 → res = (agents, random)) ∧
      ∀ j, res.1 j = agents j ∨ res.1 j = (agents j).setPowerful true) ∧
    (∃ res, generatePowerfulAgents id agents N powerPercent requireAtLeastOne random =
        Except.ok res ∧
      ((getPowerfulAgentCount res.1 N : ℤ) =
        if ⌊(N : ℚ) * powerPercent⌋ = 0 ∧ 0 < powerPercent ∧ requireAtLeastOne = true then 1
        else ⌊(N : ℚ) * powerPercent⌋) ∧
      (powerPercent = 0 → res = (agents, random)) ∧
      ∀ j, res.1 j = agents j ∨ res.1 j = (agents j).setPowerful true) :=
  ⟨generatePowerfulAgents_count_of_rounding roundToDouble roundToDouble_floor_le
      roundToDouble_nonneg roundToDouble_zero agents N powerPercent
      requireAtLeastOne random hN1 hN hp0 hp1 hnone,
    generatePowerfulAgents_count_of_rounding id
      (fun x hx => le_trans (Int.floor_le x) (le_mul_of_one_le_right hx (by norm_num)))
      (fun _ hx => hx) rfl agents N powerPercent requireAtLeastOne random hN1 hN hp0 hp1
      hnone⟩

/-- Witness for C28 (amended): the case `N = 20`, `powerPercent = 0.16` (as a `double`) of
the test "Verify that powerful agents are created correctly", which expects three powerful
agents: the product `20 * 0.16` rounds to the `double` `3.2`, and its floor is `3` like the
exact floor. -/
theorem generatePowerfulAgents_count_witness :
    1 ≤ 20 ∧ 20 < UINT32 ∧ (0 : ℚ) ≤ 5764607523034235 / 36028797018963968 ∧
    (5764607523034235 / 36028797018963968 : ℚ) ≤ 1 ∧
    (∀ j, j < 20 → Agent.isPowerful ((fun _ => {}) j) = false) ∧
    ⌊roundToDouble (((20 : Nat) : ℚ) * (5764607523034235 / 36028797018963968))⌋ = 3 ∧
    ⌊((20 : Nat) : ℚ) * (5764607523034235 / 36028797018963968)⌋ = 3 ∧
    (∃ res, generatePowerfulAgents roundToDouble (fun _ => {}) 20
        (5764607523034235 / 36028797018963968) false (constantTape 7) = Except.ok res ∧
      ((getPowerfulAgentCount res.1 20 : ℤ) =
        if ⌊roundToDouble (((20 : Nat) : ℚ) * (5764607523034235 / 36028797018963968))⌋ = 0 ∧
            (0 : ℚ) < 5764607523034235 / 36028797018963968 ∧ false = true then 1
        else ⌊roundToDouble (((20 : Nat) : ℚ) * (5764607523034235 / 36028797018963968))⌋) ∧
      ((5764607523034235 / 36028797018963968 : ℚ) = 0 →
        res = ((fun _ => {}), constantTape 7)) ∧
      ∀ j, res.1 j = (fun _ => {}) j ∨
        res.1 j = Agent.setPowerful ((fun _ => {}) j) true) ∧
    (∃ res, generatePowerfulAgents id (fun _ => {}) 20
        (5764607523034235 / 36028797018963968) false (constantTape 7) = Except.ok res ∧
      ((getPowerfulAgentCount res.1 20 : ℤ) =
        if ⌊((20 : Nat) : ℚ) * (5764607523034235 / 36028797018963968)⌋ = 0 ∧
            (0 : ℚ) < 5764607523034235 / 36028797018963968 ∧ false = true then 1
        else ⌊((20 : Nat) : ℚ) * (5764607523034235 / 36028797018963968)⌋) ∧
      ((5764607523034235 / 36028797018963968 : ℚ) = 0 →
        res = ((fun _ => {}), constantTape 7)) ∧
      ∀ j, res.1 j = (fun _ => {}) j ∨
        res.1 j = Agent.setPowerful ((fun _ => {}) j) true) :=
  ⟨by decide, by decide, by norm_num, by norm_num, fun _ _ => rfl,
    by with_unfolding_all decide, by rw [Int.floor_eq_iff]; norm_num,
    generatePowerfulAgents_count (fun _ => {}) 20
      (5764607523034235 / 36028797018963968) false (constantTape 7) (by decide)
      (by decide) (by norm_num) (by norm_num) (fun _ _ => rfl)⟩

end gen

end iris

/-! ## The uniform dispensers of `createPopulationDispensers` -/

namespace iris

namespace gen

namespace PopulationDispenser

/-- With `requireAtLeastOne` set every category is retained: the groups are the positions of
the percentages. -/
theorem initializeLoop_groups_all (fl : ℚ → ℚ) (total : Nat) :
    ∀ (ps : List ℚ) (i : Nat) (d : PopulationDispenser),
      (initializeLoop fl total true ps i d).m_groups =
        d.m_groups ++ (List.range' i ps.length).map (· % UINT32) := by
  intro ps
  induction ps with
  | nil =>
    intro i d
    unfold initializeLoop
    simp only [List.length_nil, List.range'_zero, List.map_nil, List.append_nil]
  | cons p ps ih =>
    intro i d
    unfold initializeLoop
    simp only [List.length_cons, List.range'_succ, List.map_cons]
    split_ifs
    · rw [ih]
      simp only [List.append_assoc, List.singleton_append]
    · rw [ih]
      simp only [List.append_assoc, List.singleton_append]

/-- The quota of a category when the groups are consecutive positions. -/
theorem quotaOf_range' : ∀ (n s : Nat) (pops : List Nat) (k : Nat), pops.length = n →
    s + n ≤ UINT32 →
    quotaOf ((List.range' s n).map (· % UINT32)) pops k =
      if s ≤ k ∧ k < s + n then pops.getD (k - s) 0 else 0 := by
  intro n
  induction n with
  | zero =>
    intro s pops k _ _
    rw [List.range'_zero, List.map_nil, quotaOf_nil_left, if_neg (by omega)]
  | succ n ih =>
    intro s pops k hlen hs
    cases pops with
    | nil => cases hlen
    | cons p ps =>
      rw [List.range'_succ, List.map_cons]
      unfold quotaOf
      rw [ih (s + 1) ps k (by simpa using hlen) (by omega), Nat.mod_eq_of_lt (by omega)]
      by_cases h1 : s = k
      · subst h1
        rw [if_pos rfl, if_neg (by omega), if_pos (by omega), Nat.sub_self]
        rfl
      · rw [if_neg h1, Nat.zero_add]
        by_cases h2 : s + 1 ≤ k ∧ k < s + 1 + n
        · rw [if_pos h2, if_pos (by omega), show k - s = (k - (s + 1)) + 1 by omega]
          rfl
        · rw [if_neg h2, if_neg (by omega)]

/-- The floor of the rounded share `N * (1 / c)`, taken `c` times, does not exceed `N`, for
every rounding whose results are non-negative, exceed a value of the normal range by a factor
of at most `1 + 2^-53` and whose floors exceed the value by at most that factor. -/
theorem uniform_share_le (fl : ℚ → ℚ)
    (hfl1 : ∀ x, 0 ≤ x → ((⌊fl x⌋ : ℤ) : ℚ) ≤ x * (1 + 1 / 2 ^ 53))
    (hfl2 : ∀ x, 0 ≤ x → 0 ≤ fl x)
    (hfl3 : ∀ x, 1 / 2 ^ 1022 ≤ x → fl x ≤ x * (1 + 1 / 2 ^ 53))
    {N c : Nat} (hc1 : 1 ≤ c) (hcN : c ≤ N) (hN : N < UINT32) :
    c * (Int.toNat ⌊fl ((N : ℚ) * fl (1 / (c : ℚ)))⌋ % UINT32) ≤ N := by
  have hcq : (0 : ℚ) < (c : ℚ) := by exact_mod_cast hc1
  have hNq : (N : ℚ) < 4294967296 := by
    have : (N : ℚ) < ((UINT32 : Nat) : ℚ) := by exact_mod_cast hN
    simpa [UINT32] using this
  have hcN' : (c : ℚ) ≤ (N : ℚ) := by exact_mod_cast hcN
  have hinv0 : (0 : ℚ) ≤ 1 / (c : ℚ) := le_of_lt (one_div_pos.mpr hcq)
  have hinv : (1 : ℚ) / 2 ^ 1022 ≤ 1 / (c : ℚ) := by
    apply one_div_le_one_div_of_le hcq
    have h1 : (4294967296 : ℚ) ≤ 2 ^ 1022 := by norm_num
    linarith
  have hp0 := hfl2 _ hinv0
  have hp1 := hfl3 _ hinv
  generalize fl (1 / (c : ℚ)) = p at *
  have hy0 : (0 : ℚ) ≤ (N : ℚ) * p := mul_nonneg (Nat.cast_nonneg _) hp0
  have hF : ((Int.toNat ⌊fl ((N : ℚ) * p)⌋ : Nat) : ℚ) ≤ (N : ℚ) * p * (1 + 1 / 2 ^ 53) := by
    by_cases hneg : 0 ≤ ⌊fl ((N : ℚ) * p)⌋
    · have h3 : ((Int.toNat ⌊fl ((N : ℚ) * p)⌋ : Nat) : ℤ) = ⌊fl ((N : ℚ) * p)⌋ :=
        Int.toNat_of_nonneg hneg
      have h4 : ((Int.toNat ⌊fl ((N : ℚ) * p)⌋ : Nat) : ℚ) =
          ((⌊fl ((N : ℚ) * p)⌋ : ℤ) : ℚ) :=
        calc ((Int.toNat ⌊fl ((N : ℚ) * p)⌋ : Nat) : ℚ)
            = (((Int.toNat ⌊fl ((N : ℚ) * p)⌋ : Nat) : ℤ) : ℚ) := by norm_cast
          _ = ((⌊fl ((N : ℚ) * p)⌋ : ℤ) : ℚ) := by rw [h3]
      rw [h4]
      exact hfl1 _ hy0
    · rw [Int.toNat_of_nonpos (by omega), Nat.cast_zero]
      exact mul_nonneg hy0 (by norm_num)
  generalize Int.toNat ⌊fl ((N : ℚ) * p)⌋ = F at *
  have h5 : (c : ℚ) * (F : ℚ) < (N : ℚ) + 1 := by
    have h6 : (c : ℚ) * (F : ℚ) ≤ (c : ℚ) * ((N : ℚ) * p * (1 + 1 / 2 ^ 53)) :=
      mul_le_mul_of_nonneg_left hF (le_of_lt hcq)
    have h7 : (c : ℚ) * ((N : ℚ) * p * (1 + 1 / 2 ^ 53)) ≤
        (c : ℚ) * ((N : ℚ) * (1 / (c : ℚ) * (1 + 1 / 2 ^ 53)) * (1 + 1 / 2 ^ 53)) := by
      apply mul_le_mul_of_nonneg_left _ (le_of_lt hcq)
      apply mul_le_mul_of_nonneg_right _ (by norm_num)
      exact mul_le_mul_of_nonneg_left hp1 (Nat.cast_nonneg _)
    have h8 : (c : ℚ) * ((N : ℚ) * (1 / (c : ℚ) * (1 + 1 / 2 ^ 53)) * (1 + 1 / 2 ^ 53)) =
        (N : ℚ) * ((1 + 1 / 2 ^ 53) * (1 + 1 / 2 ^ 53)) := by
      field_simp
      ring
    have h9 : (N : ℚ) * ((1 + 1 / 2 ^ 53) * (1 + 1 / 2 ^ 53)) < (N : ℚ) + 1 := by
      have h10 : (N : ℚ) * ((1 + 1 / 2 ^ 53) * (1 + 1 / 2 ^ 53) - 1) <
          4294967296 * ((1 + 1 / 2 ^ 53) * (1 + 1 / 2 ^ 53) - 1) :=
        mul_lt_mul_of_pos_right hNq (by norm_num)
      have h11 : (4294967296 : ℚ) * ((1 + 1 / 2 ^ 53) * (1 + 1 / 2 ^ 53) - 1) < 1 := by
        norm_num
      linarith
    linarith
  have h12 : c * F < N + 1 := by exact_mod_cast h5
  have h13 : c * (F % UINT32) ≤ c * F := Nat.mul_le_mul_left c (Nat.mod_le _ _)
  omega

/-- The quotas that `initialize` retains for `c` equal shares of `N ≥ c` agents, before the
remainder is dealt: the same quota `b ≥ 1` for every category, with `c * b ≤ N`. -/
theorem initialQuotas_uniform (fl : ℚ → ℚ)
    (hfl1 : ∀ x, 0 ≤ x → ((⌊fl x⌋ : ℤ) : ℚ) ≤ x * (1 + 1 / 2 ^ 53))
    (hfl2 : ∀ x, 0 ≤ x → 0 ≤ fl x)
    (hfl3 : ∀ x, 1 / 2 ^ 1022 ≤ x → fl x ≤ x * (1 + 1 / 2 ^ 53))
    {N c : Nat} (hc1 : 1 ≤ c) (hcN : c ≤ N) (hN : N < UINT32) :
    (initialQuotas fl (List.replicate c (fl (1 / (c : ℚ)))) N true).m_groups =
        (List.range' 0 c).map (· % UINT32) ∧
      ∃ b, 1 ≤ b ∧ c * b ≤ N ∧
        (initialQuotas fl (List.replicate c (fl (1 / (c : ℚ)))) N true).m_populations =
          List.replicate c b := by
  have hshare := uniform_share_le fl hfl1 hfl2 hfl3 hc1 hcN hN
  constructor
  · unfold initialQuotas
    rw [initializeLoop_groups_all, List.length_replicate]
    rfl
  · have hf : ∀ (f : ℚ → Option Nat) (x : ℚ) (y : Nat), f x = some y →
        ∀ m : Nat, List.filterMap f (List.replicate m x) = List.replicate m y := by
      intro f x y hfx m
      induction m with
      | zero => rfl
      | succ m ihm => rw [List.replicate_succ, List.filterMap_cons_some hfx, ihm,
          List.replicate_succ]
    unfold initialQuotas
    rw [initializeLoop_populations]
    by_cases hz : Int.toNat ⌊fl ((N : ℚ) * fl (1 / (c : ℚ)))⌋ % UINT32 ≠ 0
    · refine ⟨Int.toNat ⌊fl ((N : ℚ) * fl (1 / (c : ℚ)))⌋ % UINT32, by omega, hshare, ?_⟩
      rw [hf _ (fl (1 / (c : ℚ))) (Int.toNat ⌊fl ((N : ℚ) * fl (1 / (c : ℚ)))⌋ % UINT32)]
      · rfl
      · simp only
        rw [if_pos hz]
    · refine ⟨1, le_refl 1, by omega, ?_⟩
      rw [hf _ (fl (1 / (c : ℚ))) 1]
      · rfl
      · simp only
        rw [if_neg hz, if_pos trivial]

/-- The dispenser that `createPopulationDispensers` sets up for a variable with `c` factors
and `N ≥ c` agents, for every rounding `fl` of the accuracy of `double`: `initialize`
succeeds, the dispenser holds `N` units, and the quota of category `k < c` is `N / c`, plus
one for the first `N mod c` categories; no other category has a quota. -/
theorem initializeDispenser_uniform (fl : ℚ → ℚ)
    (hfl1 : ∀ x, 0 ≤ x → ((⌊fl x⌋ : ℤ) : ℚ) ≤ x * (1 + 1 / 2 ^ 53))
    (hfl2 : ∀ x, 0 ≤ x → 0 ≤ fl x)
    (hfl3 : ∀ x, 1 / 2 ^ 1022 ≤ x → fl x ≤ x * (1 + 1 / 2 ^ 53))
    {N c : Nat} (hc1 : 1 ≤ c) (hcN : c ≤ N) (hN : N < UINT32) :
    ∃ disp, initializeDispenser fl {} (List.replicate c (fl (1 / (c : ℚ)))) N true =
        Except.ok disp ∧
      Drawable disp ∧ disp.m_populations.sum = N ∧
      ∀ k, quotaOf disp.m_groups disp.m_populations k =
        if k < c then N / c + (if k < N % c then 1 else 0) else 0 := by
  obtain ⟨hg, b, hb1, hbN, hp⟩ := initialQuotas_uniform fl hfl1 hfl2 hfl3 hc1 hcN hN
  have hsum : (initialQuotas fl (List.replicate c (fl (1 / (c : ℚ)))) N true).m_populations.sum =
      c * b := by
    rw [hp, List.sum_replicate, smul_eq_mul]
  have hlen : (initialQuotas fl (List.replicate c (fl (1 / (c : ℚ)))) N
      true).m_populations.length = c := by
    rw [hp, List.length_replicate]
  obtain ⟨disp, hinit, hgroups, hplen, hget, hs⟩ :=
    initializeDispenser_spec fl {} (List.replicate c (fl (1 / (c : ℚ)))) N true hN
      (by rw [hlen]; exact hc1) (by rw [hsum]; exact hbN)
  obtain ⟨disp1, hinit1, hdraw, -⟩ :=
    initializeDispenser_drawable fl {} (List.replicate c (fl (1 / (c : ℚ)))) N true hN
      (by rw [hsum]; exact hbN) (fun _ => by rw [hlen]; exact hc1)
  rw [hinit] at hinit1
  injection hinit1 with hinit1
  subst hinit1
  refine ⟨disp, hinit, hdraw, hs, fun k => ?_⟩
  rw [hgroups, hg, quotaOf_range' c 0 disp.m_populations k (by rw [hplen, hlen]) (by omega)]
  simp only [Nat.zero_le, true_and, Nat.zero_add, Nat.sub_zero]
  by_cases hk : k < c
  · rw [if_pos hk, if_pos hk, hget k (by rw [hlen]; exact hk), hsum, hlen, hp]
    have hdiv : (N - c * b) / c = N / c - b := Nat.sub_mul_div N c b hbN
    have hmod : (N - c * b) % c = N % c := Nat.sub_mul_mod hbN
    have hble : b ≤ N / c := (Nat.le_div_iff_mul_le (by omega)).mpr (by
      rw [Nat.mul_comm]
      exact hbN)
    rw [hdiv, hmod, List.getD_eq_getElem _ _ (by rw [List.length_replicate]; exact hk),
      List.getElem_replicate]
    omega
  · rw [if_neg hk, if_neg hk]

end PopulationDispenser

end gen

end iris

/-! ## `generateAttributes` -/

namespace iris

namespace gen

namespace PopulationDispenser

/-- A drawable dispenser without units has no quota left. -/
theorem quotaOf_eq_zero_of_sum {d : PopulationDispenser} (hd : Drawable d)
    (hs : d.m_populations.sum = 0) (k : Nat) : quotaOf d.m_groups d.m_populations k = 0 := by
  have hlen := length_le_sum_of_pos d.m_populations (fun x hx => (hd.2.2 x hx).1)
  have hnil : d.m_populations = [] := List.length_eq_zero.mp (by omega)
  rw [hnil]
  unfold quotaOf
  split
  · rename_i heq
    cases heq
  · rfl

/-- A completed call of `nextGroup` on a drawable dispenser that holds a unit: the dispenser
stays drawable, loses one unit, and the unit is taken from the returned category. -/
theorem nextGroup_inv {d : PopulationDispenser} {random : MersenneTwister}
    {next : Nat × PopulationDispenser × MersenneTwister} (hd : Drawable d)
    (hs : 1 ≤ d.m_populations.sum) (h : nextGroup d random = Except.ok next) :
    Drawable next.2.1 ∧ next.2.1.m_populations.sum + 1 = d.m_populations.sum ∧
      ∀ c, quotaOf d.m_groups d.m_populations c =
        quotaOf next.2.1.m_groups next.2.1.m_populations c + (if next.1 = c then 1 else 0) := by
  have hne : d.m_groups.length ≠ 0 := by
    intro h0
    have hp : d.m_populations = [] := List.length_eq_zero.mp (by rw [← hd.1]; exact h0)
    rw [hp] at hs
    cases hs
  obtain ⟨next1, h1, hrest⟩ := nextGroup_spec d random hd hne
  rw [h] at h1
  injection h1 with h1
  subst h1
  exact hrest

end PopulationDispenser

open PopulationDispenser

/-- A completed `createAttributeList`: one value and one dispenser per dispenser, and at every
position the value and the new dispenser come from one call of `nextGroup` on the old
dispenser. -/
theorem createAttributeList_inv : ∀ (ds : PopDispensers) (random : MersenneTwister)
    (res : List Nat × PopDispensers × MersenneTwister),
    createAttributeList ds random = Except.ok res →
    res.1.length = ds.length ∧ res.2.1.length = ds.length ∧
      ∀ (d : Nat) (disp : PopulationDispenser), ds.get? d = some disp →
        ∃ rd next, disp.nextGroup rd = Except.ok next ∧ res.1.get? d = some next.1 ∧
          res.2.1.get? d = some next.2.1 := by
  intro ds
  induction ds with
  | nil =>
    intro random res h
    unfold createAttributeList at h
    cases h
    refine ⟨rfl, rfl, ?_⟩
    intro d disp hd
    cases hd
  | cons disp0 rest ih =>
    intro random res h
    unfold createAttributeList at h
    cases hn : disp0.nextGroup random with
    | error e =>
      rw [hn] at h
      cases h
    | ok next =>
      rw [hn] at h
      simp only at h
      cases hm : createAttributeList rest next.2.2 with
      | error e =>
        rw [hm] at h
        cases h
      | ok more =>
        rw [hm] at h
        cases h
        obtain ⟨h1, h2, h3⟩ := ih _ _ hm
        refine ⟨by simp only [List.length_cons, h1], by simp only [List.length_cons, h2], ?_⟩
        intro d disp hd
        cases d with
        | zero =>
          simp only [List.get?_cons_zero, Option.some.injEq] at hd
          subst hd
          exact ⟨random, next, hn, rfl, rfl⟩
        | succ d =>
          simp only [List.get?_cons_succ] at hd
          obtain ⟨rd, next1, g1, g2, g3⟩ := h3 d disp hd
          exact ⟨rd, next1, g1, by simpa using g2, by simpa using g3⟩

/-- `createAttributeList` on drawable dispensers that all hold a unit completes. -/
theorem createAttributeList_ok : ∀ (ds : PopDispensers) (random : MersenneTwister),
    (∀ disp ∈ ds, Drawable disp ∧ 1 ≤ disp.m_populations.sum) →
    ∃ res, createAttributeList ds random = Except.ok res := by
  intro ds
  induction ds with
  | nil =>
    intro random _
    exact ⟨_, rfl⟩
  | cons disp0 rest ih =>
    intro random h
    obtain ⟨hd, hs⟩ := h disp0 (List.mem_cons_self _ _)
    have hne : disp0.m_groups.length ≠ 0 := by
      intro h0
      have hp : disp0.m_populations = [] := List.length_eq_zero.mp (by rw [← hd.1]; exact h0)
      rw [hp] at hs
      cases hs
    obtain ⟨next, hn, -⟩ := nextGroup_spec disp0 random hd hne
    obtain ⟨more, hm⟩ := ih next.2.2 (fun disp hdisp => h disp (List.mem_cons_of_mem _ hdisp))
    unfold createAttributeList
    rw [hn]
    simp only
    rw [hm]
    exact ⟨_, rfl⟩

/-- After a completed `createAttributeList` on drawable dispensers holding `n + 1` units
each, every dispenser is drawable and holds `n` units. -/
theorem createAttributeList_units {ds : PopDispensers} {random : MersenneTwister}
    {res : List Nat × PopDispensers × MersenneTwister} {n : Nat}
    (h : createAttributeList ds random = Except.ok res)
    (hds : ∀ disp ∈ ds, Drawable disp ∧ disp.m_populations.sum = n + 1) :
    ∀ disp ∈ res.2.1, Drawable disp ∧ disp.m_populations.sum = n := by
  obtain ⟨-, hlen, hget⟩ := createAttributeList_inv ds random res h
  intro disp hdisp
  obtain ⟨d, hd⟩ := List.get?_of_mem hdisp
  have hdlt : d < ds.length := by
    rw [← hlen]
    exact (List.get?_eq_some.mp hd).1
  obtain ⟨old, hold⟩ : ∃ old, ds.get? d = some old :=
    ⟨ds.get ⟨d, hdlt⟩, List.get?_eq_get hdlt⟩
  obtain ⟨rd, next, hn, -, hnew⟩ := hget d old hold
  rw [hd] at hnew
  injection hnew with hnew
  obtain ⟨ho1, ho2⟩ := hds old (List.get?_mem hold)
  obtain ⟨g1, g2, -⟩ := nextGroup_inv ho1 (by omega) hn
  rw [hnew]
  exact ⟨g1, by omega⟩

/-- A completed `createPopulationDispensers`: one dispenser per variable, each the result of
`initialize` on equal shares. -/
theorem createPopulationDispensers_inv (fl : ℚ → ℚ) (N : Nat) : ∀ (values : List Nat) (ds : PopDispensers),
    createPopulationDispensers fl values N = Except.ok ds →
    ds.length = values.length ∧
      ∀ (d c : Nat), values.get? d = some c →
        ∃ disp, ds.get? d = some disp ∧
          initializeDispenser fl {} (List.replicate c (fl (1 / (c : ℚ)))) N true =
            Except.ok disp := by
  intro values
  induction values with
  | nil =>
    intro ds h
    unfold createPopulationDispensers at h
    cases h
    refine ⟨rfl, ?_⟩
    intro d c hd
    cases hd
  | cons c0 rest ih =>
    intro ds h
    unfold createPopulationDispensers at h
    simp only at h
    cases hi : initializeDispenser fl {} (List.replicate c0 (fl (1 / (c0 : ℚ)))) N true with
    | error e =>
      rw [hi] at h
      cases h
    | ok disp0 =>
      rw [hi] at h
      simp only at h
      cases hm : createPopulationDispensers fl rest N with
      | error e =>
        rw [hm] at h
        cases h
      | ok more =>
        rw [hm] at h
        cases h
        obtain ⟨h1, h2⟩ := ih _ hm
        refine ⟨by simp only [List.length_cons, h1], ?_⟩
        intro d c hd
        cases d with
        | zero =>
          simp only [List.get?_cons_zero, Option.some.injEq] at hd
          subst hd
          exact ⟨disp0, rfl, hi⟩
        | succ d =>
          simp only [List.get?_cons_succ] at hd
          obtain ⟨disp, g1, g2⟩ := h2 d c hd
          exact ⟨disp, by simpa using g1, g2⟩

/-- For every rounding `fl` of the accuracy of `double`, `createPopulationDispensers`
completes when no variable has more factors than there are agents, and none has zero factors:
every dispenser is drawable and holds `N` units. -/
theorem createPopulationDispensers_ok (fl : ℚ → ℚ)
    (hfl1 : ∀ x, 0 ≤ x → ((⌊fl x⌋ : ℤ) : ℚ) ≤ x * (1 + 1 / 2 ^ 53))
    (hfl2 : ∀ x, 0 ≤ x → 0 ≤ fl x)
    (hfl3 : ∀ x, 1 / 2 ^ 1022 ≤ x → fl x ≤ x * (1 + 1 / 2 ^ 53))
    {N : Nat} (hN : N < UINT32) : ∀ (values : List Nat),
    (∀ c ∈ values, 1 ≤ c ∧ c ≤ N) →
    ∃ ds, createPopulationDispensers fl values N = Except.ok ds ∧ ds.length = values.length ∧
      ∀ disp ∈ ds, Drawable disp ∧ disp.m_populations.sum = N := by
  intro values
  induction values with
  | nil =>
    intro _
    refine ⟨[], rfl, rfl, ?_⟩
    intro disp hdisp
    cases hdisp
  | cons c0 rest ih =>
    intro h
    obtain ⟨hc1, hcN⟩ := h c0 (List.mem_cons_self _ _)
    obtain ⟨disp0, hi, hd0, hs0, -⟩ :=
      initializeDispenser_uniform fl hfl1 hfl2 hfl3 hc1 hcN hN
    obtain ⟨more, hm, hlen, hall⟩ := ih (fun c hc => h c (List.mem_cons_of_mem _ hc))
    unfold createPopulationDispensers
    simp only
    rw [hi]
    simp only
    rw [hm]
    refine ⟨disp0 :: more, rfl, by simp only [List.length_cons, hlen], ?_⟩
    intro disp hdisp
    rcases List.mem_cons.mp hdisp with rfl | hdisp
    · exact ⟨hd0, hs0⟩
    · exact hall disp hdisp

/-- A completed loop of `generateAttributes` from position `i` on leaves the agents before `i`
alone. -/
theorem generateAttributesLoop_frame (behaviors : List Nat) :
    ∀ (n i : Nat) (agents : Nat → Agent) (ds : PopDispensers) (random : MersenneTwister)
      (res : (Nat → Agent) × PopDispensers × MersenneTwister),
      generateAttributesLoop behaviors n i agents ds random = Except.ok res →
      ∀ j, j < i → res.1 j = agents j := by
  intro n
  induction n with
  | zero =>
    intro i agents ds random res h j _
    unfold generateAttributesLoop at h
    cases h
    rfl
  | succ n ih =>
    intro i agents ds random res h j hj
    unfold generateAttributesLoop at h
    cases hc : createAttributeList ds random with
    | error e =>
      rw [hc] at h
      cases h
    | ok drawn =>
      rw [hc] at h
      simp only at h
      cases hb : createSubAttributeList drawn.1 behaviors with
      | error e =>
        rw [hb] at h
        cases h
      | ok bList =>
        rw [hb] at h
        simp only at h
        rw [ih _ _ _ _ _ h j (by omega), Function.update_noteq (by omega),
          Function.update_noteq (by omega)]

/-- A completed loop of `generateAttributes` over `n` agents from position `i` on, followed in
one dimension `d` whose dispenser holds exactly `n` units: every category has been handed to
as many of these agents as its quota said. -/
theorem generateAttributesLoop_counts (behaviors : List Nat) (d : Nat) :
    ∀ (n i : Nat) (agents : Nat → Agent) (ds : PopDispensers) (random : MersenneTwister)
      (res : (Nat → Agent) × PopDispensers × MersenneTwister),
      generateAttributesLoop behaviors n i agents ds random = Except.ok res →
      ∀ disp, ds.get? d = some disp → Drawable disp → disp.m_populations.sum = n →
      ∀ k, quotaOf disp.m_groups disp.m_populations k =
        ((List.range' i n).filter
          (fun j => decide ((res.1 j).m_values.get? d = some k))).length := by
  intro n
  induction n with
  | zero =>
    intro i agents ds random res _ disp _ hd hs k
    rw [quotaOf_eq_zero_of_sum hd hs]
    rfl
  | succ n ih =>
    intro i agents ds random res h disp hget hd hs k
    unfold generateAttributesLoop at h
    cases hc : createAttributeList ds random with
    | error e =>
      rw [hc] at h
      cases h
    | ok drawn =>
      rw [hc] at h
      simp only at h
      cases hb : createSubAttributeList drawn.1 behaviors with
      | error e =>
        rw [hb] at h
        cases h
      | ok bList =>
        rw [hb] at h
        simp only at h
        obtain ⟨-, -, hinv⟩ := createAttributeList_inv ds random drawn hc
        obtain ⟨rd, next, hn, hval, hnew⟩ := hinv d disp hget
        obtain ⟨g1, g2, g3⟩ := nextGroup_inv hd (by omega) hn
        have hrest := ih (i + 1) _ _ _ res h next.2.1 hnew g1 (by omega) k
        have hself := generateAttributesLoop_frame behaviors n (i + 1) _ _ _ res h i
          (Nat.lt_succ_self i)
        rw [Function.update_same] at hself
        have hvalues : (res.1 i).m_values = drawn.1 := by
          rw [hself]
          rfl
        rw [g3 k, hrest, List.range'_succ, List.filter_cons, hvalues, hval]
        by_cases hk : next.1 = k
        · rw [if_pos hk, if_pos (by rw [hk]; exact decide_eq_true rfl), List.length_cons]
        · rw [if_neg hk, if_neg (by
            rw [decide_eq_true_eq]
            intro hsome
            injection hsome with hsome
            exact hk hsome), Nat.add_zero]

/-- The loop of `generateAttributes` over `n` agents completes when every dispenser is
drawable and holds `n` units and there are no more behaviour dimensions than value
dimensions. -/
theorem generateAttributesLoop_ok (behaviors : List Nat) :
    ∀ (n i : Nat) (agents : Nat → Agent) (ds : PopDispensers) (random : MersenneTwister),
      (∀ disp ∈ ds, Drawable disp ∧ disp.m_populations.sum = n) →
      behaviors.length ≤ ds.length →
      ∃ res, generateAttributesLoop behaviors n i agents ds random = Except.ok res := by
  intro n
  induction n with
  | zero =>
    intro i agents ds random _ _
    exact ⟨_, rfl⟩
  | succ n ih =>
    intro i agents ds random hds hlen
    obtain ⟨drawn, hc⟩ := createAttributeList_ok ds random
      (fun disp hdisp => ⟨(hds disp hdisp).1, by rw [(hds disp hdisp).2]; omega⟩)
    obtain ⟨h1, h2, -⟩ := createAttributeList_inv ds random drawn hc
    have hunits := createAttributeList_units hc hds
    unfold generateAttributesLoop
    rw [hc]
    simp only
    have hb : createSubAttributeList drawn.1 behaviors =
        Except.ok (drawn.1.take behaviors.length) := by
      unfold createSubAttributeList
      rw [if_neg (by omega)]
    rw [hb]
    simp only
    exact ih _ _ _ _ hunits (by omega)

/-- The value counts of `generateAttributes` for every rounding `fl` of the accuracy of
`double` (non-negative results, a factor of at most `1 + 2^-53` above a value of the normal
range, floors at most that factor above the value): the initial quotas of a dimension with `c`
categories are `c` equal numbers `b ≥ 1` with `c * b ≤ N`, and the round-robin brings them to
`N / c`, plus one for the first `N mod c` categories. -/
theorem generateAttributes_counts_of_rounding (fl : ℚ → ℚ)
    (hfl1 : ∀ x, 0 ≤ x → ((⌊fl x⌋ : ℤ) : ℚ) ≤ x * (1 + 1 / 2 ^ 53))
    (hfl2 : ∀ x, 0 ≤ x → 0 ≤ fl x)
    (hfl3 : ∀ x, 1 / 2 ^ 1022 ≤ x → fl x ≤ x * (1 + 1 / 2 ^ 53))
    (agents : Nat → Agent) (N : Nat)
    (values behaviors : List Nat) (random : MersenneTwister) (hN : N < UINT32) :
    ((∀ c ∈ values, 1 ≤ c ∧ c ≤ N) → behaviors.length ≤ values.length →
      ∃ res, generateAttributes fl agents N values behaviors random = Except.ok res) ∧
    ∀ res, generateAttributes fl agents N values behaviors random = Except.ok res →
      ∀ (d c : Nat), values.get? d = some c → 1 ≤ c → c ≤ N →
        (∀ k, k < c → valueCount res.1 N d k = N / c + (if k < N % c then 1 else 0)) ∧
        (∀ k, k < c → 1 ≤ valueCount res.1 N d k) ∧
        (∀ k k1, k < c → k1 < c → valueCount res.1 N d k ≤ valueCount res.1 N d k1 + 1) ∧
        ∀ k, c ≤ k → valueCount res.1 N d k = 0 := by
  constructor
  · intro hvalues hlen
    obtain ⟨ds, hds, hdlen, hall⟩ := createPopulationDispensers_ok fl hfl1 hfl2 hfl3 hN values hvalues
    obtain ⟨done, hdone⟩ := generateAttributesLoop_ok behaviors N 0 agents ds random hall
      (by rw [hdlen]; exact hlen)
    unfold generateAttributes
    rw [hds]
    simp only
    rw [hdone]
    exact ⟨_, rfl⟩
  · intro res h d c hd hc1 hcN
    unfold generateAttributes at h
    cases hds : createPopulationDispensers fl values N with
    | error e =>
      rw [hds] at h
      cases h
    | ok ds =>
      rw [hds] at h
      simp only at h
      cases hdone : generateAttributesLoop behaviors N 0 agents ds random with
      | error e =>
        rw [hdone] at h
        cases h
      | ok done =>
        rw [hdone] at h
        cases h
        obtain ⟨-, hinv⟩ := createPopulationDispensers_inv fl N values ds hds
        obtain ⟨disp, hget, hinit⟩ := hinv d c hd
        obtain ⟨disp1, hinit1, hdraw, hsum, hquota⟩ := initializeDispenser_uniform fl hfl1 hfl2 hfl3 hc1 hcN hN
        rw [hinit] at hinit1
        injection hinit1 with hinit1
        subst hinit1
        have hcount : ∀ k, valueCount done.1 N d k =
            if k < c then N / c + (if k < N % c then 1 else 0) else 0 := by
          intro k
          rw [← hquota k,
            generateAttributesLoop_counts behaviors d N 0 agents ds random done hdone disp hget
              hdraw hsum k]
          unfold valueCount
          rw [List.range_eq_range']
        have hdiv : 1 ≤ N / c := (Nat.one_le_div_iff (by omega)).mpr hcN
        refine ⟨?_, ?_, ?_, ?_⟩
        · intro k hk
          rw [hcount k, if_pos hk]
        · intro k hk
          rw [hcount k, if_pos hk]
          omega
        · intro k k1 hk hk1
          rw [hcount k, hcount k1, if_pos hk, if_pos hk1]
          split_ifs <;> omega
        · intro k hk
          rw [hcount k, if_neg (by omega)]

/-- C29. For `N` agents (`N` a 32-bit number) and every generator: when no value dimension
has zero categories or more categories than there are agents, and there are no more behaviour
dimensions than value dimensions, `generateAttributes` completes; and whenever it completes,
for every value dimension `d` with `c` categories where `1 ≤ c ≤ N`, the number of agents
whose value in dimension `d` is `k` equals `N / c + (1 if k < N mod c else 0)` for each
`k < c`, so that every category occurs, the counts of two categories differ by at most one,
and no agent has a value `k ≥ c` in that dimension. This holds in exact arithmetic (the
quotient `1 / c` and the products of `initialize` are not rounded: `fl` is the identity), which
is the second part of the statement, and also with the quotient and the products rounded to
`double` as in the program, which is the first part. -/
theorem generateAttributes_value_counts (agents : Nat → Agent) (N : Nat)
    (values behaviors : List Nat) (random : MersenneTwister) (hN : N < UINT32) :
    (((∀ c ∈ values, 1 ≤ c ∧ c ≤ N) → behaviors.length ≤ values.length →
        ∃ res, generateAttributes roundToDouble agents N values behaviors random =
          Except.ok res) ∧
      ∀ res, generateAttributes roundToDouble agents N values behaviors random =
          Except.ok res →
        ∀ (d c : Nat), values.get? d = some c → 1 ≤ c → c ≤ N →
          (∀ k, k < c → valueCount res.1 N d k = N / c + (if k < N % c then 1 else 0)) ∧
          (∀ k, k < c → 1 ≤ valueCount res.1 N d k) ∧
          (∀ k k1, k < c → k1 < c → valueCount res.1 N d k ≤ valueCount res.1 N d k1 + 1) ∧
          ∀ k, c ≤ k → valueCount res.1 N d k = 0) ∧
    (((∀ c ∈ values, 1 ≤ c ∧ c ≤ N) → behaviors.length ≤ values.length →
        ∃ res, generateAttributes id agents N values behaviors random = Except.ok res) ∧
      ∀ res, generateAttributes id agents N values behaviors random = Except.ok res →
        ∀ (d c : Nat), values.get? d = some c → 1 ≤ c → c ≤ N →
          (∀ k, k < c → valueCount res.1 N d k = N / c + (if k < N % c then 1 else 0)) ∧
          (∀ k, k < c → 1 ≤ valueCount res.1 N d k) ∧
          (∀ k k1, k < c → k1 < c → valueCount res.1 N d k ≤ valueCount res.1 N d k1 + 1) ∧
          ∀ k, c ≤ k → valueCount res.1 N d k = 0) :=
  ⟨generateAttributes_counts_of_rounding roundToDouble roundToDouble_floor_le
      roundToDouble_nonneg roundToDouble_le agents N values behaviors random hN,
    generateAttributes_counts_of_rounding id
      (fun x hx => le_trans (Int.floor_le x) (le_mul_of_one_le_right hx (by norm_num)))
      (fun _ hx => hx)
      (fun x hx => le_mul_of_one_le_right
        (le_trans (by positivity) hx) (by norm_num))
      agents N values behaviors random hN⟩

/-- Witness for C29: five agents, value dimensions with `2` and `3` categories, one behaviour
dimension, the quotient and the products rounded to `double`: the counts are `3, 2` and
`2, 2, 1`. -/
theorem generateAttributes_value_counts_witness :
    5 < UINT32 ∧ (∀ c ∈ [2, 3], 1 ≤ c ∧ c ≤ 5) ∧ [2].length ≤ [2, 3].length ∧
    ∃ res, generateAttributes roundToDouble (fun _ => {}) 5 [2, 3] [2] (constantTape 1) =
        Except.ok res ∧
      valueCount res.1 5 0 0 = 3 ∧ valueCount res.1 5 0 1 = 2 ∧
      valueCount res.1 5 1 0 = 2 ∧ valueCount res.1 5 1 1 = 2 ∧ valueCount res.1 5 1 2 = 1 := by
  have h := (generateAttributes_value_counts (fun _ => {}) 5 [2, 3] [2] (constantTape 1)
    (by decide)).1
  obtain ⟨res, hres⟩ := h.1 (by decide) (by decide)
  have h0 := (h.2 res hres 0 2 rfl (by decide) (by decide)).1
  have h1 := (h.2 res hres 1 3 rfl (by decide) (by decide)).1
  exact ⟨by decide, by decide, by decide, res, hres, h0 0 (by decide), h0 1 (by decide),
    h1 0 (by decide), h1 1 (by decide), h1 2 (by decide)⟩

end gen

end iris

/-! ## The cumulative distribution and the family unit -/

namespace iris

namespace gen

/-- The running sums that `createCDF` computes before it overwrites the last entry. -/
theorem getD_scanl_add : ∀ (rest : List ℚ) (c : ℚ) (i : Nat), i ≤ rest.length →
    (List.scanl (fun prev x => prev + x) c rest).getD i 0 = c + (rest.take i).sum := by
  intro rest
  induction rest with
  | nil =>
    intro c i hi
    have : i = 0 := by simpa using hi
    subst this
    simp
  | cons x xs ih =>
    intro c i hi
    cases i with
    | zero => simp
    | succ i =>
      rw [List.scanl_cons, List.singleton_append, List.getD_cons_succ,
        ih (c + x) i (by simpa using hi), List.take_succ_cons, List.sum_cons, add_assoc]

/-- C32. With exact addition, for every non-empty census of length `n`: `gen::createCDF`
returns a list of length `n` whose entry `i` is `census[0] + ... + census[i]` for every
`i < n - 1` and whose last entry is exactly `1`. For an empty census the entry that is
overwritten does not exist. -/
theorem createCDF_running_sums (census : List ℚ) (hne : census ≠ []) :
    ∃ cdf, createCDF census = Except.ok cdf ∧ cdf.length = census.length ∧
      (∀ i, i + 1 < census.length → cdf.getD i 0 = (census.take (i + 1)).sum) ∧
      cdf.getD (census.length - 1) 0 = 1 ∧
      createCDF [] = Except.error Error.outOfBounds := by
  cases census with
  | nil => exact absurd rfl hne
  | cons c rest =>
    have hl : (List.scanl (fun prev x => prev + x) c rest).length = rest.length + 1 :=
      List.length_scanl _ _
    refine ⟨_, rfl, ?_, ?_, ?_, rfl⟩
    · simp only [List.length_set, List.length_scanl, List.length_cons]
    · intro i hi
      simp only [List.length_cons] at hi
      rw [List.getD_eq_getElem?_getD, List.getElem?_set_ne (by rw [hl]; omega),
        ← List.getD_eq_getElem?_getD, getD_scanl_add rest c i (by omega), List.take_succ_cons,
        List.sum_cons]
    · simp only [List.length_cons, Nat.add_sub_cancel]
      rw [List.getD_eq_getElem?_getD, hl, Nat.add_sub_cancel,
        List.getElem?_set_self (by rw [hl]; omega)]
      rfl

/-- Witness for C32: the census `{0.2, 0.1, 0.4, 0.2, 0.1}` of the test "Verify construction
from census data". -/
theorem createCDF_running_sums_witness :
    ([1 / 5, 1 / 10, 2 / 5, 1 / 5, 1 / 10] : List ℚ) ≠ [] ∧
    ∃ cdf, createCDF [1 / 5, 1 / 10, 2 / 5, 1 / 5, 1 / 10] = Except.ok cdf ∧
      cdf.length = ([1 / 5, 1 / 10, 2 / 5, 1 / 5, 1 / 10] : List ℚ).length ∧
      (∀ i, i + 1 < ([1 / 5, 1 / 10, 2 / 5, 1 / 5, 1 / 10] : List ℚ).length →
        cdf.getD i 0 = (([1 / 5, 1 / 10, 2 / 5, 1 / 5, 1 / 10] : List ℚ).take (i + 1)).sum) ∧
      cdf.getD (([1 / 5, 1 / 10, 2 / 5, 1 / 5, 1 / 10] : List ℚ).length - 1) 0 = 1 ∧
      createCDF [] = Except.error Error.outOfBounds :=
  ⟨by decide, createCDF_running_sums [1 / 5, 1 / 10, 2 / 5, 1 / 5, 1 / 10] (by decide)⟩

/-- C33. For an agent with an empty network and identifier `u` and every family unit
`[start, end)`: `gen::wireFamilyUnit` leaves the network of the agent equal to the ascending
list of all identifiers `i` with `start ≤ i < end` and `i ≠ u`, and writes nothing else. -/
theorem wireFamilyUnit_network (agent : Agent) (unit : FamilyUnit)
    (hempty : agent.m_network = []) :
    (wireFamilyUnit agent unit).m_network =
        (List.range' unit.1 (unit.2 - unit.1)).filter (fun i => decide (i ≠ agent.m_uid)) ∧
      (wireFamilyUnit agent unit).m_network.Pairwise (· < ·) ∧
      (∀ i, i ∈ (wireFamilyUnit agent unit).m_network ↔
        (unit.1 ≤ i ∧ i < unit.2 ∧ i ≠ agent.m_uid)) ∧
      wireFamilyUnit agent unit =
        { agent with m_network := (wireFamilyUnit agent unit).m_network } := by
  rw [wireFamilyUnit_eq agent unit hempty]
  refine ⟨rfl, ?_, ?_, rfl⟩
  · exact (List.pairwise_lt_range' _ _).sublist (List.filter_sublist _)
  · intro i
    simp only [List.mem_filter, List.mem_range', decide_eq_true_eq]
    constructor
    · rintro ⟨⟨k, hk, rfl⟩, hne⟩
      exact ⟨by omega, by omega, hne⟩
    · rintro ⟨h1, h2, hne⟩
      exact ⟨⟨i - unit.1, by omega, by omega⟩, hne⟩

/-- Witness for C33: the agent `0` and the unit `[0, 4)` of the test "Verify that a single
unit in a family is wired", which expects the network `{1, 2, 3}`. -/
theorem wireFamilyUnit_network_witness :
    (freshAgents 0).m_network = [] ∧
    (wireFamilyUnit (freshAgents 0) (0, 4)).m_network = [1, 2, 3] ∧
    (wireFamilyUnit (freshAgents 0) (0, 4)).m_network.Pairwise (· < ·) ∧
    (∀ i, i ∈ (wireFamilyUnit (freshAgents 0) (0, 4)).m_network ↔
      (0 ≤ i ∧ i < 4 ∧ i ≠ 0)) ∧
    wireFamilyUnit (freshAgents 0) (0, 4) =
      { freshAgents 0 with m_network := (wireFamilyUnit (freshAgents 0) (0, 4)).m_network } :=
  ⟨rfl, (wireFamilyUnit_network (freshAgents 0) (0, 4) rfl).1.trans (by decide),
    (wireFamilyUnit_network (freshAgents 0) (0, 4) rfl).2⟩

end gen

end iris

/-! ## `updateState` and the downward probe -/

namespace iris

namespace util

/-- The loop of `exploreLowerSphere` from a 32-bit index `i` over a network of fewer than
`2^32` entries leaves within `i + 2` rounds: further fuel does not change the result. -/
theorem exploreLowerSphereLoop_terminates {network : List Nat} (hlen : network.length < UINT32) :
    ∀ (i r : Nat), i < UINT32 →
      ∃ v, ∀ fuel, i + 2 ≤ fuel → exploreLowerSphereLoop network fuel r i = some v := by
  have hwrap : (0 + UINT32 - 1) % UINT32 = UINT32 - 1 := by decide
  intro i
  induction i with
  | zero =>
    intro r _
    by_cases hi : 0 ≥ network.length
    · refine ⟨r, fun fuel hf => ?_⟩
      obtain ⟨f, rfl⟩ : ∃ f, fuel = f + 1 := ⟨fuel - 1, by omega⟩
      exact exploreLowerSphereLoop_exit f r 0 hi
    · by_cases heq : r = network.getD 0 0
      · refine ⟨(r + UINT32 - 1) % UINT32, fun fuel hf => ?_⟩
        obtain ⟨f, rfl⟩ : ∃ f, fuel = f + 2 := ⟨fuel - 2, by omega⟩
        rw [exploreLowerSphereLoop, if_neg hi, if_pos heq, hwrap,
          exploreLowerSphereLoop_exit f _ _ (by omega)]
      · by_cases hgt : r > network.getD 0 0
        · refine ⟨r, fun fuel hf => ?_⟩
          obtain ⟨f, rfl⟩ : ∃ f, fuel = f + 1 := ⟨fuel - 1, by omega⟩
          rw [exploreLowerSphereLoop, if_neg hi, if_neg heq, if_pos hgt]
        · refine ⟨r, fun fuel hf => ?_⟩
          obtain ⟨f, rfl⟩ : ∃ f, fuel = f + 2 := ⟨fuel - 2, by omega⟩
          rw [exploreLowerSphereLoop, if_neg hi, if_neg heq, if_neg hgt, hwrap,
            exploreLowerSphereLoop_exit f _ _ (by omega)]
  | succ i ih =>
    intro r hiU
    have hstep : (i + 1 + UINT32 - 1) % UINT32 = i := by
      rw [show i + 1 + UINT32 - 1 = i + UINT32 by omega, Nat.add_mod_right]
      exact Nat.mod_eq_of_lt (by omega)
    by_cases hi : i + 1 ≥ network.length
    · refine ⟨r, fun fuel hf => ?_⟩
      obtain ⟨f, rfl⟩ : ∃ f, fuel = f + 1 := ⟨fuel - 1, by omega⟩
      exact exploreLowerSphereLoop_exit f r (i + 1) hi
    · by_cases heq : r = network.getD (i + 1) 0
      · obtain ⟨v, hv⟩ := ih ((r + UINT32 - 1) % UINT32) (by omega)
        refine ⟨v, fun fuel hf => ?_⟩
        obtain ⟨f, rfl⟩ : ∃ f, fuel = f + 1 := ⟨fuel - 1, by omega⟩
        rw [exploreLowerSphereLoop, if_neg hi, if_pos heq, hstep]
        exact hv f (by omega)
      · by_cases hgt : r > network.getD (i + 1) 0
        · refine ⟨r, fun fuel hf => ?_⟩
          obtain ⟨f, rfl⟩ : ∃ f, fuel = f + 1 := ⟨fuel - 1, by omega⟩
          rw [exploreLowerSphereLoop, if_neg hi, if_neg heq, if_pos hgt]
        · obtain ⟨v, hv⟩ := ih r (by omega)
          refine ⟨v, fun fuel hf => ?_⟩
          obtain ⟨f, rfl⟩ : ∃ f, fuel = f + 1 := ⟨fuel - 1, by omega⟩
          rw [exploreLowerSphereLoop, if_neg hi, if_neg heq, if_neg hgt, hstep]
          exact hv f (by omega)

/-- C40. `util::exploreLowerSphere` with 32-bit indices terminates for every candidate `r`,
every `startIndex` and every network of fewer than `2^32` entries, although the loop
condition `i >= 0` never fails: the loop leaves within `startIndex + 2` rounds (it returns a
value, and any larger number of rounds allowed gives the same value), because the index
either meets a `break` inside the network or wraps from `0` to `2^32 - 1`, which is no index
of the network. -/
theorem exploreLowerSphere_terminates (r startIndex : Nat) (network : List Nat)
    (hstart : startIndex < UINT32) (hlen : network.length < UINT32) :
    ∃ v, exploreLowerSphere r startIndex network = some v ∧
      (∀ fuel, startIndex + 2 ≤ fuel →
        exploreLowerSphereLoop network fuel r startIndex = some v) ∧
      (0 + UINT32 - 1) % UINT32 ≥ network.length := by
  obtain ⟨v, hv⟩ := exploreLowerSphereLoop_terminates hlen startIndex r hstart
  refine ⟨v, hv _ (Nat.le_refl _), hv, ?_⟩
  have hwrap : (0 + UINT32 - 1) % UINT32 = UINT32 - 1 := by decide
  omega

/-- Witness for C40: the candidate `3` in the network `{1, 2, 3}`, probed from index `2`:
every value down to `1` is taken, the probe ends at `0`. -/
theorem exploreLowerSphere_terminates_witness :
    2 < UINT32 ∧ ([1, 2, 3] : List Nat).length < UINT32 ∧
    exploreLowerSphere 3 2 [1, 2, 3] = some 0 ∧
    ∃ v, exploreLowerSphere 3 2 [1, 2, 3] = some v ∧
      (∀ fuel, 2 + 2 ≤ fuel → exploreLowerSphereLoop [1, 2, 3] fuel 3 2 = some v) ∧
      (0 + UINT32 - 1) % UINT32 ≥ ([1, 2, 3] : List Nat).length :=
  ⟨by decide, by decide, by decide,
    exploreLowerSphere_terminates 3 2 [1, 2, 3] (by decide) (by decide)⟩

end util

namespace Agent

/-- C39. `Agent::updateState(index, v, T)` for `index` within the tuple of the current
snapshot: it completes; the new current snapshot holds `v` at `index` and the old value in
every other dimension, and carries the time `T`; the new previous snapshot is the old current
snapshot; both new snapshots have the tuple length of the old current snapshot, so that the
length of both is unchanged whenever the two old snapshots had the same length; nothing but
the snapshots is written. -/
theorem updateState_writes_one_entry (agent : Agent) (index v T : Nat)
    (hindex : index < agent.m_state.1.m_behavior.length) :
    ∃ agent1, agent.updateState index v T = Except.ok agent1 ∧
      agent1.m_state.1.m_behavior.get? index = some v ∧
      (∀ k, k ≠ index →
        agent1.m_state.1.m_behavior.get? k = agent.m_state.1.m_behavior.get? k) ∧
      agent1.m_state.1.m_time = T ∧
      agent1.m_state.2 = agent.m_state.1 ∧
      agent1.m_state.1.m_behavior.length = agent.m_state.1.m_behavior.length ∧
      agent1.m_state.2.m_behavior.length = agent.m_state.1.m_behavior.length ∧
      (agent.m_state.2.m_behavior.length = agent.m_state.1.m_behavior.length →
        agent1.m_state.2.m_behavior.length = agent.m_state.2.m_behavior.length) ∧
      agent1 = { agent with m_state := agent1.m_state } := by
  refine ⟨_, updateState_ok agent v T hindex, ?_, ?_, rfl, rfl, ?_, rfl, ?_, rfl⟩
  · show (agent.m_state.1.m_behavior.set index v).get? index = some v
    rw [List.get?_eq_getElem?, List.getElem?_set_self hindex]
  · intro k hk
    show (agent.m_state.1.m_behavior.set index v).get? k = agent.m_state.1.m_behavior.get? k
    rw [List.get?_eq_getElem?, List.get?_eq_getElem?, List.getElem?_set_ne (Ne.symm hk)]
  · show (agent.m_state.1.m_behavior.set index v).length = _
    rw [List.length_set]
  · intro h
    exact h.symm

/-- Witness for C39: the second update of the test "Test multi-variate update": the tuple
`{4, 4, 1}` at time `0` gets `54` at index `2` at time `1`. -/
theorem updateState_writes_one_entry_witness :
    2 < (Agent.setInitialBehavior {} [4, 4, 1]).m_state.1.m_behavior.length ∧
    (Agent.updateState (Agent.setInitialBehavior {} [4, 4, 1]) 2 54 1).toOption.map
      (fun a => (a.m_state.1, a.m_state.2)) =
        some ({ m_behavior := [4, 4, 54], m_time := 1 }, { m_behavior := [4, 4, 1], m_time := 0 }) ∧
    ∃ agent1, Agent.updateState (Agent.setInitialBehavior {} [4, 4, 1]) 2 54 1 =
        Except.ok agent1 ∧
      agent1.m_state.1.m_behavior.get? 2 = some 54 ∧
      (∀ k, k ≠ 2 → agent1.m_state.1.m_behavior.get? k =
        (Agent.setInitialBehavior {} [4, 4, 1]).m_state.1.m_behavior.get? k) ∧
      agent1.m_state.1.m_time = 1 ∧
      agent1.m_state.2 = (Agent.setInitialBehavior {} [4, 4, 1]).m_state.1 ∧
      agent1.m_state.1.m_behavior.length =
        (Agent.setInitialBehavior {} [4, 4, 1]).m_state.1.m_behavior.length ∧
      agent1.m_state.2.m_behavior.length =
        (Agent.setInitialBehavior {} [4, 4, 1]).m_state.1.m_behavior.length ∧
      ((Agent.setInitialBehavior {} [4, 4, 1]).m_state.2.m_behavior.length =
          (Agent.setInitialBehavior {} [4, 4, 1]).m_state.1.m_behavior.length →
        agent1.m_state.2.m_behavior.length =
          (Agent.setInitialBehavior {} [4, 4, 1]).m_state.2.m_behavior.length) ∧
      agent1 = { Agent.setInitialBehavior {} [4, 4, 1] with m_state := agent1.m_state } :=
  ⟨by decide, by decide,
    updateState_writes_one_entry (Agent.setInitialBehavior {} [4, 4, 1]) 2 54 1 (by decide)⟩

end Agent

end iris

/-! ## `wireOutGroup` on its own -/

namespace iris

open gen

namespace Agent

/-- The bound of `isNetworkFull` and `wireOutGroup` when `outConnections + familySize - 1`
fits in 32 bits: `min(outConnections + familySize - 1, N - 1)`. -/
theorem connectionBound_of_fits {out fs N : Nat} (hout : 1 ≤ out) (hfs : fs < UINT32)
    (hsum : out + fs ≤ UINT32) (hN1 : 1 ≤ N) (hN : N < UINT32) :
    connectionBound out ((fs + UINT32 - 1) % UINT32) N = min (out + fs - 1) (N - 1) := by
  have hm : (N + UINT32 - 1) % UINT32 = N - 1 := by
    rw [show N + UINT32 - 1 = (N - 1) + UINT32 by omega, Nat.add_mod_right]
    exact Nat.mod_eq_of_lt (by omega)
  have hs : (out + (fs + UINT32 - 1) % UINT32) % UINT32 = out + fs - 1 := by
    rcases Nat.eq_zero_or_pos fs with h0 | hpos
    · subst h0
      rw [show (0 + UINT32 - 1) % UINT32 = UINT32 - 1 by decide,
        show out + (UINT32 - 1) = (out - 1) + UINT32 by omega, Nat.add_mod_right]
      exact Nat.mod_eq_of_lt (by omega)
    · rw [show fs + UINT32 - 1 = (fs - 1) + UINT32 by omega, Nat.add_mod_right,
        Nat.mod_eq_of_lt (show fs - 1 < UINT32 by omega),
        show out + (fs - 1) = out + fs - 1 by omega]
      exact Nat.mod_eq_of_lt (by omega)
  unfold connectionBound
  rw [hm, hs]
  split_ifs with h2
  · rw [Nat.min_def]; split_ifs <;> omega
  · rw [Nat.min_def]; split_ifs <;> omega

/-- `isNetworkFull` in terms of its 32-bit bound: the network is empty or has at least as
many entries as the bound. -/
theorem isNetworkFull_iff_bound (agent : Agent) (out N : Nat)
    (hlen : agent.m_network.length < SIZE_T) :
    agent.isNetworkFull out N = true ↔
      (agent.m_network = [] ∨
        connectionBound out agent.getFamilyConnections N ≤ agent.m_network.length) := by
  have hb := connectionBound_lt out agent.getFamilyConnections N
  have hU : UINT32 < SIZE_T := by decide
  constructor
  · intro h
    by_contra hcon
    rw [not_or, not_le] at hcon
    have hne : agent.m_network.length ≠ 0 := fun h0 => hcon.1 (List.length_eq_zero.mp h0)
    unfold isNetworkFull at h
    simp only [decide_eq_true_eq] at h
    rw [Nat.mod_eq_of_lt hlen,
      show connectionBound out agent.getFamilyConnections N + SIZE_T -
          agent.m_network.length =
        (connectionBound out agent.getFamilyConnections N - agent.m_network.length) + SIZE_T
        by omega, Nat.add_mod_right, Nat.mod_eq_of_lt (by omega)] at h
    omega
  · rintro (h | h)
    · exact isNetworkFull_of_empty out N h
    · by_contra hcon
      have hf : agent.isNetworkFull out N = false := by
        cases hv : agent.isNetworkFull out N with
        | true => exact absurd hv hcon
        | false => rfl
      have := length_lt_of_not_isNetworkFull hlen hf
      omega

end Agent

/-- Whatever the state, a completed loop of `wireOutGroup` for agent `id` leaves any other
agent `t` as it was, or with the one reciprocal edge `t -> id` added; the latter only if, when
the loop started, `isNetworkFull` was false for `t` and `t` was not connected to `id`. -/
theorem wireOutGroupLoop_targets (c : Bool) (id N out : Nat) (cp rp : ℚ) :
    ∀ (n : Nat) (agents : Nat → Agent) (network : List Nat) (random : MersenneTwister)
      (res : (Nat → Agent) × MersenneTwister),
      wireOutGroupLoop c id N out cp rp n agents network random = Except.ok res →
      ∀ t, t ≠ id → res.1 t = agents t ∨
        (res.1 t = (agents t).addConnection id ∧ (agents t).isNetworkFull out N = false ∧
          (agents t).isConnectedTo id = false) := by
  intro n
  induction n with
  | zero =>
    intro agents network random res h t _
    unfold wireOutGroupLoop at h
    cases h
    exact Or.inl rfl
  | succ n ih =>
    intro agents network random res h t ht
    rw [wireOutGroupLoop] at h
    simp only at h
    by_cases hsc : random.uniformReal.1 > cp
    · rw [if_pos hsc] at h
      exact ih _ _ _ _ h t ht
    · rw [if_neg hsc] at h
      cases hER : util.ensureRandom
          (random.uniformReal.2.uniformInt 0 ((N + UINT32 - 1) % UINT32)).1 network 0 N with
      | error e =>
        rw [hER] at h
        cases e <;> simp only at h <;> first
          | cases h
          | (cases c with
              | true =>
                simp only [if_true] at h
                exact ih _ _ _ _ h t ht
              | false =>
                simp only [Bool.false_eq_true, if_false] at h
                cases h)
      | ok v =>
        rw [hER] at h
        simp only at h
        have hupd : (Function.update agents id ((agents id).addConnection v)) t = agents t :=
          Function.update_noteq ht _ _
        split_ifs at h with hrec
        · simp only [Bool.and_eq_true, Bool.not_eq_true', decide_eq_true_eq] at hrec
          obtain ⟨⟨-, hfull⟩, hconn⟩ := hrec
          by_cases htv : t = v
          · subst htv
            rw [hupd] at hfull hconn
            rcases ih _ _ _ _ h t ht with h1 | ⟨-, -, h3⟩
            · rw [Function.update_same, hupd] at h1
              exact Or.inr ⟨h1, hfull, hconn⟩
            · rw [Function.update_same, hupd] at h3
              unfold Agent.isConnectedTo Agent.addConnection at h3
              simp only [decide_eq_false_iff_not, util.mem_sortedInsert, true_or,
                not_true_eq_false] at h3
          · rcases ih _ _ _ _ h t ht with h1 | ⟨h1, h2, h3⟩
            · rw [Function.update_noteq htv, hupd] at h1
              exact Or.inl h1
            · rw [Function.update_noteq htv, hupd] at h1 h2 h3
              exact Or.inr ⟨h1, h2, h3⟩
        · rcases ih _ _ _ _ h t ht with h1 | ⟨h1, h2, h3⟩
          · rw [hupd] at h1
            exact Or.inl h1
          · rw [hupd] at h1 h2 h3
            exact Or.inr ⟨h1, h2, h3⟩

/-- Whatever the state, a completed `wireOutGroup` for agent `id` leaves any other agent `t`
as it was, or with the one reciprocal edge `t -> id` added; the latter only if, when the call
started, `isNetworkFull` was false for `t` and `t` was not connected to `id`. -/
theorem wireOutGroup_targets {c : Bool} {id N out : Nat} {cp rp : ℚ} {agents : Nat → Agent}
    {random : MersenneTwister} {res : (Nat → Agent) × MersenneTwister}
    (h : wireOutGroup c id agents N out cp rp random = Except.ok res) (t : Nat)
    (ht : t ≠ id) :
    res.1 t = agents t ∨
      (res.1 t = (agents t).addConnection id ∧ (agents t).isNetworkFull out N = false ∧
        (agents t).isConnectedTo id = false) := by
  unfold wireOutGroup at h
  split_ifs at h with h0
  · cases h
    exact Or.inl rfl
  · exact wireOutGroupLoop_targets c id N out cp rp _ _ _ _ _ h t ht

/-- The loop of `wireOutGroup` for an agent `id` with a well-formed network, when the rounds
do not outnumber the identifiers that are still free: every call of `ensureRandom` finds a
free identifier, so the loop completes in both builds; the network of `id` stays well formed,
keeps its entries and gains at most one entry per round, exactly one per round when the
connection trial of every round succeeds (round `k` then reads its trial at position
`pos + 3 k` of the tape); nothing else of agent `id` is written. -/
theorem wireOutGroupLoop_own (c : Bool) {N out id : Nat} (cp rp : ℚ) (hid : id < N)
    (hN : N < UINT32) :
    ∀ (n : Nat) (agents : Nat → Agent) (network : List Nat) (random : MersenneTwister),
      NetworkOk N id (agents id).m_network → network.Pairwise (· < ·) →
      (∀ x, x ∈ network ↔ x = id ∨ x ∈ (agents id).m_network) →
      network.length = (agents id).m_network.length + 1 → network.length + n ≤ N →
      ∃ res, wireOutGroupLoop c id N out cp rp n agents network random = Except.ok res ∧
        NetworkOk N id (res.1 id).m_network ∧
        (res.1 id).m_network.length ≤ (agents id).m_network.length + n ∧
        ((∀ k, k < n →
            (MersenneTwister.uniformReal ⟨random.tape, random.pos + 3 * k⟩).1 ≤ cp) →
          (res.1 id).m_network.length = (agents id).m_network.length + n) ∧
        (∀ x ∈ (agents id).m_network, x ∈ (res.1 id).m_network) ∧
        res.1 id = { agents id with m_network := (res.1 id).m_network } := by
  intro n
  induction n with
  | zero =>
    intro agents network random hnet _ _ _ _
    exact ⟨_, rfl, hnet, Nat.le_refl _, fun _ => rfl, fun x hx => hx, rfl⟩
  | succ n ih =>
    intro agents network random hnet hpw hmem hlen hroom
    rw [wireOutGroupLoop]
    simp only
    by_cases hsc : random.uniformReal.1 > cp
    · rw [if_pos hsc]
      obtain ⟨res, hrun, h1, h2, -, h4, h5⟩ :=
        ih agents network random.uniformReal.2 hnet hpw hmem hlen (by omega)
      refine ⟨res, hrun, h1, by omega, ?_, h4, h5⟩
      intro hcp
      exact absurd (hcp 0 (Nat.succ_pos n)) (not_le.mpr hsc)
    · rw [if_neg hsc]
      have hNm : (N + UINT32 - 1) % UINT32 = N - 1 := by
        rw [show N + UINT32 - 1 = (N - 1) + UINT32 by omega, Nat.add_mod_right]
        exact Nat.mod_eq_of_lt (by omega)
      rw [hNm]
      have hr : (random.uniformReal.2.uniformInt 0 (N - 1)).1 ≤ N - 1 :=
        MersenneTwister.uniformInt_le 0 (N - 1) _ (Nat.zero_le _)
      have hE : ∀ x ∈ network, 0 ≤ x ∧ x < N := by
        intro x hx
        refine ⟨Nat.zero_le x, ?_⟩
        rcases (hmem x).mp hx with rfl | hx
        · exact hid
        · exact hnet.2.1 x hx
      have hcases := @util.ensureRandom_cases network
        (random.uniformReal.2.uniformInt 0 (N - 1)).1 0 N
        (hpw.imp (fun h => Nat.le_of_lt h)) hE ⟨Nat.zero_le _, by omega⟩ hN (by omega)
      rcases hcases with ⟨v, hv, hvnot, -, hvN⟩ | ⟨-, hcov⟩
      · rw [hv]
        simp only
        have hvid : v ≠ id := fun h => hvnot ((hmem v).mpr (Or.inl h))
        have hvnet : v ∉ (agents id).m_network := fun h => hvnot ((hmem v).mpr (Or.inr h))
        have key : ∀ (agents2 : Nat → Agent), agents2 id = (agents id).addConnection v →
            ∃ res, wireOutGroupLoop c id N out cp rp n agents2 (util.sortedInsert network v)
                (random.uniformReal.2.uniformInt 0 (N - 1)).2.uniformReal.2 = Except.ok res ∧
              NetworkOk N id (res.1 id).m_network ∧
              (res.1 id).m_network.length ≤ (agents id).m_network.length + (n + 1) ∧
              ((∀ k, k < n + 1 →
                  (MersenneTwister.uniformReal ⟨random.tape, random.pos + 3 * k⟩).1 ≤ cp) →
                (res.1 id).m_network.length = (agents id).m_network.length + (n + 1)) ∧
              (∀ x ∈ (agents id).m_network, x ∈ (res.1 id).m_network) ∧
              res.1 id = { agents id with m_network := (res.1 id).m_network } := by
          intro agents2 h2
          have hnet2 : (agents2 id).m_network = util.sortedInsert (agents id).m_network v := by
            rw [h2]
            rfl
          obtain ⟨res, hrun, g1, g2, g3, g4, g5⟩ :=
            ih agents2 (util.sortedInsert network v)
              (random.uniformReal.2.uniformInt 0 (N - 1)).2.uniformReal.2
              (by rw [hnet2]; exact NetworkOk_sortedInsert hnet hvnet hvN hvid)
              (util.pairwise_sortedInsert hpw hvnot)
              (by
                intro x
                rw [hnet2, util.mem_sortedInsert, util.mem_sortedInsert, hmem x]
                exact or_left_comm)
              (by rw [hnet2, util.length_sortedInsert, util.length_sortedInsert, hlen])
              (by rw [util.length_sortedInsert]; omega)
          rw [hnet2, util.length_sortedInsert] at g2 g3
          refine ⟨res, hrun, g1, by omega, ?_, ?_, ?_⟩
          · intro hcp
            have := g3 (by
              intro k hk
              have h3 := hcp (k + 1) (by omega)
              have e : (⟨(random.uniformReal.2.uniformInt 0 (N - 1)).2.uniformReal.2.tape,
                  (random.uniformReal.2.uniformInt 0 (N - 1)).2.uniformReal.2.pos + 3 * k⟩ :
                    MersenneTwister) = ⟨random.tape, random.pos + 3 * (k + 1)⟩ := by
                have hpos : random.pos + 3 * (k + 1) = random.pos + 1 + 1 + 1 + 3 * k := by
                  omega
                rw [hpos]
                rfl
              rw [e]
              exact h3)
            omega
          · intro x hx
            exact g4 x (by rw [hnet2]; exact util.mem_sortedInsert.mpr (Or.inr hx))
          · rw [g5, h2]
            rfl
        split_ifs
        · exact key _ (by rw [Function.update_noteq (Ne.symm hvid), Function.update_same])
        · exact key _ (Function.update_same _ _ _)
      · exfalso
        have := util.le_length_of_covering (E := network) (N := N)
          (fun x hx => hcov x (Nat.zero_le x) hx)
        omega

/-- `wireOutGroup` for an agent `id` with a well-formed network of at most
`cap = min(outConnections + familySize - 1, N - 1)` entries, when
`outConnections + familySize - 1` fits in 32 bits: the call completes in both builds; the
network of `id` stays well formed, keeps its entries and has at most `cap` entries
afterwards, exactly `cap` when every connection trial succeeds: a round whose trial succeeds
consumes three raw numbers (the trial, the candidate, the reciprocity draw), so the trial of
round `k` reads position `pos + 3 k` of the tape. -/
theorem wireOutGroup_own (c : Bool) {N out id : Nat} (cp rp : ℚ) (agents : Nat → Agent)
    (random : MersenneTwister) (hid : id < N) (hN : N < UINT32) (hout : 1 ≤ out)
    (hnet : NetworkOk N id (agents id).m_network) (hfs : (agents id).m_familySize < UINT32)
    (hsum : out + (agents id).m_familySize ≤ UINT32)
    (hlen : (agents id).m_network.length ≤ min (out + (agents id).m_familySize - 1) (N - 1)) :
    ∃ res, wireOutGroup c id agents N out cp rp random = Except.ok res ∧
      NetworkOk N id (res.1 id).m_network ∧
      (res.1 id).m_network.length ≤ min (out + (agents id).m_familySize - 1) (N - 1) ∧
      ((∀ k, k < min (out + (agents id).m_familySize - 1) (N - 1) -
            (agents id).m_network.length →
          (MersenneTwister.uniformReal ⟨random.tape, random.pos + 3 * k⟩).1 ≤ cp) →
        (res.1 id).m_network.length = min (out + (agents id).m_familySize - 1) (N - 1)) ∧
      (∀ x ∈ (agents id).m_network, x ∈ (res.1 id).m_network) ∧
      res.1 id = { agents id with m_network := (res.1 id).m_network } := by
  have hbound := Agent.connectionBound_of_fits hout hfs hsum (by omega) hN
  have hcapN : min (out + (agents id).m_familySize - 1) (N - 1) ≤ N - 1 := Nat.min_le_right _ _
  unfold wireOutGroup
  rw [if_neg (by omega)]
  simp only [Agent.getNetwork, Agent.getFamilyConnections]
  rw [hbound, Nat.mod_eq_of_lt (show (agents id).m_network.length < UINT32 by omega),
    show min (out + (agents id).m_familySize - 1) (N - 1) + UINT32 -
        (agents id).m_network.length =
      (min (out + (agents id).m_familySize - 1) (N - 1) - (agents id).m_network.length) +
        UINT32 by omega,
    Nat.add_mod_right, Nat.mod_eq_of_lt (by omega)]
  obtain ⟨res, hrun, h1, h2, h3, h4, h5⟩ :=
    wireOutGroupLoop_own c cp rp hid hN
      (min (out + (agents id).m_familySize - 1) (N - 1) - (agents id).m_network.length)
      agents (util.sortedInsert (agents id).m_network id) random hnet
      (util.pairwise_sortedInsert hnet.1 hnet.2.2)
      (fun x => util.mem_sortedInsert)
      (util.length_sortedInsert _ _)
      (by rw [util.length_sortedInsert]; omega)
  refine ⟨res, hrun, h1, by omega, ?_, h4, h5⟩
  intro hcp
  have := h3 hcp
  omega

end iris

/-! ## The contract of `wireOutGroup` and `isNetworkFull` -/

namespace iris

open gen

/-- C34 (evaluation at the failing input): `wireGraph` on three agents with the census
`{1/2, 1/2}`, `outConnections = 1`, both probabilities `1` and draws above `1/2`. After the
first family unit `[0, 2)` agent `2` still has an empty network, and its own clipped unit
`[2, 3)` adds nothing; the last call of the run is the `wireOutGroup` call of agent `2`, which
sees the recorded family size `2` (one family connection) and adds the two edges `0` and `1`
to the network of agent `2`: more than `outConnections = 1`, and more than
`(N - 1) - familyConnections = 1`. -/
theorem wireGraph_own_out_group_exceeds :
    ∃ mid, wireGraphUnit false (0, 2) 2 3 1 1 1 2 0 freshAgents
        (MersenneTwister.uniformReal ⟨fun _ => 9007199254740991, 0⟩).2 = Except.ok mid ∧
      (mid.1 2).m_network = [] ∧
      (wireFamilyUnit (mid.1 2) (2, 3)).m_network = [] ∧
      wireGraph false freshAgents 3 [1 / 2, 1 / 2] 1 1 1 ⟨fun _ => 9007199254740991, 0⟩ =
        wireOutGroup false 2
          (Function.update (Function.update mid.1 2 (wireFamilyUnit (mid.1 2) (2, 3))) 2
            ((wireFamilyUnit (mid.1 2) (2, 3)).setFamilySize 2))
          3 1 1 1 mid.2.uniformReal.2 ∧
      ∃ res, wireGraph false freshAgents 3 [1 / 2, 1 / 2] 1 1 1
          ⟨fun _ => 9007199254740991, 0⟩ = Except.ok res ∧
        (res.1 2).m_network = [0, 1] ∧ (res.1 2).getFamilyConnections = 1 := by
  refine ⟨_, by with_unfolding_all rfl, by with_unfolding_all rfl, by with_unfolding_all rfl,
    by with_unfolding_all rfl, _, by with_unfolding_all rfl, by with_unfolding_all rfl,
    by with_unfolding_all rfl⟩

/-- C35, as stated, fails when `outConnections + familySize - 1` does not fit in 32 bits:
for agent `0` of three agents, with an empty network, family size `2`,
`outConnections = 2^32 - 1` and `connectionProb = 1`, the bound
`min(outConnections + familySize - 1, N - 1)` is `2`, but the 32-bit sum
`outConnections + familyConnections` wraps to `0`, no round is made and the network stays
empty. -/
theorem wireOutGroup_wrapped_bound_adds_nothing :
    1 ≤ 4294967295 ∧ NetworkOk 3 0 (unwiredPairs 0).m_network ∧
    (unwiredPairs 0).m_network.length ≤
      min (4294967295 + (unwiredPairs 0).m_familySize - 1) (3 - 1) ∧
    min (4294967295 + (unwiredPairs 0).m_familySize - 1) (3 - 1) = 2 ∧
    (∀ k, (MersenneTwister.uniformReal ⟨(constantTape 1).tape, k⟩).1 ≤ 1) ∧
    ∃ res, wireOutGroup false 0 unwiredPairs 3 4294967295 1 1 (constantTape 1) =
        Except.ok res ∧ (res.1 0).m_network.length = 0 := by
  refine ⟨by decide, ⟨List.Pairwise.nil, ?_, ?_⟩, by decide, by decide, ?_, _,
    by with_unfolding_all rfl, by with_unfolding_all rfl⟩
  · intro x hx
    cases hx
  · intro hx
    cases hx
  · intro k
    exact le_of_lt (MersenneTwister.uniformReal_lt_one _)

/-- C35 (amended). For an agent `id < N` (`N` a 32-bit number) whose network is strictly
ascending, within `[0, N)` and without `id`, and has at most
`cap = min(outConnections + familySize - 1, N - 1)` entries, where
`outConnections + familySize - 1` fits in 32 bits: if `outConnections ≥ 1` and every
connection trial succeeds, `wireOutGroup` completes and leaves the network of that agent well
formed, with its old entries and exactly `cap` entries; with `outConnections = 0` it returns
the agents and the generator as they were. The loop makes `cap - |network|` rounds, and a
round whose trial succeeds consumes three raw numbers (the trial, the candidate and the
reciprocity draw), so the trial of round `k` is the real draw at position `pos + 3 k` of the
tape: only these draws are required to be at most `connectionProb`. -/
theorem wireOutGroup_fills_to_cap (c : Bool) (id : Nat) (agents : Nat → Agent) (N out : Nat)
    (cp rp : ℚ) (random : MersenneTwister) (hid : id < N) (hN : N < UINT32)
    (hnet : NetworkOk N id (agents id).m_network) (hfs : (agents id).m_familySize < UINT32)
    (hsum : out + (agents id).m_familySize ≤ UINT32)
    (hlen : (agents id).m_network.length ≤ min (out + (agents id).m_familySize - 1) (N - 1)) :
    (1 ≤ out →
      (∀ k, k < min (out + (agents id).m_familySize - 1) (N - 1) -
          (agents id).m_network.length →
        (MersenneTwister.uniformReal ⟨random.tape, random.pos + 3 * k⟩).1 ≤ cp) →
      ∃ res, wireOutGroup c id agents N out cp rp random = Except.ok res ∧
        (res.1 id).m_network.length = min (out + (agents id).m_familySize - 1) (N - 1) ∧
        NetworkOk N id (res.1 id).m_network ∧
        (∀ x ∈ (agents id).m_network, x ∈ (res.1 id).m_network) ∧
        res.1 id = { agents id with m_network := (res.1 id).m_network }) ∧
    (out = 0 → wireOutGroup c id agents N out cp rp random = Except.ok (agents, random)) := by
  constructor
  · intro hout hcp
    obtain ⟨res, hrun, h1, -, h3, h4, h5⟩ :=
      wireOutGroup_own c cp rp agents random hid hN hout hnet hfs hsum hlen
    exact ⟨res, hrun, h3 hcp, h1, h4, h5⟩
  · intro h0
    unfold wireOutGroup
    rw [if_pos h0]

/-- Witness for C35 (amended): agent `0` of three agents with family size `2` and an empty
network, `outConnections = 1` and both probabilities `1/2`, with a generator whose trial
draws are `0` and whose other draws are just below `1` (so that no reciprocal edge is made):
both trials succeed and the network of agent `0` gets `cap = 2` entries. -/
theorem wireOutGroup_fills_to_cap_witness :
    0 < 3 ∧ 3 < UINT32 ∧ NetworkOk 3 0 (unwiredPairs 0).m_network ∧
    (unwiredPairs 0).m_familySize < UINT32 ∧ 1 + (unwiredPairs 0).m_familySize ≤ UINT32 ∧
    (unwiredPairs 0).m_network.length ≤ min (1 + (unwiredPairs 0).m_familySize - 1) (3 - 1) ∧
    (∀ k, k < min (1 + (unwiredPairs 0).m_familySize - 1) (3 - 1) -
        (unwiredPairs 0).m_network.length →
      (MersenneTwister.uniformReal ⟨trialTape.tape, trialTape.pos + 3 * k⟩).1 ≤ 1 / 2) ∧
    ¬ (MersenneTwister.uniformReal ⟨trialTape.tape, 1⟩).1 ≤ 1 / 2 ∧
    ∃ res, wireOutGroup false 0 unwiredPairs 3 1 (1 / 2) (1 / 2) trialTape = Except.ok res ∧
      (res.1 0).m_network.length = 2 := by
  have hnet : NetworkOk 3 0 (unwiredPairs 0).m_network :=
    ⟨by decide, by decide, by decide⟩
  have hcp : ∀ k, k < min (1 + (unwiredPairs 0).m_familySize - 1) (3 - 1) -
      (unwiredPairs 0).m_network.length →
      (MersenneTwister.uniformReal ⟨trialTape.tape, trialTape.pos + 3 * k⟩).1 ≤ 1 / 2 := by
    intro k hk
    have hk2 : k < 2 := hk
    interval_cases k
    · with_unfolding_all decide
    · with_unfolding_all decide
  obtain ⟨res, hrun, hl, -⟩ :=
    (wireOutGroup_fills_to_cap false 0 unwiredPairs 3 1 (1 / 2) (1 / 2) trialTape (by decide)
      (by decide) hnet (by decide) (by decide) (by decide)).1 (by decide) hcp
  exact ⟨by decide, by decide, hnet, by decide, by decide, by decide, hcp,
    by with_unfolding_all decide, res, hrun, hl⟩

/-- C36, as stated, fails when `outConnections + familySize - 1` does not fit in 32 bits:
for agent `0` of three agents, with the network `{1}` (one entry, at most
`min(outConnections + familySize - 1, N - 1) = 2`), family size `2` and
`outConnections = 2^32 - 1`, the 32-bit sum `outConnections + familyConnections` wraps to `0`
and `maxConnections = 0 - 1` wraps to `2^32 - 1`; the first round takes the last free
identifier and in the second round `ensureRandom` throws "no sample space", which the default
build does not catch. -/
theorem wireOutGroup_wrapped_bound_fails :
    NetworkOk 3 0 (pairedAgents 0).m_network ∧
    (pairedAgents 0).m_network.length ≤
      min (4294967295 + (pairedAgents 0).m_familySize - 1) (3 - 1) ∧
    wireOutGroup false 0 pairedAgents 3 4294967295 1 1 (constantTape 1) =
      Except.error Error.noSampleSpace := by
  refine ⟨⟨by decide, by decide, by decide⟩, by decide, by with_unfolding_all rfl⟩

/-- C36 (amended). `wireOutGroup` completes, in the build that catches the exception of
`ensureRandom` and in the build that does not: for every agent `id < N` (`N` a 32-bit
number) whose network is strictly ascending, within `[0, N)`, without `id` and of at most
`min(outConnections + familySize - 1, N - 1)` entries, where
`outConnections + familySize - 1` fits in 32 bits, and for every generator, so that every
call of `ensureRandom` inside `wireOutGroup` finds a free identifier; the network of the
agent stays well formed and within that bound. -/
theorem wireOutGroup_never_fails (c : Bool) (id : Nat) (agents : Nat → Agent) (N out : Nat)
    (cp rp : ℚ) (random : MersenneTwister) (hid : id < N) (hN : N < UINT32)
    (hnet : NetworkOk N id (agents id).m_network) (hfs : (agents id).m_familySize < UINT32)
    (hsum : out + (agents id).m_familySize ≤ UINT32)
    (hlen : (agents id).m_network.length ≤ min (out + (agents id).m_familySize - 1) (N - 1)) :
    ∃ res, wireOutGroup c id agents N out cp rp random = Except.ok res ∧
      NetworkOk N id (res.1 id).m_network ∧
      (res.1 id).m_network.length ≤ min (out + (agents id).m_familySize - 1) (N - 1) := by
  rcases Nat.eq_zero_or_pos out with h0 | hout
  · refine ⟨(agents, random), ?_, hnet, hlen⟩
    unfold wireOutGroup
    rw [if_pos h0]
  · obtain ⟨res, hrun, h1, h2, -⟩ :=
      wireOutGroup_own c cp rp agents random hid hN hout hnet hfs hsum hlen
    exact ⟨res, hrun, h1, h2⟩

/-- Witness for C36 (amended): agent `0` of three agents, with the network `{1}` and family
size `2`, and two out-group connections. -/
theorem wireOutGroup_never_fails_witness :
    0 < 3 ∧ 3 < UINT32 ∧ NetworkOk 3 0 (pairedAgents 0).m_network ∧
    (pairedAgents 0).m_familySize < UINT32 ∧ 2 + (pairedAgents 0).m_familySize ≤ UINT32 ∧
    (pairedAgents 0).m_network.length ≤ min (2 + (pairedAgents 0).m_familySize - 1) (3 - 1) ∧
    ∃ res, wireOutGroup false 0 pairedAgents 3 2 1 1 (constantTape 1) = Except.ok res ∧
      NetworkOk 3 0 (res.1 0).m_network ∧
      (res.1 0).m_network.length ≤ min (2 + (pairedAgents 0).m_familySize - 1) (3 - 1) :=
  ⟨by decide, by decide, ⟨by decide, by decide, by decide⟩, by decide, by decide, by decide,
    wireOutGroup_never_fails false 0 pairedAgents 3 2 1 1 (constantTape 1) (by decide)
      (by decide) ⟨by decide, by decide, by decide⟩ (by decide) (by decide) (by decide)⟩

/-- C37. Whatever the state of the agents: when `wireOutGroup` for agent `id` (one of `N`
agents, 32-bit sizes) completes, the only write to another agent `t` is one reciprocal edge
`t -> id`, so that the network of `t` at the moment of that write is the one it had when the
call started; and the edge is added only if that network did not contain `id`,
`isNetworkFull` was false for `t`, and the network had fewer than
`min(outConnections + targetFamilySize - 1, N - 1)` entries. -/
theorem wireOutGroup_reciprocal_guard (c : Bool) (id : Nat) (agents : Nat → Agent)
    (N out : Nat) (cp rp : ℚ) (random : MersenneTwister)
    (res : (Nat → Agent) × MersenneTwister)
    (hres : wireOutGroup c id agents N out cp rp random = Except.ok res) (t : Nat)
    (ht : t ≠ id) (hN1 : 1 ≤ N) (hN : N < UINT32) (hout : out < UINT32)
    (hfs : (agents t).m_familySize < UINT32) (hlen : (agents t).m_network.length < SIZE_T) :
    (res.1 t = agents t ∨ res.1 t = (agents t).addConnection id) ∧
    ((res.1 t).m_network ≠ (agents t).m_network →
      (res.1 t).m_network = util.sortedInsert (agents t).m_network id ∧
      id ∉ (agents t).m_network ∧
      (agents t).isNetworkFull out N = false ∧
      (agents t).m_network.length <
        min (out + (agents t).m_familySize - 1) (N - 1)) := by
  rcases wireOutGroup_targets hres t ht with h1 | ⟨h1, h2, h3⟩
  · refine ⟨Or.inl h1, fun hch => ?_⟩
    rw [h1] at hch
    exact absurd rfl hch
  · refine ⟨Or.inr h1, fun _ => ⟨by rw [h1]; rfl, ?_, h2, ?_⟩⟩
    · unfold Agent.isConnectedTo at h3
      simpa using h3
    · have hout1 : 1 ≤ out := by
        rcases Nat.eq_zero_or_pos out with h0 | hpos
        · exfalso
          unfold wireOutGroup at hres
          rw [if_pos h0] at hres
          cases hres
          have hsame : (agents t).m_network = ((agents t).addConnection id).m_network :=
            congrArg Agent.m_network h1
          have hl := congrArg List.length hsame
          unfold Agent.addConnection at hl
          simp only [util.length_sortedInsert] at hl
          omega
        · exact hpos
      have hb := Agent.length_lt_of_not_isNetworkFull hlen h2
      have hle : Agent.connectionBound out (agents t).getFamilyConnections N ≤
          min (out + (agents t).m_familySize - 1) (N - 1) := by
        by_cases hsum : out + (agents t).m_familySize ≤ UINT32
        · exact le_of_eq (Agent.connectionBound_of_fits hout1 hfs hsum hN1 hN)
        · have hfs1 : 1 ≤ (agents t).m_familySize := by omega
          have h := Agent.connectionBound_le out (agents t).getFamilyConnections N hN1 hN
          rw [Agent.getFamilyConnections_eq hfs1 hfs] at h ⊢
          rw [show out + (agents t).m_familySize - 1 = (agents t).m_familySize - 1 + out by
            omega]
          exact h
      omega

/-- Witness for C37: four agents with family size `1`, two out-group connections and both
probabilities `1`; agent `1` has the neighbour `2` and room for one more, and the call for
agent `0` adds the reciprocal edge `1 -> 0`. -/
theorem wireOutGroup_reciprocal_guard_witness :
    ∃ res, wireOutGroup false 0 singleAgents 4 2 1 1 (constantTape 1) = Except.ok res ∧
      (res.1 1).m_network = [0, 2] ∧ (singleAgents 1).m_network = [2] ∧
      (res.1 1 = singleAgents 1 ∨ res.1 1 = (singleAgents 1).addConnection 0) ∧
      ((res.1 1).m_network ≠ (singleAgents 1).m_network →
        (res.1 1).m_network = util.sortedInsert (singleAgents 1).m_network 0 ∧
        0 ∉ (singleAgents 1).m_network ∧
        (singleAgents 1).isNetworkFull 2 4 = false ∧
        (singleAgents 1).m_network.length <
          min (2 + (singleAgents 1).m_familySize - 1) (4 - 1)) := by
  refine ⟨_, by with_unfolding_all rfl, by with_unfolding_all rfl, rfl,
    wireOutGroup_reciprocal_guard false 0 singleAgents 4 2 1 1 (constantTape 1) _
      (by with_unfolding_all rfl) 1 (by decide) (by decide) (by decide) (by decide)
      (by decide) (by decide)⟩

namespace Agent

/-- C38. For an agent with `familySize ≥ 1` among `N ≥ 1` agents, with
`cap = min(outConnections + familySize - 1, N - 1)` and no 32-bit overflow
(`outConnections + familySize - 1` and `N` fit in 32 bits): `isNetworkFull(outConnections, N)`
returns true if and only if the network is empty or has at least `cap` entries. In particular
an agent with an empty network is always reported full, and a completed `wireOutGroup` for
another agent leaves an empty network empty: no reciprocal edge is added to it. -/
theorem isNetworkFull_iff_empty_or_cap (agent : Agent) (out N : Nat)
    (hfs1 : 1 ≤ agent.m_familySize) (hfs : agent.m_familySize < UINT32)
    (hsum : out + agent.m_familySize - 1 < UINT32) (hN1 : 1 ≤ N) (hN : N < UINT32)
    (hlen : agent.m_network.length < SIZE_T) :
    (agent.isNetworkFull out N = true ↔
      (agent.m_network = [] ∨
        min (out + agent.m_familySize - 1) (N - 1) ≤ agent.m_network.length)) ∧
    (∀ (other : Agent) (out1 N1 : Nat), other.m_network = [] →
      other.isNetworkFull out1 N1 = true) ∧
    (∀ (c : Bool) (id : Nat) (agents : Nat → Agent) (cp rp : ℚ) (random : MersenneTwister)
      (res : (Nat → Agent) × MersenneTwister) (t : Nat),
      wireOutGroup c id agents N out cp rp random = Except.ok res → t ≠ id →
      (agents t).m_network = [] → (res.1 t).m_network = []) := by
  refine ⟨?_, fun other out1 N1 h => isNetworkFull_of_empty out1 N1 h, ?_⟩
  · have hb : connectionBound out agent.getFamilyConnections N =
        min (out + agent.m_familySize - 1) (N - 1) := by
      rw [getFamilyConnections_eq hfs1 hfs, connectionBound_eq hN1 hN (by omega),
        show agent.m_familySize - 1 + out = out + agent.m_familySize - 1 by omega]
    rw [isNetworkFull_iff_bound agent out N hlen, hb]
  · intro c id agents cp rp random res t hres ht hempty
    rcases wireOutGroup_targets hres t ht with h1 | ⟨-, h2, -⟩
    · rw [h1, hempty]
    · rw [isNetworkFull_of_empty out N hempty] at h2
      cases h2

/-- Witness for C38: the agent of the test "Verify network management methods work
correctly" (family size `2`, network `{3, 5, 6}`) with `outConnections = 10` among `200`
agents is not full, and with `outConnections = 1` it is. -/
theorem isNetworkFull_iff_empty_or_cap_witness :
    Agent.isNetworkFull { m_familySize := 2, m_uid := 45, m_network := [3, 5, 6] } 10 200 =
      false ∧
    Agent.isNetworkFull { m_familySize := 2, m_uid := 45, m_network := [3, 5, 6] } 1 200 =
      true ∧
    (Agent.isNetworkFull { m_familySize := 2, m_uid := 45, m_network := [3, 5, 6] } 10 200 =
        true ↔
      (([3, 5, 6] : List Nat) = [] ∨ min (10 + 2 - 1) (200 - 1) ≤ [3, 5, 6].length)) :=
  ⟨by decide, by decide,
    (isNetworkFull_iff_empty_or_cap { m_familySize := 2, m_uid := 45, m_network := [3, 5, 6] }
      10 200 (by decide) (by decide) (by decide) (by decide) (by decide) (by decide)).1⟩

end Agent

end iris

/-! ## `wireGraph` when the 32-bit counter wraps -/

namespace iris

open gen

/-- The running sums of a run of zeros followed by one more entry. -/
theorem scanl_replicate_zero (x : ℚ) : ∀ (m : Nat) (a : ℚ),
    List.scanl (fun prev y => prev + y) a (List.replicate m (0 : ℚ) ++ [x]) =
      List.replicate (m + 1) a ++ [a + x] := by
  intro m
  induction m with
  | zero =>
    intro a
    rfl
  | succ m ih =>
    intro a
    rw [List.replicate_succ, List.cons_append, List.scanl_cons, ih, add_zero]
    rfl

theorem set_length_append_singleton (l : List ℚ) (y z : ℚ) :
    (l ++ [y]).set l.length z = l ++ [z] := by
  induction l with
  | nil => rfl
  | cons a l ih =>
    rw [List.cons_append, List.length_cons, List.set_cons_succ, ih]
    rfl

/-- The cumulative distribution of a census `0, 1/2, 0, ..., 0, 1/2` with `m` zeros in the
middle: `0`, then `m + 1` times `1/2`, then `1`. -/
theorem createCDF_zeros (m : Nat) :
    createCDF (0 :: 1 / 2 :: (List.replicate m 0 ++ [1 / 2])) =
      Except.ok (0 :: (List.replicate (m + 1) (1 / 2) ++ [1])) := by
  unfold createCDF
  simp only
  rw [List.scanl_cons, zero_add, scanl_replicate_zero, List.singleton_append]
  have h : (0 :: (List.replicate (m + 1) (1 / 2 : ℚ) ++ [1 / 2 + 1 / 2])).length - 1 =
      (0 :: List.replicate (m + 1) (1 / 2 : ℚ)).length := by
    simp only [List.length_cons, List.length_append, List.length_replicate,
      List.length_nil]
    omega
  rw [h, ← List.cons_append, set_length_append_singleton, List.cons_append]

/-- The loop of `chooseFamilySize` passes over a run of equal entries below `p`. -/
theorem chooseFamilySizeLoop_replicate (p c : ℚ) (hc : ¬ p ≤ c) (rest : List ℚ) :
    ∀ (k i : Nat), chooseFamilySizeLoop p (List.replicate k c ++ rest) i =
      chooseFamilySizeLoop p rest (i + k) := by
  intro k
  induction k with
  | zero =>
    intro i
    rfl
  | succ k ih =>
    intro i
    rw [List.replicate_succ, List.cons_append, chooseFamilySizeLoop, if_neg hc, ih]
    congr 1
    omega

/-- A draw in `(0, 1/2]` selects the index `1` of the cumulative distribution
`0, 1/2, ..., 1/2, 1`. -/
theorem chooseFamilySize_zeros_low (m : Nat) (p : ℚ) (h0 : 0 < p) (h1 : p ≤ 1 / 2) :
    chooseFamilySize p (0 :: (List.replicate (m + 1) (1 / 2) ++ [1])) = Except.ok 1 := by
  unfold chooseFamilySize
  rw [chooseFamilySizeLoop, if_neg (not_le.mpr h0), List.replicate_succ, List.cons_append,
    chooseFamilySizeLoop, if_pos h1]
  rfl

/-- A draw in `(1/2, 1]` selects the last index of the cumulative distribution
`0, 1/2, ..., 1/2, 1`. -/
theorem chooseFamilySize_zeros_high (m : Nat) (p : ℚ) (h0 : 1 / 2 < p) (h1 : p ≤ 1) :
    chooseFamilySize p (0 :: (List.replicate (m + 1) (1 / 2) ++ [1])) =
      Except.ok ((0 + 1 + (m + 1)) % UINT32) := by
  unfold chooseFamilySize
  have hp : (0 : ℚ) < p := lt_trans (by norm_num) h0
  rw [chooseFamilySizeLoop, if_neg (not_le.mpr hp),
    chooseFamilySizeLoop_replicate p (1 / 2) (not_le.mpr h0), chooseFamilySizeLoop, if_pos h1]

/-- With `outConnections = 0` the inner loop of `wireGraph` only wires the family and records
the family size, whatever the networks of the members are. -/
theorem wireGraphUnit_family_only (c : Bool) (unit : FamilyUnit) (fs N : Nat) (cp rp : ℚ) :
    ∀ (n i : Nat) (agents : Nat → Agent) (random : MersenneTwister),
      wireGraphUnit c unit fs N 0 cp rp n i agents random =
        Except.ok (fun j =>
          if i ≤ j ∧ j < i + n then (wireFamilyUnit (agents j) unit).setFamilySize fs
          else agents j, random) := by
  intro n
  induction n with
  | zero =>
    intro i agents random
    unfold wireGraphUnit
    congr 2
    funext j
    rw [if_neg (by omega)]
  | succ n ih =>
    intro i agents random
    rw [wireGraphUnit]
    simp only [Function.update_same, Function.update_idem, wireOutGroup, if_true]
    rw [ih]
    congr 2
    funext j
    by_cases hj : j = i
    · subst hj
      rw [if_neg (by omega), if_pos (by omega), Function.update_same]
    · rw [Function.update_noteq hj]
      by_cases hj2 : i + 1 ≤ j ∧ j < i + 1 + n
      · rw [if_pos hj2, if_pos (by omega)]
      · rw [if_neg hj2, if_neg (by omega)]

/-- One round of the `while` loop of `wireGraph` with `outConnections = 0`. -/
theorem wireGraphLoop_round (c : Bool) (N : Nat) (cp rp : ℚ) (cdf : CDF)
    (fuel counter : Nat) (agents : Nat → Agent) (random : MersenneTwister) (index : Nat)
    (hlt : counter < N) (hch : chooseFamilySize random.uniformReal.1 cdf = Except.ok index) :
    wireGraphLoop c N 0 cp rp cdf (fuel + 1) counter agents random =
      wireGraphLoop c N 0 cp rp cdf fuel ((counter + (index + 1) % UINT32) % UINT32)
        (fun j =>
          if counter ≤ j ∧ j < counter +
              ((if (counter + (index + 1) % UINT32) % UINT32 > N then N
                else (counter + (index + 1) % UINT32) % UINT32) - counter) then
            (wireFamilyUnit (agents j)
              (counter, if (counter + (index + 1) % UINT32) % UINT32 > N then N
                else (counter + (index + 1) % UINT32) % UINT32)).setFamilySize
              ((index + 1) % UINT32)
          else agents j) random.uniformReal.2 := by
  rw [wireGraphLoop, if_pos hlt]
  simp only [hch]
  rw [wireGraphUnit_family_only]

/-- The run of `wireGraph` on four fresh agents with the census `wrapCensus`, no out-group
connections and the generator `wrapTape`. The first round wires the unit `[0, 2)`; the second
round draws the family size `2^32 - 2`, the 32-bit sum `2 + (2^32 - 2)` wraps to `0`, the unit
`[2, 0)` is empty and the counter is set back to `0`; the third round wires the unit `[0, 2)`
a second time and the fourth round wires `[2, 4)`. Agent `0` is left with the network
`{1, 1}` and the family size `2`. -/
theorem wireGraph_wrap_run :
    ∃ res, wireGraph false freshAgents 4 wrapCensus 0 1 1 wrapTape = Except.ok res ∧
      (res.1 0).m_uid = 0 ∧ (res.1 0).m_network = [1, 1] ∧ (res.1 0).m_familySize = 2 := by
  have hcdf : createCDF wrapCensus =
      Except.ok (0 :: (List.replicate (4294967291 + 1) (1 / 2) ++ [1])) :=
    createCDF_zeros 4294967291
  have d0 : (0 : ℚ) < wrapTape.uniformReal.1 ∧ wrapTape.uniformReal.1 ≤ 1 / 2 := by
    constructor <;> with_unfolding_all decide
  have d1 : (1 / 2 : ℚ) < wrapTape.uniformReal.2.uniformReal.1 ∧
      wrapTape.uniformReal.2.uniformReal.1 ≤ 1 := by
    constructor <;> with_unfolding_all decide
  have d2 : (0 : ℚ) < wrapTape.uniformReal.2.uniformReal.2.uniformReal.1 ∧
      wrapTape.uniformReal.2.uniformReal.2.uniformReal.1 ≤ 1 / 2 := by
    constructor <;> with_unfolding_all decide
  have d3 : (0 : ℚ) < wrapTape.uniformReal.2.uniformReal.2.uniformReal.2.uniformReal.1 ∧
      wrapTape.uniformReal.2.uniformReal.2.uniformReal.2.uniformReal.1 ≤ 1 / 2 := by
    constructor <;> with_unfolding_all decide
  refine ⟨_, by
    unfold wireGraph
    rw [hcdf]
    simp only
    refine Eq.trans (wireGraphLoop_round false 4 1 1 _ 3 0 freshAgents wrapTape 1
      (by decide) (chooseFamilySize_zeros_low 4294967291 _ d0.1 d0.2)) ?_
    refine Eq.trans (wireGraphLoop_round false 4 1 1 _ 2 _ _ _ _
      (by decide) (chooseFamilySize_zeros_high 4294967291 _ d1.1 d1.2)) ?_
    refine Eq.trans (wireGraphLoop_round false 4 1 1 _ 1 _ _ _ 1
      (by decide) (chooseFamilySize_zeros_low 4294967291 _ d2.1 d2.2)) ?_
    refine Eq.trans (wireGraphLoop_round false 4 1 1 _ 0 _ _ _ 1
      (by decide) (chooseFamilySize_zeros_low 4294967291 _ d3.1 d3.2)) ?_
    rw [wireGraphLoop, if_neg (by decide)], by with_unfolding_all rfl, by with_unfolding_all rfl, by with_unfolding_all rfl⟩

/-- A census `0, 1/2, 0, ..., 0, 1/2` with `m` zeros in the middle is a probability
distribution over `m + 3` family sizes. -/
theorem zeros_census_distribution (m : Nat) :
    (0 :: 1 / 2 :: (List.replicate m (0 : ℚ) ++ [1 / 2])).length = m + 3 ∧
    (∀ x ∈ 0 :: 1 / 2 :: (List.replicate m (0 : ℚ) ++ [1 / 2]), 0 ≤ x) ∧
    (0 :: 1 / 2 :: (List.replicate m (0 : ℚ) ++ [1 / 2])).sum = 1 := by
  refine ⟨?_, ?_, ?_⟩
  · simp only [List.length_cons, List.length_append, List.length_replicate, List.length_nil]
  · intro x hx
    simp only [List.mem_cons, List.mem_append, List.mem_replicate, List.mem_singleton,
      List.not_mem_nil, or_false] at hx
    rcases hx with rfl | rfl | ⟨-, rfl⟩ | rfl <;> norm_num
  · simp only [List.sum_cons, List.sum_append, List.sum_replicate, smul_zero, List.sum_nil]
    norm_num

/-- The census `wrapCensus` is a probability distribution over `2^32 - 2` family sizes. -/
theorem wrapCensus_distribution :
    wrapCensus.length = 4294967294 ∧ (∀ x ∈ wrapCensus, 0 ≤ x) ∧ wrapCensus.sum = 1 :=
  zeros_census_distribution 4294967291

/-- C4 (as stated, refuted): four agents with empty networks and identifiers equal to their
index, the census `wrapCensus` of `2^32 - 2` family sizes (so that `N + |census|` exceeds
`2^32`), no out-group connections and the generator `wrapTape`. The second round draws the
family size `2^32 - 2` at the counter `2`; the 32-bit counter wraps to `0`, the unit `[0, 2)`
is wired a second time, and since `sortedInsert` does not look for the value it inserts,
agent `0` ends with the network `{1, 1}`, which is neither strictly ascending nor free of
duplicates. -/
theorem wireGraph_wrapped_counter_duplicates :
    1 ≤ 4 ∧ wrapCensus.length = 4294967294 ∧ (∀ x ∈ wrapCensus, 0 ≤ x) ∧
    wrapCensus.sum = 1 ∧
    (∀ i, i < 4 → (freshAgents i).m_network = [] ∧ (freshAgents i).m_uid = i) ∧
    ∃ res, wireGraph false freshAgents 4 wrapCensus 0 1 1 wrapTape = Except.ok res ∧
      (res.1 0).m_network = [1, 1] ∧ ¬ (res.1 0).m_network.Pairwise (· < ·) ∧
      ¬ (res.1 0).m_network.Nodup := by
  obtain ⟨res, hrun, -, hnet, -⟩ := wireGraph_wrap_run
  refine ⟨by decide, wrapCensus_distribution.1, wrapCensus_distribution.2.1,
    wrapCensus_distribution.2.2, fun _ _ => ⟨rfl, rfl⟩, res, hrun, hnet, ?_, ?_⟩
  · rw [hnet]
    decide
  · rw [hnet]
    decide

/-- C5 (as stated, refuted): in the same run (four fresh agents, the census `wrapCensus`, no
out-group connections, the generator `wrapTape`) the 32-bit counter wraps and the unit
`[0, 2)` is wired twice: agent `0` ends with the recorded family size `2`, hence
`getFamilyConnections() = 1`, and with `2` entries in its network, more than
`min(getFamilyConnections() + outConnections, N - 1) = 1`. -/
theorem wireGraph_wrapped_counter_exceeds_cap :
    wrapCensus.length = 4294967294 ∧ (∀ x ∈ wrapCensus, 0 ≤ x) ∧ wrapCensus.sum = 1 ∧
    (∀ i, i < 4 → (freshAgents i).m_network = [] ∧ (freshAgents i).m_uid = i) ∧
    ∃ res, wireGraph false freshAgents 4 wrapCensus 0 1 1 wrapTape = Except.ok res ∧
      (res.1 0).getFamilySize = 2 ∧ (res.1 0).getFamilyConnections = 1 ∧
      (res.1 0).m_network.length = 2 ∧
      min ((res.1 0).getFamilyConnections + 0) (4 - 1) = 1 ∧
      ¬ (res.1 0).m_network.length ≤ min ((res.1 0).getFamilyConnections + 0) (4 - 1) := by
  obtain ⟨res, hrun, -, hnet, hfs⟩ := wireGraph_wrap_run
  have hfc : (res.1 0).getFamilyConnections = 1 := by
    unfold Agent.getFamilyConnections
    rw [hfs]
    decide
  refine ⟨wrapCensus_distribution.1, wrapCensus_distribution.2.1,
    wrapCensus_distribution.2.2, fun _ _ => ⟨rfl, rfl⟩, res, hrun, hfs, hfc, ?_, ?_, ?_⟩
  · rw [hnet]
    rfl
  · rw [hfc]
    decide
  · rw [hfc, hnet]
    decide

end iris
